import Mathlib

set_option linter.unusedSectionVars false
set_option linter.unusedVariables false

/-!
# Verification development for the next-page query-evaluation core

Shallow embedding of `cyclic_queue.hpp`, `wand_query.hpp`, `block_max_wand_query.hpp` and the
per-variant lambdas of `evaluate_queries.cpp`.

* Scores are taken as exact numbers: every definition is generic in a linearly ordered
  commutative semiring `S` (instantiated with `ℕ` or `ℚ` in the concrete runs).
* `std::vector` is a `List`; an out-of-range access, a division by zero and an index
  underflow are undefined behaviour and are modelled by `none` / `loop_step.undefined`.
* `while (true)` loops are run with fuel by `run_loop`; the fuel each driver passes is
  computed from its input and is proved sufficient for well-formed queries.
* `ordered_cursors` (a vector of pointers, one per cursor) is a list of cursor values.
-/

namespace pisa

variable {S : Type} [LinearOrderedCommSemiring S]

/-! ## cyclic_queue.hpp -/

/-- The struct `cyclic_queue`: capacity `m_k`, write index `m_index`, storage `m_data` of
`(score, docid)` pairs. -/
structure cyclic_queue (S : Type) where
  m_k : Nat
  m_index : Nat
  m_data : List (S × Nat)
deriving DecidableEq, Repr

namespace cyclic_queue

/-- The constructor `cyclic_queue(k)`: `m_index(0)` and `m_data.resize(m_k)`, which
value-initialises every pair to `(0, 0)`. -/
def create (k : Nat) : cyclic_queue S :=
  { m_k := k, m_index := 0, m_data := List.replicate k (0, 0) }

/-- The comparator `min_heap_order(lhs, rhs)`: `lhs.first > rhs.first`. -/
def min_heap_order (lhs rhs : S × Nat) : Bool :=
  decide (rhs.1 < lhs.1)

/-- The method `threshold()`: `m_data[m_index].first`; `none` when the read is out of range. -/
def threshold (q : cyclic_queue S) : Option S :=
  (q.m_data[q.m_index]?).map Prod.fst

/-- One iteration of either `for` loop of `displaced_id`:
`if (m_data[i].first <= threshold) index = i;`. -/
def displaced_scan (data : List (S × Nat)) (threshold : S) (index i : Nat) : Nat :=
  match data[i]? with
  | some e => if e.1 ≤ threshold then i else index
  | none => index

/-- The method `displaced_id(threshold)`: `index` starts at `m_index`, the first loop runs over
`(m_index, size)`, the second over `[0, m_index)`, and the result is `m_data[index].second`
(`none` when that read is out of range). -/
def displaced_id (q : cyclic_queue S) (threshold : S) : Option Nat :=
  let index := q.m_index
  let index := (List.range' (q.m_index + 1) (q.m_data.length - (q.m_index + 1))).foldl
    (displaced_scan q.m_data threshold) index
  let index := (List.range q.m_index).foldl (displaced_scan q.m_data threshold) index
  (q.m_data[index]?).map Prod.snd

/-- The method `insert(score, docid)`: overwrite `m_data[m_index]`, then
`m_index = (m_index + 1) % m_k`. Writing out of range and `% 0` are undefined: `none`. -/
def insert (q : cyclic_queue S) (score : S) (docid : Nat) : Option (cyclic_queue S) :=
  if q.m_index < q.m_data.length ∧ q.m_k ≠ 0 then
    some { q with m_data := q.m_data.set q.m_index (score, docid),
                  m_index := (q.m_index + 1) % q.m_k }
  else none

/-- The method `finalize()`: `std::sort` with `min_heap_order`, i.e. by non-increasing score.
The order among equal scores is unspecified in C++; this function sorts stably and is one of
the outcomes, all of which `finalize_outcome` describes. -/
def finalize (q : cyclic_queue S) : cyclic_queue S :=
  { q with m_data := q.m_data.insertionSort (fun a b => b.1 ≤ a.1) }

/-- The method `topk()`. -/
def topk (q : cyclic_queue S) : List (S × Nat) := q.m_data

/-- The method `clear()`. -/
def clear (q : cyclic_queue S) : cyclic_queue S :=
  { q with m_data := [], m_index := 0 }

/-- The method `capacity()`. -/
def capacity (q : cyclic_queue S) : Nat := q.m_k

/-- The method `size()`. -/
def size (q : cyclic_queue S) : Nat := q.m_data.length

/-- A sequence of `insert` calls, in order. -/
def insert_all : cyclic_queue S → List (S × Nat) → Option (cyclic_queue S)
  | q, [] => some q
  | q, e :: es => (q.insert e.1 e.2).bind (fun q1 => insert_all q1 es)

/-- The scan order of `displaced_id` in the words of the specification: slots
`w+1, ..., k-1`, then `0, ..., w-1`. -/
def scan_order (q : cyclic_queue S) : List Nat :=
  List.range' (q.m_index + 1) (q.m_data.length - (q.m_index + 1)) ++ List.range q.m_index

/-- Slot `i` qualifies for `displaced_id(t)`: its score is at most `t`. -/
def qualifies (data : List (S × Nat)) (t : S) (i : Nat) : Bool :=
  match data[i]? with
  | some e => decide (e.1 ≤ t)
  | none => false

/-- The slot `displaced_id` reads in the words of the specification: the last slot of the scan
order whose score is at most `t`, and slot `w` when no scanned slot qualifies. -/
def displaced_slot (q : cyclic_queue S) (t : S) : Nat :=
  (((scan_order q).filter (qualifies q.m_data t)).getLast?).getD q.m_index

/-- A queue state as the constructor and `insert` leave it: `m_k` slots and a write index
below `m_k` (so `m_k > 0`). -/
def valid (q : cyclic_queue S) : Prop :=
  q.m_data.length = q.m_k ∧ q.m_index < q.m_k

/-- The entry the specification puts in slot `i` after the inserts `es` (numbered from 0) into
a fresh queue of capacity `k`: the last inserted entry whose number is `i` modulo `k`, the zero
entry when there is none. -/
def last_insert_at (k : Nat) (es : List (S × Nat)) (i : Nat) : S × Nat :=
  match ((List.range es.length).filter (fun j => j % k = i)).getLast? with
  | some j => es.getD j (0, 0)
  | none => (0, 0)

end cyclic_queue

/-! ## topk_queue.hpp (not part of the sources under verification) -/

/-- Modelled from the spec: the bounded top-k heap `topk_queue` of `topk_queue.hpp`, which is
not among the source files. Capacity `m_k`; the storage `m_q` is kept in non-decreasing score
order, which is one min-at-root arrangement (the root is the head); the order among equal
scores is arbitrary in the specification. -/
structure topk_queue (S : Type) where
  m_k : Nat
  m_q : List (S × Nat)
deriving DecidableEq, Repr

namespace topk_queue

/-- Modelled from the spec: `new(k)`, the empty heap of capacity `k` (part of the absent
`topk_queue.hpp`). -/
def create (k : Nat) : topk_queue S := { m_k := k, m_q := [] }

/-- Modelled from the spec: `threshold()` of the absent `topk_queue.hpp`, the minimum score
currently held (the root), or 0 if the heap is empty. -/
def threshold (q : topk_queue S) : S :=
  match q.m_q with
  | [] => 0
  | e :: _ => e.1

/-- Modelled from the spec: `would_enter(s)` of the absent `topk_queue.hpp`,
`(size < k) ∨ (s > threshold())`; a heap of capacity 0 is inert and accepts nothing. -/
def would_enter (q : topk_queue S) (s : S) : Bool :=
  decide (q.m_k ≠ 0 ∧ (q.m_q.length < q.m_k ∨ q.threshold < s))

/-- Modelled from the spec: the storage update of an accepted insertion into the absent
`topk_queue.hpp`: push when not full, replace the root (the minimum) when full, then restore
the heap order. -/
def push (q : topk_queue S) (s : S) (d : Nat) : topk_queue S :=
  if q.m_q.length < q.m_k then
    { q with m_q := List.orderedInsert (fun a b => a.1 ≤ b.1) (s, d) q.m_q }
  else
    { q with m_q := List.orderedInsert (fun a b => a.1 ≤ b.1) (s, d) q.m_q.tail }

/-- Modelled from the spec: `insert(s, d)` of the absent `topk_queue.hpp`, accepted iff
`would_enter`; returns whether the entry was accepted and the new heap. -/
def insert (q : topk_queue S) (s : S) (d : Nat) : Bool × topk_queue S :=
  if q.would_enter s then (true, q.push s d) else (false, q)

/-- Modelled from the spec: `insert_with_eviction(s, d)` of the absent `topk_queue.hpp` (the
four-argument `insert` of the sources): `(accepted, evicted_score, evicted_docid)` and the new
heap. On accepted and full the evicted entry is the prior root; on accepted and not full it is
the zero sentinel; on rejected it is `(false, 0, 0)`. -/
def insert_with_eviction (q : topk_queue S) (s : S) (d : Nat) : Bool × S × Nat × topk_queue S :=
  if q.would_enter s then
    if q.m_q.length < q.m_k then (true, 0, 0, q.push s d)
    else
      match q.m_q with
      | [] => (true, 0, 0, q.push s d)
      | e :: _ => (true, e.1, e.2, q.push s d)
  else (false, 0, 0, q)

/-- Modelled from the spec: `finalize()` of the absent `topk_queue.hpp`, which permutes the
storage into non-increasing score order. -/
def finalize (q : topk_queue S) : topk_queue S :=
  { q with m_q := q.m_q.insertionSort (fun a b => b.1 ≤ a.1) }

/-- Modelled from the spec: `topk()` of the absent `topk_queue.hpp`. -/
def topk (q : topk_queue S) : List (S × Nat) := q.m_q

end topk_queue

/-! ## Cursors and the scored bitset (external collaborators) -/

/-- Modelled from the spec: the cursor capability of section 3 (`max_scored_cursor` and
`block_max_scored_cursor` are not among the source files). A posting list of
`(docid, score)` pairs with a position, the list-wide bound `max_score()`, the term weight
`query_weight()`, the docid reported when exhausted, and a table of blocks
`(block_max_docid, block_max_score)` with the position of the current block. -/
structure Cursor (S : Type) where
  postings : List (Nat × S)
  m_pos : Nat
  m_max_score : S
  m_universe : Nat
  m_query_weight : S
  blocks : List (Nat × S)
  m_block : Nat
deriving DecidableEq, Repr

namespace Cursor

/-- Modelled from the spec: `docid()`, the current position, `max_docid` if exhausted. -/
def docid (c : Cursor S) : Nat :=
  match c.postings[c.m_pos]? with
  | some p => p.1
  | none => c.m_universe

/-- Modelled from the spec: `score()`, the contribution of the current posting. -/
def score (c : Cursor S) : S :=
  match c.postings[c.m_pos]? with
  | some p => p.2
  | none => 0

/-- Modelled from the spec: `max_score()`, the list-wide upper bound. -/
def max_score (c : Cursor S) : S := c.m_max_score

/-- Modelled from the spec: `query_weight()`. -/
def query_weight (c : Cursor S) : S := c.m_query_weight

/-- Modelled from the spec: `next()` advances one posting. -/
def next (c : Cursor S) : Cursor S := { c with m_pos := c.m_pos + 1 }

/-- Modelled from the spec: `next_geq(d)` advances to the first posting, from the current one
on, with docid at least `d`. -/
def next_geq (c : Cursor S) (d : Nat) : Cursor S :=
  { c with m_pos := c.m_pos + ((c.postings.drop c.m_pos).takeWhile (fun p => p.1 < d)).length }

/-- Modelled from the spec: `reset()` returns to the start. -/
def reset (c : Cursor S) : Cursor S := { c with m_pos := 0 }

/-- Modelled from the spec: `block_max_docid()`, the upper endpoint of the current block
(`max_docid` past the last block). -/
def block_max_docid (c : Cursor S) : Nat :=
  match c.blocks[c.m_block]? with
  | some b => b.1
  | none => c.m_universe

/-- Modelled from the spec: `block_max_score()`, the unweighted bound of the current block
(0 past the last block). -/
def block_max_score (c : Cursor S) : S :=
  match c.blocks[c.m_block]? with
  | some b => b.2
  | none => 0

/-- Modelled from the spec: `block_max_next_geq(d)` advances the block cursor to the first
block, from the current one on, whose upper endpoint is at least `d`. -/
def block_max_next_geq (c : Cursor S) (d : Nat) : Cursor S :=
  { c with m_block := c.m_block + ((c.blocks.drop c.m_block).takeWhile (fun b => b.1 < d)).length }

/-- Modelled from the spec: `block_max_reset()` returns the block cursor to the start. -/
def block_max_reset (c : Cursor S) : Cursor S := { c with m_block := 0 }

end Cursor

/-- Modelled from the spec: the scored-docid bitset (`bit_vector_builder` is not among the
source files), a dense bitmap of `max_docid` bits, initially all zero. -/
def bit_vector_builder (max_docid : Nat) : List Bool := List.replicate max_docid false

/-- Modelled from the spec: `set(d)` on the scored bitset. -/
def bit_set (scored : List Bool) (d : Nat) : List Bool := scored.set d true

/-- Modelled from the spec: `test(d)` on the scored bitset. -/
def bit_test (scored : List Bool) (d : Nat) : Bool := scored.getD d false

/-! ## Loops -/

/-- Outcome of one iteration of a `while (true)` loop body. -/
inductive loop_step (σ : Type) where
  | exit : σ → loop_step σ
  | next : σ → loop_step σ
  | undefined : loop_step σ
deriving DecidableEq

/-- A `while (true)` loop with the given body, run with fuel: `none` when the fuel runs out or
the body has undefined behaviour. -/
def run_loop {σ : Type} (body : σ → loop_step σ) : Nat → σ → Option σ
  | 0, _ => none
  | n + 1, s =>
    match body s with
    | loop_step.exit s1 => some s1
    | loop_step.next s1 => run_loop body n s1
    | loop_step.undefined => none

/-- The fuel passed to each driver loop: one more than the number of postings of the query. -/
def loop_fuel (cursors : List (Cursor S)) : Nat :=
  (cursors.map (fun c => c.postings.length)).sum + 1

/-! ## Pieces shared by the loops of wand_query.hpp and block_max_wand_query.hpp -/

/-- The members of `wand_query` / `block_max_wand_query` (references to the primary heap, the
secondary heap and the cyclic queue) together with the locals that live across iterations:
the vector `ordered_cursors` and the bitset `scored`. -/
structure driver_state (S : Type) where
  ordered_cursors : List (Cursor S)
  m_topk : topk_queue S
  m_secondary : topk_queue S
  m_cyclic : cyclic_queue S
  scored : List Bool
deriving DecidableEq, Repr

/-- The lambda `sort_enums` (`sort_cursors` in the block-max file): `std::sort` by increasing
`docid()`. The order among equal docids is unspecified in C++; the model sorts stably. -/
def sort_enums (ordered_cursors : List (Cursor S)) : List (Cursor S) :=
  ordered_cursors.insertionSort (fun lhs rhs => lhs.docid ≤ rhs.docid)

/-- The pivot search `for (pivot = 0; pivot < ordered_cursors.size(); ++pivot)`: stop without a
pivot at the first cursor with `docid() >= max_docid`, add `max_score()` to `upper_bound`, and
stop with `found_pivot` at the first index whose bound `would_enter` the pruning heap. -/
def find_pivot (heap : topk_queue S) (max_docid : Nat) :
    List (Cursor S) → S → Nat → Option Nat
  | [], _, _ => none
  | c :: cs, upper_bound, pivot =>
    if max_docid ≤ c.docid then none
    else if heap.would_enter (upper_bound + c.max_score) then some pivot
    else find_pivot heap max_docid cs (upper_bound + c.max_score) (pivot + 1)

/-- The scoring loop `for (Cursor* en: ordered_cursors)`: while `en->docid() == pivot_id`, add
`en->score()` to `score` and call `en->next()`; stop at the first other docid. -/
def score_front (pivot_id : Nat) : List (Cursor S) → S → S × List (Cursor S)
  | [], score => (score, [])
  | en :: rest, score =>
    if en.docid ≠ pivot_id then (score, en :: rest)
    else ((score_front pivot_id rest (score + en.score)).1,
          en.next :: (score_front pivot_id rest (score + en.score)).2)

/-- The backward walk `for (; ordered_cursors[next_list]->docid() == pivot_id; --next_list)`
started at `next_list`; decrementing the unsigned index below 0 (and any read out of range) is
undefined: `none`. -/
def walk_back (ordered_cursors : List (Cursor S)) (pivot_id : Nat) : Nat → Option Nat
  | 0 =>
    match ordered_cursors[0]? with
    | some c => if c.docid = pivot_id then none else some 0
    | none => none
  | next_list + 1 =>
    match ordered_cursors[next_list + 1]? with
    | some c =>
      if c.docid = pivot_id then walk_back ordered_cursors pivot_id next_list
      else some (next_list + 1)
    | none => none

/-- The bubble-down loop `for (size_t i = start + 1; i < size; ++i)` seen from the advanced
cursor `c`, which sits at `i - 1` throughout: while the cursor at `i` has a smaller docid
(`<` variant) or a smaller-or-equal docid (`<=` variant) the two are swapped, else `break`.
The argument list holds the cursors at `start + 1, ...`. -/
def bubble (le_variant : Bool) (c : Cursor S) : List (Cursor S) → List (Cursor S)
  | [] => [c]
  | d :: rest =>
    if (if le_variant then decide (d.docid ≤ c.docid) else decide (d.docid < c.docid)) then
      d :: bubble le_variant c rest
    else c :: d :: rest

/-- The statement `ordered_cursors[i]->next_geq(target)` (or any in-place update `f` of the
cursor at `i`) followed by the bubble-down loop from `i + 1`. -/
def advance_and_bubble (le_variant : Bool) (ordered_cursors : List (Cursor S)) (i : Nat)
    (f : Cursor S → Cursor S) : Option (List (Cursor S)) :=
  match ordered_cursors[i]? with
  | none => none
  | some c =>
    some (ordered_cursors.take i ++ bubble le_variant (f c) (ordered_cursors.drop (i + 1)))

/-- The non-aligned branch "no match, move farthest list up to the pivot": the backward walk
from `pivot`, `next_geq(pivot_id)` on the cursor found, and the bubble-down. -/
def align (le_variant : Bool) (ordered_cursors : List (Cursor S)) (pivot pivot_id : Nat) :
    Option (List (Cursor S)) :=
  match walk_back ordered_cursors pivot_id pivot with
  | none => none
  | some next_list =>
    advance_and_bubble le_variant ordered_cursors next_list (fun c => c.next_geq pivot_id)

/-! ### Capture policies: what each variant does with a scored `(score, pivot_id)` -/

/-- Baseline (`operator()` of both files): `m_topk.insert(score, pivot_id)`. -/
def capture_baseline (st : driver_state S) (score : S) (pivot_id : Nat) :
    Option (driver_state S) :=
  some { st with m_topk := (st.m_topk.insert score pivot_id).2 }

/-- Method 1: `if (m_topk.insert(score, pivot_id, ejected_score, ejected_docid))
m_cyclic.insert(ejected_score, ejected_docid);`. -/
def capture_method_one (st : driver_state S) (score : S) (pivot_id : Nat) :
    Option (driver_state S) :=
  match st.m_topk.insert_with_eviction score pivot_id with
  | (true, ejected_score, ejected_docid, topk) =>
    (st.m_cyclic.insert ejected_score ejected_docid).map
      (fun cyclic => { st with m_topk := topk, m_cyclic := cyclic })
  | (false, _, _, topk) => some { st with m_topk := topk }

/-- Method 2: on acceptance `m_secondary.insert(ejected_score, ejected_docid)`, otherwise
`m_secondary.insert(score, pivot_id)`. -/
def capture_method_two (st : driver_state S) (score : S) (pivot_id : Nat) :
    Option (driver_state S) :=
  match st.m_topk.insert_with_eviction score pivot_id with
  | (true, ejected_score, ejected_docid, topk) =>
    some { st with m_topk := topk,
                   m_secondary := (st.m_secondary.insert ejected_score ejected_docid).2 }
  | (false, _, _, topk) =>
    some { st with m_topk := topk, m_secondary := (st.m_secondary.insert score pivot_id).2 }

/-- Method 3, stage one: `scored.set(pivot_id, true)`, then on acceptance
`m_secondary.insert(ejected_score, ejected_docid); m_cyclic.insert(ejected_score, pivot_id);`,
otherwise `m_secondary.insert(score, pivot_id)`. -/
def capture_method_three (st : driver_state S) (score : S) (pivot_id : Nat) :
    Option (driver_state S) :=
  match st.m_topk.insert_with_eviction score pivot_id with
  | (true, ejected_score, ejected_docid, topk) =>
    (st.m_cyclic.insert ejected_score pivot_id).map
      (fun cyclic => { st with scored := bit_set st.scored pivot_id, m_topk := topk,
                               m_secondary := (st.m_secondary.insert ejected_score ejected_docid).2,
                               m_cyclic := cyclic })
  | (false, _, _, topk) =>
    some { st with scored := bit_set st.scored pivot_id, m_topk := topk,
                   m_secondary := (st.m_secondary.insert score pivot_id).2 }

/-! ## wand_query.hpp -/

/-- The struct `wand_query`: references to the primary heap, the secondary heap and the
cyclic queue. -/
structure wand_query (S : Type) where
  m_topk : topk_queue S
  m_secondary : topk_queue S
  m_cyclic : cyclic_queue S
deriving DecidableEq, Repr

namespace wand_query

/-- One iteration of the `while (true)` loop shared, word for word, by `operator()`
(lines 36-87), `method_one` (114-170), `method_two` (197-256) and stage one of `method_three`
(289-352); they differ only in the capture statement after the scoring loop. -/
def loop_body (capture : driver_state S → S → Nat → Option (driver_state S)) (max_docid : Nat)
    (st : driver_state S) : loop_step (driver_state S) :=
  match find_pivot st.m_topk max_docid st.ordered_cursors 0 0 with
  | none => loop_step.exit st
  | some pivot =>
    match st.ordered_cursors[pivot]?, st.ordered_cursors[0]? with
    | some cp, some c0 =>
      if cp.docid = c0.docid then
        match capture st (score_front cp.docid st.ordered_cursors 0).1 cp.docid with
        | none => loop_step.undefined
        | some st1 =>
          loop_step.next
            { st1 with ordered_cursors :=
                sort_enums (score_front cp.docid st.ordered_cursors 0).2 }
      else
        match align false st.ordered_cursors pivot cp.docid with
        | none => loop_step.undefined
        | some cs => loop_step.next { st with ordered_cursors := cs }
    | _, _ => loop_step.undefined

/-- One iteration of the stage-two loop of `method_three` (lines 367-435). The pruning heap is
`m_secondary`. Case 1 is a plain `if`, not an `else if` chain: after it, control falls through
to the `if (pivot_id == ordered_cursors[0]->docid()) ... else ...` that follows, with `pivot`
and `pivot_id` unchanged and `ordered_cursors` as Case 1 left it. -/
def stage_two_body (max_docid : Nat) (st : driver_state S) : loop_step (driver_state S) :=
  match find_pivot st.m_secondary max_docid st.ordered_cursors 0 0 with
  | none => loop_step.exit st
  | some pivot =>
    match st.ordered_cursors[pivot]? with
    | none => loop_step.undefined
    | some cp =>
      match (if bit_test st.scored cp.docid then
              advance_and_bubble true st.ordered_cursors pivot (fun c => c.next)
             else some st.ordered_cursors) with
      | none => loop_step.undefined
      | some cs1 =>
        match cs1[0]? with
        | none => loop_step.undefined
        | some c0 =>
          if cp.docid = c0.docid then
            loop_step.next
              { st with
                  m_secondary :=
                    (st.m_secondary.insert (score_front cp.docid cs1 0).1 cp.docid).2,
                  ordered_cursors := sort_enums (score_front cp.docid cs1 0).2 }
          else
            match align false cs1 pivot cp.docid with
            | none => loop_step.undefined
            | some cs => loop_step.next { st with ordered_cursors := cs }

/-- Initial loop state: `ordered_cursors` filled from `cursors` and sorted. -/
def start (w : wand_query S) (cursors : List (Cursor S)) (scored : List Bool) :
    driver_state S :=
  { ordered_cursors := sort_enums cursors, m_topk := w.m_topk, m_secondary := w.m_secondary,
    m_cyclic := w.m_cyclic, scored := scored }

/-- The queues of a loop state, as the members of the struct. -/
def finish (st : driver_state S) : wand_query S :=
  { m_topk := st.m_topk, m_secondary := st.m_secondary, m_cyclic := st.m_cyclic }

/-- The method `operator()(cursors, max_docid)`, baseline WAND. -/
def call (w : wand_query S) (cursors : List (Cursor S)) (max_docid : Nat) :
    Option (wand_query S) :=
  if cursors.isEmpty then some w
  else (run_loop (loop_body capture_baseline max_docid) (loop_fuel cursors)
          (start w cursors [])).map finish

/-- The method `method_one(cursors, max_docid)`. -/
def method_one (w : wand_query S) (cursors : List (Cursor S)) (max_docid : Nat) :
    Option (wand_query S) :=
  if cursors.isEmpty then some w
  else (run_loop (loop_body capture_method_one max_docid) (loop_fuel cursors)
          (start w cursors [])).map finish

/-- The method `method_two(cursors, max_docid)`. -/
def method_two (w : wand_query S) (cursors : List (Cursor S)) (max_docid : Nat) :
    Option (wand_query S) :=
  if cursors.isEmpty then some w
  else (run_loop (loop_body capture_method_two max_docid) (loop_fuel cursors)
          (start w cursors [])).map finish

/-- The stage transition of `method_three` (lines 356-365):
`lower_bound = m_cyclic.displaced_id(m_secondary.threshold())`, every cursor is `reset()` and
moved by `next_geq(lower_bound)`, and the cursors are sorted again. -/
def stage_transition (st : driver_state S) : Option (driver_state S) :=
  (st.m_cyclic.displaced_id st.m_secondary.threshold).map
    (fun lower_bound =>
      { st with ordered_cursors :=
          sort_enums (st.ordered_cursors.map (fun en => en.reset.next_geq lower_bound)) })

/-- The method `method_three(cursors, max_docid)`: stage one, the stage transition, stage
two. -/
def method_three (w : wand_query S) (cursors : List (Cursor S)) (max_docid : Nat) :
    Option (wand_query S) :=
  if cursors.isEmpty then some w
  else
    ((run_loop (loop_body capture_method_three max_docid) (loop_fuel cursors)
        (start w cursors (bit_vector_builder max_docid))).bind
      (fun st1 => (stage_transition st1).bind
        (fun st2 => run_loop (stage_two_body max_docid) (loop_fuel cursors) st2))).map finish

/-- The method `topk()`. -/
def topk (w : wand_query S) : List (S × Nat) := w.m_topk.topk

/-- The method `secondary_topk()`. -/
def secondary_topk (w : wand_query S) : List (S × Nat) := w.m_secondary.topk

/-- The method `cyclic()`. -/
def cyclic (w : wand_query S) : List (S × Nat) := w.m_cyclic.topk

end wand_query

/-! ## block_max_wand_query.hpp -/

/-- The struct `block_max_wand_query`: references to the primary heap, the secondary heap and
the cyclic queue. -/
structure block_max_wand_query (S : Type) where
  m_topk : topk_queue S
  m_secondary : topk_queue S
  m_cyclic : cyclic_queue S
deriving DecidableEq, Repr

namespace block_max_wand_query

/-- The inner loop of the pivot search: `for (; pivot + 1 < size && ordered_cursors[pivot +
1]->docid() == pivot_id; ++pivot)`, which moves `pivot` to the last cursor of the run of
cursors at `pivot_id`. -/
def extend_pivot (ordered_cursors : List (Cursor S)) (pivot_id pivot : Nat) : Nat :=
  pivot + ((ordered_cursors.drop (pivot + 1)).takeWhile (fun c => c.docid = pivot_id)).length

/-- The loop `for (size_t i = 0; i < pivot + 1; ++i)` over the first `count` cursors:
`block_max_next_geq(pivot_id)` when `block_max_docid() < pivot_id`, then
`block_upper_bound += block_max_score() * query_weight()`. -/
def block_bound_loop (pivot_id : Nat) : Nat → List (Cursor S) → S → S × List (Cursor S)
  | 0, cs, block_upper_bound => (block_upper_bound, cs)
  | _ + 1, [], block_upper_bound => (block_upper_bound, [])
  | count + 1, c :: cs, block_upper_bound =>
    let c1 := if c.block_max_docid < pivot_id then c.block_max_next_geq pivot_id else c
    ((block_bound_loop pivot_id count cs
        (block_upper_bound + c1.block_max_score * c1.query_weight)).1,
     c1 :: (block_bound_loop pivot_id count cs
        (block_upper_bound + c1.block_max_score * c1.query_weight)).2)

/-- The choice of `next_list` in the skip step: start from `pivot` with `max_weight =
ordered_cursors[pivot]->max_score()`, and for `i` in `[0, pivot)` take `i` whenever its
`max_score()` is strictly greater than `max_weight`. -/
def skip_list (ordered_cursors : List (Cursor S)) (pivot : Nat) (pivot_max_score : S) : Nat :=
  ((List.range pivot).foldl
    (fun (acc : Nat × S) i =>
      match ordered_cursors[i]? with
      | some c => if acc.2 < c.max_score then (i, c.max_score) else acc
      | none => acc)
    (pivot, pivot_max_score)).1

/-- The target of the skip step: `next = max_docid`, lowered to the least `block_max_docid()`
over `[0, pivot]`, plus one; replaced by the docid of the cursor after the pivot when that is
smaller; raised to `pivot_id + 1` when it is not above `pivot_id`. -/
def skip_target (ordered_cursors : List (Cursor S)) (max_docid pivot pivot_id : Nat) : Nat :=
  let next := (List.range (pivot + 1)).foldl
    (fun next i =>
      match ordered_cursors[i]? with
      | some c => if c.block_max_docid < next then c.block_max_docid else next
      | none => next)
    max_docid
  let next := next + 1
  let next :=
    match ordered_cursors[pivot + 1]? with
    | some c => if c.docid < next then c.docid else next
    | none => next
  if next ≤ pivot_id then pivot_id + 1 else next

/-- The skip step (the `else` branch of `would_enter(block_upper_bound)`): choose `next_list`
and `next`, call `next_geq(next)` on that cursor and bubble it down with the `<` variant. -/
def skip_step (ordered_cursors : List (Cursor S)) (max_docid pivot pivot_id : Nat) :
    Option (List (Cursor S)) :=
  match ordered_cursors[pivot]? with
  | none => none
  | some cp =>
    advance_and_bubble false ordered_cursors (skip_list ordered_cursors pivot cp.max_score)
      (fun c => c.next_geq (skip_target ordered_cursors max_docid pivot pivot_id))

/-- One iteration of the `while (true)` loop of `operator()` (lines 36-150) and of stage one
of `method_three` (481-607), which differ only in the capture statement. -/
def loop_body (capture : driver_state S → S → Nat → Option (driver_state S)) (max_docid : Nat)
    (st : driver_state S) : loop_step (driver_state S) :=
  match find_pivot st.m_topk max_docid st.ordered_cursors 0 0 with
  | none => loop_step.exit st
  | some pivot0 =>
    match st.ordered_cursors[pivot0]? with
    | none => loop_step.undefined
    | some cp =>
      let pivot := extend_pivot st.ordered_cursors cp.docid pivot0
      let bound := block_bound_loop cp.docid (pivot + 1) st.ordered_cursors 0
      if st.m_topk.would_enter bound.1 then
        match bound.2[0]? with
        | none => loop_step.undefined
        | some c0 =>
          if cp.docid = c0.docid then
            match capture st (score_front cp.docid bound.2 0).1 cp.docid with
            | none => loop_step.undefined
            | some st1 =>
              loop_step.next
                { st1 with ordered_cursors := sort_enums (score_front cp.docid bound.2 0).2 }
          else
            match align true bound.2 pivot cp.docid with
            | none => loop_step.undefined
            | some cs => loop_step.next { st with ordered_cursors := cs }
      else
        match skip_step bound.2 max_docid pivot cp.docid with
        | none => loop_step.undefined
        | some cs => loop_step.next { st with ordered_cursors := cs }

/-- One iteration of the stage-two loop of `method_three` (lines 622-753), with the pruning
heap `m_secondary`, the three cases in an `if / else if / else` chain, and the scored
candidate written into `m_secondary` (the member the source calls `m_secondary_topk` there is
not declared; stage two is read as writing into the one secondary heap). -/
def stage_two_body (max_docid : Nat) (st : driver_state S) : loop_step (driver_state S) :=
  match find_pivot st.m_secondary max_docid st.ordered_cursors 0 0 with
  | none => loop_step.exit st
  | some pivot0 =>
    match st.ordered_cursors[pivot0]? with
    | none => loop_step.undefined
    | some cp =>
      let pivot := extend_pivot st.ordered_cursors cp.docid pivot0
      let bound := block_bound_loop cp.docid (pivot + 1) st.ordered_cursors 0
      if st.m_secondary.would_enter bound.1 then
        if bit_test st.scored cp.docid then
          match advance_and_bubble true bound.2 pivot (fun c => c.next) with
          | none => loop_step.undefined
          | some cs => loop_step.next { st with ordered_cursors := cs }
        else
          match bound.2[0]? with
          | none => loop_step.undefined
          | some c0 =>
            if cp.docid = c0.docid then
              loop_step.next
                { st with
                    m_secondary :=
                      (st.m_secondary.insert (score_front cp.docid bound.2 0).1 cp.docid).2,
                    ordered_cursors := sort_enums (score_front cp.docid bound.2 0).2 }
            else
              match align true bound.2 pivot cp.docid with
              | none => loop_step.undefined
              | some cs => loop_step.next { st with ordered_cursors := cs }
      else
        match skip_step bound.2 max_docid pivot cp.docid with
        | none => loop_step.undefined
        | some cs => loop_step.next { st with ordered_cursors := cs }

/-- Initial loop state: `ordered_cursors` filled from `cursors` and sorted. -/
def start (w : block_max_wand_query S) (cursors : List (Cursor S)) (scored : List Bool) :
    driver_state S :=
  { ordered_cursors := sort_enums cursors, m_topk := w.m_topk, m_secondary := w.m_secondary,
    m_cyclic := w.m_cyclic, scored := scored }

/-- The queues of a loop state, as the members of the struct. -/
def finish (st : driver_state S) : block_max_wand_query S :=
  { m_topk := st.m_topk, m_secondary := st.m_secondary, m_cyclic := st.m_cyclic }

/-- The fuel of a block-max loop: every iteration advances a posting cursor, so the fuel of
the WAND loops suffices. -/
def fuel (cursors : List (Cursor S)) : Nat := loop_fuel cursors

/-- The method `operator()(cursors, max_docid)`, baseline block-max WAND. -/
def call (w : block_max_wand_query S) (cursors : List (Cursor S)) (max_docid : Nat) :
    Option (block_max_wand_query S) :=
  if cursors.isEmpty then some w
  else (run_loop (loop_body capture_baseline max_docid) (fuel cursors)
          (start w cursors [])).map finish

/-- The stage transition of `method_three` (lines 611-621), the reset loop read as an
iteration over all cursors: `reset()`, `block_max_reset()`, `next_geq(lower_bound)`, then
`sort_cursors()`. -/
def stage_transition (st : driver_state S) : Option (driver_state S) :=
  (st.m_cyclic.displaced_id st.m_secondary.threshold).map
    (fun lower_bound =>
      { st with
          ordered_cursors := sort_enums
            (st.ordered_cursors.map (fun en => en.reset.block_max_reset.next_geq lower_bound)) })

/-- The method `method_three(cursors, max_docid)`: stage one, the stage transition, stage
two. -/
def method_three (w : block_max_wand_query S) (cursors : List (Cursor S)) (max_docid : Nat) :
    Option (block_max_wand_query S) :=
  if cursors.isEmpty then some w
  else
    ((run_loop (loop_body capture_method_three max_docid) (fuel cursors)
        (start w cursors (bit_vector_builder max_docid))).bind
      (fun st1 => (stage_transition st1).bind
        (fun st2 => run_loop (stage_two_body max_docid) (fuel cursors) st2))).map finish

end block_max_wand_query

/-! ## evaluate_queries.cpp: the per-variant lambdas `query_fun` -/

/-- The lambda for `query_type == "wand"`: fresh queues `topk(k)`, `secondary(0)`,
`cyclic(0)`, the baseline driver, `topk.finalize()`; returns `(topk.topk(),
secondary.topk())`. The cursors built by `make_max_scored_cursors` and `index.num_docs()` are
inputs. -/
def query_fun_wand (k : Nat) (cursors : List (Cursor S)) (num_docs : Nat) :
    Option (List (S × Nat) × List (S × Nat)) :=
  (wand_query.call
      { m_topk := topk_queue.create k, m_secondary := topk_queue.create 0,
        m_cyclic := cyclic_queue.create 0 } cursors num_docs).map
    (fun w => (w.m_topk.finalize.topk, w.m_secondary.topk))

/-- The lambda for `query_type == "wand_method_1"`: returns the finalized primary heap and the
finalized cyclic queue. -/
def query_fun_wand_method_1 (k secondary_k : Nat) (cursors : List (Cursor S)) (num_docs : Nat) :
    Option (List (S × Nat) × List (S × Nat)) :=
  (wand_query.method_one
      { m_topk := topk_queue.create k, m_secondary := topk_queue.create secondary_k,
        m_cyclic := cyclic_queue.create secondary_k } cursors num_docs).map
    (fun w => (w.m_topk.finalize.topk, w.m_cyclic.finalize.topk))

/-- The lambda for `query_type == "wand_method_2"`: returns the finalized primary and
secondary heaps. -/
def query_fun_wand_method_2 (k secondary_k : Nat) (cursors : List (Cursor S)) (num_docs : Nat) :
    Option (List (S × Nat) × List (S × Nat)) :=
  (wand_query.method_two
      { m_topk := topk_queue.create k, m_secondary := topk_queue.create secondary_k,
        m_cyclic := cyclic_queue.create secondary_k } cursors num_docs).map
    (fun w => (w.m_topk.finalize.topk, w.m_secondary.finalize.topk))

/-- The lambda for `query_type == "wand_method_3"`: returns the finalized primary and
secondary heaps. -/
def query_fun_wand_method_3 (k secondary_k : Nat) (cursors : List (Cursor S)) (num_docs : Nat) :
    Option (List (S × Nat) × List (S × Nat)) :=
  (wand_query.method_three
      { m_topk := topk_queue.create k, m_secondary := topk_queue.create secondary_k,
        m_cyclic := cyclic_queue.create secondary_k } cursors num_docs).map
    (fun w => (w.m_topk.finalize.topk, w.m_secondary.finalize.topk))

/-! ## Exhaustive disjunctive scoring, in the words of the specification -/

/-- The contribution of one list to docid `d`: the score of its posting for `d`, 0 when the
list does not contain `d`. -/
def list_score (c : Cursor S) (d : Nat) : S :=
  match c.postings.find? (fun p => p.1 = d) with
  | some p => p.2
  | none => 0

/-- The exhaustive score of docid `d`: the sum over the lists of the query. -/
def exhaustive_score (cursors : List (Cursor S)) (d : Nat) : S :=
  (cursors.map (fun c => list_score c d)).sum

/-- The docids that occur in at least one list, each once. -/
def all_docids (cursors : List (Cursor S)) : List Nat :=
  (cursors.flatMap (fun c => c.postings.map Prod.fst)).dedup

/-- Exhaustive disjunctive top-k: score every docid that occurs in some list, sort by
non-increasing score, keep the first `k`. -/
def topk_exhaustive (cursors : List (Cursor S)) (k : Nat) : List (S × Nat) :=
  (((all_docids cursors).map (fun d => (exhaustive_score cursors d, d))).insertionSort
    (fun a b => b.1 ≤ a.1)).take k

/-- A fresh plain max-scored cursor over `postings` (no block table is consulted by WAND). -/
def max_scored_cursor (postings : List (Nat × S)) (max_score : S) (max_docid : Nat) : Cursor S :=
  { postings := postings, m_pos := 0, m_max_score := max_score, m_universe := max_docid,
    m_query_weight := 1, blocks := [], m_block := 0 }

/-- A well-formed cursor of a query over `[0, max_docid)`: positioned at the start, docids
strictly increasing and below `max_docid`, scores non-negative and bounded by `max_score()`,
exhausted cursors report `max_docid`. -/
def well_formed_cursor (max_docid : Nat) (c : Cursor S) : Prop :=
  c.m_pos = 0 ∧ c.m_universe = max_docid ∧
  (c.postings.map Prod.fst).Pairwise (fun a b => a < b) ∧
  (∀ p ∈ c.postings, p.1 < max_docid ∧ 0 ≤ p.2 ∧ p.2 ≤ c.m_max_score)

/-- A well-formed query: every cursor is well formed. -/
def well_formed (max_docid : Nat) (cursors : List (Cursor S)) : Prop :=
  ∀ c ∈ cursors, well_formed_cursor max_docid c

/-- Valid block bounds of a block-max cursor: every weighted block bound
`block_max_score() * query_weight()` is non-negative; every posting lies in some block (its
docid is at most the upper endpoint `block_max_docid()` of a block); and the weighted bound
of the block a posting lies in (the first block whose upper endpoint reaches its docid) is at
least the score of the posting. -/
def Cursor.valid_blocks (c : Cursor S) : Prop :=
  (∀ b ∈ c.blocks, 0 ≤ b.2 * c.m_query_weight) ∧
  (∀ p ∈ c.postings, ∃ b ∈ c.blocks, p.1 ≤ b.1) ∧
  (∀ p ∈ c.postings, ∀ (j : Nat) (b : Nat × S), c.blocks[j]? = some b → p.1 ≤ b.1 →
    (∀ (j2 : Nat), j2 < j → ∀ (b2 : Nat × S), c.blocks[j2]? = some b2 → b2.1 < p.1) →
    p.2 ≤ b.2 * c.m_query_weight)

/-- A well-formed block-max query: every cursor is well formed, its block cursor is at the
start, and its block bounds are valid. -/
def well_formed_block_max (max_docid : Nat) (cursors : List (Cursor S)) : Prop :=
  ∀ c ∈ cursors, well_formed_cursor max_docid c ∧ c.m_block = 0 ∧ c.valid_blocks

/-- A fresh block-max cursor over `postings` with the block table `blocks`. -/
def block_max_scored_cursor (postings : List (Nat × S)) (max_score query_weight : S)
    (blocks : List (Nat × S)) (max_docid : Nat) : Cursor S :=
  { postings := postings, m_pos := 0, m_max_score := max_score, m_universe := max_docid,
    m_query_weight := query_weight, blocks := blocks, m_block := 0 }

/-- The two-list scenario as a block-max query: list A in blocks ending at docids 3 and 5
(bound 1 each), list B in blocks ending at docids 2 and 4 (bound 2 each), weights 1. -/
def scenario_block_lists : List (Cursor ℕ) :=
  [block_max_scored_cursor [(1, 1), (3, 1), (5, 1)] 1 1 [(3, 1), (5, 1)] 6,
   block_max_scored_cursor [(2, 2), (3, 2), (4, 2)] 2 1 [(2, 2), (4, 2)] 6]

/-- The two-list query of the end-to-end scenarios: list A over docids 1, 3, 5 scoring 1 with
`max_score` 1, list B over docids 2, 3, 4 scoring 2 with `max_score` 2, `max_docid` 6. -/
def scenario_lists : List (Cursor ℕ) :=
  [max_scored_cursor [(1, 1), (3, 1), (5, 1)] 1 6, max_scored_cursor [(2, 2), (3, 2), (4, 2)] 2 6]

/-- A two-list query on which stage two of `wand_query::method_three` scores docid 1 a second
time: both lists contain docid 1 with score 5 (exhaustive score 10); the first list also holds
docid 2 (score 1), the second docid 3 (score 2); `max_score` 5 each, `max_docid` 4. -/
def rescoring_lists : List (Cursor ℕ) :=
  [max_scored_cursor [(1, 5), (2, 1)] 5 4, max_scored_cursor [(1, 5), (3, 2)] 5 4]

/-- The state of `wand_query::method_three` on `rescoring_lists` with `k = 1`, `k' = 1` at the
head of the first stage-two iteration: docid 1 is in the primary heap with score 10 and its
bit is set, both cursors are back on docid 1, the secondary heap holds the zero sentinel. -/
def rescoring_state : driver_state ℕ :=
  { ordered_cursors := rescoring_lists,
    m_topk := { m_k := 1, m_q := [(10, 1)] },
    m_secondary := { m_k := 1, m_q := [(0, 0)] },
    m_cyclic := { m_k := 1, m_index := 0, m_data := [(0, 1)] },
    scored := [false, true, false, false] }

end pisa

namespace pisa

variable {S : Type} [LinearOrderedCommSemiring S]

/-! ## Definitions used by the proofs -/

/-- `H` is a top-`k` selection of the scores `L`. -/
def is_topk (k : Nat) (H L : List S) : Prop :=
  ∃ R : List S, L.Perm (H ++ R) ∧ H.length ≤ k ∧ (H.length < k → R = []) ∧
    ∀ h ∈ H, ∀ r ∈ R, r ≤ h

/-- The `k` highest scores of `L`, in non-increasing order. -/
def best (k : Nat) (L : List S) : List S := (L.insertionSort (fun a b => b ≤ a)).take k

/-- The heap `q` is in heap order and its scores are a top-`m_k` selection of `L`. -/
def heap_inv (q : topk_queue S) (L : List S) : Prop :=
  q.m_q.Sorted (fun a b => a.1 ≤ b.1) ∧ is_topk q.m_k (q.m_q.map Prod.fst) L

namespace Cursor

/-- The postings from the current one on. -/
def ahead (c : Cursor S) : List (Nat × S) := c.postings.drop c.m_pos

/-- The postings the cursor has moved past. -/
def behind (c : Cursor S) : List (Nat × S) := c.postings.take c.m_pos

/-- The cursor has moved past a posting of docid `d`. -/
def seen (c : Cursor S) (d : Nat) : Bool := decide (d ∈ c.behind.map Prod.fst)

/-- The number of postings from the current one on. -/
def left (c : Cursor S) : Nat := c.postings.length - c.m_pos

/-- The position-independent part of `well_formed_cursor`. -/
def ok (max_docid : Nat) (c : Cursor S) : Prop :=
  c.m_universe = max_docid ∧
  (c.postings.map Prod.fst).Pairwise (fun a b => a < b) ∧
  (∀ p ∈ c.postings, p.1 < max_docid ∧ 0 ≤ p.2 ∧ p.2 ≤ c.m_max_score)

end Cursor

/-- Some cursor of the list has moved past a posting of docid `d`. -/
def seen (cs : List (Cursor S)) (d : Nat) : Bool := cs.any (fun c => c.seen d)

/-- The total number of postings from the current ones on. -/
def remaining (cs : List (Cursor S)) : Nat := (cs.map Cursor.left).sum

/-- The cursor with both positions back at the start. -/
def Cursor.home (c : Cursor S) : Cursor S := { c with m_pos := 0, m_block := 0 }

/-- The cursors `cs` of a loop state are the cursors of the query `cursors`, moved and
reordered. -/
def tracks (cursors cs : List (Cursor S)) : Prop :=
  (cs.map Cursor.home).Perm (cursors.map Cursor.home)

/-- The sum of the list-wide bounds `max_score()` of the cursors. -/
def sum_max (cs : List (Cursor S)) : S := (cs.map Cursor.max_score).sum

/-- Loop invariant of the pruning drivers for the query `cursors` over `[0, max_docid)`, the
cursors `cs` of the loop state and the pruning heap `q`: the cursors are those of the
query, sorted by docid; the heap holds a top-k selection of the exhaustive scores of the
docids some cursor has moved past; and such a docid, if another cursor still has it ahead,
can no longer enter the heap. -/
structure prune_inv (max_docid : Nat) (cursors cs : List (Cursor S)) (q : topk_queue S) :
    Prop where
  tracks : tracks cursors cs
  sorted : cs.Pairwise (fun a b => a.docid ≤ b.docid)
  heap : heap_inv q (((all_docids cursors).filter (seen cs)).map (exhaustive_score cursors))
  dead : ∀ d, seen cs d = true → (∃ c ∈ cs, d ∈ c.ahead.map Prod.fst) →
    q.would_enter (exhaustive_score cursors d) = false

/-- What one iteration of a loop body must achieve from a state `s` satisfying the
invariant: exit with the postcondition, or continue with the invariant and a smaller
measure; never undefined behaviour. -/
def step_ok {σ : Type} (Inv Post : σ → Prop) (μ : σ → Nat) (s : σ) : loop_step σ → Prop
  | loop_step.exit s1 => Post s1
  | loop_step.next s1 => Inv s1 ∧ μ s1 < μ s
  | loop_step.undefined => False

/-- A capture policy that offers the scored candidate to the primary heap exactly as
`m_topk.insert(score, pivot_id)` does, leaves the cursors alone, and is defined on every
state that satisfies `J`, which it preserves. -/
def capture_ok (capture : driver_state S → S → Nat → Option (driver_state S))
    (J : driver_state S → Prop) : Prop :=
  ∀ st s d, J st → ∃ st1, capture st s d = some st1 ∧
    st1.m_topk = (st.m_topk.insert s d).2 ∧ st1.ordered_cursors = st.ordered_cursors ∧
    ∀ cs, J { st1 with ordered_cursors := cs }

/-- Invariant of the stage-one loops: the pruning invariant for the primary heap, its
capacity, and the side condition `J` of the capture policy. -/
def stage_one_inv (max_docid k : Nat) (cursors : List (Cursor S)) (J : driver_state S → Prop)
    (st : driver_state S) : Prop :=
  prune_inv max_docid cursors st.ordered_cursors st.m_topk ∧ st.m_topk.m_k = k ∧
    ∀ cs, J { st with ordered_cursors := cs }

/-- What holds when a stage-one loop exits: the primary heap holds a top-k selection of the
exhaustive scores of all docids of the query, and the cursors are still those of the query,
sorted. -/
def stage_one_post (k : Nat) (cursors : List (Cursor S)) (J : driver_state S → Prop)
    (st : driver_state S) : Prop :=
  heap_inv st.m_topk ((all_docids cursors).map (exhaustive_score cursors)) ∧
    st.m_topk.m_k = k ∧ J st ∧ tracks cursors st.ordered_cursors ∧
    st.ordered_cursors.Pairwise (fun a b => a.docid ≤ b.docid)

/-- Two loop states agree on the cursors and on the primary heap, and the first satisfies
the side condition `J` of its capture policy. -/
def same_primary (J : driver_state S → Prop) (s s0 : driver_state S) : Prop :=
  s.ordered_cursors = s0.ordered_cursors ∧ s.m_topk = s0.m_topk ∧
    ∀ cs, J { s with ordered_cursors := cs }

/-- Two loop iterations take the same branch and end in states that agree on the cursors and
on the primary heap. -/
def same_step (J : driver_state S → Prop) :
    loop_step (driver_state S) → loop_step (driver_state S) → Prop
  | loop_step.exit s, loop_step.exit s0 => same_primary J s s0
  | loop_step.next s, loop_step.next s0 => same_primary J s s0
  | loop_step.undefined, loop_step.undefined => True
  | _, _ => False

/-- The total number of postings of the cursors. -/
def total_postings (cs : List (Cursor S)) : Nat := (cs.map (fun c => c.postings.length)).sum

/-- Invariant of the stage-two loop of `wand_query::method_three` used for termination: the
cursors are well formed and sorted, and the primary heap is `T`. -/
def stage_two_inv (max_docid : Nat) (T : topk_queue S) (st : driver_state S) : Prop :=
  (∀ c ∈ st.ordered_cursors, c.ok max_docid) ∧
    st.ordered_cursors.Pairwise (fun a b => a.docid ≤ b.docid) ∧ st.m_topk = T

/-- The conditional block advance of the block-bound loop:
`if (block_max_docid() < pivot_id) block_max_next_geq(pivot_id)`. -/
def block_advance (pivot_id : Nat) (c : Cursor S) : Cursor S :=
  if c.block_max_docid < pivot_id then c.block_max_next_geq pivot_id else c

/-- The cursor with its block cursor back at the start. -/
def Cursor.unblock (c : Cursor S) : Cursor S := { c with m_block := 0 }

/-- Every block the block cursor of `c` has moved past ends below `P`. -/
def blocks_below (P : Nat) (c : Cursor S) : Prop :=
  ∀ (j : Nat), j < c.m_block → ∀ (b : Nat × S), c.blocks[j]? = some b → b.1 < P

/-- The sum of the weighted block bounds `block_max_score() * query_weight()`. -/
def sum_block (cs : List (Cursor S)) : S :=
  (cs.map (fun c => c.block_max_score * c.query_weight)).sum

/-- The block part of the block-max WAND invariant for a docid `P` (the last pivot): the
blocks the block cursors have moved past end below `P`, and the cursors still below `P`, if
any, have a sum of `max_score()` that cannot enter the heap. -/
def block_inv (max_docid : Nat) (cs : List (Cursor S)) (q : topk_queue S) (P : Nat) : Prop :=
  P ≤ max_docid ∧ (∀ c ∈ cs, c.valid_blocks ∧ blocks_below P c) ∧
    ∀ c ∈ cs, c.docid < P →
      q.would_enter (sum_max (cs.filter (fun c => decide (c.docid < P)))) = false

/-- Invariant of the stage-one block-max loops. -/
def block_stage_one_inv (max_docid k : Nat) (cursors : List (Cursor S))
    (J : driver_state S → Prop) (st : driver_state S) : Prop :=
  stage_one_inv max_docid k cursors J st ∧
    ∃ P, block_inv max_docid st.ordered_cursors st.m_topk P

end pisa

namespace pisa

variable {S : Type} [LinearOrderedCommSemiring S]

/-! ## Definitions used by the proofs about `block_max_wand_query::method_three` -/

/-- The block horizon `T` of the block-max loop, for the last pivot `P`: when `P < T`, the
current block of every cursor below `T` reaches `T - 1`, and the sum of the block bounds of
the cursors below `T` cannot enter the heap. -/
def horizon_inv (cs : List (Cursor S)) (q : topk_queue S) (P T : Nat) : Prop :=
  P ≤ T ∧ (P < T →
    (∀ c ∈ cs, c.docid < T → T ≤ c.block_max_docid + 1) ∧
    q.would_enter (sum_block (cs.filter (fun c => decide (c.docid < T)))) = false)

/-- A docid that some cursor has moved past while another cursor still has it ahead lies
below the horizon `T` or has its bit set in `scored`. -/
def partial_below (cs : List (Cursor S)) (scored : List Bool) (T : Nat) : Prop :=
  ∀ d, seen cs d = true → (∃ c ∈ cs, d ∈ c.ahead.map Prod.fst) →
    d < T ∨ bit_test scored d = true

/-- Invariant of the cursors of a block-max loop that prunes with the heap `q`: the cursors
are those of the query, sorted by docid, with the block part of the invariant for the last
pivot `P`, the block horizon `T`, and the partially passed docids below `T` or scored. -/
structure walk_inv (max_docid : Nat) (cursors cs : List (Cursor S)) (q : topk_queue S)
    (scored : List Bool) (P T : Nat) : Prop where
  tracks : tracks cursors cs
  sorted : cs.Pairwise (fun a b => a.docid ≤ b.docid)
  blocks : block_inv max_docid cs q P
  horizon : horizon_inv cs q P T
  pending : partial_below cs scored T

/-- What the pivot search and the block-bound loop establish on a state satisfying
`walk_inv`: the pivot `p` found by `find_pivot`, its cursor `cp`, the extended pivot `pivot`
and the cursors `csb` after the block-bound loop. -/
structure pivot_ctx (max_docid : Nat) (cursors cs : List (Cursor S)) (q : topk_queue S)
    (scored : List Bool) (P T p : Nat) (cp : Cursor S) (pivot : Nat) (csb : List (Cursor S)) :
    Prop where
  hcp : cs[p]? = some cp
  hlive : cp.docid < max_docid
  hpivot : block_max_wand_query.extend_pivot cs cp.docid p = pivot
  hbound : block_max_wand_query.block_bound_loop cp.docid (pivot + 1) cs 0 =
    (sum_block (csb.take (pivot + 1)), csb)
  hun : csb.map Cursor.unblock = cs.map Cursor.unblock
  tracks : tracks cursors csb
  sorted : csb.Pairwise (fun a b => a.docid ≤ b.docid)
  hP : P ≤ cp.docid
  blocks : ∀ c ∈ csb, c.valid_blocks ∧ blocks_below cp.docid c
  low : ∀ c ∈ csb, c.docid < cp.docid →
    q.would_enter (sum_max (csb.filter (fun c => decide (c.docid < cp.docid)))) = false
  hbmd : ∀ c ∈ csb.take (pivot + 1), cp.docid ≤ c.block_max_docid
  htk : ∀ c ∈ csb.take (pivot + 1), c.docid ≤ cp.docid
  hdr : ∀ c ∈ csb.drop (pivot + 1), cp.docid < c.docid
  hlen : pivot < csb.length
  hlast : ∃ cl, csb[pivot]? = some cl ∧ cl.docid = cp.docid
  hfar : q.would_enter (sum_block (csb.take (pivot + 1))) = true → T ≤ cp.docid
  hnear : cp.docid < T → csb = cs
  pending : partial_below csb scored T

/-- What a step that moves one cursor forward achieves: the invariant again, for the same
heap; fewer postings ahead; every newly passed docid is scored or cannot enter the heap; and
no cursor falls behind the least docid before the step. -/
def jump_ok (max_docid : Nat) (cursors cs : List (Cursor S)) (q : topk_queue S)
    (scored : List Bool) (cs2 : List (Cursor S)) : Prop :=
  (∃ P T, walk_inv max_docid cursors cs2 q scored P T) ∧
  remaining cs2 < remaining cs ∧
  (∀ d, seen cs2 d = true → seen cs d = true ∨ bit_test scored d = true ∨
    q.would_enter (exhaustive_score cursors d) = false) ∧
  (∀ c2 ∈ cs2, ∃ c ∈ cs, c.docid ≤ c2.docid)

/-- What a scoring step achieves for the pivot docid `pivot_id` and the computed score `s`:
the docid is a docid of the query that no cursor had moved past and that is not scored,
`s` is its exhaustive score, every cursor is beyond it afterwards, and the invariant holds again for any heap and
any bitset that extends `scored`. -/
def score_ok (max_docid : Nat) (cursors cs : List (Cursor S)) (scored : List Bool)
    (pivot_id : Nat) (s : S) (cs2 : List (Cursor S)) : Prop :=
  s = exhaustive_score cursors pivot_id ∧ pivot_id ∈ all_docids cursors ∧
  pivot_id < max_docid ∧ seen cs pivot_id = false ∧ bit_test scored pivot_id = false ∧
  (∀ c ∈ cs, pivot_id ≤ c.docid) ∧ (∀ c ∈ cs2, pivot_id < c.docid) ∧
  (∀ c2 ∈ cs2, ∃ c ∈ cs, c.docid ≤ c2.docid) ∧
  (∀ d, seen cs2 d = true ↔ (seen cs d = true ∨ d = pivot_id)) ∧
  remaining cs2 < remaining cs ∧
  ∀ (q2 : topk_queue S) (scored2 : List Bool),
    (∀ d, bit_test scored d = true → bit_test scored2 d = true) →
    ∃ P T, walk_inv max_docid cursors cs2 q2 scored2 P T

end pisa

namespace pisa

variable {S : Type} [LinearOrderedCommSemiring S]

/-- A one-list block-max query with a single document: docid 1 with score 5, `max_score` 5,
weight 1, one block ending at docid 1 with bound 5, `max_docid` 2. -/
def single_document_lists : List (Cursor ℕ) :=
  [block_max_scored_cursor [(1, 5)] 5 1 [(1, 5)] 2]

/-- The positive scores of a list of scores. -/
def positive (l : List S) : List S := l.filter (fun x => decide (0 < x))

/-- The exhaustive scores of the docids whose bit is set in `scored`. -/
def scored_scores (cursors : List (Cursor S)) (scored : List Bool) : List S :=
  ((all_docids cursors).filter (bit_test scored)).map (exhaustive_score cursors)

/-- `H` is a top-`n` selection of `L` up to non-positive scores: the scores left out are
below every score of `H` or not positive, and none of them is positive when `H` has fewer than
`n` scores. -/
def is_topk_pos (n : Nat) (H L : List S) : Prop :=
  ∃ R : List S, L.Perm (H ++ R) ∧ H.length ≤ n ∧ (H.length < n → ∀ r ∈ R, r ≤ 0) ∧
    ∀ h ∈ H, ∀ r ∈ R, r ≤ h ∨ r ≤ 0

/-- Invariant of stage one of `method_three` about the bitset, the secondary heap and the
cyclic queue, for the scores `O` offered to the secondary heap so far and the zero sentinels
`Z` among them: a scored docid is behind every cursor; a docid some cursor has moved past
without it being scored cannot enter the primary heap; the scores of the scored docids and
the sentinels are those of the primary heap and the offered ones; the positive scores of the
cyclic queue are among the offered scores; the docids below the docid of a cyclic entry that
are not scored have a score of at most the score of the entry; and a secondary heap that is
not full has threshold zero and is not empty once the primary heap is not. -/
structure capture_inv (max_docid k2 : Nat) (cursors : List (Cursor S)) (O Z : List S)
    (st : driver_state S) : Prop where
  bits_len : st.scored.length = max_docid
  beyond : ∀ d, bit_test st.scored d = true → ∀ c ∈ st.ordered_cursors, d < c.docid
  skipped : ∀ d, seen st.ordered_cursors d = true → bit_test st.scored d = false →
    st.m_topk.would_enter (exhaustive_score cursors d) = false
  sec_k : st.m_secondary.m_k = k2
  cyc_valid : st.m_cyclic.valid
  cyc_k : st.m_cyclic.m_k = k2
  sec_heap : heap_inv st.m_secondary O
  acct : (scored_scores cursors st.scored ++ Z).Perm (st.m_topk.m_q.map Prod.fst ++ O)
  zeros : ∀ z ∈ Z, z = 0
  offered : ∀ x ∈ O, 0 ≤ x
  cyc_sub : (positive (st.m_cyclic.m_data.map Prod.fst)).Subperm O
  cyc : ∀ e ∈ st.m_cyclic.m_data, ∀ d, d < e.2 → bit_test st.scored d = false →
    exhaustive_score cursors d ≤ e.1
  fill : st.m_secondary.m_q.length < k2 →
    st.m_secondary.threshold = 0 ∧ (st.m_topk.m_q ≠ [] → st.m_secondary.m_q ≠ [])

/-- Invariant of the stage-one loop of `block_max_wand_query::method_three`. -/
def method_three_inv (max_docid k k2 : Nat) (cursors : List (Cursor S))
    (st : driver_state S) : Prop :=
  block_stage_one_inv max_docid k cursors (fun s => s.m_cyclic.valid) st ∧
  (∃ P T, walk_inv max_docid cursors st.ordered_cursors st.m_topk st.scored P T) ∧
  ∃ O Z, capture_inv max_docid k2 cursors O Z st

/-- What holds when stage one of `method_three` exits. -/
def method_three_post (max_docid k k2 : Nat) (cursors : List (Cursor S))
    (st : driver_state S) : Prop :=
  stage_one_post k cursors (fun s => s.m_cyclic.valid) st ∧
  ∃ O Z, capture_inv max_docid k2 cursors O Z st

/-- Invariant of the stage-two loop of `block_max_wand_query::method_three` for the primary
heap `T1` and the bitset `bits` of stage one, the scores `O` offered to the secondary heap,
the zero sentinels `Z` and the docids `Sc2` scored in stage two. -/
structure rescue_inv (max_docid k2 : Nat) (cursors : List (Cursor S)) (T1 : topk_queue S)
    (bits : List Bool) (O Z : List S) (Sc2 : List Nat) (st : driver_state S) : Prop where
  primary : st.m_topk = T1
  bits_eq : st.scored = bits
  sec_k : st.m_secondary.m_k = k2
  sec_heap : heap_inv st.m_secondary O
  nodup : Sc2.Nodup
  fresh : ∀ d ∈ Sc2, d ∈ all_docids cursors ∧ bit_test bits d = false ∧
    ∀ c ∈ st.ordered_cursors, d < c.docid
  acct : (scored_scores cursors bits ++ Sc2.map (exhaustive_score cursors) ++ Z).Perm
    (T1.m_q.map Prod.fst ++ O)
  zeros : ∀ z ∈ Z, z = 0
  cover : ∀ d, seen st.ordered_cursors d = true →
    bit_test bits d = true ∨ d ∈ Sc2 ∨ exhaustive_score cursors d ≤ 0 ∨
      st.m_secondary.would_enter (exhaustive_score cursors d) = false

/-- The loop invariant of stage two. -/
def stage_two_safe_inv (max_docid k2 : Nat) (cursors : List (Cursor S)) (T1 : topk_queue S)
    (bits : List Bool) (st : driver_state S) : Prop :=
  (∃ P T, walk_inv max_docid cursors st.ordered_cursors st.m_secondary bits P T) ∧
  ∃ O Z Sc2, rescue_inv max_docid k2 cursors T1 bits O Z Sc2 st

/-- What holds when stage two exits: the invariant, and no pivot is found. -/
def stage_two_safe_post (max_docid k2 : Nat) (cursors : List (Cursor S)) (T1 : topk_queue S)
    (bits : List Bool) (st : driver_state S) : Prop :=
  stage_two_safe_inv max_docid k2 cursors T1 bits st ∧
  find_pivot st.m_secondary max_docid st.ordered_cursors 0 0 = none

end pisa

namespace pisa

variable {S : Type} [LinearOrderedCommSemiring S]

/-! ## cyclic_queue.hpp: states, call sequences -/

namespace cyclic_queue

/-- The slots in age order: the write index `w` (the oldest entry, the next to be
overwritten), then `w+1, ..., k-1`, then `0, ..., w-1` (the newest). -/
def age_order (q : cyclic_queue S) : List Nat := q.m_index :: scan_order q

/-- The scores of the slots are non-decreasing in age order. -/
def monotone (q : cyclic_queue S) : Prop :=
  ((age_order q).map (fun i => (q.m_data.getD i (0, 0)).1)).Sorted (fun a b => a ≤ b)

instance decidable_valid (q : cyclic_queue S) : Decidable q.valid :=
  inferInstanceAs (Decidable (q.m_data.length = q.m_k ∧ q.m_index < q.m_k))

instance decidable_monotone (q : cyclic_queue S) : Decidable q.monotone :=
  inferInstanceAs (Decidable
    (((age_order q).map (fun i => (q.m_data.getD i (0, 0)).1)).Sorted (fun a b => a ≤ b)))

/-- In the words of the specification: `d` is the docid of an entry of the queue whose score
is the largest score `≤ t` among the entries of the queue. -/
def largest_below (q : cyclic_queue S) (t : S) (d : Nat) : Prop :=
  ∃ e ∈ q.m_data, e.2 = d ∧ e.1 ≤ t ∧ ∀ e2 ∈ q.m_data, e2.1 ≤ t → e2.1 ≤ e.1

/-- One call of a state-changing method of `cyclic_queue`. -/
inductive op (S : Type) where
  | insert : S → Nat → op S
  | finalize : op S
  | clear : op S
deriving DecidableEq, Repr

/-- The call is `clear()`. -/
def op.is_clear : op S → Bool
  | op.clear => true
  | _ => false

/-- The effect of one call on the queue (`none` when the call is undefined). -/
def apply (q : cyclic_queue S) : op S → Option (cyclic_queue S)
  | op.insert score docid => cyclic_queue.insert q score docid
  | op.finalize => some (cyclic_queue.finalize q)
  | op.clear => some (cyclic_queue.clear q)

/-- A sequence of calls, in order. -/
def run : cyclic_queue S → List (op S) → Option (cyclic_queue S)
  | q, [] => some q
  | q, o :: os => (apply q o).bind (fun q1 => run q1 os)

end cyclic_queue

/-! ## Loops: the state at the head of an iteration -/

/-- The state at the head of iteration `n` (counted from 0) of a `while (true)` loop with the
given body: `none` when the loop has left through `break` or met undefined behaviour before
that iteration. -/
def loop_state {σ : Type} (body : σ → loop_step σ) : Nat → σ → Option σ
  | 0, s => some s
  | n + 1, s =>
    match body s with
    | loop_step.next s1 => loop_state body n s1
    | loop_step.exit _ => none
    | loop_step.undefined => none

/-! ## block_max_wand_query.hpp: Methods 1 and 2 -/

namespace block_max_wand_query

/-- The method `method_one(cursors, max_docid)` (lines 155-298): the loop of `operator()` with
the capture statement `if (m_topk.insert(score, pivot_id, ejected_score, ejected_docid))
m_cyclic.insert(ejected_score, ejected_docid);`. -/
def method_one (w : block_max_wand_query S) (cursors : List (Cursor S)) (max_docid : Nat) :
    Option (block_max_wand_query S) :=
  if cursors.isEmpty then some w
  else (run_loop (loop_body capture_method_one max_docid) (fuel cursors)
          (start w cursors [])).map finish

/-- The method `method_two(cursors, max_docid)` (lines 302-448): the loop of `operator()` with
the capture statement of Method 2. -/
def method_two (w : block_max_wand_query S) (cursors : List (Cursor S)) (max_docid : Nat) :
    Option (block_max_wand_query S) :=
  if cursors.isEmpty then some w
  else (run_loop (loop_body capture_method_two max_docid) (fuel cursors)
          (start w cursors [])).map finish

end block_max_wand_query

/-! ## evaluate_queries.cpp: the block-max lambdas and the choice of `query_fun` -/

/-- The lambda for `query_type == "block_max_wand"`: fresh queues `topk(k)`, `secondary(0)`,
`cyclic(0)`, the baseline block-max driver, `topk.finalize()`; returns `(topk.topk(),
secondary.topk())`. -/
def query_fun_block_max_wand (k : Nat) (cursors : List (Cursor S)) (num_docs : Nat) :
    Option (List (S × Nat) × List (S × Nat)) :=
  (block_max_wand_query.call
      { m_topk := topk_queue.create k, m_secondary := topk_queue.create 0,
        m_cyclic := cyclic_queue.create 0 } cursors num_docs).map
    (fun w => (w.m_topk.finalize.topk, w.m_secondary.topk))

/-- The lambda for `query_type == "block_max_wand_method_1"`: returns the finalized primary
heap and the finalized cyclic queue. -/
def query_fun_block_max_wand_method_1 (k secondary_k : Nat) (cursors : List (Cursor S))
    (num_docs : Nat) : Option (List (S × Nat) × List (S × Nat)) :=
  (block_max_wand_query.method_one
      { m_topk := topk_queue.create k, m_secondary := topk_queue.create secondary_k,
        m_cyclic := cyclic_queue.create secondary_k } cursors num_docs).map
    (fun w => (w.m_topk.finalize.topk, w.m_cyclic.finalize.topk))

/-- The lambda for `query_type == "block_max_wand_method_2"`: returns the finalized primary
and secondary heaps. -/
def query_fun_block_max_wand_method_2 (k secondary_k : Nat) (cursors : List (Cursor S))
    (num_docs : Nat) : Option (List (S × Nat) × List (S × Nat)) :=
  (block_max_wand_query.method_two
      { m_topk := topk_queue.create k, m_secondary := topk_queue.create secondary_k,
        m_cyclic := cyclic_queue.create secondary_k } cursors num_docs).map
    (fun w => (w.m_topk.finalize.topk, w.m_secondary.finalize.topk))

/-- The lambda for `query_type == "block_max_wand_method_3"`: returns the finalized primary
and secondary heaps. -/
def query_fun_block_max_wand_method_3 (k secondary_k : Nat) (cursors : List (Cursor S))
    (num_docs : Nat) : Option (List (S × Nat) × List (S × Nat)) :=
  (block_max_wand_query.method_three
      { m_topk := topk_queue.create k, m_secondary := topk_queue.create secondary_k,
        m_cyclic := cyclic_queue.create secondary_k } cursors num_docs).map
    (fun w => (w.m_topk.finalize.topk, w.m_secondary.finalize.topk))

/-- The `if / else if` chain of `evaluate_queries` (lines 56-148) that assigns `query_fun`
from `query_type`, `k` and `secondary_k`. In the final `else` the function is left unassigned
(`none`) after `spdlog::error("Unsupported query type: ...")`. No branch looks at the value
of `secondary_k`. -/
def query_fun (query_type : String) (k secondary_k : Nat) :
    Option (List (Cursor S) → Nat → Option (List (S × Nat) × List (S × Nat))) :=
  if query_type = "wand" then some (query_fun_wand k)
  else if query_type = "wand_method_1" then some (query_fun_wand_method_1 k secondary_k)
  else if query_type = "wand_method_2" then some (query_fun_wand_method_2 k secondary_k)
  else if query_type = "wand_method_3" then some (query_fun_wand_method_3 k secondary_k)
  else if query_type = "block_max_wand" then some (query_fun_block_max_wand k)
  else if query_type = "block_max_wand_method_1" then
    some (query_fun_block_max_wand_method_1 k secondary_k)
  else if query_type = "block_max_wand_method_2" then
    some (query_fun_block_max_wand_method_2 k secondary_k)
  else if query_type = "block_max_wand_method_3" then
    some (query_fun_block_max_wand_method_3 k secondary_k)
  else none

/-- The names of the variants that use the secondary structures (Methods 1, 2 and 3 of either
driver). -/
def secondary_variants : List String :=
  ["wand_method_1", "wand_method_2", "wand_method_3", "block_max_wand_method_1",
   "block_max_wand_method_2", "block_max_wand_method_3"]

/-! ## Concrete inputs -/

/-- A queue of capacity 3 after the inserts `(9, 10)`, `(5, 50)`, `(3, 30)`: write index 0,
scores not in non-decreasing age order. -/
def unordered_queue : cyclic_queue ℕ :=
  { m_k := 3, m_index := 0, m_data := [(9, 10), (5, 50), (3, 30)] }

/-- A queue of capacity 3 after the inserts `(1, 10)`, `(3, 20)`, `(5, 30)`, `(7, 40)`: write
index 1, scores non-decreasing in age order. -/
def history_queue : cyclic_queue ℕ :=
  { m_k := 3, m_index := 1, m_data := [(7, 40), (3, 20), (5, 30)] }

/-- A one-list query whose second document scores less than its first: docid 1 scores 5,
docid 2 scores 3, `max_score` 5, `max_docid` 3. -/
def filling_lists : List (Cursor ℕ) := [max_scored_cursor [(1, 5), (2, 3)] 5 3]

/-- A one-list query whose second document scores more than its first: docid 1 scores 3,
docid 2 scores 5, `max_score` 5, `max_docid` 3. -/
def rising_lists : List (Cursor ℕ) := [max_scored_cursor [(1, 3), (2, 5)] 5 3]

end pisa

namespace pisa

variable {S : Type} [LinearOrderedCommSemiring S]

/-! ## evaluate_queries.cpp: the query loop -/

/-- The eight values of `query_type` for which `evaluate_queries` assigns `query_fun`. -/
def supported_variants : List String :=
  ["wand", "wand_method_1", "wand_method_2", "wand_method_3", "block_max_wand",
   "block_max_wand_method_1", "block_max_wand_method_2", "block_max_wand_method_3"]

/-- How a run of `evaluate_queries` ends: it returns to `main`; or the call of an unassigned
`std::function` throws `std::bad_function_call`, which nothing catches; or a driver has
undefined behaviour. -/
inductive ending where
  | returned : ending
  | bad_function_call : ending
  | undefined : ending
deriving DecidableEq, Repr

/-- One line written to `std::cout`: the query (its index stands for `qid`), the document
(`docmap[result.second]`), the rank and the score; `iteration` and `run_id` are the same on
every line. -/
structure result_line (S : Type) where
  query_idx : Nat
  docid : Nat
  rank : Nat
  score : S
deriving DecidableEq, Repr

/-- What a run of `evaluate_queries` leaves behind: whether `spdlog::error` was called, the
lines written to `std::cout`, and how the run ended. -/
structure evaluation (S : Type) where
  error_logged : Bool
  lines : List (result_line S)
  ending : ending
deriving DecidableEq, Repr

/-- The two `for` loops over `std::get<0>(results)` and `std::get<1>(results)` (lines
160-181): the primary block with ranks from 0, then the secondary block with ranks
`rank + res_count`. -/
def result_lines (query_idx : Nat) (results : List (S × Nat) × List (S × Nat)) :
    List (result_line S) :=
  results.1.enum.map
      (fun r => { query_idx := query_idx, docid := r.2.2, rank := r.1, score := r.2.1 }) ++
    results.2.enum.map
      (fun r => { query_idx := query_idx, docid := r.2.2, rank := r.1 + results.1.length,
                  score := r.2.1 })

/-- The loop `for (size_t query_idx = 0; query_idx < queries.size(); ++query_idx)` (lines
155-182): `query_fun(queries[query_idx])` is called first, which throws when the function is
unassigned, and then the lines of the query are written. A query is given by the cursors
`make_max_scored_cursors` / `make_block_max_scored_cursors` build for it. -/
def query_loop
    (f : Option (List (Cursor S) → Nat → Option (List (S × Nat) × List (S × Nat))))
    (num_docs : Nat) : Nat → List (List (Cursor S)) → List (result_line S) →
    List (result_line S) × ending
  | _, [], out => (out, ending.returned)
  | query_idx, query :: rest, out =>
    match f with
    | none => (out, ending.bad_function_call)
    | some g =>
      match g query num_docs with
      | none => (out, ending.undefined)
      | some results =>
        query_loop f num_docs (query_idx + 1) rest (out ++ result_lines query_idx results)

/-- The function `evaluate_queries` (lines 33-183) from the choice of `query_fun` on: the
final `else` only calls `spdlog::error` and control goes on to the query loop. -/
def evaluate_queries (query_type : String) (k secondary_k : Nat)
    (queries : List (List (Cursor S))) (num_docs : Nat) : evaluation S :=
  { error_logged := (query_fun (S := S) query_type k secondary_k).isNone,
    lines := (query_loop (query_fun query_type k secondary_k) num_docs 0 queries []).1,
    ending := (query_loop (query_fun query_type k secondary_k) num_docs 0 queries []).2 }

/-- The exit status of `main` after `evaluate_queries`: `main` has no `return` statement
after the call, so it returns 0 when `evaluate_queries` returns; otherwise the process does
not leave `main` by returning (`none`). -/
def exit_status (e : evaluation S) : Option Nat :=
  match e.ending with
  | ending.returned => some 0
  | ending.bad_function_call => none
  | ending.undefined => none

/-! ## The pivot, in the words of the specification -/

/-- In the words of the specification: the prefix `C[0..p]` qualifies, i.e. every cursor of
it has `docid() < max_docid` and the sum of `max_score()` over it would enter the pruning
heap. -/
def prefix_qualifies (heap : topk_queue S) (max_docid : Nat) (cs : List (Cursor S))
    (p : Nat) : Prop :=
  p < cs.length ∧ (∀ c ∈ cs.take (p + 1), c.docid < max_docid) ∧
    heap.would_enter (sum_max (cs.take (p + 1))) = true

/-! ## The skip step of block-max WAND, in the words of the specification -/

/-- In the words of the specification: `m = min(max_docid, minimum of block_max_docid() over
C[0..pivot])`. -/
def least_block_end (cs : List (Cursor S)) (max_docid pivot : Nat) : Nat :=
  ((cs.take (pivot + 1)).map Cursor.block_max_docid).foldl min max_docid

/-- In the words of the specification: `next = max(pivot_id + 1, min(m + 1, d))` with
`d = C[pivot+1].docid()` when `pivot + 1 < n`, and `d` absent otherwise. -/
def skip_target_formula (cs : List (Cursor S)) (max_docid pivot pivot_id : Nat) : Nat :=
  max (pivot_id + 1)
    (match cs[pivot + 1]? with
     | some c => min (least_block_end cs max_docid pivot + 1) c.docid
     | none => least_block_end cs max_docid pivot + 1)

/-! ## Progress of one iteration -/

/-- The cursor `c1` is the cursor `c` (same posting list) at the same or a later posting: it
has not moved backward, and its docid is at most `max_docid`. -/
def not_behind (max_docid : Nat) (c c1 : Cursor S) : Prop :=
  c1.home = c.home ∧ c.m_pos ≤ c1.m_pos ∧ c.docid ≤ c1.docid ∧ c1.docid ≤ max_docid

/-- The cursors `cs2` after an iteration are the cursors `cs` before it, reordered: none has
moved backward and at least one is on a strictly larger docid. -/
def advances (max_docid : Nat) (cs cs2 : List (Cursor S)) : Prop :=
  ∃ cs1, cs2.Perm cs1 ∧ List.Forall₂ (not_behind max_docid) cs cs1 ∧
    ∃ (i : Nat) (c c1 : Cursor S), cs[i]? = some c ∧ cs1[i]? = some c1 ∧ c.docid < c1.docid

/-! ## Concrete inputs -/

/-- A two-list query on which the non-aligned branch moves a cursor onto the docid of the
pivot: list A over docids 1, 2, 4 scoring 1 with `max_score` 1, list B over docids 1 and 4
scoring 2 and 3 with `max_score` 3, `max_docid` 5. -/
def tie_lists : List (Cursor ℕ) :=
  [max_scored_cursor [(1, 1), (2, 1), (4, 1)] 1 5, max_scored_cursor [(1, 2), (4, 3)] 3 5]

/-- The query `tie_lists` as a block-max query: one block per list, ending at docid 4, with
the bound `max_score`; weights 1. -/
def tie_block_lists : List (Cursor ℕ) :=
  [block_max_scored_cursor [(1, 1), (2, 1), (4, 1)] 1 1 [(4, 1)] 5,
   block_max_scored_cursor [(1, 2), (4, 3)] 3 1 [(4, 3)] 5]

/-- List A of `tie_lists` on its second posting, docid 2. -/
def tie_cursor_a : Cursor ℕ :=
  { (max_scored_cursor [(1, 1), (2, 1), (4, 1)] 1 5 : Cursor ℕ) with m_pos := 1 }

/-- List B of `tie_lists` on its second posting, docid 4. -/
def tie_cursor_b : Cursor ℕ :=
  { (max_scored_cursor [(1, 2), (4, 3)] 3 5 : Cursor ℕ) with m_pos := 1 }

/-- The state of the baseline WAND loop on `tie_lists` with `k = 1` at the head of its second
iteration: docid 1 (score 3) is in the heap, list A is on docid 2 and list B on docid 4. -/
def tie_state : driver_state ℕ :=
  { ordered_cursors := [tie_cursor_a, tie_cursor_b],
    m_topk := { m_k := 1, m_q := [(3, 1)] },
    m_secondary := topk_queue.create 0,
    m_cyclic := cyclic_queue.create 0,
    scored := [] }

end pisa

namespace pisa

variable {S : Type} [LinearOrderedCommSemiring S]

/-! ## The documents a WAND loop scores -/

/-- The pair `(score, pivot_id)` that the iteration of a WAND loop from `st` hands to its
capture statement: present when a pivot is found and `pivot_id == ordered_cursors[0]->docid()`,
in which case `score` is the sum the scoring loop computes. -/
def wand_query.candidate (max_docid : Nat) (st : driver_state S) : Option (S × Nat) :=
  match find_pivot st.m_topk max_docid st.ordered_cursors 0 0 with
  | none => none
  | some pivot =>
    match st.ordered_cursors[pivot]?, st.ordered_cursors[0]? with
    | some cp, some c0 =>
      if cp.docid = c0.docid then
        some ((score_front cp.docid st.ordered_cursors 0).1, cp.docid)
      else none
    | _, _ => none

/-- The candidates handed to the capture statement by the first `n` iterations of a loop, in
order; the iteration that leaves the loop hands over none. -/
def candidates {σ α : Type} (body : σ → loop_step σ) (candidate : σ → Option α) :
    Nat → σ → List α
  | 0, _ => []
  | n + 1, s =>
    match body s with
    | loop_step.next s1 => (candidate s).toList ++ candidates body candidate n s1
    | loop_step.exit _ => []
    | loop_step.undefined => []

/-- The documents a WAND loop with the given capture statement scores on the query `cursors`,
with their scores, in order. -/
def wand_query.scored_documents (capture : driver_state S → S → Nat → Option (driver_state S))
    (w : wand_query S) (cursors : List (Cursor S)) (max_docid : Nat) (scored : List Bool) :
    List (S × Nat) :=
  candidates (wand_query.loop_body capture max_docid) (wand_query.candidate max_docid)
    (loop_fuel cursors) (wand_query.start w cursors scored)

/-! ## Methods 1 and 2, in the words of the specification -/

/-- In the words of the specification: the entries Method 1 inserts into the cyclic queue
for the candidates offered to H1 in order. For a candidate H1 accepts: the zero sentinel
`(0, 0)` while H1 is still filling, the entry H1 evicts (its previous minimum, the root) when
H1 is full. For a candidate H1 rejects: nothing. -/
def cyclic_entries : topk_queue S → List (S × Nat) → List (S × Nat)
  | _, [] => []
  | h1, (s, d) :: rest =>
    (if h1.would_enter s then
      (if h1.m_q.length < h1.m_k then [(0, 0)] else h1.m_q.head?.toList)
     else []) ++ cyclic_entries (h1.insert s d).2 rest

/-- In the words of the specification: the stream Method 2 offers to H2 for the candidates
offered to H1 in order. For a candidate H1 accepts: the zero sentinel `(0, 0)` while H1 is
still filling, the entry H1 evicts when H1 is full. For a candidate H1 rejects: the candidate
itself. -/
def secondary_offers : topk_queue S → List (S × Nat) → List (S × Nat)
  | _, [] => []
  | h1, (s, d) :: rest =>
    (if h1.would_enter s then
      (if h1.m_q.length < h1.m_k then [(0, 0)] else h1.m_q.head?.toList)
     else [(s, d)]) ++ secondary_offers (h1.insert s d).2 rest

/-- In the words of the specification: the number of insertions made while H1 was filling,
for the candidates offered to H1 in order. -/
def filling_insertions : topk_queue S → List (S × Nat) → Nat
  | _, [] => 0
  | h1, (s, d) :: rest =>
    (if h1.would_enter s then (if h1.m_q.length < h1.m_k then 1 else 0) else 0) +
      filling_insertions (h1.insert s d).2 rest

/-- The primary heap after the candidates have been offered to it in order. -/
def offer_all : topk_queue S → List (S × Nat) → topk_queue S
  | h, [] => h
  | h, (s, d) :: rest => offer_all (h.insert s d).2 rest

/-! ## Definitions used by the proofs about stage one of `wand_query::method_three` -/

/-- Invariant of the cursors of a WAND loop that prunes with the heap `q`, for the docid `P`
of the last pivot: the cursors are those of the query, sorted by docid; the cursors still
below `P`, if any, have a sum of `max_score()` that cannot enter the heap; and a docid that
some cursor has moved past while another cursor still has it ahead lies below `P` or has its
bit set in `scored`. -/
structure wand_walk_inv (max_docid : Nat) (cursors cs : List (Cursor S)) (q : topk_queue S)
    (scored : List Bool) (P : Nat) : Prop where
  tracks : tracks cursors cs
  sorted : cs.Pairwise (fun a b => a.docid ≤ b.docid)
  last : P ≤ max_docid
  low : ∀ c ∈ cs, c.docid < P →
    q.would_enter (sum_max (cs.filter (fun c => decide (c.docid < P)))) = false
  pending : partial_below cs scored P

/-- What a step that moves one cursor forward achieves for the bitset and the primary heap:
every newly passed docid is scored or cannot enter the heap, and no cursor falls behind the
least docid before the step. -/
def moved_on (cursors cs : List (Cursor S)) (q : topk_queue S) (scored : List Bool)
    (cs2 : List (Cursor S)) : Prop :=
  (∀ d, seen cs2 d = true → seen cs d = true ∨ bit_test scored d = true ∨
    q.would_enter (exhaustive_score cursors d) = false) ∧
  (∀ c2 ∈ cs2, ∃ c ∈ cs, c.docid ≤ c2.docid)

/-- What a scoring step achieves for the pivot docid `pivot_id` and the computed score `s`:
the docid is a docid of the query that no cursor had moved past and that is not scored, `s`
is its exhaustive score, and every cursor is beyond it afterwards. -/
def scored_at (max_docid : Nat) (cursors cs : List (Cursor S)) (scored : List Bool)
    (pivot_id : Nat) (s : S) (cs2 : List (Cursor S)) : Prop :=
  s = exhaustive_score cursors pivot_id ∧ pivot_id ∈ all_docids cursors ∧
  pivot_id < max_docid ∧ seen cs pivot_id = false ∧ bit_test scored pivot_id = false ∧
  (∀ c ∈ cs, pivot_id ≤ c.docid) ∧ (∀ c ∈ cs2, pivot_id < c.docid) ∧
  (∀ c2 ∈ cs2, ∃ c ∈ cs, c.docid ≤ c2.docid) ∧
  (∀ d, seen cs2 d = true ↔ (seen cs d = true ∨ d = pivot_id))

/-- Invariant of the stage-one loop of `wand_query::method_three`. -/
def wand_method_three_inv (max_docid k k2 : Nat) (cursors : List (Cursor S))
    (st : driver_state S) : Prop :=
  stage_one_inv max_docid k cursors (fun s => s.m_cyclic.valid) st ∧
  (∃ P, wand_walk_inv max_docid cursors st.ordered_cursors st.m_topk st.scored P) ∧
  ∃ O Z, capture_inv max_docid k2 cursors O Z st

/-! ## Concrete inputs -/

/-- A two-list query with a list that scores nothing: list A over docids 1 and 3 scoring 0
and 7 with `max_score` 7, list B over docid 2 scoring 0 with `max_score` 0, `max_docid` 4. -/
def zero_score_lists : List (Cursor ℕ) :=
  [max_scored_cursor [(1, 0), (3, 7)] 7 4, max_scored_cursor [(2, 0)] 0 4]

end pisa

namespace pisa

variable {S : Type} [LinearOrderedCommSemiring S]

/-! ## The entries of the cyclic queue in stage one of Method 3 -/

/-- The entries the capture statement of stage one of `wand_query::method_three` inserts into
the cyclic queue for the candidates offered to H1 in order: for a candidate `(s, d)` that H1
accepts, `(ejected_score, d)`, where `ejected_score` is 0 while H1 is still filling and the
score of the root of H1 when H1 is full; for a candidate H1 rejects, nothing. -/
def rewind_entries : topk_queue S → List (S × Nat) → List (S × Nat)
  | _, [] => []
  | h1, (s, d) :: rest =>
    (if h1.would_enter s then
      [((if h1.m_q.length < h1.m_k then 0 else h1.threshold), d)]
     else []) ++ rewind_entries (h1.insert s d).2 rest

/-! ## Definitions used by the proofs about the streams of the capture statements -/

/-- A heap in heap order, within its capacity, holding non-negative scores. -/
def heap_ok (h : topk_queue S) : Prop :=
  h.m_q.Sorted (fun a b => a.1 ≤ b.1) ∧ h.m_q.length ≤ h.m_k ∧ ∀ e ∈ h.m_q, 0 ≤ e.1

/-- The score every later content of the heap stays above: 0 while the heap is filling, the
threshold once it is full. -/
def heap_floor (h : topk_queue S) : S :=
  if h.m_q.length < h.m_k then 0 else h.threshold

/-- Invariant of a WAND loop whose capture statement leaves the bitset alone, here with no
bit set: the invariant of the cursors for some last pivot. -/
def wand_plain_inv (max_docid : Nat) (cursors : List (Cursor S)) (st : driver_state S) :
    Prop :=
  (∀ d, bit_test st.scored d = false) ∧
  ∃ P, wand_walk_inv max_docid cursors st.ordered_cursors st.m_topk st.scored P

/-! ## Concrete inputs -/

/-- A one-list query whose only posting is docid 0 with score 5, `max_docid` 1. -/
def first_docid_lists : List (Cursor ℕ) := [max_scored_cursor [(0, 5)] 5 1]

end pisa

namespace pisa

variable {S : Type} [LinearOrderedCommSemiring S]

/-! ## `finalize()` of the cyclic queue as the C++ standard specifies `std::sort` -/

namespace cyclic_queue

/-- The method `finalize()` as a relation: `std::sort(m_data.begin(), m_data.end(),
min_heap_order)` leaves a permutation of the storage in which no entry is followed by one
that `min_heap_order` orders before it. `std::sort` is not stable: which of these
permutations results is unspecified when two entries have equal scores, since
`min_heap_order` compares the scores only. The function `finalize` above is one outcome. -/
def finalize_outcome (q q1 : cyclic_queue S) : Prop :=
  q1.m_k = q.m_k ∧ q1.m_index = q.m_index ∧ q1.m_data.Perm q.m_data ∧
    q1.m_data.Pairwise (fun a b => min_heap_order b a = false)

instance finalize_outcome_decidable (q q1 : cyclic_queue S) :
    Decidable (finalize_outcome q q1) := by
  unfold finalize_outcome
  exact inferInstance

end cyclic_queue

/-! ## The outputs of the orchestrator -/

/-- The sequence `out` is a finalized form of the entries `held`: a permutation of them in
non-increasing score order. -/
def finalized (out held : List (S × Nat)) : Prop :=
  out.Perm held ∧ out.Sorted (fun a b => b.1 ≤ a.1)

/-- The output `out` of a query function whose driver run is `run`: undefined exactly when
the run is, and otherwise a pair of sequences that stand in the relation `P` to the queues
`w` the run leaves. -/
def outputs_of {W : Type} (run : Option W) (out : Option (List (S × Nat) × List (S × Nat)))
    (P : W → List (S × Nat) → List (S × Nat) → Prop) : Prop :=
  match run, out with
  | some w, some (p, s) => P w p s
  | none, none => True
  | _, _ => False

/-! ## Definitions used by the proofs about the entries of the heaps in Method 3 -/

/-- The documents `D` with their exhaustive scores, followed by `n` zero sentinels
`(0, 0)`. -/
def documents_and_sentinels (cursors : List (Cursor S)) (D : List Nat) (n : Nat) :
    List (S × Nat) :=
  D.map (fun d => (exhaustive_score cursors d, d)) ++ List.replicate n (0, 0)

/-- Invariant of stage one of `method_three` about the entries of the two heaps: they are
among the distinct documents `D` of the query, each with its exhaustive score and its bit
set, and `n` zero sentinels. -/
def scored_entries_inv (cursors : List (Cursor S)) (D : List Nat) (n : Nat)
    (st : driver_state S) : Prop :=
  D.Nodup ∧ (∀ d ∈ D, d ∈ all_docids cursors ∧ bit_test st.scored d = true) ∧
  (st.m_topk.m_q ++ st.m_secondary.m_q).Subperm (documents_and_sentinels cursors D n)

/-- Invariant of stage two of `method_three` about the entries of the two heaps: they are
among the distinct documents `D` of the query, each with its exhaustive score, and `n` zero
sentinels; a document of `D` has its bit set (it was scored in stage one) or lies behind
every cursor (it was scored in stage two). -/
def entries_inv (cursors : List (Cursor S)) (D : List Nat) (n : Nat)
    (st : driver_state S) : Prop :=
  D.Nodup ∧
  (∀ d ∈ D, d ∈ all_docids cursors ∧
    (bit_test st.scored d = true ∨ ∀ c ∈ st.ordered_cursors, d < c.docid)) ∧
  (st.m_topk.m_q ++ st.m_secondary.m_q).Subperm (documents_and_sentinels cursors D n)

/-! ## Concrete inputs -/

/-- A cyclic queue of capacity 17 after the inserts `(1, 0), (1, 1), ..., (1, 16)`: seventeen
entries of equal score. -/
def tied_queue : cyclic_queue ℕ :=
  { m_k := 17, m_index := 0, m_data := (List.range 17).map (fun d => (1, d)) }

/-- An outcome of `finalize()` on `tied_queue`: the entries in the order in which the
introsort of GNU libstdc++ leaves them. -/
def tied_queue_once : cyclic_queue ℕ :=
  { m_k := 17, m_index := 0,
    m_data := [8, 16, 15, 14, 13, 12, 11, 10, 9, 0, 7, 6, 5, 4, 3, 2, 1].map
      (fun d => (1, d)) }

/-- An outcome of `finalize()` on `tied_queue_once`: the entries in the order in which the
introsort of GNU libstdc++ leaves them after the second call. -/
def tied_queue_twice : cyclic_queue ℕ :=
  { m_k := 17, m_index := 0,
    m_data := [9, 1, 2, 3, 4, 5, 6, 7, 0, 8, 10, 11, 12, 13, 14, 15, 16].map
      (fun d => (1, d)) }

end pisa

namespace pisa

variable {S : Type} [LinearOrderedCommSemiring S]

/-! ## Proofs: cyclic_queue -/

namespace cyclic_queue

theorem foldl_displaced_scan (data : List (S × Nat)) (t : S) (index : Nat) (l : List Nat) :
    l.foldl (displaced_scan data t) index =
      ((l.filter (qualifies data t)).getLast?).getD index := by
  induction l using List.reverseRecOn with
  | nil => simp
  | append_singleton l i ih =>
    rw [List.foldl_append, List.filter_append, ih]
    simp only [List.foldl_cons, List.foldl_nil, displaced_scan]
    cases hd : data[i]? with
    | none => simp [List.filter_cons, qualifies, hd]
    | some e =>
      by_cases hq : e.1 ≤ t
      · simp [List.filter_cons, qualifies, hd, hq]
      · simp [List.filter_cons, qualifies, hd, hq]

theorem displaced_id_eq (q : cyclic_queue S) (t : S) :
    q.displaced_id t = (q.m_data[q.displaced_slot t]?).map Prod.snd := by
  unfold displaced_id displaced_slot scan_order
  simp only [← List.foldl_append]
  rw [foldl_displaced_scan]

theorem displaced_slot_lt (q : cyclic_queue S) (t : S) (h : q.m_index < q.m_data.length) :
    q.displaced_slot t < q.m_data.length := by
  unfold displaced_slot
  cases hl : ((scan_order q).filter (qualifies q.m_data t)).getLast? with
  | none => exact h
  | some i =>
    have hmem := List.mem_of_getLast?_eq_some hl
    rw [List.mem_filter] at hmem
    have h2 := hmem.2
    show i < q.m_data.length
    by_contra hge
    have h3 : q.m_data[i]? = none := List.getElem?_eq_none (by omega)
    simp [qualifies, h3] at h2

theorem insert_all_append (q : cyclic_queue S) (es : List (S × Nat)) (e : S × Nat) :
    insert_all q (es ++ [e]) = (insert_all q es).bind (fun q1 => q1.insert e.1 e.2) := by
  induction es generalizing q with
  | nil =>
    simp only [List.nil_append, insert_all, Option.some_bind]
    cases q.insert e.1 e.2 <;> simp
  | cons a es ih =>
    simp only [List.cons_append, insert_all]
    cases h : q.insert a.1 a.2 with
    | none => simp
    | some q1 => simp [ih]

theorem rotate_set_succ {α : Type} (l : List α) (i : Nat) (e : α) (h : i < l.length) :
    (l.set i e).rotate ((i + 1) % l.length) = (l.rotate i).tail ++ [e] := by
  obtain ⟨a, x, b, rfl, rfl⟩ : ∃ a x b, l = a ++ x :: b ∧ a.length = i := by
    refine ⟨l.take i, l[i], l.drop (i + 1), ?_, ?_⟩
    · rw [← List.drop_eq_getElem_cons h, List.take_append_drop]
    · simp; omega
  have h1 : (a ++ x :: b).set a.length e = a ++ e :: b := by simp
  have h2 : (a ++ x :: b).rotate a.length = x :: b ++ a := by
    rw [List.rotate_append_length_eq]
  rw [h1, h2]
  simp only [List.cons_append, List.tail_cons, List.length_append, List.length_cons]
  cases b with
  | nil =>
    simp
  | cons y b =>
    have h3 : (a.length + 1) % (a.length + ((y :: b).length + 1)) = a.length + 1 := by
      apply Nat.mod_eq_of_lt; simp
    rw [h3]
    have h4 : a ++ e :: y :: b = (a ++ [e]) ++ (y :: b) := by simp
    rw [h4]
    have h5 : a.length + 1 = (a ++ [e]).length := by simp
    rw [h5, List.rotate_append_length_eq]
    simp

end cyclic_queue
end pisa

namespace pisa

variable {S : Type} [LinearOrderedCommSemiring S]

namespace cyclic_queue

theorem last_insert_at_snoc (k : Nat) (es : List (S × Nat)) (e : S × Nat) (i : Nat) :
    last_insert_at k (es ++ [e]) i =
      if es.length % k = i then e else last_insert_at k es i := by
  unfold last_insert_at
  rw [List.length_append, List.length_singleton, List.range_succ, List.filter_append]
  by_cases h : es.length % k = i
  · have h1 : List.filter (fun j => decide (j % k = i)) [es.length] = [es.length] := by
      simp [h]
    rw [h1, List.getLast?_concat, if_pos h]
    simp
  · have h1 : List.filter (fun j => decide (j % k = i)) [es.length] = [] := by
      simp [h]
    rw [h1, List.append_nil, if_neg h]
    cases hl : ((List.range es.length).filter (fun j => j % k = i)).getLast? with
    | none => rfl
    | some j =>
      have hmem := List.mem_of_getLast?_eq_some hl
      rw [List.mem_filter, List.mem_range] at hmem
      show (es ++ [e]).getD j (0, 0) = es.getD j (0, 0)
      simp [List.getD_eq_getElem?_getD, List.getElem?_append_left hmem.1]

theorem insert_all_create_inv (k : Nat) (hk : 0 < k) (es : List (S × Nat)) :
    ∃ q : cyclic_queue S, insert_all (create k) es = some q ∧ q.m_k = k ∧ q.m_data.length = k ∧
      q.m_index = es.length % k ∧
      (∀ i, i < k → q.m_data[i]? = some (last_insert_at k es i)) ∧
      q.m_data.rotate q.m_index = (List.replicate k ((0 : S), 0) ++ es).drop es.length := by
  induction es using List.reverseRecOn with
  | nil =>
    refine ⟨create k, rfl, rfl, by simp [create], by simp [create], ?_, by simp [create]⟩
    intro i hi
    simp [create, last_insert_at, hi]
  | append_singleton es e ih =>
    obtain ⟨q, hq, hqk, hlen, hidx, hslot, hrot⟩ := ih
    have hlt : q.m_index < q.m_data.length := by
      rw [hidx, hlen]; exact Nat.mod_lt _ hk
    have hins : q.insert e.1 e.2 =
        some ⟨q.m_k, (q.m_index + 1) % q.m_k, q.m_data.set q.m_index (e.1, e.2)⟩ := by
      unfold insert
      rw [if_pos]
      exact ⟨hlt, by omega⟩
    refine ⟨⟨q.m_k, (q.m_index + 1) % q.m_k, q.m_data.set q.m_index (e.1, e.2)⟩, ?_, hqk, ?_,
      ?_, ?_, ?_⟩
    · rw [insert_all_append, hq, Option.some_bind, hins]
    · simp [hlen]
    · simp only [List.length_append, List.length_singleton]
      rw [hidx, hqk, Nat.mod_add_mod]
    · intro i hi
      rw [last_insert_at_snoc]
      simp only [List.getElem?_set]
      rw [hidx]
      by_cases h : es.length % k = i
      · simp [h, hlen, hi]
      · simp [h, hslot i hi]
    · show (q.m_data.set q.m_index (e.1, e.2)).rotate ((q.m_index + 1) % q.m_k) = _
      rw [← hqk] at hlen
      rw [← hlen, rotate_set_succ _ _ _ hlt, hrot]
      simp only [List.length_append, List.length_singleton]
      rw [List.tail_drop]
      have hle : es.length + 1 ≤ (List.replicate k ((0 : S), 0) ++ es).length := by
        rw [List.length_append, List.length_replicate]; omega
      have hdrop := @List.drop_append_of_le_length _ _ [e] _ hle
      rw [List.append_assoc] at hdrop
      rw [hdrop]

end cyclic_queue
end pisa

namespace pisa

variable {S : Type} [LinearOrderedCommSemiring S]

/-! ## Proofs: top-k selections -/

theorem is_topk_nil (k : Nat) : is_topk k ([] : List S) [] :=
  ⟨[], by simp, by simp, fun _ => rfl, by simp⟩

theorem is_topk_perm_right {k : Nat} {H L L2 : List S} (h : is_topk k H L) (hp : L.Perm L2) :
    is_topk k H L2 := by
  obtain ⟨R, h1, h2, h3, h4⟩ := h
  exact ⟨R, hp.symm.trans h1, h2, h3, h4⟩

theorem is_topk_perm_left {k : Nat} {H H2 L : List S} (h : is_topk k H L) (hp : H.Perm H2) :
    is_topk k H2 L := by
  obtain ⟨R, h1, h2, h3, h4⟩ := h
  refine ⟨R, h1.trans (hp.append_right R), by rw [← hp.length_eq]; exact h2,
    by rw [← hp.length_eq]; exact h3, ?_⟩
  intro h hh r hr
  exact h4 h (hp.symm.subset hh) r hr

theorem is_topk_push {k : Nat} {H L : List S} (x : S) (h : is_topk k H L) (hlt : H.length < k) :
    is_topk k (x :: H) (x :: L) := by
  obtain ⟨R, h1, h2, h3, h4⟩ := h
  have hR := h3 hlt
  subst hR
  exact ⟨[], by simpa using h1, by simpa using hlt, fun _ => rfl, by simp⟩

theorem is_topk_replace {k : Nat} {m x : S} {H0 L : List S} (h : is_topk k (m :: H0) L)
    (hfull : (m :: H0).length = k) (hmin : ∀ h ∈ H0, m ≤ h) (hx : m < x) :
    is_topk k (x :: H0) (x :: L) := by
  obtain ⟨R, h1, h2, h3, h4⟩ := h
  refine ⟨m :: R, ?_, by simpa using h2, ?_, ?_⟩
  · have : (x :: L).Perm (x :: (m :: H0 ++ R)) := h1.cons x
    refine this.trans ?_
    simp only [List.cons_append]
    refine List.Perm.cons x ?_
    exact (@List.perm_middle _ m H0 R).symm
  · intro hlt
    simp only [List.length_cons] at hlt hfull
    omega
  · intro h hh r hr
    rcases List.mem_cons.1 hr with hr | hr
    · subst hr
      rcases List.mem_cons.1 hh with hh | hh
      · subst hh; exact le_of_lt hx
      · exact hmin h hh
    · rcases List.mem_cons.1 hh with hh | hh
      · subst hh
        exact le_trans (h4 m (List.mem_cons_self _ _) r hr) (le_of_lt hx)
      · exact h4 h (List.mem_cons_of_mem _ hh) r hr

theorem is_topk_skip {k : Nat} {H L : List S} (x : S) (h : is_topk k H L) (hfull : H.length = k)
    (hx : ∀ h ∈ H, x ≤ h) : is_topk k H (x :: L) := by
  obtain ⟨R, h1, h2, h3, h4⟩ := h
  refine ⟨x :: R, ?_, h2, fun hlt => absurd hfull (Nat.ne_of_lt hlt), ?_⟩
  · exact (h1.cons x).trans (@List.perm_middle _ x H R).symm
  · intro h hh r hr
    rcases List.mem_cons.1 hr with hr | hr
    · subst hr; exact hx h hh
    · exact h4 h hh r hr

theorem sorted_insertionSort_ge (L : List S) :
    (L.insertionSort (fun a b => b ≤ a)).Sorted (fun a b => b ≤ a) := by
  haveI : IsTotal S (fun a b => b ≤ a) := ⟨fun a b => le_total b a⟩
  haveI : IsTrans S (fun a b => b ≤ a) := ⟨fun a b c hab hbc => le_trans hbc hab⟩
  exact List.sorted_insertionSort _ L

theorem is_topk_perm_best {k : Nat} {H L : List S} (h : is_topk k H L) :
    H.Perm (best k L) := by
  obtain ⟨R, h1, h2, h3, h4⟩ := h
  haveI : IsAntisymm S (fun a b => b ≤ a) := ⟨fun a b hab hba => le_antisymm hba hab⟩
  have hHs := sorted_insertionSort_ge H
  have hRs := sorted_insertionSort_ge R
  have hpH := List.perm_insertionSort (fun a b : S => b ≤ a) H
  have hpR := List.perm_insertionSort (fun a b : S => b ≤ a) R
  have hsorted : (H.insertionSort (fun a b => b ≤ a) ++ R.insertionSort (fun a b => b ≤ a)).Sorted
      (fun a b => b ≤ a) := by
    unfold List.Sorted
    rw [List.pairwise_append]
    refine ⟨hHs, hRs, ?_⟩
    intro a ha b hb
    exact h4 a (hpH.subset ha) b (hpR.subset hb)
  have hperm : (L.insertionSort (fun a b => b ≤ a)).Perm
      (H.insertionSort (fun a b => b ≤ a) ++ R.insertionSort (fun a b => b ≤ a)) :=
    ((List.perm_insertionSort _ L).trans h1).trans (hpH.symm.append hpR.symm)
  have heq := List.eq_of_perm_of_sorted hperm (sorted_insertionSort_ge L) hsorted
  unfold best
  rw [heq]
  have hlenH : (H.insertionSort (fun a b => b ≤ a)).length = H.length := hpH.length_eq
  rcases Nat.lt_or_ge H.length k with hlt | hge
  · have hR := h3 hlt
    subst hR
    simp only [List.insertionSort, List.append_nil]
    rw [List.take_of_length_le (by omega)]
    exact hpH.symm
  · have hk : k = (H.insertionSort (fun a b => b ≤ a)).length := by omega
    rw [hk, List.take_left']
    · exact hpH.symm
    · rfl

theorem map_fst_orderedInsert (e : S × Nat) (l : List (S × Nat)) :
    (List.orderedInsert (fun a b : S × Nat => b.1 ≤ a.1) e l).map Prod.fst =
      List.orderedInsert (fun a b : S => b ≤ a) e.1 (l.map Prod.fst) := by
  induction l with
  | nil => simp
  | cons b l ih =>
    simp only [List.orderedInsert, List.map_cons]
    by_cases h : b.1 ≤ e.1
    · simp [h]
    · simp [h, ih]

theorem map_fst_insertionSort (l : List (S × Nat)) :
    (l.insertionSort (fun a b : S × Nat => b.1 ≤ a.1)).map Prod.fst =
      (l.map Prod.fst).insertionSort (fun a b : S => b ≤ a) := by
  induction l with
  | nil => simp
  | cons b l ih =>
    simp only [List.insertionSort, List.map_cons]
    rw [map_fst_orderedInsert, ih]

end pisa

namespace pisa

variable {S : Type} [LinearOrderedCommSemiring S]

/-! ## Proofs: the bounded heap -/

namespace topk_queue

theorem heap_inv_create (k : Nat) : heap_inv (create k : topk_queue S) [] :=
  ⟨List.sorted_nil, is_topk_nil k⟩

theorem would_enter_eq_false (q : topk_queue S) (x : S) :
    q.would_enter x = false ↔ (q.m_k = 0 ∨ (q.m_k ≤ q.m_q.length ∧ x ≤ q.threshold)) := by
  unfold would_enter
  rw [decide_eq_false_iff_not]
  constructor
  · intro h
    by_cases hk : q.m_k = 0
    · exact Or.inl hk
    · right
      constructor
      · by_contra hlt
        exact h ⟨hk, Or.inl (by omega)⟩
      · by_contra hlt
        exact h ⟨hk, Or.inr (lt_of_not_le hlt)⟩
  · rintro (h | ⟨h1, h2⟩) ⟨hk, h3⟩
    · exact hk h
    · rcases h3 with h3 | h3
      · omega
      · exact absurd h2 (not_le_of_lt h3)

theorem would_enter_mono (q : topk_queue S) {x y : S} (hxy : x ≤ y)
    (h : q.would_enter x = true) : q.would_enter y = true := by
  unfold would_enter at h ⊢
  rw [decide_eq_true_iff] at h ⊢
  refine ⟨h.1, ?_⟩
  rcases h.2 with h2 | h2
  · exact Or.inl h2
  · exact Or.inr (lt_of_lt_of_le h2 hxy)

theorem would_enter_false_mono (q : topk_queue S) {x y : S} (hxy : x ≤ y)
    (h : q.would_enter y = false) : q.would_enter x = false := by
  cases hx : q.would_enter x with
  | false => rfl
  | true => rw [would_enter_mono q hxy hx] at h; exact absurd h (by decide)

theorem threshold_le_of_sorted (q : topk_queue S)
    (hs : q.m_q.Sorted (fun a b => a.1 ≤ b.1)) : ∀ h ∈ q.m_q.map Prod.fst, q.threshold ≤ h := by
  intro h hh
  unfold threshold
  cases hq : q.m_q with
  | nil => rw [hq] at hh; simp at hh
  | cons e tl =>
    rw [hq] at hh hs
    simp only [List.map_cons, List.mem_cons] at hh
    rcases hh with hh | hh
    · rw [hh]
    · obtain ⟨a, ha, rfl⟩ := List.mem_map.1 hh
      exact List.rel_of_sorted_cons hs a ha

theorem heap_absorb {q : topk_queue S} {L : List S} (x : S) (h : heap_inv q L)
    (hx : q.would_enter x = false) : heap_inv q (x :: L) := by
  refine ⟨h.1, ?_⟩
  have hlen : (q.m_q.map Prod.fst).length ≤ q.m_k := by
    obtain ⟨R, _, h2, _⟩ := h.2
    exact h2
  rw [would_enter_eq_false] at hx
  rw [List.length_map] at hlen
  rcases hx with hk | ⟨hfull, hle⟩
  · have hnil : q.m_q = [] := List.eq_nil_of_length_eq_zero (by omega)
    apply is_topk_skip x h.2
    · rw [hnil, hk]; rfl
    · rw [hnil]; simp
  · apply is_topk_skip x h.2
    · rw [List.length_map]; omega
    · intro y hy
      exact le_trans hle (threshold_le_of_sorted q h.1 y hy)

theorem heap_absorb_list {q : topk_queue S} {L : List S} (M : List S) (h : heap_inv q L)
    (hM : ∀ x ∈ M, q.would_enter x = false) : heap_inv q (M ++ L) := by
  induction M with
  | nil => exact h
  | cons x M ih =>
    exact heap_absorb x (ih (fun y hy => hM y (List.mem_cons_of_mem _ hy)))
      (hM x (List.mem_cons_self _ _))

theorem heap_inv_perm {q : topk_queue S} {L L2 : List S} (h : heap_inv q L) (hp : L.Perm L2) :
    heap_inv q L2 :=
  ⟨h.1, is_topk_perm_right h.2 hp⟩

theorem sorted_orderedInsert (e : S × Nat) (l : List (S × Nat))
    (hs : l.Sorted (fun a b => a.1 ≤ b.1)) :
    (List.orderedInsert (fun a b : S × Nat => a.1 ≤ b.1) e l).Sorted (fun a b => a.1 ≤ b.1) := by
  haveI : IsTotal (S × Nat) (fun a b => a.1 ≤ b.1) := ⟨fun a b => le_total a.1 b.1⟩
  haveI : IsTrans (S × Nat) (fun a b => a.1 ≤ b.1) := ⟨fun a b c hab hbc => le_trans hab hbc⟩
  exact hs.orderedInsert e l

theorem push_m_k (q : topk_queue S) (s : S) (d : Nat) : (q.push s d).m_k = q.m_k := by
  unfold push
  split <;> rfl

theorem insert_m_k (q : topk_queue S) (s : S) (d : Nat) : (q.insert s d).2.m_k = q.m_k := by
  unfold insert
  split
  · exact push_m_k q s d
  · rfl

theorem insert_of_not_would_enter (q : topk_queue S) (s : S) (d : Nat)
    (h : q.would_enter s = false) : (q.insert s d).2 = q := by
  unfold insert
  rw [h]
  rfl

theorem heap_insert {q : topk_queue S} {L : List S} (s : S) (d : Nat) (h : heap_inv q L) :
    heap_inv (q.insert s d).2 (s :: L) := by
  cases hw : q.would_enter s with
  | false =>
    rw [insert_of_not_would_enter q s d hw]
    exact heap_absorb s h hw
  | true =>
    have hins : (q.insert s d).2 = q.push s d := by
      unfold insert; rw [hw]; rfl
    rw [hins]
    have hlen : (q.m_q.map Prod.fst).length ≤ q.m_k := by
      obtain ⟨R, _, h2, _⟩ := h.2
      exact h2
    rw [List.length_map] at hlen
    unfold would_enter at hw
    rw [decide_eq_true_iff] at hw
    unfold push
    by_cases hlt : q.m_q.length < q.m_k
    · rw [if_pos hlt]
      refine ⟨sorted_orderedInsert _ _ h.1, ?_⟩
      show is_topk q.m_k _ _
      have hp := List.perm_orderedInsert (fun a b : S × Nat => a.1 ≤ b.1) (s, d) q.m_q
      have hp2 := (hp.map Prod.fst).symm
      exact is_topk_perm_left (is_topk_push s h.2 (by rw [List.length_map]; exact hlt)) hp2
    · rw [if_neg hlt]
      have hθ : q.threshold < s := by
        rcases hw.2 with h2 | h2
        · exact absurd h2 hlt
        · exact h2
      cases hq : q.m_q with
      | nil =>
        rw [hq] at hlt
        simp only [List.length_nil] at hlt
        exact absurd (Nat.pos_of_ne_zero hw.1) hlt
      | cons e tl =>
        have hs := h.1
        have ht := h.2
        rw [hq] at hs ht
        unfold threshold at hθ
        rw [hq] at hθ
        simp only at hθ
        refine ⟨sorted_orderedInsert _ _ hs.of_cons, ?_⟩
        show is_topk q.m_k _ _
        simp only [List.tail_cons]
        have hp := List.perm_orderedInsert (fun a b : S × Nat => a.1 ≤ b.1) (s, d) tl
        have hp2 := (hp.map Prod.fst).symm
        refine is_topk_perm_left (is_topk_replace (m := e.1) ht ?_ ?_ hθ) hp2
        · rw [hq] at hlen
          simp only [List.length_cons, List.length_map] at hlen ⊢
          rw [hq] at hlt
          simp only [List.length_cons] at hlt
          omega
        · intro y hy
          obtain ⟨a, ha, rfl⟩ := List.mem_map.1 hy
          exact List.rel_of_sorted_cons hs a ha

theorem threshold_orderedInsert_ge (e : S × Nat) (tl : List (S × Nat)) (θ : S)
    (he : θ ≤ e.1) (htl : ∀ a ∈ tl, θ ≤ a.1) (m_k : Nat) :
    θ ≤ (⟨m_k, List.orderedInsert (fun a b : S × Nat => a.1 ≤ b.1) e tl⟩ : topk_queue S).threshold := by
  unfold threshold
  cases tl with
  | nil => simpa using he
  | cons b tl =>
    simp only [List.orderedInsert]
    by_cases hb : e.1 ≤ b.1
    · simpa [hb] using he
    · simpa [hb] using htl b (List.mem_cons_self _ _)

theorem would_enter_insert {q : topk_queue S} {L : List S} (s : S) (d : Nat) (x : S)
    (h : heap_inv q L) (hx : q.would_enter x = false) :
    (q.insert s d).2.would_enter x = false := by
  cases hw : q.would_enter s with
  | false => rw [insert_of_not_would_enter q s d hw]; exact hx
  | true =>
    have hins : (q.insert s d).2 = q.push s d := by
      unfold insert; rw [hw]; rfl
    rw [hins]
    rw [would_enter_eq_false] at hx ⊢
    rw [push_m_k]
    rcases hx with hk | ⟨hfull, hle⟩
    · exact Or.inl hk
    · right
      have hlt : ¬ q.m_q.length < q.m_k := by omega
      unfold would_enter at hw
      rw [decide_eq_true_iff] at hw
      have hθ : q.threshold < s := by
        rcases hw.2 with h2 | h2
        · exact absurd h2 hlt
        · exact h2
      unfold push
      rw [if_neg hlt]
      cases hq : q.m_q with
      | nil =>
        rw [hq] at hfull
        simp only [List.length_nil] at hfull
        exact absurd (Nat.pos_of_ne_zero hw.1) (by omega)
      | cons e tl =>
        have hs := h.1
        rw [hq] at hs hfull
        unfold threshold at hθ hle
        rw [hq] at hθ hle
        simp only at hθ hle
        simp only [List.tail_cons]
        constructor
        · rw [List.orderedInsert_length]
          simp only [List.length_cons] at hfull
          exact hfull
        · refine le_trans hle (threshold_orderedInsert_ge _ _ _ (le_of_lt hθ) ?_ _)
          intro a ha
          exact List.rel_of_sorted_cons hs a ha

theorem insert_with_eviction_fst (q : topk_queue S) (s : S) (d : Nat) :
    (q.insert_with_eviction s d).1 = (q.insert s d).1 := by
  unfold insert_with_eviction insert
  split
  · split
    · rfl
    · split <;> rfl
  · rfl

theorem insert_with_eviction_heap (q : topk_queue S) (s : S) (d : Nat) :
    (q.insert_with_eviction s d).2.2.2 = (q.insert s d).2 := by
  unfold insert_with_eviction insert
  split
  · split
    · rfl
    · split <;> rfl
  · rfl

end topk_queue

end pisa

namespace pisa

variable {S : Type} [LinearOrderedCommSemiring S]

namespace Cursor

/-! ## Proofs: cursors -/

theorem behind_append_ahead (c : Cursor S) : c.behind ++ c.ahead = c.postings :=
  List.take_append_drop _ _

theorem drop_length_takeWhile {α : Type} (p : α → Bool) (l : List α) :
    l.drop (l.takeWhile p).length = l.dropWhile p := by
  induction l with
  | nil => rfl
  | cons a l ih =>
    rw [List.takeWhile_cons, List.dropWhile_cons]
    cases hp : p a
    · simp
    · simpa using ih

theorem take_length_takeWhile {α : Type} (p : α → Bool) (l : List α) :
    l.take (l.takeWhile p).length = l.takeWhile p := by
  induction l with
  | nil => rfl
  | cons a l ih =>
    rw [List.takeWhile_cons]
    cases hp : p a
    · simp
    · simpa using ih

theorem docid_eq (c : Cursor S) :
    c.docid = match c.ahead with
      | [] => c.m_universe
      | p :: _ => p.1 := by
  unfold docid ahead
  rw [← List.head?_drop]
  cases c.postings.drop c.m_pos <;> rfl

theorem score_eq (c : Cursor S) :
    c.score = match c.ahead with
      | [] => 0
      | p :: _ => p.2 := by
  unfold score ahead
  rw [← List.head?_drop]
  cases c.postings.drop c.m_pos <;> rfl

theorem ahead_next (c : Cursor S) : c.next.ahead = c.ahead.tail := by
  unfold next ahead
  simp only [List.tail_drop]

theorem ahead_next_geq (c : Cursor S) (d : Nat) :
    (c.next_geq d).ahead = c.ahead.dropWhile (fun p => p.1 < d) := by
  unfold next_geq ahead
  simp only
  rw [← List.drop_drop, drop_length_takeWhile]

theorem behind_next_geq (c : Cursor S) (d : Nat) :
    (c.next_geq d).behind = c.behind ++ c.ahead.takeWhile (fun p => p.1 < d) := by
  unfold next_geq ahead behind
  simp only
  rw [List.take_add, take_length_takeWhile]

theorem behind_next (c : Cursor S) : c.next.behind = c.behind ++ c.ahead.take 1 := by
  unfold next ahead behind
  simp only
  rw [List.take_add]

theorem ok_next (md : Nat) (c : Cursor S) : c.next.ok md ↔ c.ok md := Iff.rfl

theorem ok_next_geq (md : Nat) (c : Cursor S) (d : Nat) : (c.next_geq d).ok md ↔ c.ok md :=
  Iff.rfl

theorem ok_reset (md : Nat) (c : Cursor S) : c.reset.ok md ↔ c.ok md := Iff.rfl

theorem reset_next (c : Cursor S) : c.next.reset = c.reset := rfl

theorem reset_next_geq (c : Cursor S) (d : Nat) : (c.next_geq d).reset = c.reset := rfl

theorem ok_of_well_formed {md : Nat} {c : Cursor S} (h : well_formed_cursor md c) : c.ok md :=
  h.2

theorem reset_of_well_formed {md : Nat} {c : Cursor S} (h : well_formed_cursor md c) :
    c.reset = c := by
  have := h.1
  cases c
  simp only [reset] at *
  subst this
  rfl

theorem ahead_sorted {md : Nat} {c : Cursor S} (h : c.ok md) :
    (c.ahead.map Prod.fst).Pairwise (fun a b => a < b) := by
  have h2 := h.2.1
  rw [← behind_append_ahead c, List.map_append, List.pairwise_append] at h2
  exact h2.2.1

theorem behind_lt_ahead {md : Nat} {c : Cursor S} (h : c.ok md) :
    ∀ a ∈ c.behind.map Prod.fst, ∀ b ∈ c.ahead.map Prod.fst, a < b := by
  have h2 := h.2.1
  rw [← behind_append_ahead c, List.map_append, List.pairwise_append] at h2
  exact h2.2.2

theorem mem_ahead_postings {c : Cursor S} {p : Nat × S} (h : p ∈ c.ahead) : p ∈ c.postings :=
  List.mem_of_mem_drop h

theorem docid_le_of_mem_ahead {md : Nat} {c : Cursor S} (h : c.ok md) {d : Nat}
    (hd : d ∈ c.ahead.map Prod.fst) : c.docid ≤ d ∧ d < md := by
  have hs := ahead_sorted h
  rw [docid_eq]
  obtain ⟨p, hp, rfl⟩ := List.mem_map.1 hd
  refine ⟨?_, (h.2.2 p (mem_ahead_postings hp)).1⟩
  cases ha : c.ahead with
  | nil => rw [ha] at hp; simp at hp
  | cons q tl =>
    rw [ha] at hp hs
    simp only [List.map_cons, List.pairwise_cons] at hs
    rcases List.mem_cons.1 hp with hp | hp
    · rw [hp]
    · exact le_of_lt (hs.1 p.1 (List.mem_map_of_mem _ hp))

theorem docid_le_universe {md : Nat} {c : Cursor S} (h : c.ok md) : c.docid ≤ md := by
  rw [docid_eq]
  cases ha : c.ahead with
  | nil => simp only; rw [h.1]
  | cons q tl =>
    have : q ∈ c.ahead := by rw [ha]; exact List.mem_cons_self _ _
    exact le_of_lt (h.2.2 q (mem_ahead_postings this)).1

theorem ahead_of_live {md : Nat} {c : Cursor S} (h : c.ok md) (hl : c.docid < md) :
    c.ahead = (c.docid, c.score) :: c.next.ahead := by
  rw [ahead_next, docid_eq, score_eq]
  cases ha : c.ahead with
  | nil =>
    rw [docid_eq, ha] at hl
    simp only at hl
    rw [h.1] at hl
    exact absurd hl (lt_irrefl _)
  | cons q tl => rfl

theorem mem_ahead_of_live {md : Nat} {c : Cursor S} (h : c.ok md) (hl : c.docid < md) :
    c.docid ∈ c.ahead.map Prod.fst := by
  rw [ahead_of_live h hl]
  simp

theorem seen_iff_mem (c : Cursor S) (d : Nat) : c.seen d = true ↔ d ∈ c.behind.map Prod.fst := by
  unfold seen
  rw [decide_eq_true_iff]

theorem mem_postings_iff (c : Cursor S) (d : Nat) :
    d ∈ c.postings.map Prod.fst ↔ (c.seen d = true ∨ d ∈ c.ahead.map Prod.fst) := by
  rw [seen_iff_mem, ← List.mem_append, ← List.map_append, behind_append_ahead]

theorem not_seen_of_mem_ahead {md : Nat} {c : Cursor S} (h : c.ok md) {d : Nat}
    (hd : d ∈ c.ahead.map Prod.fst) : c.seen d = false := by
  cases hs : c.seen d with
  | false => rfl
  | true =>
    rw [seen_iff_mem] at hs
    exact absurd (behind_lt_ahead h d hs d hd) (lt_irrefl _)

theorem seen_next {md : Nat} {c : Cursor S} (h : c.ok md) (hl : c.docid < md) (d : Nat) :
    c.next.seen d = true ↔ (c.seen d = true ∨ d = c.docid) := by
  rw [seen_iff_mem, seen_iff_mem, behind_next, ahead_of_live h hl]
  simp [List.mem_append]

theorem mem_takeWhile_lt {md : Nat} {c : Cursor S} (h : c.ok md) (t d : Nat) :
    d ∈ (c.ahead.takeWhile (fun p => p.1 < t)).map Prod.fst ↔
      (d ∈ c.ahead.map Prod.fst ∧ d < t) := by
  have hs := ahead_sorted h
  generalize c.ahead = l at hs
  induction l with
  | nil => simp
  | cons q tl ih =>
    simp only [List.map_cons, List.pairwise_cons] at hs
    rw [List.takeWhile_cons]
    have ih2 := ih hs.2
    by_cases hq : q.1 < t
    · rw [if_pos (decide_eq_true hq)]
      simp only [List.map_cons, List.mem_cons]
      constructor
      · rintro (h1 | h1)
        · exact ⟨Or.inl h1, h1 ▸ hq⟩
        · exact ⟨Or.inr (ih2.1 h1).1, (ih2.1 h1).2⟩
      · rintro ⟨h1 | h1, h2⟩
        · exact Or.inl h1
        · exact Or.inr (ih2.2 ⟨h1, h2⟩)
    · have hq3 : ¬ (decide (q.1 < t) = true) := by simpa using hq
      rw [if_neg hq3]
      simp only [List.map_nil, List.not_mem_nil, false_iff, not_and, List.map_cons,
        List.mem_cons, not_lt]
      have hq2 : t ≤ q.1 := not_lt.1 hq
      rintro (h1 | h1)
      · rw [h1]; exact hq2
      · exact le_trans hq2 (le_of_lt (hs.1 d h1))

theorem seen_next_geq {md : Nat} {c : Cursor S} (h : c.ok md) (t d : Nat) :
    (c.next_geq t).seen d = true ↔ (c.seen d = true ∨ (d ∈ c.ahead.map Prod.fst ∧ d < t)) := by
  rw [seen_iff_mem, seen_iff_mem, behind_next_geq, List.map_append, List.mem_append,
    mem_takeWhile_lt h]

theorem mem_ahead_next_geq {md : Nat} {c : Cursor S} (h : c.ok md) (t d : Nat) :
    d ∈ (c.next_geq t).ahead.map Prod.fst ↔ (d ∈ c.ahead.map Prod.fst ∧ t ≤ d) := by
  have h1 := mem_postings_iff (c.next_geq t) d
  have h2 := mem_postings_iff c d
  have h3 := seen_next_geq h t d
  have hns := @not_seen_of_mem_ahead S _ md (c.next_geq t) h d
  have hns2 := @not_seen_of_mem_ahead S _ md c h d
  have hp : (c.next_geq t).postings = c.postings := rfl
  rw [hp] at h1
  constructor
  · intro hd
    have hn := hns hd
    have hpost := h1.2 (Or.inr hd)
    rcases h2.1 hpost with hs | ha
    · have := h3.2 (Or.inl hs)
      rw [hn] at this
      exact absurd this (by decide)
    · refine ⟨ha, ?_⟩
      by_contra hlt
      have := h3.2 (Or.inr ⟨ha, not_le.1 hlt⟩)
      rw [hn] at this
      exact absurd this (by decide)
  · rintro ⟨ha, hle⟩
    have hpost := h2.2 (Or.inr ha)
    rcases h1.1 hpost with hs | ha2
    · rcases h3.1 hs with hs2 | ⟨_, hlt⟩
      · rw [hns2 ha] at hs2
        exact absurd hs2 (by decide)
      · omega
    · exact ha2

theorem mem_ahead_next {md : Nat} {c : Cursor S} (h : c.ok md) (hl : c.docid < md) (d : Nat) :
    d ∈ c.next.ahead.map Prod.fst ↔ (d ∈ c.ahead.map Prod.fst ∧ d ≠ c.docid) := by
  have hs := ahead_sorted h
  rw [ahead_of_live h hl] at hs ⊢
  simp only [List.map_cons, List.pairwise_cons, List.mem_cons] at hs ⊢
  constructor
  · intro hd
    exact ⟨Or.inr hd, Nat.ne_of_gt (hs.1 d hd)⟩
  · rintro ⟨h1 | h1, h2⟩
    · exact absurd h1 h2
    · exact h1

theorem docid_next_geq_ge {md : Nat} {c : Cursor S} (h : c.ok md) (t : Nat) (ht : t ≤ md) :
    t ≤ (c.next_geq t).docid := by
  rw [docid_eq, ahead_next_geq]
  cases hd : c.ahead.dropWhile (fun p => decide (p.1 < t)) with
  | nil => simp only; rw [show (c.next_geq t).m_universe = c.m_universe from rfl, h.1]; exact ht
  | cons q tl =>
    simp only
    have := List.head?_dropWhile_not (fun p : Nat × S => decide (p.1 < t)) c.ahead
    rw [hd] at this
    simp only [List.head?_cons, Option.some.injEq] at this
    simpa using this

theorem docid_le_next_geq {md : Nat} {c : Cursor S} (h : c.ok md) (t : Nat) :
    c.docid ≤ (c.next_geq t).docid := by
  have hok : (c.next_geq t).ok md := h
  rw [docid_eq (c.next_geq t)]
  cases hd : (c.next_geq t).ahead with
  | nil =>
    simp only
    rw [show (c.next_geq t).m_universe = c.m_universe from rfl, h.1]
    exact docid_le_universe h
  | cons q tl =>
    simp only
    have hq : q.1 ∈ (c.next_geq t).ahead.map Prod.fst := by rw [hd]; simp
    rw [mem_ahead_next_geq h] at hq
    exact (docid_le_of_mem_ahead h hq.1).1

theorem docid_lt_next {md : Nat} {c : Cursor S} (h : c.ok md) (hl : c.docid < md) :
    c.docid < c.next.docid := by
  have hs := ahead_sorted h
  rw [ahead_of_live h hl] at hs
  rw [docid_eq c.next]
  cases hd : c.next.ahead with
  | nil => simp only; rw [show c.next.m_universe = c.m_universe from rfl, h.1]; exact hl
  | cons q tl =>
    rw [hd] at hs
    simp only [List.map_cons, List.pairwise_cons, List.mem_cons] at hs
    exact hs.1 q.1 (Or.inl rfl)

theorem left_next {md : Nat} {c : Cursor S} (h : c.ok md) (hl : c.docid < md) :
    c.next.left + 1 = c.left := by
  have h1 := ahead_of_live h hl
  have h2 : c.ahead.length = c.left := by unfold ahead left; simp
  have h3 : c.next.ahead.length = c.next.left := by unfold ahead left; simp
  rw [h1] at h2
  simp only [List.length_cons] at h2
  omega

theorem left_next_geq_le (c : Cursor S) (t : Nat) : (c.next_geq t).left ≤ c.left := by
  unfold next_geq left
  simp only
  omega

theorem left_next_geq_lt {md : Nat} {c : Cursor S} (h : c.ok md) (t : Nat) (hl : c.docid < md)
    (ht : c.docid < t) : (c.next_geq t).left < c.left := by
  have h1 := ahead_of_live h hl
  unfold next_geq left
  simp only
  have h4 : c.postings.drop c.m_pos = c.ahead := rfl
  rw [h4, h1, List.takeWhile_cons]
  simp only [ht, decide_True, if_true, List.length_cons]
  have h2 : c.ahead.length = c.postings.length - c.m_pos := by unfold ahead; simp
  rw [h1] at h2
  simp only [List.length_cons] at h2
  omega

end Cursor

end pisa

namespace pisa

variable {S : Type} [LinearOrderedCommSemiring S]

/-! ## Proofs: scores of a query -/

theorem list_score_nonneg {md : Nat} {c : Cursor S} (h : c.ok md) (d : Nat) :
    0 ≤ list_score c d := by
  unfold list_score
  cases hf : c.postings.find? (fun p => decide (p.1 = d)) with
  | none => exact le_refl _
  | some p => exact (h.2.2 p (List.mem_of_find?_eq_some hf)).2.1

theorem list_score_le_max {md : Nat} {c : Cursor S} (h : c.ok md) (hl : c.docid < md) (d : Nat) :
    list_score c d ≤ c.max_score := by
  unfold list_score
  cases hf : c.postings.find? (fun p => decide (p.1 = d)) with
  | none =>
    have h1 := Cursor.ahead_of_live h hl
    have h2 : (c.docid, c.score) ∈ c.postings :=
      Cursor.mem_ahead_postings (by rw [h1]; exact List.mem_cons_self _ _)
    have h3 := h.2.2 _ h2
    exact le_trans h3.2.1 h3.2.2
  | some p => exact (h.2.2 p (List.mem_of_find?_eq_some hf)).2.2

theorem list_score_eq_zero {c : Cursor S} {d : Nat} (h : d ∉ c.postings.map Prod.fst) :
    list_score c d = 0 := by
  unfold list_score
  cases hf : c.postings.find? (fun p => decide (p.1 = d)) with
  | none => rfl
  | some p =>
    exfalso
    apply h
    have h1 := List.mem_of_find?_eq_some hf
    have h2 := List.find?_some hf
    simp only [decide_eq_true_eq] at h2
    exact List.mem_map.2 ⟨p, h1, h2⟩

theorem list_score_of_docid {md : Nat} {c : Cursor S} (h : c.ok md) (hl : c.docid < md) :
    list_score c c.docid = c.score := by
  unfold list_score
  have h1 := Cursor.ahead_of_live h hl
  have h2 := Cursor.behind_lt_ahead h
  rw [← Cursor.behind_append_ahead c, List.find?_append]
  have h3 : c.behind.find? (fun p => decide (p.1 = c.docid)) = none := by
    rw [List.find?_eq_none]
    intro p hp
    simp only [decide_eq_true_eq]
    have := h2 p.1 (List.mem_map_of_mem _ hp) c.docid (Cursor.mem_ahead_of_live h hl)
    omega
  rw [h3, h1]
  simp

theorem list_score_eq_zero_of_lt {md : Nat} {c : Cursor S} (h : c.ok md) {d : Nat}
    (hs : c.seen d = false) (hd : d < c.docid) : list_score c d = 0 := by
  apply list_score_eq_zero
  rw [Cursor.mem_postings_iff]
  rintro (h1 | h1)
  · rw [hs] at h1; exact absurd h1 (by decide)
  · have := (Cursor.docid_le_of_mem_ahead h h1).1
    omega

theorem mem_all_docids (cs : List (Cursor S)) (d : Nat) :
    d ∈ all_docids cs ↔ ∃ c ∈ cs, d ∈ c.postings.map Prod.fst := by
  unfold all_docids
  rw [List.mem_dedup, List.mem_flatMap]

theorem nodup_all_docids (cs : List (Cursor S)) : (all_docids cs).Nodup :=
  List.nodup_dedup _

theorem seen_iff (cs : List (Cursor S)) (d : Nat) :
    seen cs d = true ↔ ∃ c ∈ cs, c.seen d = true := by
  unfold seen
  rw [List.any_eq_true]

theorem seen_perm {cs cs2 : List (Cursor S)} (h : cs.Perm cs2) (d : Nat) :
    seen cs d = seen cs2 d := by
  rw [Bool.eq_iff_iff, seen_iff, seen_iff]
  constructor
  · rintro ⟨c, hc, hs⟩; exact ⟨c, h.subset hc, hs⟩
  · rintro ⟨c, hc, hs⟩; exact ⟨c, h.symm.subset hc, hs⟩

theorem tracks_ok {md : Nat} {cursors cs : List (Cursor S)} (hwf : well_formed md cursors)
    (ht : tracks cursors cs) : ∀ c ∈ cs, c.ok md := by
  intro c hc
  have h1 : c.home ∈ cursors.map Cursor.home := ht.subset (List.mem_map_of_mem _ hc)
  obtain ⟨c0, hc0, he⟩ := List.mem_map.1 h1
  have h2 : c0.ok md := (hwf _ hc0).2
  have h3 : c0.home.ok md := h2
  rw [he] at h3
  exact h3

theorem tracks_score {cursors cs : List (Cursor S)} (ht : tracks cursors cs) (d : Nat) :
    exhaustive_score cursors d = (cs.map (fun c => list_score c d)).sum := by
  unfold exhaustive_score
  have h1 := (ht.map (fun c => list_score c d)).sum_eq
  rw [List.map_map, List.map_map] at h1
  exact h1.symm

theorem tracks_mem_all_docids {cursors cs : List (Cursor S)} (ht : tracks cursors cs) (d : Nat) :
    d ∈ all_docids cursors ↔ ∃ c ∈ cs, d ∈ c.postings.map Prod.fst := by
  rw [mem_all_docids]
  constructor
  · rintro ⟨c, hc, hd⟩
    obtain ⟨c2, hc2, he⟩ := List.mem_map.1 (ht.symm.subset (List.mem_map_of_mem _ hc))
    refine ⟨c2, hc2, ?_⟩
    have : c2.home.postings = c.home.postings := by rw [he]
    exact this ▸ hd
  · rintro ⟨c, hc, hd⟩
    obtain ⟨c2, hc2, he⟩ := List.mem_map.1 (ht.subset (List.mem_map_of_mem _ hc))
    refine ⟨c2, hc2, ?_⟩
    have : c2.home.postings = c.home.postings := by rw [he]
    exact this ▸ hd

theorem tracks_perm {cursors cs cs2 : List (Cursor S)} (ht : tracks cursors cs)
    (hp : cs2.Perm cs) : tracks cursors cs2 :=
  (hp.map Cursor.home).trans ht

theorem tracks_of_map_home_eq {cursors cs cs2 : List (Cursor S)} (ht : tracks cursors cs)
    (hp : cs2.map Cursor.home = cs.map Cursor.home) : tracks cursors cs2 := by
  unfold tracks at *
  rw [hp]
  exact ht

theorem tracks_self (cursors : List (Cursor S)) : tracks cursors cursors :=
  List.Perm.refl _

theorem sum_list_score_nonneg {md : Nat} {cs : List (Cursor S)} (hok : ∀ c ∈ cs, c.ok md)
    (d : Nat) : 0 ≤ (cs.map (fun c => list_score c d)).sum := by
  apply List.sum_nonneg
  intro x hx
  obtain ⟨c, hc, rfl⟩ := List.mem_map.1 hx
  exact list_score_nonneg (hok c hc) d

theorem sum_list_score_eq_zero {cs : List (Cursor S)} {d : Nat}
    (h : ∀ c ∈ cs, list_score c d = 0) : (cs.map (fun c => list_score c d)).sum = 0 := by
  induction cs with
  | nil => rfl
  | cons c cs ih =>
    simp only [List.map_cons, List.sum_cons]
    rw [h c (List.mem_cons_self _ _), ih (fun c2 hc2 => h c2 (List.mem_cons_of_mem _ hc2))]
    simp

theorem sum_list_score_le_sum_max {md : Nat} {cs : List (Cursor S)} (hok : ∀ c ∈ cs, c.ok md)
    (hl : ∀ c ∈ cs, c.docid < md) (d : Nat) :
    (cs.map (fun c => list_score c d)).sum ≤ sum_max cs := by
  unfold sum_max
  induction cs with
  | nil => exact le_refl _
  | cons c cs ih =>
    simp only [List.map_cons, List.sum_cons]
    exact add_le_add (list_score_le_max (hok c (List.mem_cons_self _ _))
      (hl c (List.mem_cons_self _ _)) d)
      (ih (fun c2 hc2 => hok c2 (List.mem_cons_of_mem _ hc2))
        (fun c2 hc2 => hl c2 (List.mem_cons_of_mem _ hc2)))

/-- The bound used by every pruning argument: if the cursors split into `A ++ B`, every
cursor of `A` is live and no list of `B` contributes to `d`, the exhaustive score of `d` is at
most the sum of the `max_score()` of `A`. -/
theorem score_le_sum_max {md : Nat} {A B : List (Cursor S)} (hok : ∀ c ∈ A ++ B, c.ok md)
    (hl : ∀ c ∈ A, c.docid < md) {d : Nat} (hB : ∀ c ∈ B, list_score c d = 0) :
    ((A ++ B).map (fun c => list_score c d)).sum ≤ sum_max A := by
  rw [List.map_append, List.sum_append, sum_list_score_eq_zero hB, add_zero]
  exact sum_list_score_le_sum_max (fun c hc => hok c (List.mem_append_left _ hc)) hl d

end pisa

namespace pisa

variable {S : Type} [LinearOrderedCommSemiring S]

/-! ## Proofs: the pieces of the loop bodies -/

theorem sum_max_cons (c : Cursor S) (cs : List (Cursor S)) :
    sum_max (c :: cs) = c.max_score + sum_max cs := by
  unfold sum_max
  simp

theorem sum_max_nil : sum_max ([] : List (Cursor S)) = 0 := rfl

theorem find_pivot_some {q : topk_queue S} {md : Nat} :
    ∀ (cs : List (Cursor S)) (ub : S) (i p : Nat), find_pivot q md cs ub i = some p →
      ∃ n, p = i + n ∧ n < cs.length ∧ (∀ c ∈ cs.take (n + 1), c.docid < md) ∧
        q.would_enter (ub + sum_max (cs.take (n + 1))) = true ∧
        ∀ m, 1 ≤ m → m ≤ n → q.would_enter (ub + sum_max (cs.take m)) = false := by
  intro cs
  induction cs with
  | nil => intro ub i p h; simp [find_pivot] at h
  | cons c cs ih =>
    intro ub i p h
    unfold find_pivot at h
    by_cases hmd : md ≤ c.docid
    · rw [if_pos hmd] at h; exact absurd h (by simp)
    · rw [if_neg hmd] at h
      cases hw : q.would_enter (ub + c.max_score) with
      | true =>
        rw [hw] at h
        simp only [if_true, Option.some.injEq] at h
        refine ⟨0, by omega, by simp, ?_, ?_, ?_⟩
        · intro c2 hc2
          simp only [Nat.zero_add, List.take_succ_cons, List.take_zero, List.mem_singleton] at hc2
          rw [hc2]; omega
        · simp only [Nat.zero_add, List.take_succ_cons, List.take_zero, sum_max_cons, sum_max_nil,
            add_zero]
          exact hw
        · intro m h1 h2; omega
      | false =>
        rw [hw] at h
        simp only [Bool.false_eq_true, if_false] at h
        obtain ⟨n, hp, hn, hlive, hent, hnot⟩ := ih _ _ _ h
        refine ⟨n + 1, by omega, by simp; omega, ?_, ?_, ?_⟩
        · intro c2 hc2
          rw [List.take_succ_cons] at hc2
          rcases List.mem_cons.1 hc2 with h1 | h1
          · rw [h1]; omega
          · exact hlive c2 h1
        · rw [List.take_succ_cons, sum_max_cons, ← add_assoc]
          exact hent
        · intro m h1 h2
          obtain ⟨m2, rfl⟩ : ∃ m2, m = m2 + 1 := ⟨m - 1, by omega⟩
          rw [List.take_succ_cons, sum_max_cons, ← add_assoc]
          by_cases hm2 : m2 = 0
          · subst hm2
            simpa [sum_max_nil] using hw
          · exact hnot m2 (by omega) (by omega)

theorem find_pivot_none {q : topk_queue S} {md : Nat} :
    ∀ (cs : List (Cursor S)) (ub : S) (i : Nat), find_pivot q md cs ub i = none →
      ∀ m, 1 ≤ m → m ≤ cs.length → (∀ c ∈ cs.take m, c.docid < md) →
        q.would_enter (ub + sum_max (cs.take m)) = false := by
  intro cs
  induction cs with
  | nil => intro ub i h m h1 h2; simp at h2; omega
  | cons c cs ih =>
    intro ub i h m h1 h2 hlive
    obtain ⟨m2, rfl⟩ : ∃ m2, m = m2 + 1 := ⟨m - 1, by omega⟩
    rw [List.take_succ_cons] at hlive ⊢
    have hc : c.docid < md := hlive c (List.mem_cons_self _ _)
    unfold find_pivot at h
    rw [if_neg (by omega)] at h
    cases hw : q.would_enter (ub + c.max_score) with
    | true => rw [hw] at h; simp at h
    | false =>
      rw [hw] at h
      simp only [Bool.false_eq_true, if_false] at h
      rw [sum_max_cons, ← add_assoc]
      by_cases hm2 : m2 = 0
      · subst hm2
        simpa [sum_max_nil] using hw
      · exact ih _ _ h m2 (by omega) (by simpa using h2)
          (fun c2 hc2 => hlive c2 (List.mem_cons_of_mem _ hc2))

theorem score_front_eq (pid : Nat) (cs : List (Cursor S)) (acc : S) :
    score_front pid cs acc =
      (acc + ((cs.takeWhile (fun c => decide (c.docid = pid))).map Cursor.score).sum,
       (cs.takeWhile (fun c => decide (c.docid = pid))).map Cursor.next ++
         cs.dropWhile (fun c => decide (c.docid = pid))) := by
  induction cs generalizing acc with
  | nil => simp [score_front]
  | cons c cs ih =>
    unfold score_front
    by_cases h : c.docid = pid
    · have h2 : ¬ (c.docid ≠ pid) := by simpa using h
      rw [if_neg h2, ih]
      simp [List.takeWhile_cons, List.dropWhile_cons, h, add_assoc]
    · rw [if_pos h]
      simp [List.takeWhile_cons, List.dropWhile_cons, h]

theorem walk_back_spec (cs : List (Cursor S)) (pid : Nat) :
    ∀ (p i : Nat), walk_back cs pid p = some i →
      i ≤ p ∧ ∃ c, cs[i]? = some c ∧ c.docid ≠ pid := by
  intro p
  induction p with
  | zero =>
    intro i h
    unfold walk_back at h
    cases hc : cs[0]? with
    | none => rw [hc] at h; simp at h
    | some c =>
      rw [hc] at h
      simp only at h
      by_cases hd : c.docid = pid
      · rw [if_pos hd] at h; simp at h
      · rw [if_neg hd] at h
        simp only [Option.some.injEq] at h
        subst h
        exact ⟨le_refl _, c, hc, hd⟩
  | succ p ih =>
    intro i h
    unfold walk_back at h
    cases hc : cs[p + 1]? with
    | none => rw [hc] at h; simp at h
    | some c =>
      rw [hc] at h
      simp only at h
      by_cases hd : c.docid = pid
      · rw [if_pos hd] at h
        obtain ⟨h1, h2⟩ := ih i h
        exact ⟨by omega, h2⟩
      · rw [if_neg hd] at h
        simp only [Option.some.injEq] at h
        subst h
        exact ⟨le_refl _, c, hc, hd⟩

theorem walk_back_exists (cs : List (Cursor S)) (pid : Nat) :
    ∀ (p : Nat), p < cs.length → (∃ j, j ≤ p ∧ ∃ c, cs[j]? = some c ∧ c.docid ≠ pid) →
      ∃ i, walk_back cs pid p = some i := by
  intro p
  induction p with
  | zero =>
    rintro hp ⟨j, hj, c, hc, hd⟩
    have : j = 0 := by omega
    subst this
    unfold walk_back
    rw [hc]
    simp only
    rw [if_neg hd]
    exact ⟨0, rfl⟩
  | succ p ih =>
    rintro hp ⟨j, hj, c, hc, hd⟩
    unfold walk_back
    rw [List.getElem?_eq_getElem hp]
    simp only
    by_cases hd2 : cs[p + 1].docid = pid
    · rw [if_pos hd2]
      apply ih (by omega)
      refine ⟨j, ?_, c, hc, hd⟩
      by_contra hlt
      have : j = p + 1 := by omega
      subst this
      rw [List.getElem?_eq_getElem hp] at hc
      simp only [Option.some.injEq] at hc
      subst hc
      exact hd hd2
    · rw [if_neg hd2]
      exact ⟨p + 1, rfl⟩

theorem bubble_cons (b : Bool) (c d : Cursor S) (rest : List (Cursor S)) :
    bubble b c (d :: rest) =
      if (if b then decide (d.docid ≤ c.docid) else decide (d.docid < c.docid)) = true then
        d :: bubble b c rest
      else c :: d :: rest := rfl

theorem bubble_perm (b : Bool) (c : Cursor S) (l : List (Cursor S)) :
    (bubble b c l).Perm (c :: l) := by
  induction l with
  | nil => exact List.Perm.refl _
  | cons d rest ih =>
    rw [bubble_cons]
    by_cases hcond : (if b then decide (d.docid ≤ c.docid) else decide (d.docid < c.docid)) = true
    · rw [if_pos hcond]
      exact (ih.cons d).trans (List.Perm.swap c d rest)
    · rw [if_neg hcond]

theorem bubble_sorted (b : Bool) (c : Cursor S) (l : List (Cursor S))
    (hs : l.Pairwise (fun x y => x.docid ≤ y.docid)) :
    (bubble b c l).Pairwise (fun x y => x.docid ≤ y.docid) := by
  induction l with
  | nil => simp [bubble]
  | cons d rest ih =>
    rw [List.pairwise_cons] at hs
    rw [bubble_cons]
    by_cases hcond : (if b then decide (d.docid ≤ c.docid) else decide (d.docid < c.docid)) = true
    · rw [if_pos hcond]
      have hdc : d.docid ≤ c.docid := by
        cases b
        · simp only [Bool.false_eq_true, if_false, decide_eq_true_eq] at hcond; omega
        · simp only [if_true, decide_eq_true_eq] at hcond; exact hcond
      rw [List.pairwise_cons]
      refine ⟨?_, ih hs.2⟩
      intro x hx
      rcases List.mem_cons.1 ((bubble_perm b c rest).subset hx) with h1 | h1
      · rw [h1]; exact hdc
      · exact hs.1 x h1
    · rw [if_neg hcond]
      have hcd : c.docid ≤ d.docid := by
        cases b
        · simp only [Bool.false_eq_true, if_false, decide_eq_true_eq] at hcond; omega
        · simp only [if_true, decide_eq_true_eq] at hcond; omega
      rw [List.pairwise_cons]
      refine ⟨?_, List.pairwise_cons.2 hs⟩
      intro x hx
      rcases List.mem_cons.1 hx with h1 | h1
      · rw [h1]; exact hcd
      · exact le_trans hcd (hs.1 x h1)

theorem eq_take_cons_drop {α : Type} {l : List α} {i : Nat} {a : α} (h : l[i]? = some a) :
    l = l.take i ++ a :: l.drop (i + 1) := by
  have hi : i < l.length := by
    by_contra hge
    rw [List.getElem?_eq_none (by omega)] at h
    exact absurd h (by simp)
  rw [List.getElem?_eq_getElem hi] at h
  simp only [Option.some.injEq] at h
  rw [← h, ← List.drop_eq_getElem_cons hi, List.take_append_drop]

theorem advance_and_bubble_spec (b : Bool) (cs : List (Cursor S)) (i : Nat)
    (f : Cursor S → Cursor S) (c : Cursor S) (hc : cs[i]? = some c) :
    ∃ cs2, advance_and_bubble b cs i f = some cs2 ∧
      cs2.Perm (cs.take i ++ f c :: cs.drop (i + 1)) ∧
      (cs.Pairwise (fun x y => x.docid ≤ y.docid) → c.docid ≤ (f c).docid →
        cs2.Pairwise (fun x y => x.docid ≤ y.docid)) := by
  unfold advance_and_bubble
  rw [hc]
  refine ⟨_, rfl, (bubble_perm b (f c) _).append_left _, ?_⟩
  intro hs hle
  have hsplit := eq_take_cons_drop hc
  rw [hsplit, List.pairwise_append] at hs
  obtain ⟨hA, hcB, hAB⟩ := hs
  rw [List.pairwise_cons] at hcB
  rw [List.pairwise_append]
  refine ⟨hA, bubble_sorted b (f c) _ hcB.2, ?_⟩
  intro x hx y hy
  rcases List.mem_cons.1 ((bubble_perm b (f c) _).subset hy) with h1 | h1
  · rw [h1]
    exact le_trans (hAB x hx c (List.mem_cons_self _ _)) hle
  · exact hAB x hx y (List.mem_cons_of_mem _ h1)

theorem sort_enums_perm (cs : List (Cursor S)) : (sort_enums cs).Perm cs :=
  List.perm_insertionSort _ cs

theorem sort_enums_sorted (cs : List (Cursor S)) :
    (sort_enums cs).Pairwise (fun x y => x.docid ≤ y.docid) := by
  haveI : IsTotal (Cursor S) (fun a b => a.docid ≤ b.docid) :=
    ⟨fun a b => le_total a.docid b.docid⟩
  haveI : IsTrans (Cursor S) (fun a b => a.docid ≤ b.docid) :=
    ⟨fun a b c hab hbc => le_trans hab hbc⟩
  exact List.sorted_insertionSort _ cs

end pisa

namespace pisa

variable {S : Type} [LinearOrderedCommSemiring S]

/-! ## Proofs: the loop invariant -/

theorem filter_perm_of_imp {α : Type} (D : List α) (p p2 : α → Bool)
    (himp : ∀ d, p d = true → p2 d = true) :
    (D.filter p2).Perm (D.filter (fun d => p2 d && !p d) ++ D.filter p) := by
  induction D with
  | nil => simp
  | cons a D ih =>
    simp only [List.filter_cons]
    cases hp : p a with
    | true =>
      rw [himp a hp]
      simp only [Bool.not_true, Bool.and_false, if_true, Bool.false_eq_true, if_false]
      exact (ih.cons a).trans List.perm_middle.symm
    | false =>
      cases hp2 : p2 a with
      | true =>
        simp only [Bool.not_false, Bool.and_self, if_true, Bool.false_eq_true, if_false,
          List.cons_append]
        exact ih.cons a
      | false =>
        simp only [Bool.not_false, Bool.and_true, Bool.false_eq_true, if_false]
        exact ih

theorem filter_perm_insert (D : List Nat) (hD : D.Nodup) (p p2 : Nat → Bool) (d0 : Nat)
    (hd0 : d0 ∈ D) (hp : p d0 = false) (hiff : ∀ d, p2 d = true ↔ (p d = true ∨ d = d0)) :
    (D.filter p2).Perm (d0 :: D.filter p) := by
  induction D with
  | nil => simp at hd0
  | cons a D ih =>
    rw [List.nodup_cons] at hD
    simp only [List.filter_cons]
    by_cases ha : a = d0
    · subst ha
      have h2 : p2 a = true := (hiff a).2 (Or.inr rfl)
      rw [h2, hp]
      simp only [if_true, Bool.false_eq_true, if_false]
      refine List.Perm.cons a ?_
      have : D.filter p2 = D.filter p := by
        apply List.filter_congr
        intro x hx
        have hne : x ≠ a := fun h => hD.1 (h ▸ hx)
        rw [Bool.eq_iff_iff, hiff x]
        simp [hne]
      rw [this]
    · have hmem : d0 ∈ D := by
        rcases List.mem_cons.1 hd0 with h | h
        · exact absurd h.symm ha
        · exact h
      have h2 : p2 a = p a := by
        rw [Bool.eq_iff_iff, hiff a]
        simp [ha]
      rw [h2]
      cases hpa : p a with
      | true =>
        simp only [if_true]
        exact ((ih hD.2 hmem).cons a).trans (List.Perm.swap d0 a _)
      | false =>
        simp only [Bool.false_eq_true, if_false]
        exact ih hD.2 hmem

theorem heap_inv_grow {q : topk_queue S} (D : List Nat) (f : Nat → S) (p p2 : Nat → Bool)
    (h : heap_inv q ((D.filter p).map f)) (himp : ∀ d, p d = true → p2 d = true)
    (hnew : ∀ d ∈ D, p2 d = true → p d = false → q.would_enter (f d) = false) :
    heap_inv q ((D.filter p2).map f) := by
  have hperm := (filter_perm_of_imp D p p2 himp).map f
  rw [List.map_append] at hperm
  refine topk_queue.heap_inv_perm (topk_queue.heap_absorb_list _ h ?_) hperm.symm
  intro x hx
  obtain ⟨d, hd, rfl⟩ := List.mem_map.1 hx
  rw [List.mem_filter] at hd
  have h2 := hd.2
  simp only [Bool.and_eq_true, Bool.not_eq_true'] at h2
  exact hnew d hd.1 h2.1 h2.2

theorem seen_append (A B : List (Cursor S)) (d : Nat) :
    seen (A ++ B) d = (seen A d || seen B d) := by
  unfold seen
  rw [List.any_append]

theorem seen_cons (c : Cursor S) (B : List (Cursor S)) (d : Nat) :
    seen (c :: B) d = (c.seen d || seen B d) := by
  unfold seen
  rw [List.any_cons]

/-- A cursor jump: the cursor `c` of `cs = A ++ c :: B` is moved by `next_geq(t)` and the
list is reordered into a sorted `cs2`; every docid the jump newly moves past can no longer
enter the heap. -/
theorem prune_inv_jump {md : Nat} {cursors cs cs2 A B : List (Cursor S)} {c : Cursor S}
    {q : topk_queue S} (t : Nat) (hwf : well_formed md cursors)
    (hinv : prune_inv md cursors cs q) (hcs : cs = A ++ c :: B)
    (hperm : cs2.Perm (A ++ c.next_geq t :: B))
    (hsorted : cs2.Pairwise (fun a b => a.docid ≤ b.docid))
    (hnew : ∀ d, d ∈ c.ahead.map Prod.fst → d < t → seen cs d = false →
      q.would_enter (exhaustive_score cursors d) = false) :
    prune_inv md cursors cs2 q := by
  have hok := tracks_ok hwf hinv.tracks
  have hcok : c.ok md := hok c (by rw [hcs]; simp)
  have hseen : ∀ d, seen cs2 d = true ↔
      (seen cs d = true ∨ (d ∈ c.ahead.map Prod.fst ∧ d < t)) := by
    intro d
    rw [seen_perm hperm, hcs, seen_append, seen_append, seen_cons, seen_cons]
    simp only [Bool.or_eq_true]
    rw [Cursor.seen_next_geq hcok]
    tauto
  have hpend : ∀ d, (∃ c2 ∈ cs2, d ∈ c2.ahead.map Prod.fst) →
      ∃ c2 ∈ cs, d ∈ c2.ahead.map Prod.fst := by
    rintro d ⟨c2, hc2, hd⟩
    have hc3 := hperm.subset hc2
    rw [List.mem_append, List.mem_cons] at hc3
    rcases hc3 with h | h | h
    · exact ⟨c2, by rw [hcs]; simp [h], hd⟩
    · subst h
      rw [Cursor.mem_ahead_next_geq hcok] at hd
      exact ⟨c, by rw [hcs]; simp, hd.1⟩
    · exact ⟨c2, by rw [hcs]; simp [h], hd⟩
  refine ⟨?_, hsorted, ?_, ?_⟩
  · refine tracks_perm (tracks_of_map_home_eq hinv.tracks ?_) hperm
    rw [hcs]
    simp only [List.map_append, List.map_cons]
    rfl
  · refine heap_inv_grow _ _ _ _ hinv.heap (fun d hd => (hseen d).2 (Or.inl hd)) ?_
    intro d _ h2 h1
    rcases (hseen d).1 h2 with h | h
    · rw [h1] at h; exact absurd h (by decide)
    · exact hnew d h.1 h.2 h1
  · intro d h2 hp
    cases h1 : seen cs d with
    | true => exact hinv.dead d h1 (hpend d hp)
    | false =>
      rcases (hseen d).1 h2 with h | h
      · rw [h1] at h; exact absurd h (by decide)
      · exact hnew d h.1 h.2 h1

end pisa

namespace pisa

variable {S : Type} [LinearOrderedCommSemiring S]

theorem front_docid {cs : List (Cursor S)} {pid : Nat} :
    ∀ c ∈ cs.takeWhile (fun c => decide (c.docid = pid)), c.docid = pid := by
  intro c hc
  have := List.mem_takeWhile_imp hc
  simpa using this

theorem rest_docid_gt {cs : List (Cursor S)} {pid : Nat} {c0 : Cursor S}
    (hs : cs.Pairwise (fun a b => a.docid ≤ b.docid)) (hc0 : cs.head? = some c0)
    (hpid : c0.docid = pid) :
    ∀ c ∈ cs.dropWhile (fun c => decide (c.docid = pid)), pid < c.docid := by
  have hsplit := List.takeWhile_append_dropWhile (fun c : Cursor S => decide (c.docid = pid)) cs
  have hc0f : c0 ∈ cs.takeWhile (fun c => decide (c.docid = pid)) := by
    cases cs with
    | nil => simp at hc0
    | cons a tl =>
      simp only [List.head?_cons, Option.some.injEq] at hc0
      subst hc0
      rw [List.takeWhile_cons, if_pos (by simpa using hpid)]
      exact List.mem_cons_self _ _
  rw [← hsplit, List.pairwise_append] at hs
  obtain ⟨_, hR, hFR⟩ := hs
  have hhead := List.head?_dropWhile_not (fun c : Cursor S => decide (c.docid = pid)) cs
  cases hd : cs.dropWhile (fun c => decide (c.docid = pid)) with
  | nil => intro c hc; simp at hc
  | cons r rs =>
    rw [hd] at hR hFR hhead
    simp only [List.head?_cons, Option.map_some', Option.some.injEq] at hhead
    have hr : r.docid ≠ pid := by simpa using hhead
    have hr2 : pid < r.docid := by
      have := hFR c0 hc0f r (List.mem_cons_self _ _)
      rw [hpid] at this
      omega
    intro c hc
    rcases List.mem_cons.1 hc with h | h
    · rw [h]; exact hr2
    · rw [List.pairwise_cons] at hR
      exact lt_of_lt_of_le hr2 (hR.1 c h)

theorem sum_front_score {md : Nat} {F : List (Cursor S)} {pid : Nat} (hok : ∀ c ∈ F, c.ok md)
    (hF : ∀ c ∈ F, c.docid = pid) (hlive : pid < md) :
    (F.map (fun c => list_score c pid)).sum = (F.map Cursor.score).sum := by
  congr 1
  apply List.map_congr_left
  intro c hc
  have h1 := hF c hc
  rw [← h1]
  exact list_score_of_docid (hok c hc) (by rw [h1]; exact hlive)

theorem seen_map_next {md : Nat} {F : List (Cursor S)} {pid : Nat} (hok : ∀ c ∈ F, c.ok md)
    (hF : ∀ c ∈ F, c.docid = pid) (hlive : pid < md) (hne : F ≠ []) (d : Nat) :
    seen (F.map Cursor.next) d = true ↔ (seen F d = true ∨ d = pid) := by
  rw [seen_iff, seen_iff]
  constructor
  · rintro ⟨c2, hc2, hs⟩
    obtain ⟨c, hc, rfl⟩ := List.mem_map.1 hc2
    rw [Cursor.seen_next (hok c hc) (by rw [hF c hc]; exact hlive), hF c hc] at hs
    rcases hs with h | h
    · exact Or.inl ⟨c, hc, h⟩
    · exact Or.inr h
  · rintro (⟨c, hc, hs⟩ | h)
    · refine ⟨c.next, List.mem_map_of_mem _ hc, ?_⟩
      rw [Cursor.seen_next (hok c hc) (by rw [hF c hc]; exact hlive)]
      exact Or.inl hs
    · obtain ⟨c, hc⟩ := List.exists_mem_of_ne_nil F hne
      refine ⟨c.next, List.mem_map_of_mem _ hc, ?_⟩
      rw [Cursor.seen_next (hok c hc) (by rw [hF c hc]; exact hlive), hF c hc]
      exact Or.inr h

/-- A scoring step: the cursors at the front that sit on `pid` are scored and advanced by
`next()`, the sum of their scores is offered to the heap, and the cursors are reordered into
a sorted `cs2`. -/
theorem prune_inv_score {md : Nat} {cursors cs cs2 : List (Cursor S)} {q : topk_queue S}
    {c0 : Cursor S} (pid : Nat) (hwf : well_formed md cursors)
    (hinv : prune_inv md cursors cs q) (hc0 : cs.head? = some c0) (hpid : c0.docid = pid)
    (hlive : pid < md)
    (hperm : cs2.Perm ((cs.takeWhile (fun c => decide (c.docid = pid))).map Cursor.next ++
      cs.dropWhile (fun c => decide (c.docid = pid))))
    (hsorted : cs2.Pairwise (fun a b => a.docid ≤ b.docid)) :
    prune_inv md cursors cs2
      (q.insert (((cs.takeWhile (fun c => decide (c.docid = pid))).map Cursor.score).sum)
        pid).2 := by
  have hok := tracks_ok hwf hinv.tracks
  have hsplit := List.takeWhile_append_dropWhile (fun c : Cursor S => decide (c.docid = pid)) cs
  generalize hF : cs.takeWhile (fun c => decide (c.docid = pid)) = F at *
  generalize hR : cs.dropWhile (fun c => decide (c.docid = pid)) = R at *
  have hFd : ∀ c ∈ F, c.docid = pid := by rw [← hF]; exact front_docid
  have hRd : ∀ c ∈ R, pid < c.docid := by rw [← hR]; exact rest_docid_gt hinv.sorted hc0 hpid
  have hFok : ∀ c ∈ F, c.ok md := fun c hc => hok c (by rw [← hsplit]; simp [hc])
  have hRok : ∀ c ∈ R, c.ok md := fun c hc => hok c (by rw [← hsplit]; simp [hc])
  have hc0F : c0 ∈ F := by
    rw [← hF]
    cases cs with
    | nil => simp at hc0
    | cons a tl =>
      simp only [List.head?_cons, Option.some.injEq] at hc0
      subst hc0
      rw [List.takeWhile_cons, if_pos (by simpa using hpid)]
      exact List.mem_cons_self _ _
  have hFne : F ≠ [] := List.ne_nil_of_mem hc0F
  have hseen : ∀ d, seen cs2 d = true ↔ (seen cs d = true ∨ d = pid) := by
    intro d
    rw [seen_perm hperm, seen_append, ← hsplit, seen_append]
    simp only [Bool.or_eq_true]
    rw [seen_map_next hFok hFd hlive hFne]
    tauto
  have hpend : ∀ d, (∃ c2 ∈ cs2, d ∈ c2.ahead.map Prod.fst) →
      (∃ c2 ∈ cs, d ∈ c2.ahead.map Prod.fst) ∧ d ≠ pid := by
    rintro d ⟨c2, hc2, hd⟩
    have hc3 := hperm.subset hc2
    rw [List.mem_append] at hc3
    rcases hc3 with h | h
    · obtain ⟨c, hc, rfl⟩ := List.mem_map.1 h
      rw [Cursor.mem_ahead_next (hFok c hc) (by rw [hFd c hc]; exact hlive), hFd c hc] at hd
      exact ⟨⟨c, by rw [← hsplit]; simp [hc], hd.1⟩, hd.2⟩
    · refine ⟨⟨c2, by rw [← hsplit]; simp [h], hd⟩, ?_⟩
      have h1 := (Cursor.docid_le_of_mem_ahead (hRok c2 h) hd).1
      have h2 := hRd c2 h
      omega
  have hscore : exhaustive_score cursors pid =
      (F.map Cursor.score).sum + (R.map (fun c => list_score c pid)).sum := by
    rw [tracks_score hinv.tracks, ← hsplit, List.map_append, List.sum_append,
      sum_front_score hFok hFd hlive]
  have hRnonneg := sum_list_score_nonneg hRok pid
  have hpidD : pid ∈ all_docids cursors := by
    rw [tracks_mem_all_docids hinv.tracks]
    refine ⟨c0, by rw [← hsplit]; simp [hc0F], ?_⟩
    rw [Cursor.mem_postings_iff]
    right
    rw [← hpid]
    exact Cursor.mem_ahead_of_live (hFok c0 hc0F) (by rw [hpid]; exact hlive)
  have hc0pend : ∃ c ∈ cs, pid ∈ c.ahead.map Prod.fst := by
    refine ⟨c0, by rw [← hsplit]; simp [hc0F], ?_⟩
    rw [← hpid]
    exact Cursor.mem_ahead_of_live (hFok c0 hc0F) (by rw [hpid]; exact hlive)
  cases hsp : seen cs pid with
  | true =>
    have hdead := hinv.dead pid hsp hc0pend
    have hle : (F.map Cursor.score).sum ≤ exhaustive_score cursors pid := by
      rw [hscore]
      exact le_add_of_nonneg_right hRnonneg
    have hrej := topk_queue.would_enter_false_mono q hle hdead
    rw [topk_queue.insert_of_not_would_enter q _ pid hrej]
    have hfun : ∀ d, seen cs2 d = seen cs d := by
      intro d
      rw [Bool.eq_iff_iff, hseen d]
      constructor
      · rintro (h | h)
        · exact h
        · rw [h]; exact hsp
      · exact Or.inl
    refine ⟨tracks_perm (tracks_of_map_home_eq hinv.tracks ?_) hperm, hsorted, ?_, ?_⟩
    · rw [← hsplit]
      simp only [List.map_append, List.map_map]
      rfl
    · have : (all_docids cursors).filter (seen cs2) = (all_docids cursors).filter (seen cs) :=
        List.filter_congr (fun d _ => hfun d)
      rw [this]
      exact hinv.heap
    · intro d h2 hp
      rw [hfun d] at h2
      exact hinv.dead d h2 (hpend d hp).1
  | false =>
    have hRzero : (R.map (fun c => list_score c pid)).sum = 0 := by
      apply sum_list_score_eq_zero
      intro c hc
      apply list_score_eq_zero_of_lt (hRok c hc) _ (hRd c hc)
      cases hcs : c.seen pid with
      | false => rfl
      | true =>
        have : seen cs pid = true := (seen_iff cs pid).2 ⟨c, by rw [← hsplit]; simp [hc], hcs⟩
        rw [hsp] at this
        exact absurd this (by decide)
    rw [hRzero, add_zero] at hscore
    rw [← hscore]
    refine ⟨tracks_perm (tracks_of_map_home_eq hinv.tracks ?_) hperm, hsorted, ?_, ?_⟩
    · rw [← hsplit]
      simp only [List.map_append, List.map_map]
      rfl
    · have hp := filter_perm_insert (all_docids cursors) (nodup_all_docids cursors) (seen cs)
        (seen cs2) pid hpidD hsp hseen
      exact topk_queue.heap_inv_perm (topk_queue.heap_insert _ pid hinv.heap)
        (hp.map (exhaustive_score cursors)).symm
    · intro d h2 hp
      obtain ⟨hp1, hne⟩ := hpend d hp
      rcases (hseen d).1 h2 with h | h
      · exact topk_queue.would_enter_insert _ pid _ hinv.heap (hinv.dead d h hp1)
      · exact absurd h hne

end pisa

namespace pisa

variable {S : Type} [LinearOrderedCommSemiring S]

/-! ## Proofs: termination measure and the fuelled loop -/

theorem remaining_perm {cs cs2 : List (Cursor S)} (h : cs.Perm cs2) :
    remaining cs = remaining cs2 := by
  unfold remaining
  exact (h.map Cursor.left).sum_eq

theorem remaining_append (A B : List (Cursor S)) :
    remaining (A ++ B) = remaining A + remaining B := by
  unfold remaining
  rw [List.map_append, List.sum_append]

theorem remaining_cons (c : Cursor S) (B : List (Cursor S)) :
    remaining (c :: B) = c.left + remaining B := by
  unfold remaining
  rw [List.map_cons, List.sum_cons]

theorem remaining_map_next {md : Nat} (F : List (Cursor S)) (hok : ∀ c ∈ F, c.ok md)
    (hl : ∀ c ∈ F, c.docid < md) : remaining (F.map Cursor.next) + F.length = remaining F := by
  induction F with
  | nil => rfl
  | cons c F ih =>
    have h1 := Cursor.left_next (hok c (List.mem_cons_self _ _)) (hl c (List.mem_cons_self _ _))
    have h2 := ih (fun c2 hc2 => hok c2 (List.mem_cons_of_mem _ hc2))
      (fun c2 hc2 => hl c2 (List.mem_cons_of_mem _ hc2))
    rw [List.map_cons, remaining_cons, remaining_cons, List.length_cons]
    omega

theorem remaining_le_fuel (cursors : List (Cursor S)) : remaining cursors < loop_fuel cursors := by
  unfold remaining loop_fuel
  have : (cursors.map Cursor.left).sum ≤ (cursors.map (fun c => c.postings.length)).sum := by
    apply List.sum_le_sum
    intro c _
    unfold Cursor.left
    omega
  omega

theorem run_loop_terminates {σ : Type} (body : σ → loop_step σ) (Inv Post : σ → Prop)
    (μ : σ → Nat) (hstep : ∀ s, Inv s → step_ok Inv Post μ s (body s)) :
    ∀ (n : Nat) (s : σ), Inv s → μ s < n → ∃ s1, run_loop body n s = some s1 ∧ Post s1 := by
  intro n
  induction n with
  | zero => intro s _ h; omega
  | succ n ih =>
    intro s hs hμ
    have h := hstep s hs
    unfold run_loop
    cases hb : body s with
    | exit s1 => rw [hb] at h; exact ⟨s1, rfl, h⟩
    | next s1 =>
      rw [hb] at h
      have h2 : Inv s1 ∧ μ s1 < μ s := h
      exact ih s1 h2.1 (by omega)
    | undefined => rw [hb] at h; exact False.elim h

/-! ## Proofs: pruning arguments shared by WAND and block-max WAND -/

theorem drop_docid_ge {cs : List (Cursor S)} {p : Nat} {cp : Cursor S}
    (hs : cs.Pairwise (fun a b => a.docid ≤ b.docid)) (hcp : cs[p]? = some cp) :
    ∀ c ∈ cs.drop p, cp.docid ≤ c.docid := by
  have hsplit := eq_take_cons_drop hcp
  have hp : p < cs.length := by
    by_contra hge
    rw [List.getElem?_eq_none (by omega)] at hcp
    exact absurd hcp (by simp)
  have hd : cs.drop p = cp :: cs.drop (p + 1) := by
    rw [List.drop_eq_getElem_cons hp]
    rw [List.getElem?_eq_getElem hp] at hcp
    simp only [Option.some.injEq] at hcp
    rw [hcp]
  rw [hsplit, List.pairwise_append, List.pairwise_cons] at hs
  intro c hc
  rw [hd] at hc
  rcases List.mem_cons.1 hc with h | h
  · rw [h]
  · exact hs.2.1.1 c h

theorem take_docid_le {cs : List (Cursor S)} {p : Nat} {cp : Cursor S}
    (hs : cs.Pairwise (fun a b => a.docid ≤ b.docid)) (hcp : cs[p]? = some cp) :
    ∀ c ∈ cs.take p, c.docid ≤ cp.docid := by
  have hsplit := eq_take_cons_drop hcp
  rw [hsplit, List.pairwise_append] at hs
  intro c hc
  exact hs.2.2 c hc cp (List.mem_cons_self _ _)

/-- The WAND pruning argument: when the first `p` cursors are live, the sum of their
`max_score()` cannot enter the heap, and every other cursor sits at `pid` or later, then no
docid below `pid` that no cursor has moved past can enter the heap. -/
theorem dead_before_pivot {md : Nat} {cursors cs : List (Cursor S)} {q : topk_queue S}
    (hwf : well_formed md cursors) (hinv : prune_inv md cursors cs q) (p pid : Nat)
    (hlive : ∀ c ∈ cs.take p, c.docid < md)
    (hnot : q.would_enter (sum_max (cs.take p)) = false)
    (hge : ∀ c ∈ cs.drop p, pid ≤ c.docid) (d : Nat) (hd : d < pid)
    (hs : seen cs d = false) : q.would_enter (exhaustive_score cursors d) = false := by
  have hok := tracks_ok hwf hinv.tracks
  have hsplit := List.take_append_drop p cs
  have hle : exhaustive_score cursors d ≤ sum_max (cs.take p) := by
    rw [tracks_score hinv.tracks, ← hsplit]
    conv_rhs => rw [List.take_append_drop]
    apply @score_le_sum_max S _ md
    · rw [hsplit]; exact hok
    · exact hlive
    · intro c hc
      apply list_score_eq_zero_of_lt (hok c (List.mem_of_mem_drop hc)) _
        (lt_of_lt_of_le hd (hge c hc))
      cases hcs : c.seen d with
      | false => rfl
      | true =>
        have : seen cs d = true := (seen_iff cs d).2 ⟨c, List.mem_of_mem_drop hc, hcs⟩
        rw [hs] at this
        exact absurd this (by decide)
  exact topk_queue.would_enter_false_mono q hle hnot

/-- At loop exit: when no initial segment of live cursors has a bound that would enter the
heap, the heap holds a top-k selection of the exhaustive scores of all docids. -/
theorem prune_inv_exit {md : Nat} {cursors cs : List (Cursor S)} {q : topk_queue S}
    (hwf : well_formed md cursors) (hinv : prune_inv md cursors cs q)
    (hnone : ∀ m, 1 ≤ m → m ≤ cs.length → (∀ c ∈ cs.take m, c.docid < md) →
      q.would_enter (sum_max (cs.take m)) = false) :
    heap_inv q ((all_docids cursors).map (exhaustive_score cursors)) := by
  have hok := tracks_ok hwf hinv.tracks
  have hgrow := heap_inv_grow (all_docids cursors) (exhaustive_score cursors) (seen cs)
    (fun _ => true) hinv.heap (fun _ _ => rfl) ?_
  · simpa using hgrow
  intro d hdD _ hs
  rw [tracks_mem_all_docids hinv.tracks] at hdD
  obtain ⟨c, hc, hdc⟩ := hdD
  rw [Cursor.mem_postings_iff] at hdc
  have hahead : d ∈ c.ahead.map Prod.fst := by
    rcases hdc with h | h
    · have : seen cs d = true := (seen_iff cs d).2 ⟨c, hc, h⟩
      rw [hs] at this
      exact absurd this (by decide)
    · exact h
  have hdmd := Cursor.docid_le_of_mem_ahead (hok c hc) hahead
  -- the live cursors form an initial segment
  have hsplit := List.takeWhile_append_dropWhile (fun c : Cursor S => decide (c.docid < md)) cs
  generalize hL : cs.takeWhile (fun c => decide (c.docid < md)) = L at *
  generalize hX : cs.dropWhile (fun c => decide (c.docid < md)) = X at *
  have hLlive : ∀ c ∈ L, c.docid < md := by
    intro c2 hc2
    rw [← hL] at hc2
    simpa using List.mem_takeWhile_imp hc2
  have hXdead : ∀ c ∈ X, md ≤ c.docid := by
    have hs2 := hinv.sorted
    rw [← hsplit, List.pairwise_append] at hs2
    have hhead := List.head?_dropWhile_not (fun c : Cursor S => decide (c.docid < md)) cs
    rw [hX] at hhead
    cases X with
    | nil => intro c2 hc2; simp at hc2
    | cons x xs =>
      simp only [List.head?_cons, Option.map_some', Option.some.injEq] at hhead
      have hx : md ≤ x.docid := by
        have : ¬ x.docid < md := by simpa using hhead
        omega
      intro c2 hc2
      rcases List.mem_cons.1 hc2 with h | h
      · rw [h]; exact hx
      · have := hs2.2.1
        rw [List.pairwise_cons] at this
        exact le_trans hx (this.1 c2 h)
  have hcL : c ∈ L := by
    rw [← hsplit, List.mem_append] at hc
    rcases hc with h | h
    · exact h
    · have := hXdead c h
      omega
  have htake : cs.take L.length = L := by
    rw [← hsplit, List.take_left]
  have hlen : 1 ≤ L.length := List.length_pos_of_mem hcL
  have hlen2 : L.length ≤ cs.length := by
    rw [← hsplit, List.length_append]; omega
  have hnot := hnone L.length hlen hlen2 (by rw [htake]; exact hLlive)
  rw [htake] at hnot
  have hle : exhaustive_score cursors d ≤ sum_max L := by
    rw [tracks_score hinv.tracks, ← hsplit]
    apply @score_le_sum_max S _ md
    · rw [hsplit]; exact hok
    · exact hLlive
    · intro c2 hc2
      apply list_score_eq_zero_of_lt (hok c2 (by rw [← hsplit]; simp [hc2])) _
        (lt_of_lt_of_le hdmd.2 (hXdead c2 hc2))
      cases hcs : c2.seen d with
      | false => rfl
      | true =>
        have : seen cs d = true :=
          (seen_iff cs d).2 ⟨c2, by rw [← hsplit]; simp [hc2], hcs⟩
        rw [hs] at this
        exact absurd this (by decide)
  exact topk_queue.would_enter_false_mono q hle hnot

end pisa

namespace pisa

variable {S : Type} [LinearOrderedCommSemiring S]

/-! ## Proofs: the WAND loop -/

namespace wand_query

theorem loop_body_exit (capture : driver_state S → S → Nat → Option (driver_state S))
    (md : Nat) (st : driver_state S)
    (h : find_pivot st.m_topk md st.ordered_cursors 0 0 = none) :
    loop_body capture md st = loop_step.exit st := by
  unfold loop_body
  rw [h]

theorem loop_body_score (capture : driver_state S → S → Nat → Option (driver_state S))
    (md : Nat) (st st1 : driver_state S) (p : Nat) (cp c0 : Cursor S)
    (h : find_pivot st.m_topk md st.ordered_cursors 0 0 = some p)
    (hcp : st.ordered_cursors[p]? = some cp) (hc0 : st.ordered_cursors[0]? = some c0)
    (heq : cp.docid = c0.docid)
    (hcap : capture st (score_front cp.docid st.ordered_cursors 0).1 cp.docid = some st1) :
    loop_body capture md st = loop_step.next
      { st1 with ordered_cursors := sort_enums (score_front cp.docid st.ordered_cursors 0).2 } := by
  unfold loop_body
  rw [h]
  simp only [hcp, hc0]
  rw [if_pos heq, hcap]

theorem loop_body_align (capture : driver_state S → S → Nat → Option (driver_state S))
    (md : Nat) (st : driver_state S) (p : Nat) (cp c0 : Cursor S) (cs2 : List (Cursor S))
    (h : find_pivot st.m_topk md st.ordered_cursors 0 0 = some p)
    (hcp : st.ordered_cursors[p]? = some cp) (hc0 : st.ordered_cursors[0]? = some c0)
    (hne : cp.docid ≠ c0.docid)
    (hal : align false st.ordered_cursors p cp.docid = some cs2) :
    loop_body capture md st = loop_step.next { st with ordered_cursors := cs2 } := by
  unfold loop_body
  rw [h]
  simp only [hcp, hc0]
  rw [if_neg hne, hal]

end wand_query

/-- The non-aligned branch on a sorted cursor list whose cursor at `p` sits on `pid` while the
first cursor does not: some cursor `c` at an index below `p`, with docid below `pid`, is
moved by `next_geq(pid)` and the list is reordered, sorted again. -/
theorem align_spec {md : Nat} (b : Bool) (cs : List (Cursor S)) (p : Nat) (cp c0 : Cursor S)
    (hok : ∀ c ∈ cs, c.ok md) (hs : cs.Pairwise (fun a b => a.docid ≤ b.docid))
    (hcp : cs[p]? = some cp) (hc0 : cs[0]? = some c0) (hne : cp.docid ≠ c0.docid) :
    ∃ cs2 i c, align b cs p cp.docid = some cs2 ∧ i < p ∧ cs[i]? = some c ∧
      c.docid < cp.docid ∧
      cs2.Perm (cs.take i ++ c.next_geq cp.docid :: cs.drop (i + 1)) ∧
      cs2.Pairwise (fun a b => a.docid ≤ b.docid) := by
  have hp : p < cs.length := by
    by_contra hge
    rw [List.getElem?_eq_none (by omega)] at hcp
    exact absurd hcp (by simp)
  obtain ⟨i, hi⟩ := walk_back_exists cs cp.docid p hp
    ⟨0, Nat.zero_le _, c0, hc0, fun h => hne h.symm⟩
  obtain ⟨hip, c, hc, hcd⟩ := walk_back_spec cs cp.docid p i hi
  have hip2 : i < p := by
    rcases Nat.lt_or_ge i p with h | h
    · exact h
    · have : i = p := by omega
      subst this
      rw [hcp] at hc
      simp only [Option.some.injEq] at hc
      subst hc
      exact absurd rfl hcd
  have hcle : c.docid ≤ cp.docid := by
    apply take_docid_le hs hcp
    have hi2 : i < cs.length := by omega
    rw [List.getElem?_eq_getElem hi2] at hc
    simp only [Option.some.injEq] at hc
    rw [← hc]
    rw [List.mem_take_iff_getElem]
    exact ⟨i, by omega, rfl⟩
  obtain ⟨cs2, h1, h2, h3⟩ :=
    advance_and_bubble_spec b cs i (fun c => c.next_geq cp.docid) c hc
  refine ⟨cs2, i, c, ?_, hip2, hc, by omega, h2, ?_⟩
  · unfold align
    rw [hi]
    exact h1
  · have hcmem : c ∈ cs := List.getElem?_mem hc
    exact h3 hs (Cursor.docid_le_next_geq (hok c hcmem) _)

theorem getElem?_zero_eq_head? {α : Type} (l : List α) : l[0]? = l.head? := by
  cases l <;> simp

theorem mem_take_of_getElem? {α : Type} {l : List α} {i n : Nat} {a : α} (h : l[i]? = some a)
    (hi : i < n) : a ∈ l.take n := by
  have hi2 : i < l.length := by
    by_contra hge
    rw [List.getElem?_eq_none (by omega)] at h
    exact absurd h (by simp)
  rw [List.getElem?_eq_getElem hi2] at h
  simp only [Option.some.injEq] at h
  rw [← h, List.mem_take_iff_getElem]
  exact ⟨i, by omega, rfl⟩

/-- One iteration of a stage-one WAND loop preserves the invariant and consumes a posting,
or exits with the primary heap holding the exhaustive top-k scores; it is never undefined. -/
theorem wand_loop_body_step {md k : Nat} {cursors : List (Cursor S)}
    (capture : driver_state S → S → Nat → Option (driver_state S)) (J : driver_state S → Prop)
    (hwf : well_formed md cursors) (hcap : capture_ok capture J) (st : driver_state S)
    (hinv : stage_one_inv md k cursors J st) :
    step_ok (stage_one_inv md k cursors J) (stage_one_post k cursors J)
      (fun s => remaining s.ordered_cursors) st (wand_query.loop_body capture md st) := by
  obtain ⟨hp, hk, hJ⟩ := hinv
  have hok := tracks_ok hwf hp.tracks
  cases hfp : find_pivot st.m_topk md st.ordered_cursors 0 0 with
  | none =>
    rw [wand_query.loop_body_exit capture md st hfp]
    show stage_one_post k cursors J st
    refine ⟨prune_inv_exit hwf hp ?_, hk, hJ st.ordered_cursors, hp.tracks, hp.sorted⟩
    intro m h1 h2 h3
    have := find_pivot_none st.ordered_cursors 0 0 hfp m h1 h2 h3
    rwa [zero_add] at this
  | some p =>
    obtain ⟨n, hn, hlen, hlive, hent, hnot⟩ := find_pivot_some st.ordered_cursors 0 0 p hfp
    have hn2 : n = p := by omega
    subst hn2
    have hcp : st.ordered_cursors[n]? = some st.ordered_cursors[n] :=
      List.getElem?_eq_getElem hlen
    have hc0 : st.ordered_cursors[0]? = some st.ordered_cursors[0] :=
      List.getElem?_eq_getElem (by omega)
    generalize st.ordered_cursors[n] = cp at hcp
    generalize st.ordered_cursors[0] = c0 at hc0
    have hcplive : cp.docid < md := hlive cp (mem_take_of_getElem? hcp (by omega))
    by_cases heq : cp.docid = c0.docid
    · obtain ⟨st1, hst1, htopk, hcs, hJ1⟩ :=
        hcap st (score_front cp.docid st.ordered_cursors 0).1 cp.docid (hJ st.ordered_cursors)
      rw [wand_query.loop_body_score capture md st st1 n cp c0 hfp hcp hc0 heq hst1]
      show _ ∧ _
      simp only
      rw [score_front_eq] at htopk ⊢
      simp only [zero_add] at htopk ⊢
      have hhead : st.ordered_cursors.head? = some c0 := by
        rw [← getElem?_zero_eq_head?]; exact hc0
      have hinv2 := prune_inv_score cp.docid hwf hp hhead heq.symm hcplive
        (sort_enums_perm _) (sort_enums_sorted _)
      refine ⟨⟨?_, ?_, hJ1⟩, ?_⟩
      · rw [htopk]; exact hinv2
      · rw [htopk, topk_queue.insert_m_k]; exact hk
      · rw [remaining_perm (sort_enums_perm _), remaining_append]
        have hsplit := List.takeWhile_append_dropWhile
          (fun c : Cursor S => decide (c.docid = cp.docid)) st.ordered_cursors
        have hc0F : c0 ∈ st.ordered_cursors.takeWhile (fun c => decide (c.docid = cp.docid)) := by
          cases hco : st.ordered_cursors with
          | nil => rw [hco] at hhead; simp at hhead
          | cons a tl =>
            rw [hco] at hhead
            simp only [List.head?_cons, Option.some.injEq] at hhead
            subst hhead
            rw [List.takeWhile_cons, if_pos (by simpa using heq.symm)]
            exact List.mem_cons_self _ _
        have hFok : ∀ c ∈ st.ordered_cursors.takeWhile (fun c => decide (c.docid = cp.docid)),
            c.ok md := fun c hc => hok c (by rw [← hsplit]; exact List.mem_append_left _ hc)
        have hFl : ∀ c ∈ st.ordered_cursors.takeWhile (fun c => decide (c.docid = cp.docid)),
            c.docid < md := fun c hc => by rw [front_docid c hc]; exact hcplive
        have h1 := remaining_map_next _ hFok hFl
        have h2 := List.length_pos_of_mem hc0F
        conv_rhs => rw [← hsplit, remaining_append]
        omega
    · obtain ⟨cs2, i, c, hal, hip, hc, hcd, hperm, hsorted⟩ :=
        align_spec false st.ordered_cursors n cp c0 hok hp.sorted hcp hc0 heq
      rw [wand_query.loop_body_align capture md st n cp c0 cs2 hfp hcp hc0 heq hal]
      show _ ∧ _
      simp only
      have hsplit := eq_take_cons_drop hc
      have hclive : c.docid < md := by omega
      have hcok : c.ok md := hok c (List.getElem?_mem hc)
      refine ⟨⟨?_, hk, hJ⟩, ?_⟩
      · apply prune_inv_jump cp.docid hwf hp hsplit hperm hsorted
        intro d _ hd hs
        apply dead_before_pivot hwf hp n cp.docid _ _ (drop_docid_ge hp.sorted hcp) d hd hs
        · intro c2 hc2
          exact hlive c2 (by rw [List.take_succ]; exact List.mem_append_left _ hc2)
        · have := hnot n (by omega) (le_refl _)
          rwa [zero_add] at this
      · rw [remaining_perm hperm, remaining_append, remaining_cons]
        conv_rhs => rw [hsplit, remaining_append, remaining_cons]
        have := Cursor.left_next_geq_lt hcok cp.docid hclive hcd
        omega

end pisa

namespace pisa

variable {S : Type} [LinearOrderedCommSemiring S]

theorem capture_baseline_ok : capture_ok (capture_baseline (S := S)) (fun _ => True) := by
  intro st s d _
  exact ⟨_, rfl, rfl, rfl, fun _ => trivial⟩

theorem seen_of_well_formed {md : Nat} {cs : List (Cursor S)} (hwf : well_formed md cs)
    (d : Nat) : seen cs d = false := by
  cases h : seen cs d with
  | false => rfl
  | true =>
    rw [seen_iff] at h
    obtain ⟨c, hc, hs⟩ := h
    rw [Cursor.seen_iff_mem] at hs
    have hpos := (hwf c hc).1
    unfold Cursor.behind at hs
    rw [hpos] at hs
    simp at hs

theorem prune_inv_start {md : Nat} {cursors : List (Cursor S)} (k : Nat)
    (hwf : well_formed md cursors) :
    prune_inv md cursors (sort_enums cursors) (topk_queue.create k) := by
  have hseen : ∀ d, seen (sort_enums cursors) d = false := by
    intro d
    rw [seen_perm (sort_enums_perm cursors)]
    exact seen_of_well_formed hwf d
  refine ⟨tracks_perm (tracks_self cursors) (sort_enums_perm cursors), sort_enums_sorted cursors,
    ?_, ?_⟩
  · have : (all_docids cursors).filter (seen (sort_enums cursors)) = [] := by
      rw [List.filter_eq_nil_iff]
      intro d _
      rw [hseen d]
      simp
    rw [this]
    exact topk_queue.heap_inv_create k
  · intro d hd
    rw [hseen d] at hd
    exact absurd hd (by decide)

theorem topk_exhaustive_scores (cursors : List (Cursor S)) (k : Nat) :
    (topk_exhaustive cursors k).map Prod.fst =
      best k ((all_docids cursors).map (exhaustive_score cursors)) := by
  unfold topk_exhaustive best
  rw [List.map_take, map_fst_insertionSort, List.map_map]
  rfl

/-- A stage-one WAND loop, started on a well-formed query with a fresh primary heap of
capacity `k`, terminates within the fuel of the driver and leaves in the primary heap a
top-k selection of the exhaustive scores. -/
theorem wand_stage_one_run {md : Nat} {cursors : List (Cursor S)} (k : Nat)
    (capture : driver_state S → S → Nat → Option (driver_state S)) (J : driver_state S → Prop)
    (hwf : well_formed md cursors) (hcap : capture_ok capture J) (st : driver_state S)
    (hcs : st.ordered_cursors = sort_enums cursors) (htopk : st.m_topk = topk_queue.create k)
    (hJ : ∀ cs, J { st with ordered_cursors := cs }) :
    ∃ s1, run_loop (wand_query.loop_body capture md) (loop_fuel cursors) st = some s1 ∧
      stage_one_post k cursors J s1 := by
  apply run_loop_terminates (wand_query.loop_body capture md) (stage_one_inv md k cursors J)
    (stage_one_post k cursors J) (fun s => remaining s.ordered_cursors)
    (wand_loop_body_step capture J hwf hcap)
  · refine ⟨?_, by rw [htopk]; rfl, hJ⟩
    rw [hcs, htopk]
    exact prune_inv_start k hwf
  · show remaining st.ordered_cursors < loop_fuel cursors
    rw [hcs, remaining_perm (sort_enums_perm cursors)]
    exact remaining_le_fuel cursors

theorem stage_one_post_scores {k : Nat} {cursors : List (Cursor S)} {J : driver_state S → Prop}
    {st : driver_state S} (h : stage_one_post k cursors J st) :
    (st.m_topk.m_q.map Prod.fst).Perm ((topk_exhaustive cursors k).map Prod.fst) := by
  obtain ⟨h1, h2, _⟩ := h
  rw [topk_exhaustive_scores]
  have := is_topk_perm_best h1.2
  rw [h2] at this
  exact this

end pisa

namespace pisa

variable {S : Type} [LinearOrderedCommSemiring S]

/-! ## Proofs: the capture policies do not change the primary heap -/

theorem cyclic_insert_valid (q : cyclic_queue S) (s : S) (d : Nat) (h : q.valid) :
    ∃ q1, q.insert s d = some q1 ∧ q1.valid := by
  obtain ⟨h1, h2⟩ := h
  unfold cyclic_queue.insert
  rw [if_pos ⟨by rw [h1]; exact h2, by omega⟩]
  refine ⟨_, rfl, ?_, ?_⟩
  · simp only [List.length_set]
    exact h1
  · exact Nat.mod_lt _ (by omega)

theorem capture_method_one_ok :
    capture_ok (capture_method_one (S := S)) (fun st => st.m_cyclic.valid) := by
  intro st s d hJ
  have h1 := topk_queue.insert_with_eviction_heap st.m_topk s d
  unfold capture_method_one
  rcases h : st.m_topk.insert_with_eviction s d with ⟨b, es, ed, topk⟩
  rw [h] at h1
  simp only at h1
  cases b
  · exact ⟨_, rfl, h1, rfl, fun _ => hJ⟩
  · obtain ⟨q1, hq1, hv⟩ := cyclic_insert_valid st.m_cyclic es ed hJ
    simp only [hq1, Option.map_some']
    exact ⟨_, rfl, h1, rfl, fun _ => hv⟩

theorem capture_method_two_ok : capture_ok (capture_method_two (S := S)) (fun _ => True) := by
  intro st s d _
  have h1 := topk_queue.insert_with_eviction_heap st.m_topk s d
  unfold capture_method_two
  rcases h : st.m_topk.insert_with_eviction s d with ⟨b, es, ed, topk⟩
  rw [h] at h1
  simp only at h1
  cases b
  · exact ⟨_, rfl, h1, rfl, fun _ => trivial⟩
  · exact ⟨_, rfl, h1, rfl, fun _ => trivial⟩

theorem capture_method_three_ok :
    capture_ok (capture_method_three (S := S)) (fun st => st.m_cyclic.valid) := by
  intro st s d hJ
  have h1 := topk_queue.insert_with_eviction_heap st.m_topk s d
  unfold capture_method_three
  rcases h : st.m_topk.insert_with_eviction s d with ⟨b, es, ed, topk⟩
  rw [h] at h1
  simp only at h1
  cases b
  · exact ⟨_, rfl, h1, rfl, fun _ => hJ⟩
  · obtain ⟨q1, hq1, hv⟩ := cyclic_insert_valid st.m_cyclic es d hJ
    simp only [hq1, Option.map_some']
    exact ⟨_, rfl, h1, rfl, fun _ => hv⟩

theorem wand_loop_body_same {md : Nat}
    (capture : driver_state S → S → Nat → Option (driver_state S)) (J : driver_state S → Prop)
    (hcap : capture_ok capture J) (st st0 : driver_state S) (h : same_primary J st st0) :
    same_step J (wand_query.loop_body capture md st)
      (wand_query.loop_body capture_baseline md st0) := by
  obtain ⟨hcs, htk, hJ⟩ := h
  unfold wand_query.loop_body
  rw [hcs, htk]
  cases hfp : find_pivot st0.m_topk md st0.ordered_cursors 0 0 with
  | none => exact ⟨hcs, htk, hJ⟩
  | some p =>
    simp only
    cases hcp : st0.ordered_cursors[p]? with
    | none => trivial
    | some cp =>
      cases hc0 : st0.ordered_cursors[0]? with
      | none => trivial
      | some c0 =>
        simp only
        by_cases heq : cp.docid = c0.docid
        · rw [if_pos heq, if_pos heq]
          obtain ⟨st1, hst1, h1, h2, h3⟩ :=
            hcap st (score_front cp.docid st0.ordered_cursors 0).1 cp.docid
              (hJ st.ordered_cursors)
          rw [hst1]
          simp only [capture_baseline]
          exact ⟨rfl, by rw [h1, htk], h3⟩
        · rw [if_neg heq, if_neg heq]
          cases hal : align false st0.ordered_cursors p cp.docid with
          | none => trivial
          | some cs =>
            refine ⟨rfl, rfl, fun cs2 => ?_⟩
            have := hJ cs2
            rw [htk] at this
            exact this

theorem run_loop_same {md : Nat}
    (capture : driver_state S → S → Nat → Option (driver_state S)) (J : driver_state S → Prop)
    (hcap : capture_ok capture J) :
    ∀ (n : Nat) (st st0 r0 : driver_state S), same_primary J st st0 →
      run_loop (wand_query.loop_body capture_baseline md) n st0 = some r0 →
      ∃ r, run_loop (wand_query.loop_body capture md) n st = some r ∧ same_primary J r r0 := by
  intro n
  induction n with
  | zero => intro st st0 r0 _ h; simp [run_loop] at h
  | succ n ih =>
    intro st st0 r0 hsame h
    have hstep := @wand_loop_body_same S _ md capture J hcap st st0 hsame
    unfold run_loop at h ⊢
    cases hb0 : wand_query.loop_body capture_baseline md st0 with
    | exit s0 =>
      rw [hb0] at h hstep
      cases hb : wand_query.loop_body capture md st with
      | exit s =>
        rw [hb] at hstep
        simp only [Option.some.injEq] at h
        subst h
        exact ⟨s, rfl, hstep⟩
      | next s => rw [hb] at hstep; exact False.elim hstep
      | undefined => rw [hb] at hstep; exact False.elim hstep
    | next s0 =>
      rw [hb0] at h hstep
      cases hb : wand_query.loop_body capture md st with
      | exit s => rw [hb] at hstep; exact False.elim hstep
      | next s =>
        rw [hb] at hstep
        exact ih s s0 r0 hstep h
      | undefined => rw [hb] at hstep; exact False.elim hstep
    | undefined =>
      rw [hb0] at h
      simp at h

end pisa

namespace pisa

variable {S : Type} [LinearOrderedCommSemiring S]

/-! ## Proofs: stage two of `wand_query::method_three` terminates -/

theorem remaining_le_total (cs : List (Cursor S)) : remaining cs ≤ total_postings cs := by
  unfold remaining total_postings
  apply List.sum_le_sum
  intro c _
  unfold Cursor.left
  omega

theorem total_postings_perm {cs cs2 : List (Cursor S)} (h : cs.Perm cs2) :
    total_postings cs = total_postings cs2 := by
  unfold total_postings
  exact (h.map _).sum_eq

theorem total_postings_tracks {cursors cs : List (Cursor S)} (h : tracks cursors cs) :
    total_postings cs = total_postings cursors := by
  unfold total_postings
  have := (h.map (fun c => c.postings.length)).sum_eq
  rw [List.map_map, List.map_map] at this
  exact this

theorem total_postings_map (cs : List (Cursor S)) (f : Cursor S → Cursor S)
    (hf : ∀ c, (f c).postings = c.postings) :
    total_postings (cs.map f) = total_postings cs := by
  unfold total_postings
  rw [List.map_map]
  congr 1
  apply List.map_congr_left
  intro c _
  simp [hf c]

theorem loop_fuel_eq (cursors : List (Cursor S)) :
    loop_fuel cursors = total_postings cursors + 1 := rfl

/-- The non-aligned branch on a sorted list whose first cursor does not sit on `pid`: it is
defined, moves one cursor by `next_geq(pid)` and leaves the list sorted. -/
theorem align_total {md : Nat} (b : Bool) (cs : List (Cursor S)) (p pid : Nat) (c0 : Cursor S)
    (hok : ∀ c ∈ cs, c.ok md) (hs : cs.Pairwise (fun a b => a.docid ≤ b.docid))
    (hp : p < cs.length) (hc0 : cs[0]? = some c0) (hne : pid ≠ c0.docid) :
    ∃ cs2 i c, align b cs p pid = some cs2 ∧ i ≤ p ∧ cs[i]? = some c ∧ c.docid ≠ pid ∧
      cs2.Perm (cs.take i ++ c.next_geq pid :: cs.drop (i + 1)) ∧
      cs2.Pairwise (fun a b => a.docid ≤ b.docid) := by
  obtain ⟨i, hi⟩ := walk_back_exists cs pid p hp ⟨0, Nat.zero_le _, c0, hc0, fun h => hne h.symm⟩
  obtain ⟨hip, c, hc, hcd⟩ := walk_back_spec cs pid p i hi
  obtain ⟨cs2, h1, h2, h3⟩ := advance_and_bubble_spec b cs i (fun c => c.next_geq pid) c hc
  refine ⟨cs2, i, c, ?_, hip, hc, hcd, h2, ?_⟩
  · unfold align
    rw [hi]
    exact h1
  · exact h3 hs (Cursor.docid_le_next_geq (hok c (List.getElem?_mem hc)) _)

theorem remaining_replace_le (A B : List (Cursor S)) (c c2 : Cursor S) (h : c2.left ≤ c.left) :
    remaining (A ++ c2 :: B) ≤ remaining (A ++ c :: B) := by
  rw [remaining_append, remaining_cons, remaining_append, remaining_cons]
  omega

theorem remaining_replace_lt (A B : List (Cursor S)) (c c2 : Cursor S) (h : c2.left < c.left) :
    remaining (A ++ c2 :: B) < remaining (A ++ c :: B) := by
  rw [remaining_append, remaining_cons, remaining_append, remaining_cons]
  omega

theorem remaining_score_front_lt {md : Nat} (cs : List (Cursor S)) (pid : Nat) (c0 : Cursor S)
    (hok : ∀ c ∈ cs, c.ok md) (hc0 : cs[0]? = some c0) (hpid : pid = c0.docid)
    (hlive : pid < md) :
    remaining (sort_enums (score_front pid cs 0).2) < remaining cs := by
  rw [remaining_perm (sort_enums_perm _), score_front_eq, remaining_append]
  have hsplit := List.takeWhile_append_dropWhile (fun c : Cursor S => decide (c.docid = pid)) cs
  have hc0F : c0 ∈ cs.takeWhile (fun c => decide (c.docid = pid)) := by
    cases hco : cs with
    | nil => rw [hco] at hc0; simp at hc0
    | cons a tl =>
      rw [hco] at hc0
      simp only [List.getElem?_cons_zero, Option.some.injEq] at hc0
      subst hc0
      rw [List.takeWhile_cons, if_pos (by simpa using hpid.symm)]
      exact List.mem_cons_self _ _
  have hFok : ∀ c ∈ cs.takeWhile (fun c => decide (c.docid = pid)), c.ok md :=
    fun c hc => hok c (by rw [← hsplit]; exact List.mem_append_left _ hc)
  have hFl : ∀ c ∈ cs.takeWhile (fun c => decide (c.docid = pid)), c.docid < md :=
    fun c hc => by rw [front_docid c hc]; exact hlive
  have h1 := remaining_map_next _ hFok hFl
  have h2 := List.length_pos_of_mem hc0F
  conv_rhs => rw [← hsplit, remaining_append]
  omega

theorem ok_of_perm_replace {md : Nat} {cs cs2 : List (Cursor S)} {i : Nat} {c : Cursor S}
    (c2 : Cursor S) (hok : ∀ c ∈ cs, c.ok md) (hc : cs[i]? = some c) (hc2 : c2.ok md)
    (hperm : cs2.Perm (cs.take i ++ c2 :: cs.drop (i + 1))) : ∀ x ∈ cs2, x.ok md := by
  intro x hx
  have h := hperm.subset hx
  rw [List.mem_append, List.mem_cons] at h
  rcases h with h | h | h
  · exact hok x (List.mem_of_mem_take h)
  · rw [h]; exact hc2
  · exact hok x (List.mem_of_mem_drop h)

theorem ok_score_front {md : Nat} (cs : List (Cursor S)) (pid : Nat) (acc : S)
    (hok : ∀ c ∈ cs, c.ok md) : ∀ x ∈ sort_enums (score_front pid cs acc).2, x.ok md := by
  intro x hx
  have h := (sort_enums_perm _).subset hx
  rw [score_front_eq, List.mem_append] at h
  have hsplit := List.takeWhile_append_dropWhile (fun c : Cursor S => decide (c.docid = pid)) cs
  rcases h with h | h
  · obtain ⟨c, hc, rfl⟩ := List.mem_map.1 h
    exact hok c (by rw [← hsplit]; exact List.mem_append_left _ hc)
  · exact hok x (by rw [← hsplit]; exact List.mem_append_right _ h)

/-- One iteration of the stage-two loop of `wand_query::method_three` is never undefined,
keeps the cursors well formed and sorted, leaves the primary heap untouched, and consumes
a posting unless it exits. -/
theorem wand_stage_two_step {md : Nat} (T : topk_queue S) (st : driver_state S)
    (hinv : stage_two_inv md T st) :
    step_ok (stage_two_inv md T) (fun s => s.m_topk = T)
      (fun s => remaining s.ordered_cursors) st (wand_query.stage_two_body md st) := by
  obtain ⟨hok, hsorted, hT⟩ := hinv
  unfold wand_query.stage_two_body
  cases hfp : find_pivot st.m_secondary md st.ordered_cursors 0 0 with
  | none => exact hT
  | some p =>
    obtain ⟨n, hn, hlen, hlive, _, _⟩ := find_pivot_some st.ordered_cursors 0 0 p hfp
    have hn2 : n = p := by omega
    subst hn2
    have hcp : st.ordered_cursors[n]? = some st.ordered_cursors[n] :=
      List.getElem?_eq_getElem hlen
    generalize st.ordered_cursors[n] = cp at hcp
    have hcplive : cp.docid < md := hlive cp (mem_take_of_getElem? hcp (by omega))
    have hcpok : cp.ok md := hok cp (List.getElem?_mem hcp)
    simp only [hcp]
    -- the list after Case 1
    have hcase1 : ∃ cs1, (if bit_test st.scored cp.docid = true then
          advance_and_bubble true st.ordered_cursors n (fun c => c.next)
        else some st.ordered_cursors) = some cs1 ∧
        (∀ c ∈ cs1, c.ok md) ∧ cs1.Pairwise (fun a b => a.docid ≤ b.docid) ∧
        cs1.length = st.ordered_cursors.length ∧
        (remaining cs1 < remaining st.ordered_cursors ∨ cs1 = st.ordered_cursors) := by
      cases hbit : bit_test st.scored cp.docid with
      | true =>
        simp only [if_true]
        obtain ⟨cs1, h1, h2, h3⟩ :=
          advance_and_bubble_spec true st.ordered_cursors n (fun c => c.next) cp hcp
        refine ⟨cs1, h1, ok_of_perm_replace cp.next hok hcp hcpok h2,
          h3 hsorted (le_of_lt (Cursor.docid_lt_next hcpok hcplive)), ?_, Or.inl ?_⟩
        · rw [h2.length_eq]
          conv_rhs => rw [eq_take_cons_drop hcp]
          simp
        · rw [remaining_perm h2]
          conv_rhs => rw [eq_take_cons_drop hcp]
          apply remaining_replace_lt
          have := Cursor.left_next hcpok hcplive
          omega
      | false =>
        simp only [Bool.false_eq_true, if_false]
        exact ⟨_, rfl, hok, hsorted, rfl, Or.inr rfl⟩
    obtain ⟨cs1, hcs1, hok1, hsorted1, hlen1, hprog⟩ := hcase1
    rw [hcs1]
    simp only
    have hc0 : cs1[0]? = some cs1[0] := List.getElem?_eq_getElem (by omega)
    generalize cs1[0] = c0 at hc0
    rw [hc0]
    simp only
    have hle1 : remaining cs1 ≤ remaining st.ordered_cursors := by
      rcases hprog with h | h
      · exact le_of_lt h
      · rw [h]
    by_cases heq : cp.docid = c0.docid
    · rw [if_pos heq]
      refine ⟨⟨ok_score_front cs1 cp.docid 0 hok1, sort_enums_sorted _, hT⟩, ?_⟩
      have := remaining_score_front_lt cs1 cp.docid c0 hok1 hc0 heq hcplive
      exact lt_of_lt_of_le this hle1
    · rw [if_neg heq]
      obtain ⟨cs2, i, c, hal, hip, hc, hcd, hperm, hsorted2⟩ :=
        align_total false cs1 n cp.docid c0 hok1 hsorted1 (by omega) hc0 heq
      rw [hal]
      have hcok : c.ok md := hok1 c (List.getElem?_mem hc)
      refine ⟨⟨ok_of_perm_replace (c.next_geq cp.docid) hok1 hc hcok hperm, hsorted2, hT⟩, ?_⟩
      show remaining cs2 < remaining st.ordered_cursors
      rw [remaining_perm hperm]
      rcases hprog with h | h
      · refine lt_of_le_of_lt ?_ h
        conv_rhs => rw [eq_take_cons_drop hc]
        exact remaining_replace_le _ _ _ _ (Cursor.left_next_geq_le c _)
      · subst h
        conv_rhs => rw [eq_take_cons_drop hc]
        apply remaining_replace_lt
        have hip2 : i < n := by
          rcases Nat.lt_or_ge i n with h | h
          · exact h
          · have : i = n := by omega
            subst this
            rw [hcp] at hc
            simp only [Option.some.injEq] at hc
            subst hc
            exact absurd rfl hcd
        have hcle : c.docid ≤ cp.docid :=
          take_docid_le hsorted hcp c (mem_take_of_getElem? hc hip2)
        exact Cursor.left_next_geq_lt hcok cp.docid (by omega) (by omega)

end pisa

namespace pisa

variable {S : Type} [LinearOrderedCommSemiring S]

/-! ## Proofs: block cursors -/

theorem block_advance_unblock (pid : Nat) (c : Cursor S) :
    (block_advance pid c).unblock = c.unblock := by
  unfold block_advance
  split <;> rfl

theorem seen_unblock (cs : List (Cursor S)) (d : Nat) :
    seen (cs.map Cursor.unblock) d = seen cs d := by
  unfold seen
  rw [List.any_map]
  rfl

theorem seen_of_unblock_eq {cs cs2 : List (Cursor S)}
    (h : cs2.map Cursor.unblock = cs.map Cursor.unblock) (d : Nat) : seen cs2 d = seen cs d := by
  rw [← seen_unblock cs2, h, seen_unblock]

theorem pending_unblock (cs : List (Cursor S)) (d : Nat) :
    (∃ c ∈ cs.map Cursor.unblock, d ∈ c.ahead.map Prod.fst) ↔
      ∃ c ∈ cs, d ∈ c.ahead.map Prod.fst := by
  constructor
  · rintro ⟨u, hu, hd⟩
    obtain ⟨c, hc, rfl⟩ := List.mem_map.1 hu
    exact ⟨c, hc, hd⟩
  · rintro ⟨c, hc, hd⟩
    exact ⟨c.unblock, List.mem_map_of_mem _ hc, hd⟩

theorem sorted_unblock (cs : List (Cursor S)) :
    (cs.map Cursor.unblock).Pairwise (fun a b => a.docid ≤ b.docid) ↔
      cs.Pairwise (fun a b => a.docid ≤ b.docid) := by
  rw [List.pairwise_map]
  rfl

theorem tracks_unblock (cursors cs : List (Cursor S)) :
    tracks cursors (cs.map Cursor.unblock) ↔ tracks cursors cs := by
  unfold tracks
  rw [List.map_map]
  rfl

theorem prune_inv_unblock {md : Nat} {cursors cs : List (Cursor S)} {q : topk_queue S} :
    prune_inv md cursors (cs.map Cursor.unblock) q ↔ prune_inv md cursors cs q := by
  have hfilter : (all_docids cursors).filter (seen (cs.map Cursor.unblock)) =
      (all_docids cursors).filter (seen cs) :=
    List.filter_congr (fun d _ => seen_unblock cs d)
  constructor
  · intro h
    refine ⟨(tracks_unblock _ _).1 h.tracks, (sorted_unblock _).1 h.sorted, ?_, ?_⟩
    · rw [← hfilter]; exact h.heap
    · intro d hd hp
      exact h.dead d (by rw [seen_unblock]; exact hd) ((pending_unblock cs d).2 hp)
  · intro h
    refine ⟨(tracks_unblock _ _).2 h.tracks, (sorted_unblock _).2 h.sorted, ?_, ?_⟩
    · rw [hfilter]; exact h.heap
    · intro d hd hp
      exact h.dead d (by rw [← seen_unblock]; exact hd) ((pending_unblock cs d).1 hp)

theorem prune_inv_of_unblock_eq {md : Nat} {cursors cs cs2 : List (Cursor S)}
    {q : topk_queue S} (h : cs2.map Cursor.unblock = cs.map Cursor.unblock)
    (hinv : prune_inv md cursors cs q) : prune_inv md cursors cs2 q := by
  rw [← prune_inv_unblock, h, prune_inv_unblock]
  exact hinv

theorem block_bound_loop_eq (pid : Nat) :
    ∀ (n : Nat) (cs : List (Cursor S)) (acc : S),
      block_max_wand_query.block_bound_loop pid n cs acc =
        (acc + sum_block ((cs.take n).map (block_advance pid)),
         (cs.take n).map (block_advance pid) ++ cs.drop n) := by
  intro n
  induction n with
  | zero =>
    intro cs acc
    simp [block_max_wand_query.block_bound_loop, sum_block]
  | succ n ih =>
    intro cs acc
    cases cs with
    | nil => simp [block_max_wand_query.block_bound_loop, sum_block]
    | cons c cs =>
      unfold block_max_wand_query.block_bound_loop
      simp only [ih]
      simp only [List.take_succ_cons, List.map_cons, List.drop_succ_cons, List.cons_append,
        sum_block, List.sum_cons, add_assoc]
      rfl

theorem map_advance_unblock (pid n : Nat) (cs : List (Cursor S)) :
    ((cs.take n).map (block_advance pid) ++ cs.drop n).map Cursor.unblock =
      cs.map Cursor.unblock := by
  rw [List.map_append, List.map_map]
  have : (Cursor.unblock ∘ block_advance pid : Cursor S → Cursor S) = Cursor.unblock := by
    funext c
    exact block_advance_unblock pid c
  rw [this, ← List.map_append, List.take_append_drop]

theorem docid_of_unblock_eq {c c2 : Cursor S} (h : c2.unblock = c.unblock) :
    c2.docid = c.docid := by
  have : c2.unblock.docid = c.unblock.docid := by rw [h]
  exact this

theorem getElem?_of_unblock_eq {cs cs2 : List (Cursor S)}
    (h : cs2.map Cursor.unblock = cs.map Cursor.unblock) {i : Nat} {c : Cursor S}
    (hc : cs[i]? = some c) : ∃ c2, cs2[i]? = some c2 ∧ c2.unblock = c.unblock := by
  have h1 : (cs2.map Cursor.unblock)[i]? = some c.unblock := by
    rw [h, List.getElem?_map, hc]
    rfl
  rw [List.getElem?_map] at h1
  cases h2 : cs2[i]? with
  | none => rw [h2] at h1; simp at h1
  | some c2 =>
    rw [h2] at h1
    simp only [Option.map_some', Option.some.injEq] at h1
    exact ⟨c2, rfl, h1⟩

end pisa

namespace pisa

variable {S : Type} [LinearOrderedCommSemiring S]

/-! ## Proofs: block bounds -/

theorem takeWhile_getElem?_pos {α : Type} (p : α → Bool) :
    ∀ (l : List α) (t : Nat) (b : α), t < (l.takeWhile p).length → l[t]? = some b →
      p b = true := by
  intro l
  induction l with
  | nil => intro t b h; simp at h
  | cons a l ih =>
    intro t b h hb
    rw [List.takeWhile_cons] at h
    cases hp : p a with
    | false => rw [hp] at h; simp at h
    | true =>
      rw [hp] at h
      simp only [if_true, List.length_cons] at h
      cases t with
      | zero =>
        simp only [List.getElem?_cons_zero, Option.some.injEq] at hb
        rw [← hb]; exact hp
      | succ t =>
        simp only [List.getElem?_cons_succ] at hb
        exact ih t b (by omega) hb

theorem getElem?_length_takeWhile_neg {α : Type} (p : α → Bool) :
    ∀ (l : List α) (b : α), l[(l.takeWhile p).length]? = some b → p b = false := by
  intro l
  induction l with
  | nil => intro b h; simp at h
  | cons a l ih =>
    intro b hb
    rw [List.takeWhile_cons] at hb
    cases hp : p a with
    | false =>
      rw [hp] at hb
      simp only [Bool.false_eq_true, if_false, List.length_nil, List.getElem?_cons_zero,
        Option.some.injEq] at hb
      rw [← hb]; exact hp
    | true =>
      rw [hp] at hb
      simp only [if_true, List.length_cons, List.getElem?_cons_succ] at hb
      exact ih b hb

theorem blocks_below_next_geq (P pid : Nat) (c : Cursor S) (h : blocks_below P c)
    (hP : P ≤ pid) : blocks_below pid (c.block_max_next_geq pid) := by
  intro j hj b hb
  have hb2 : c.blocks[j]? = some b := hb
  by_cases hlt : j < c.m_block
  · exact lt_of_lt_of_le (h j hlt b hb2) hP
  · have hj2 : j < c.m_block +
        ((c.blocks.drop c.m_block).takeWhile (fun b => decide (b.1 < pid))).length := hj
    obtain ⟨t, rfl⟩ : ∃ t, j = c.m_block + t := ⟨j - c.m_block, by omega⟩
    have h3 : (c.blocks.drop c.m_block)[t]? = some b := by
      rw [List.getElem?_drop]; exact hb2
    have := takeWhile_getElem?_pos (fun b : Nat × S => decide (b.1 < pid)) _ t b (by omega) h3
    simpa using this

theorem blocks_below_advance (P pid : Nat) (c : Cursor S) (h : blocks_below P c)
    (hP : P ≤ pid) : blocks_below pid (block_advance pid c) := by
  unfold block_advance
  split
  · exact blocks_below_next_geq P pid c h hP
  · intro j hj b hb
    exact lt_of_lt_of_le (h j hj b hb) hP

theorem blocks_below_mono (P P2 : Nat) (c : Cursor S) (h : blocks_below P c) (hP : P ≤ P2) :
    blocks_below P2 c := fun j hj b hb => lt_of_lt_of_le (h j hj b hb) hP

theorem block_max_docid_next_geq_ge {md : Nat} (pid : Nat) (c : Cursor S)
    (hu : c.m_universe = md) (hpid : pid ≤ md) :
    pid ≤ (c.block_max_next_geq pid).block_max_docid := by
  unfold Cursor.block_max_docid
  have hm : (c.block_max_next_geq pid).m_block = c.m_block +
      ((c.blocks.drop c.m_block).takeWhile (fun b => decide (b.1 < pid))).length := rfl
  have hbl : (c.block_max_next_geq pid).blocks = c.blocks := rfl
  rw [hm, hbl]
  cases hb : c.blocks[c.m_block +
      ((c.blocks.drop c.m_block).takeWhile (fun b => decide (b.1 < pid))).length]? with
  | none =>
    simp only
    rw [show (c.block_max_next_geq pid).m_universe = c.m_universe from rfl, hu]
    exact hpid
  | some b =>
    simp only
    have h3 : (c.blocks.drop c.m_block)[((c.blocks.drop c.m_block).takeWhile
        (fun b => decide (b.1 < pid))).length]? = some b := by
      rw [List.getElem?_drop]; exact hb
    have := getElem?_length_takeWhile_neg (fun b : Nat × S => decide (b.1 < pid)) _ b h3
    simp only [decide_eq_false_iff_not, not_lt] at this
    exact this

theorem block_max_docid_advance_ge {md : Nat} (pid : Nat) (c : Cursor S)
    (hu : c.m_universe = md) (hpid : pid ≤ md) :
    pid ≤ (block_advance pid c).block_max_docid := by
  unfold block_advance
  split
  · exact block_max_docid_next_geq_ge pid c hu hpid
  · rename_i h
    omega

/-- Validity of the current block bound: when every block the block cursor has moved past
ends below `pid`, a docid `d` with `pid ≤ d ≤ block_max_docid()` contributes at most
`block_max_score() * query_weight()`. -/
theorem list_score_le_block {md : Nat} {c : Cursor S} (hok : c.ok md) (hv : c.valid_blocks)
    (pid d : Nat) (hbelow : blocks_below pid c) (hpd : pid ≤ d) (hd : d ≤ c.block_max_docid) :
    list_score c d ≤ c.block_max_score * c.query_weight := by
  obtain ⟨hnn, hcover, hvalid⟩ := hv
  unfold list_score
  cases hf : c.postings.find? (fun p => decide (p.1 = d)) with
  | none =>
    simp only
    unfold Cursor.block_max_score Cursor.query_weight
    cases hb : c.blocks[c.m_block]? with
    | none => simp
    | some b => exact hnn b (List.getElem?_mem hb)
  | some p =>
    simp only
    have hp := List.mem_of_find?_eq_some hf
    have hpd2 : p.1 = d := by simpa using List.find?_some hf
    unfold Cursor.block_max_score Cursor.query_weight
    unfold Cursor.block_max_docid at hd
    cases hb : c.blocks[c.m_block]? with
    | none =>
      exfalso
      obtain ⟨b, hbm, hle⟩ := hcover p hp
      obtain ⟨j, hj⟩ := List.mem_iff_getElem?.1 hbm
      have hjlt : j < c.m_block := by
        by_contra hge
        have hlen : c.blocks.length ≤ c.m_block := by
          by_contra hlt
          rw [List.getElem?_eq_getElem (by omega)] at hb
          exact absurd hb (by simp)
        rw [List.getElem?_eq_none (by omega)] at hj
        exact absurd hj (by simp)
      have := hbelow j hjlt b hj
      omega
    | some b =>
      rw [hb] at hd
      simp only at hd ⊢
      apply hvalid p hp c.m_block b hb (by omega)
      intro j2 hj2 b2 hb2
      have := hbelow j2 hj2 b2 hb2
      omega

theorem sum_block_nonneg_term {c : Cursor S} (hv : c.valid_blocks) :
    0 ≤ c.block_max_score * c.query_weight := by
  unfold Cursor.block_max_score Cursor.query_weight
  cases hb : c.blocks[c.m_block]? with
  | none => simp
  | some b => exact hv.1 b (List.getElem?_mem hb)

/-- The block-max pruning bound: if the cursors split into `A ++ B`, no list of `B`
contributes to `d`, and the current block bound of every cursor of `A` is valid for `d`, the
exhaustive score of `d` is at most the sum of the block bounds of `A`. -/
theorem score_le_sum_block {A B : List (Cursor S)} {d : Nat}
    (hA : ∀ c ∈ A, list_score c d ≤ c.block_max_score * c.query_weight)
    (hB : ∀ c ∈ B, list_score c d = 0) :
    ((A ++ B).map (fun c => list_score c d)).sum ≤ sum_block A := by
  rw [List.map_append, List.sum_append, sum_list_score_eq_zero hB, add_zero]
  unfold sum_block
  induction A with
  | nil => exact le_refl _
  | cons c A ih =>
    simp only [List.map_cons, List.sum_cons]
    exact add_le_add (hA c (List.mem_cons_self _ _))
      (ih (fun c2 hc2 => hA c2 (List.mem_cons_of_mem _ hc2)))

end pisa

namespace pisa

variable {S : Type} [LinearOrderedCommSemiring S]

/-! ## Proofs: the pieces of the block-max loop body -/

theorem max_score_nonneg_of_live {md : Nat} {c : Cursor S} (hok : c.ok md)
    (hl : c.docid < md) : 0 ≤ c.max_score := by
  have h := list_score_le_max hok hl c.docid
  exact le_trans (list_score_nonneg hok c.docid) h

theorem sum_max_nonneg {md : Nat} {cs : List (Cursor S)} (hok : ∀ c ∈ cs, c.ok md)
    (hl : ∀ c ∈ cs, c.docid < md) : 0 ≤ sum_max cs := by
  unfold sum_max
  apply List.sum_nonneg
  intro x hx
  obtain ⟨c, hc, rfl⟩ := List.mem_map.1 hx
  exact max_score_nonneg_of_live (hok c hc) (hl c hc)

theorem sum_max_append (A B : List (Cursor S)) : sum_max (A ++ B) = sum_max A + sum_max B := by
  unfold sum_max
  rw [List.map_append, List.sum_append]

theorem extend_pivot_spec {cs : List (Cursor S)} {p0 : Nat} {cp : Cursor S}
    (hs : cs.Pairwise (fun a b => a.docid ≤ b.docid)) (hcp : cs[p0]? = some cp) :
    p0 ≤ block_max_wand_query.extend_pivot cs cp.docid p0 ∧
    block_max_wand_query.extend_pivot cs cp.docid p0 < cs.length ∧
    (∀ c ∈ cs.take (block_max_wand_query.extend_pivot cs cp.docid p0 + 1),
      c.docid ≤ cp.docid) ∧
    (∀ c ∈ cs.drop (block_max_wand_query.extend_pivot cs cp.docid p0 + 1),
      cp.docid < c.docid) ∧
    (∃ c, cs[block_max_wand_query.extend_pivot cs cp.docid p0]? = some c ∧
      c.docid = cp.docid) := by
  have hp0 : p0 < cs.length := by
    by_contra hge
    rw [List.getElem?_eq_none (by omega)] at hcp
    exact absurd hcp (by simp)
  unfold block_max_wand_query.extend_pivot
  generalize htw : (cs.drop (p0 + 1)).takeWhile (fun c => decide (c.docid = cp.docid)) = tw
  have hlen : tw.length ≤ cs.length - (p0 + 1) := by
    rw [← htw]
    have := (List.takeWhile_sublist (fun c : Cursor S => decide (c.docid = cp.docid))
      (l := cs.drop (p0 + 1))).length_le
    rw [List.length_drop] at this
    exact this
  have htake : cs.take (p0 + tw.length + 1) = cs.take (p0 + 1) ++ tw := by
    rw [show p0 + tw.length + 1 = (p0 + 1) + tw.length by omega, List.take_add, ← htw,
      Cursor.take_length_takeWhile]
  have hdrop : cs.drop (p0 + tw.length + 1) =
      (cs.drop (p0 + 1)).dropWhile (fun c => decide (c.docid = cp.docid)) := by
    rw [show p0 + tw.length + 1 = (p0 + 1) + tw.length by omega, ← List.drop_drop, ← htw,
      Cursor.drop_length_takeWhile]
  have htwd : ∀ c ∈ tw, c.docid = cp.docid := by
    intro c hc
    rw [← htw] at hc
    simpa using List.mem_takeWhile_imp hc
  have hge : ∀ c ∈ cs.drop (p0 + 1), cp.docid ≤ c.docid := by
    intro c hc
    apply drop_docid_ge hs hcp c
    rw [← List.drop_drop] at hc
    exact List.mem_of_mem_drop hc
  refine ⟨by omega, by omega, ?_, ?_, ?_⟩
  · intro c hc
    rw [htake, List.mem_append] at hc
    rcases hc with h | h
    · rw [List.take_succ, List.mem_append] at h
      rcases h with h | h
      · exact take_docid_le hs hcp c h
      · rw [hcp] at h
        simp only [Option.toList_some, List.mem_singleton] at h
        rw [h]
    · rw [htwd c h]
  · intro c hc
    rw [hdrop] at hc
    have hc2 : c ∈ cs.drop (p0 + 1) := by
      have hsplit := List.takeWhile_append_dropWhile
        (fun c : Cursor S => decide (c.docid = cp.docid)) (cs.drop (p0 + 1))
      rw [← hsplit]
      exact List.mem_append_right _ hc
    have hsd : (cs.drop (p0 + 1)).Pairwise (fun a b => a.docid ≤ b.docid) :=
      List.Pairwise.sublist (List.drop_sublist _ _) hs
    have hsplit := List.takeWhile_append_dropWhile
      (fun c : Cursor S => decide (c.docid = cp.docid)) (cs.drop (p0 + 1))
    rw [← hsplit, List.pairwise_append] at hsd
    have hhead := List.head?_dropWhile_not (fun c : Cursor S => decide (c.docid = cp.docid))
      (cs.drop (p0 + 1))
    cases hdw : (cs.drop (p0 + 1)).dropWhile (fun c => decide (c.docid = cp.docid)) with
    | nil => rw [hdw] at hc; simp at hc
    | cons r rs =>
      rw [hdw] at hc hhead hsd hsplit
      simp only [List.head?_cons, Option.map_some', Option.some.injEq] at hhead
      have hr : r.docid ≠ cp.docid := by simpa using hhead
      have hr2 : cp.docid ≤ r.docid := hge r (by rw [← hsplit]; simp)
      have hr3 : cp.docid < r.docid := by omega
      rcases List.mem_cons.1 hc with h | h
      · rw [h]; exact hr3
      · have := hsd.2.1
        rw [List.pairwise_cons] at this
        exact lt_of_lt_of_le hr3 (this.1 c h)
  · by_cases hz : tw.length = 0
    · rw [hz, Nat.add_zero]
      exact ⟨cp, hcp, rfl⟩
    · have hidx : p0 + tw.length < cs.length := by omega
      refine ⟨cs[p0 + tw.length], List.getElem?_eq_getElem hidx, ?_⟩
      have h3 : (cs.drop (p0 + 1))[tw.length - 1]? = some cs[p0 + tw.length] := by
        rw [List.getElem?_drop, List.getElem?_eq_getElem (by omega)]
        congr 2
        omega
      have := takeWhile_getElem?_pos (fun c : Cursor S => decide (c.docid = cp.docid))
        (cs.drop (p0 + 1)) (tw.length - 1) _ (by rw [htw]; omega) h3
      simpa using this

theorem foldl_min_le_init (cs : List (Cursor S)) :
    ∀ (l : List Nat) (init : Nat),
      l.foldl (fun next i =>
        match cs[i]? with
        | some c => if c.block_max_docid < next then c.block_max_docid else next
        | none => next) init ≤ init := by
  intro l
  induction l with
  | nil => intro init; exact le_refl _
  | cons i l ih =>
    intro init
    simp only [List.foldl_cons]
    refine le_trans (ih _) ?_
    cases cs[i]? with
    | none => exact le_refl _
    | some c =>
      simp only
      split <;> omega

theorem foldl_min_le_elem (cs : List (Cursor S)) :
    ∀ (l : List Nat) (init : Nat) (i : Nat) (c : Cursor S), i ∈ l → cs[i]? = some c →
      l.foldl (fun next i =>
        match cs[i]? with
        | some c => if c.block_max_docid < next then c.block_max_docid else next
        | none => next) init ≤ c.block_max_docid := by
  intro l
  induction l with
  | nil => intro init i c hi; simp at hi
  | cons j l ih =>
    intro init i c hi hc
    simp only [List.foldl_cons]
    rcases List.mem_cons.1 hi with h | h
    · subst h
      refine le_trans (foldl_min_le_init cs l _) ?_
      rw [hc]
      simp only
      split <;> omega
    · exact ih _ i c h hc

theorem skip_target_spec (cs : List (Cursor S)) (md p pid : Nat) :
    pid < block_max_wand_query.skip_target cs md p pid ∧
    (∀ c, cs[p + 1]? = some c → pid < c.docid →
      block_max_wand_query.skip_target cs md p pid ≤ c.docid) ∧
    (∀ d, d < block_max_wand_query.skip_target cs md p pid → pid ≤ d →
      ∀ i, i ≤ p → ∀ c, cs[i]? = some c → pid ≤ c.block_max_docid →
        d ≤ c.block_max_docid) := by
  obtain ⟨m, hm⟩ : ∃ m : Nat, m = (List.range (p + 1)).foldl (fun next i =>
      match cs[i]? with
      | some c => if c.block_max_docid < next then c.block_max_docid else next
      | none => next) md := ⟨_, rfl⟩
  have hmle : ∀ i, i ≤ p → ∀ c, cs[i]? = some c → m ≤ c.block_max_docid := by
    intro i hi c hc
    rw [hm]
    exact foldl_min_le_elem cs _ md i c (List.mem_range.2 (by omega)) hc
  have heq : block_max_wand_query.skip_target cs md p pid =
      if (match cs[p + 1]? with
          | some c => if c.docid < m + 1 then c.docid else m + 1
          | none => m + 1) ≤ pid then pid + 1
      else (match cs[p + 1]? with
          | some c => if c.docid < m + 1 then c.docid else m + 1
          | none => m + 1) := by
    rw [hm]
    rfl
  rw [heq]
  cases hc1 : cs[p + 1]? with
  | none =>
    simp only
    by_cases h1 : m + 1 ≤ pid
    · simp only [if_pos h1]
      refine ⟨by omega, fun c hc => absurd hc (by simp), ?_⟩
      intro d hd hpd i hi c hc hbm
      omega
    · simp only [if_neg h1]
      refine ⟨by omega, fun c hc => absurd hc (by simp), ?_⟩
      intro d hd hpd i hi c hc hbm
      have := hmle i hi c hc
      omega
  | some c1 =>
    simp only
    have key : ∀ n3 : Nat, n3 ≤ m + 1 → n3 ≤ c1.docid →
        pid < (if n3 ≤ pid then pid + 1 else n3) ∧
        (∀ c, some c1 = some c → pid < c.docid →
          (if n3 ≤ pid then pid + 1 else n3) ≤ c.docid) ∧
        (∀ d, d < (if n3 ≤ pid then pid + 1 else n3) → pid ≤ d →
          ∀ i, i ≤ p → ∀ c, cs[i]? = some c → pid ≤ c.block_max_docid →
            d ≤ c.block_max_docid) := by
      intro n3 h3 h4
      by_cases h1 : n3 ≤ pid
      · simp only [if_pos h1]
        refine ⟨by omega, ?_, ?_⟩
        · intro c hc hlt
          simp only [Option.some.injEq] at hc
          subst hc
          omega
        · intro d hd hpd i hi c hc hbm
          omega
      · simp only [if_neg h1]
        refine ⟨by omega, ?_, ?_⟩
        · intro c hc hlt
          simp only [Option.some.injEq] at hc
          subst hc
          omega
        · intro d hd hpd i hi c hc hbm
          have := hmle i hi c hc
          omega
    by_cases h2 : c1.docid < m + 1
    · simp only [if_pos h2]
      exact key c1.docid (by omega) (le_refl _)
    · simp only [if_neg h2]
      exact key (m + 1) (le_refl _) (by omega)

theorem skip_list_foldl_le (cs : List (Cursor S)) (p : Nat) :
    ∀ (l : List Nat) (acc : Nat × S), acc.1 ≤ p → (∀ i ∈ l, i < p) →
      (l.foldl (fun (acc : Nat × S) i =>
        match cs[i]? with
        | some c => if acc.2 < c.max_score then (i, c.max_score) else acc
        | none => acc) acc).1 ≤ p := by
  intro l
  induction l with
  | nil => intro acc h _; exact h
  | cons i l ih =>
    intro acc hacc hl
    simp only [List.foldl_cons]
    apply ih
    · cases cs[i]? with
      | none => exact hacc
      | some c =>
        simp only
        split
        · exact le_of_lt (hl i (List.mem_cons_self _ _))
        · exact hacc
    · intro j hj
      exact hl j (List.mem_cons_of_mem _ hj)

theorem skip_list_le (cs : List (Cursor S)) (p : Nat) (ms : S) :
    block_max_wand_query.skip_list cs p ms ≤ p := by
  unfold block_max_wand_query.skip_list
  apply skip_list_foldl_le cs p _ _ (le_refl _)
  intro i hi
  exact List.mem_range.1 hi

/-- On a sorted cursor list the cursors below `P` are an initial segment. -/
theorem filter_lt_eq_take (P : Nat) :
    ∀ (cs : List (Cursor S)), cs.Pairwise (fun a b => a.docid ≤ b.docid) →
      ∃ r, r ≤ cs.length ∧ cs.filter (fun c => decide (c.docid < P)) = cs.take r ∧
        ∀ c ∈ cs.drop r, P ≤ c.docid := by
  intro cs
  induction cs with
  | nil => intro _; exact ⟨0, le_refl _, rfl, by simp⟩
  | cons a l ih =>
    intro hs
    rw [List.pairwise_cons] at hs
    by_cases ha : a.docid < P
    · obtain ⟨r, hr, hf, hd⟩ := ih hs.2
      refine ⟨r + 1, by simp; omega, ?_, ?_⟩
      · rw [List.filter_cons, if_pos (by simpa using ha), hf, List.take_succ_cons]
      · intro c hc
        rw [List.drop_succ_cons] at hc
        exact hd c hc
    · refine ⟨0, Nat.zero_le _, ?_, ?_⟩
      · rw [List.take_zero, List.filter_eq_nil_iff]
        intro c hc
        rcases List.mem_cons.1 hc with h | h
        · rw [h]; simpa using ha
        · have := hs.1 c h
          simp only [decide_eq_true_eq, not_lt]
          omega
      · intro c hc
        rw [List.drop_zero] at hc
        rcases List.mem_cons.1 hc with h | h
        · rw [h]; omega
        · have := hs.1 c h
          omega

end pisa

namespace pisa

variable {S : Type} [LinearOrderedCommSemiring S]

/-! ## Proofs: the cursors below the last pivot -/

theorem sum_max_perm {cs cs2 : List (Cursor S)} (h : cs.Perm cs2) : sum_max cs = sum_max cs2 :=
  (h.map _).sum_eq

theorem sum_max_filter_unblock (P : Nat) (cs : List (Cursor S)) :
    sum_max ((cs.map Cursor.unblock).filter (fun c => decide (c.docid < P))) =
      sum_max (cs.filter (fun c => decide (c.docid < P))) := by
  induction cs with
  | nil => rfl
  | cons a l ih =>
    rw [List.map_cons, List.filter_cons, List.filter_cons]
    have ha : a.unblock.docid = a.docid := rfl
    rw [ha]
    by_cases h : a.docid < P
    · rw [if_pos (by simpa using h), if_pos (by simpa using h), sum_max_cons, sum_max_cons, ih]
      rfl
    · rw [if_neg (by simpa using h), if_neg (by simpa using h), ih]

theorem low_dead_of_unblock_eq {cs cs2 : List (Cursor S)} {q : topk_queue S} {P : Nat}
    (h : cs2.map Cursor.unblock = cs.map Cursor.unblock)
    (hld : ∀ c ∈ cs, c.docid < P →
      q.would_enter (sum_max (cs.filter (fun c => decide (c.docid < P)))) = false) :
    ∀ c ∈ cs2, c.docid < P →
      q.would_enter (sum_max (cs2.filter (fun c => decide (c.docid < P)))) = false := by
  intro c hc hcP
  have hmem : c.unblock ∈ cs.map Cursor.unblock := by
    rw [← h]; exact List.mem_map_of_mem _ hc
  obtain ⟨c1, hc1, he⟩ := List.mem_map.1 hmem
  have hd : c1.docid = c.docid := docid_of_unblock_eq he
  rw [← sum_max_filter_unblock, h, sum_max_filter_unblock]
  exact hld c1 hc1 (by omega)

/-- Moving one cursor forward keeps the bound of the cursors below `P` from entering. -/
theorem low_dead_jump {cs2 A B : List (Cursor S)} {c c2 : Cursor S} {q : topk_queue S}
    {P : Nat} (hperm : cs2.Perm (A ++ c2 :: B)) (hle : c.docid ≤ c2.docid)
    (hmax : c2.max_score = c.max_score) (hnn : 0 ≤ c.max_score)
    (hld : ∀ x ∈ A ++ c :: B, x.docid < P →
      q.would_enter (sum_max ((A ++ c :: B).filter (fun c => decide (c.docid < P)))) = false) :
    ∀ x ∈ cs2, x.docid < P →
      q.would_enter (sum_max (cs2.filter (fun c => decide (c.docid < P)))) = false := by
  intro x hx hxP
  have hx2 : x ∈ A ++ c2 :: B := hperm.mem_iff.1 hx
  have hy : ∃ y ∈ A ++ c :: B, y.docid < P := by
    rw [List.mem_append, List.mem_cons] at hx2
    rcases hx2 with h | h | h
    · exact ⟨x, by simp [h], hxP⟩
    · exact ⟨c, by simp, by rw [h] at hxP; omega⟩
    · exact ⟨x, by simp [h], hxP⟩
  obtain ⟨y, hy1, hy2⟩ := hy
  have hold := hld y hy1 hy2
  apply topk_queue.would_enter_false_mono q _ hold
  rw [sum_max_perm (hperm.filter _), List.filter_append, List.filter_append, sum_max_append,
    sum_max_append, List.filter_cons, List.filter_cons]
  apply add_le_add_left
  by_cases h2 : c2.docid < P
  · have h1 : c.docid < P := by omega
    rw [if_pos (by simpa using h2), if_pos (by simpa using h1), sum_max_cons, sum_max_cons, hmax]
  · rw [if_neg (by simpa using h2)]
    by_cases h1 : c.docid < P
    · rw [if_pos (by simpa using h1), sum_max_cons]
      exact le_add_of_nonneg_left hnn
    · rw [if_neg (by simpa using h1)]

/-- After the pivot search the cursors below the pivot docid have a bound that cannot
enter. -/
theorem low_dead_of_pivot {cs : List (Cursor S)} {q : topk_queue S} {p0 : Nat} {cp : Cursor S}
    (hs : cs.Pairwise (fun a b => a.docid ≤ b.docid)) (hcp : cs[p0]? = some cp)
    (hnot : ∀ m, 1 ≤ m → m ≤ p0 → q.would_enter (sum_max (cs.take m)) = false) :
    ∀ x ∈ cs, x.docid < cp.docid →
      q.would_enter (sum_max (cs.filter (fun c => decide (c.docid < cp.docid)))) = false := by
  intro x hx hxP
  obtain ⟨r, hr, hf, hd⟩ := filter_lt_eq_take cp.docid cs hs
  rw [hf]
  have hxf : x ∈ cs.take r := by
    rw [← hf, List.mem_filter]
    exact ⟨hx, by simpa using hxP⟩
  have hr1 : 1 ≤ r := by
    rcases Nat.eq_zero_or_pos r with h | h
    · rw [h] at hxf; simp at hxf
    · exact h
  have hr2 : r ≤ p0 := by
    by_contra hgt
    have : cp ∈ cs.take r := mem_take_of_getElem? hcp (by omega)
    rw [← hf, List.mem_filter] at this
    have := this.2
    simp at this
  exact hnot r hr1 hr2

/-- The pivot docid never falls below the last pivot. -/
theorem pivot_ge_last {md : Nat} {cs : List (Cursor S)} {q : topk_queue S} {p0 P : Nat}
    {cp : Cursor S} (hok : ∀ c ∈ cs, c.ok md) (hP : P ≤ md)
    (hs : cs.Pairwise (fun a b => a.docid ≤ b.docid)) (hcp : cs[p0]? = some cp)
    (hent : q.would_enter (sum_max (cs.take (p0 + 1))) = true)
    (hld : ∀ c ∈ cs, c.docid < P →
      q.would_enter (sum_max (cs.filter (fun c => decide (c.docid < P)))) = false) :
    P ≤ cp.docid := by
  by_contra hlt
  have hlt2 : cp.docid < P := by omega
  have hold := hld cp (List.getElem?_mem hcp) hlt2
  obtain ⟨r, hr, hf, hd⟩ := filter_lt_eq_take P cs hs
  rw [hf] at hold
  have hp0r : p0 < r := by
    by_contra hge
    have hmem : cp ∈ cs.drop r := by
      have hp0 : p0 < cs.length := by
        by_contra hge2
        rw [List.getElem?_eq_none (by omega)] at hcp
        exact absurd hcp (by simp)
      rw [List.getElem?_eq_getElem hp0] at hcp
      simp only [Option.some.injEq] at hcp
      rw [← hcp, List.mem_drop_iff_getElem]
      exact ⟨p0 - r, by omega, by congr 1; omega⟩
    have := hd cp hmem
    omega
  have hsplit : cs.take r = cs.take (p0 + 1) ++ (cs.take r).drop (p0 + 1) := by
    conv_lhs => rw [← List.take_append_drop (p0 + 1) (cs.take r)]
    rw [List.take_take, Nat.min_eq_left (by omega)]
  have hnn : 0 ≤ sum_max ((cs.take r).drop (p0 + 1)) := by
    apply @sum_max_nonneg S _ md
    · intro c hc
      exact hok c (List.mem_of_mem_take (List.mem_of_mem_drop hc))
    · intro c hc
      have h1 : c ∈ cs.take r := List.mem_of_mem_drop hc
      rw [← hf, List.mem_filter] at h1
      have := h1.2
      simp only [decide_eq_true_eq] at this
      omega
  have hle : sum_max (cs.take (p0 + 1)) ≤ sum_max (cs.take r) := by
    conv_rhs => rw [hsplit, sum_max_append]
    exact le_add_of_nonneg_right hnn
  have := topk_queue.would_enter_false_mono q hle hold
  rw [hent] at this
  exact absurd this (by decide)

/-! ## Proofs: the block cursors along a step -/

theorem valid_blocks_advance (pid : Nat) (c : Cursor S) :
    (block_advance pid c).valid_blocks ↔ c.valid_blocks := by
  unfold block_advance
  split
  · exact Iff.rfl
  · exact Iff.rfl

theorem valid_blocks_next_geq (c : Cursor S) (t : Nat) :
    (c.next_geq t).valid_blocks ↔ c.valid_blocks := Iff.rfl

theorem valid_blocks_next (c : Cursor S) : c.next.valid_blocks ↔ c.valid_blocks := Iff.rfl

theorem blocks_below_pos_next_geq (P : Nat) (c : Cursor S) (t : Nat) :
    blocks_below P (c.next_geq t) ↔ blocks_below P c := Iff.rfl

theorem blocks_below_next (P : Nat) (c : Cursor S) :
    blocks_below P c.next ↔ blocks_below P c := Iff.rfl

theorem max_score_advance (pid : Nat) (c : Cursor S) :
    (block_advance pid c).max_score = c.max_score := by
  unfold block_advance
  split <;> rfl

theorem ok_advance (md pid : Nat) (c : Cursor S) : (block_advance pid c).ok md ↔ c.ok md := by
  unfold block_advance
  split
  · exact Iff.rfl
  · exact Iff.rfl

/-- The block part of the invariant after the block-bound loop. -/
theorem blocks_after_bound {cs : List (Cursor S)} {P pid n : Nat} (hP : P ≤ pid)
    (h : ∀ c ∈ cs, c.valid_blocks ∧ blocks_below P c) :
    ∀ c ∈ (cs.take n).map (block_advance pid) ++ cs.drop n,
      c.valid_blocks ∧ blocks_below pid c := by
  intro c hc
  rw [List.mem_append] at hc
  rcases hc with hc | hc
  · obtain ⟨c1, hc1, rfl⟩ := List.mem_map.1 hc
    have := h c1 (List.mem_of_mem_take hc1)
    exact ⟨(valid_blocks_advance pid c1).2 this.1, blocks_below_advance P pid c1 this.2 hP⟩
  · have := h c (List.mem_of_mem_drop hc)
    exact ⟨this.1, blocks_below_mono P pid c this.2 hP⟩

/-- The block part of the invariant after one cursor has been moved and the list
reordered. -/
theorem blocks_after_jump {cs cs2 : List (Cursor S)} {i pid t : Nat} {c : Cursor S}
    (hc : cs[i]? = some c) (hperm : cs2.Perm (cs.take i ++ c.next_geq t :: cs.drop (i + 1)))
    (h : ∀ c ∈ cs, c.valid_blocks ∧ blocks_below pid c) :
    ∀ c ∈ cs2, c.valid_blocks ∧ blocks_below pid c := by
  intro x hx
  have hx2 := hperm.mem_iff.1 hx
  rw [List.mem_append, List.mem_cons] at hx2
  rcases hx2 with h1 | h1 | h1
  · exact h x (List.mem_of_mem_take h1)
  · rw [h1]
    exact h c (List.getElem?_mem hc)
  · exact h x (List.mem_of_mem_drop h1)

end pisa

namespace pisa

variable {S : Type} [LinearOrderedCommSemiring S]

/-! ## Proofs: pruning by block bounds -/

theorem remaining_unblock (cs : List (Cursor S)) : remaining (cs.map Cursor.unblock) = remaining cs := by
  unfold remaining
  rw [List.map_map]
  rfl

theorem remaining_of_unblock_eq {cs cs2 : List (Cursor S)}
    (h : cs2.map Cursor.unblock = cs.map Cursor.unblock) : remaining cs2 = remaining cs := by
  rw [← remaining_unblock cs2, h, remaining_unblock]

theorem getElem?_of_mem_take {α : Type} {l : List α} {n : Nat} {a : α} (h : a ∈ l.take n) :
    ∃ i, i < n ∧ l[i]? = some a := by
  rw [List.mem_take_iff_getElem] at h
  obtain ⟨i, hi, rfl⟩ := h
  have h1 : i < n := lt_of_lt_of_le hi (Nat.min_le_left _ _)
  have h2 : i < l.length := lt_of_lt_of_le hi (Nat.min_le_right _ _)
  exact ⟨i, h1, List.getElem?_eq_getElem h2⟩

/-- A docid below the pivot that no cursor has moved past cannot enter the heap, when the
cursors below the pivot docid have a bound that cannot enter. -/
theorem dead_below_pivot {md : Nat} {cursors cs : List (Cursor S)} {q : topk_queue S}
    (hwf : well_formed md cursors) (hinv : prune_inv md cursors cs q) (pid : Nat)
    (hpid : pid ≤ md)
    (hld : ∀ c ∈ cs, c.docid < pid →
      q.would_enter (sum_max (cs.filter (fun c => decide (c.docid < pid)))) = false)
    (x : Cursor S) (hx : x ∈ cs) (hxd : x.docid < pid) (d : Nat) (hd : d < pid)
    (hs : seen cs d = false) : q.would_enter (exhaustive_score cursors d) = false := by
  obtain ⟨r, hr, hf, hdr⟩ := filter_lt_eq_take pid cs hinv.sorted
  have hnot := hld x hx hxd
  rw [hf] at hnot
  apply dead_before_pivot hwf hinv r pid _ hnot hdr d hd hs
  intro c hc
  rw [← hf, List.mem_filter] at hc
  have := hc.2
  simp only [decide_eq_true_eq] at this
  omega

/-- A docid in `[pid, t)` that no cursor has moved past cannot enter the heap, when the sum
of the block bounds of the cursors up to the pivot cannot enter, their current blocks reach
`t - 1`, and the cursors after the pivot are at `t` or beyond. -/
theorem skip_dead {md : Nat} {cursors csb : List (Cursor S)} {q : topk_queue S}
    (hwf : well_formed md cursors) (hinv : prune_inv md cursors csb q) (pivot pid t : Nat)
    (hB : ∀ c ∈ csb, c.valid_blocks ∧ blocks_below pid c)
    (hbmd : ∀ c ∈ csb.take (pivot + 1), pid ≤ c.block_max_docid)
    (hskip : ∀ d, d < t → pid ≤ d → ∀ i, i ≤ pivot → ∀ c, csb[i]? = some c →
      pid ≤ c.block_max_docid → d ≤ c.block_max_docid)
    (hrest : ∀ c ∈ csb.drop (pivot + 1), t ≤ c.docid)
    (hnot : q.would_enter (sum_block (csb.take (pivot + 1))) = false)
    (d : Nat) (hpd : pid ≤ d) (hdt : d < t) (hs : seen csb d = false) :
    q.would_enter (exhaustive_score cursors d) = false := by
  have hok := tracks_ok hwf hinv.tracks
  have hle : exhaustive_score cursors d ≤ sum_block (csb.take (pivot + 1)) := by
    rw [tracks_score hinv.tracks, ← List.take_append_drop (pivot + 1) csb]
    conv_rhs => rw [List.take_append_drop]
    apply score_le_sum_block
    · intro c hc
      have hcm : c ∈ csb := List.mem_of_mem_take hc
      obtain ⟨i, hi, hci⟩ := getElem?_of_mem_take hc
      exact list_score_le_block (hok c hcm) (hB c hcm).1 pid d (hB c hcm).2 hpd
        (hskip d hdt hpd i (by omega) c hci (hbmd c hc))
    · intro c hc
      have hcm : c ∈ csb := List.mem_of_mem_drop hc
      apply list_score_eq_zero_of_lt (hok c hcm) _ (lt_of_lt_of_le hdt (hrest c hc))
      cases hcs : c.seen d with
      | false => rfl
      | true =>
        have : seen csb d = true := (seen_iff csb d).2 ⟨c, hcm, hcs⟩
        rw [hs] at this
        exact absurd this (by decide)
  exact topk_queue.would_enter_false_mono q hle hnot

theorem well_formed_of_block_max {md : Nat} {cursors : List (Cursor S)}
    (h : well_formed_block_max md cursors) : well_formed md cursors :=
  fun c hc => (h c hc).1

theorem valid_blocks_home (c : Cursor S) : c.home.valid_blocks ↔ c.valid_blocks := Iff.rfl

/-- The block part of the invariant at the start of the loop. -/
theorem block_inv_start {md : Nat} {cursors : List (Cursor S)} (q : topk_queue S)
    (hwf : well_formed_block_max md cursors) :
    block_inv md (sort_enums cursors) q 0 := by
  refine ⟨Nat.zero_le _, ?_, ?_⟩
  · intro c hc
    have hc2 : c ∈ cursors := (sort_enums_perm cursors).mem_iff.1 hc
    obtain ⟨_, h2, h3⟩ := hwf c hc2
    refine ⟨h3, ?_⟩
    intro j hj
    rw [h2] at hj
    exact absurd hj (Nat.not_lt_zero _)
  · intro c _ hc
    exact absurd hc (Nat.not_lt_zero _)

end pisa

namespace pisa

variable {S : Type} [LinearOrderedCommSemiring S]

/-! ## Proofs: the block-max WAND loop -/

/-- One iteration of a stage-one block-max WAND loop preserves the invariant and consumes a
posting, or exits with the primary heap holding the exhaustive top-k scores; it is never
undefined. -/
theorem bmw_loop_body_step {md k : Nat} {cursors : List (Cursor S)}
    (capture : driver_state S → S → Nat → Option (driver_state S)) (J : driver_state S → Prop)
    (hwf : well_formed md cursors) (hcap : capture_ok capture J) (st : driver_state S)
    (hinv : block_stage_one_inv md k cursors J st) :
    step_ok (block_stage_one_inv md k cursors J) (stage_one_post k cursors J)
      (fun s => remaining s.ordered_cursors) st
      (block_max_wand_query.loop_body capture md st) := by
  obtain ⟨⟨hp, hk, hJ⟩, P, hPmd, hB, hM⟩ := hinv
  have hok := tracks_ok hwf hp.tracks
  cases hfp : find_pivot st.m_topk md st.ordered_cursors 0 0 with
  | none =>
    have hbody : block_max_wand_query.loop_body capture md st = loop_step.exit st := by
      unfold block_max_wand_query.loop_body
      rw [hfp]
    rw [hbody]
    show stage_one_post k cursors J st
    refine ⟨prune_inv_exit hwf hp ?_, hk, hJ st.ordered_cursors, hp.tracks, hp.sorted⟩
    intro m h1 h2 h3
    have := find_pivot_none st.ordered_cursors 0 0 hfp m h1 h2 h3
    rwa [zero_add] at this
  | some p =>
    obtain ⟨n, hn, hlen, hlive, hent, hnot⟩ := find_pivot_some st.ordered_cursors 0 0 p hfp
    have hn2 : n = p := by omega
    subst hn2
    have hcp : st.ordered_cursors[n]? = some st.ordered_cursors[n] :=
      List.getElem?_eq_getElem hlen
    generalize st.ordered_cursors[n] = cp at hcp
    have hcplive : cp.docid < md := hlive cp (mem_take_of_getElem? hcp (by omega))
    rw [zero_add] at hent
    have hnot2 : ∀ m, 1 ≤ m → m ≤ n → st.m_topk.would_enter (sum_max (st.ordered_cursors.take m)) = false := by
      intro m h1 h2
      have := hnot m h1 h2
      rwa [zero_add] at this
    obtain ⟨hge0, hpl, htk, hdr, cl, hcl, hcld⟩ := extend_pivot_spec hp.sorted hcp
    have hPle : P ≤ cp.docid := pivot_ge_last hok hPmd hp.sorted hcp hent hM
    unfold block_max_wand_query.loop_body
    rw [hfp]
    simp only [hcp, block_bound_loop_eq, zero_add]
    generalize block_max_wand_query.extend_pivot st.ordered_cursors cp.docid n = pivot at *
    have hAlen : ((st.ordered_cursors.take (pivot + 1)).map (block_advance cp.docid)).length =
        pivot + 1 := by
      rw [List.length_map, List.length_take]
      omega
    have hT := @List.take_left' _ _ (st.ordered_cursors.drop (pivot + 1)) _ hAlen
    have hD := @List.drop_left' _ _ (st.ordered_cursors.drop (pivot + 1)) _ hAlen
    have hun := map_advance_unblock cp.docid (pivot + 1) st.ordered_cursors
    have hBb := @blocks_after_bound S _ st.ordered_cursors P cp.docid (pivot + 1) hPle hB
    have hbmd : ∀ c ∈ (st.ordered_cursors.take (pivot + 1)).map (block_advance cp.docid),
        cp.docid ≤ c.block_max_docid := by
      intro c hc
      obtain ⟨c1, hc1, rfl⟩ := List.mem_map.1 hc
      exact block_max_docid_advance_ge cp.docid c1 (hok c1 (List.mem_of_mem_take hc1)).1
        (le_of_lt hcplive)
    generalize hA : (st.ordered_cursors.take (pivot + 1)).map (block_advance cp.docid) = A at *
    generalize hcsb : A ++ st.ordered_cursors.drop (pivot + 1) = csb at *
    have hpb : prune_inv md cursors csb st.m_topk := prune_inv_of_unblock_eq hun hp
    have hokb := tracks_ok hwf hpb.tracks
    have hMb := low_dead_of_unblock_eq hun (low_dead_of_pivot hp.sorted hcp hnot2)
    have hremb := remaining_of_unblock_eq hun
    obtain ⟨clb, hclb, hclbu⟩ := getElem?_of_unblock_eq hun hcl
    have hclbd : clb.docid = cp.docid := by rw [docid_of_unblock_eq hclbu, hcld]
    have hlenb : csb.length = st.ordered_cursors.length := by
      have := congrArg List.length hun
      rwa [List.length_map, List.length_map] at this
    have htkb : ∀ c ∈ csb.take (pivot + 1), c.docid ≤ cp.docid := by
      intro c hc
      obtain ⟨i, hi, hci⟩ := getElem?_of_mem_take hc
      have hi2 : i < st.ordered_cursors.length := by omega
      obtain ⟨c2, hc2, hc2u⟩ := getElem?_of_unblock_eq hun (List.getElem?_eq_getElem hi2)
      rw [hci] at hc2
      simp only [Option.some.injEq] at hc2
      subst hc2
      rw [docid_of_unblock_eq hc2u]
      exact htk _ (mem_take_of_getElem? (List.getElem?_eq_getElem hi2) hi)
    by_cases hwe : st.m_topk.would_enter (sum_block A) = true
    · rw [if_pos hwe]
      have hc0 : csb[0]? = some csb[0] := List.getElem?_eq_getElem (by omega)
      generalize csb[0] = c0 at hc0
      simp only [hc0]
      have hhead : csb.head? = some c0 := by
        rw [← getElem?_zero_eq_head?]; exact hc0
      by_cases heq : cp.docid = c0.docid
      · rw [if_pos heq]
        obtain ⟨st1, hst1, htopk, hcs, hJ1⟩ :=
          hcap st (score_front cp.docid csb 0).1 cp.docid (hJ st.ordered_cursors)
        rw [hst1]
        show (_ ∧ _) ∧ _
        simp only
        rw [score_front_eq] at htopk ⊢
        simp only [zero_add] at htopk ⊢
        have hinv2 := prune_inv_score cp.docid hwf hpb hhead heq.symm hcplive
          (sort_enums_perm _) (sort_enums_sorted _)
        have hsplit := List.takeWhile_append_dropWhile
          (fun c : Cursor S => decide (c.docid = cp.docid)) csb
        have hFmem : ∀ c ∈ csb.takeWhile (fun c => decide (c.docid = cp.docid)), c ∈ csb :=
          fun c hc => by rw [← hsplit]; exact List.mem_append_left _ hc
        have hRmem : ∀ c ∈ csb.dropWhile (fun c => decide (c.docid = cp.docid)), c ∈ csb :=
          fun c hc => by rw [← hsplit]; exact List.mem_append_right _ hc
        refine ⟨⟨⟨?_, ?_, hJ1⟩, cp.docid, le_of_lt hcplive, ?_, ?_⟩, ?_⟩
        · rw [htopk]; exact hinv2
        · rw [htopk, topk_queue.insert_m_k]; exact hk
        · intro c hc
          have hc2 := (sort_enums_perm _).mem_iff.1 hc
          rw [List.mem_append] at hc2
          rcases hc2 with h | h
          · obtain ⟨f, hf, rfl⟩ := List.mem_map.1 h
            exact hBb f (hFmem f hf)
          · exact hBb c (hRmem c h)
        · intro c hc hlt
          exfalso
          have hc2 := (sort_enums_perm _).mem_iff.1 hc
          rw [List.mem_append] at hc2
          rcases hc2 with h | h
          · obtain ⟨f, hf, rfl⟩ := List.mem_map.1 h
            have h1 := front_docid f hf
            have h2 := Cursor.docid_lt_next (hokb f (hFmem f hf)) (by rw [h1]; exact hcplive)
            omega
          · have := rest_docid_gt hpb.sorted hhead heq.symm c h
            omega
        · rw [remaining_perm (sort_enums_perm _), remaining_append, ← hremb]
          have hc0F : c0 ∈ csb.takeWhile (fun c => decide (c.docid = cp.docid)) := by
            cases hco : csb with
            | nil => rw [hco] at hhead; simp at hhead
            | cons a tl =>
              rw [hco] at hhead
              simp only [List.head?_cons, Option.some.injEq] at hhead
              subst hhead
              rw [List.takeWhile_cons, if_pos (by simpa using heq.symm)]
              exact List.mem_cons_self _ _
          have hFok : ∀ c ∈ csb.takeWhile (fun c => decide (c.docid = cp.docid)), c.ok md :=
            fun c hc => hokb c (hFmem c hc)
          have hFl : ∀ c ∈ csb.takeWhile (fun c => decide (c.docid = cp.docid)),
              c.docid < md := fun c hc => by rw [front_docid c hc]; exact hcplive
          have h1 := remaining_map_next _ hFok hFl
          have h2 := List.length_pos_of_mem hc0F
          conv_rhs => rw [← hsplit, remaining_append]
          omega
      · rw [if_neg heq]
        have hne : clb.docid ≠ c0.docid := by rw [hclbd]; exact heq
        obtain ⟨cs2, i, c, hal, hip, hc, hcd, hperm, hsorted⟩ :=
          align_spec true csb pivot clb c0 hokb hpb.sorted hclb hc0 hne
        rw [hclbd] at hal hcd hperm
        rw [hal]
        show (_ ∧ _) ∧ _
        simp only
        have hsplit := eq_take_cons_drop hc
        have hcm : c ∈ csb := List.getElem?_mem hc
        have hclive : c.docid < md := by omega
        have hcok := hokb c hcm
        refine ⟨⟨⟨?_, hk, hJ⟩, cp.docid, le_of_lt hcplive, ?_, ?_⟩, ?_⟩
        · apply prune_inv_jump cp.docid hwf hpb hsplit hperm hsorted
          intro d hda hd hs
          exact dead_below_pivot hwf hpb cp.docid (le_of_lt hcplive) hMb c hcm hcd d hd hs
        · exact blocks_after_jump hc hperm hBb
        · apply low_dead_jump hperm (Cursor.docid_le_next_geq hcok _) rfl
            (max_score_nonneg_of_live hcok hclive)
          rw [← hsplit]
          exact hMb
        · rw [remaining_perm hperm, remaining_append, remaining_cons, ← hremb]
          conv_rhs => rw [hsplit, remaining_append, remaining_cons]
          have := Cursor.left_next_geq_lt hcok cp.docid hclive hcd
          omega
    · rw [if_neg hwe]
      have hwe2 : st.m_topk.would_enter (sum_block A) = false := by
        cases h : st.m_topk.would_enter (sum_block A) with
        | false => rfl
        | true => exact absurd h hwe
      unfold block_max_wand_query.skip_step
      simp only [hclb]
      have hile : block_max_wand_query.skip_list csb pivot clb.max_score ≤ pivot :=
        skip_list_le _ _ _
      generalize block_max_wand_query.skip_list csb pivot clb.max_score = i at hile ⊢
      obtain ⟨ht1, ht2, ht3⟩ := skip_target_spec csb md pivot cp.docid
      generalize block_max_wand_query.skip_target csb md pivot cp.docid = t at ht1 ht2 ht3 ⊢
      have hc : csb[i]? = some csb[i] := List.getElem?_eq_getElem (by omega)
      generalize csb[i] = c at hc
      obtain ⟨cs2, h1, hperm, h3⟩ :=
        advance_and_bubble_spec false csb i (fun c => c.next_geq t) c hc
      rw [h1]
      show (_ ∧ _) ∧ _
      simp only
      have hsplit := eq_take_cons_drop hc
      have hcm : c ∈ csb := List.getElem?_mem hc
      have hcok := hokb c hcm
      have hcd : c.docid ≤ cp.docid := htkb c (mem_take_of_getElem? hc (by omega))
      have hclive : c.docid < md := by omega
      have hsorted := h3 hpb.sorted (Cursor.docid_le_next_geq hcok t)
      have hrest : ∀ x ∈ csb.drop (pivot + 1), t ≤ x.docid := by
        intro x hx
        have hlen2 : pivot + 1 < csb.length := by
          by_contra hge
          rw [List.drop_eq_nil_of_le (by omega)] at hx
          simp at hx
        have hc1 : csb[pivot + 1]? = some csb[pivot + 1] := List.getElem?_eq_getElem hlen2
        have hc1m : csb[pivot + 1] ∈ csb.drop (pivot + 1) := by
          rw [List.drop_eq_getElem_cons hlen2]
          exact List.mem_cons_self _ _
        have h4 := ht2 _ hc1 (hdr _ (by rw [← hD]; exact hc1m))
        have h5 := drop_docid_ge hpb.sorted hc1 x hx
        omega
      refine ⟨⟨⟨?_, hk, hJ⟩, cp.docid, le_of_lt hcplive, ?_, ?_⟩, ?_⟩
      · apply prune_inv_jump t hwf hpb hsplit hperm hsorted
        intro d hda hdt hs
        by_cases hd : d < cp.docid
        · have := (Cursor.docid_le_of_mem_ahead hcok hda).1
          exact dead_below_pivot hwf hpb cp.docid (le_of_lt hcplive) hMb c hcm (by omega) d hd hs
        · apply skip_dead hwf hpb pivot cp.docid t hBb _ ht3 hrest _ d (by omega) hdt hs
          · rw [hT]; exact hbmd
          · rw [hT]; exact hwe2
      · exact blocks_after_jump hc hperm hBb
      · apply low_dead_jump hperm (Cursor.docid_le_next_geq hcok _) rfl
          (max_score_nonneg_of_live hcok hclive)
        rw [← hsplit]
        exact hMb
      · rw [remaining_perm hperm, remaining_append, remaining_cons, ← hremb]
        conv_rhs => rw [hsplit, remaining_append, remaining_cons]
        have := Cursor.left_next_geq_lt hcok t hclive (by omega)
        omega

end pisa

namespace pisa

variable {S : Type} [LinearOrderedCommSemiring S]

/-- A stage-one block-max WAND loop started on the sorted cursors of a well-formed query with
valid block bounds and a fresh primary heap returns within its fuel, with the postcondition of
stage one. -/
theorem bmw_stage_one_run {md : Nat} {cursors : List (Cursor S)} (k : Nat)
    (capture : driver_state S → S → Nat → Option (driver_state S)) (J : driver_state S → Prop)
    (hwf : well_formed_block_max md cursors) (hcap : capture_ok capture J)
    (st : driver_state S)
    (hcs : st.ordered_cursors = sort_enums cursors) (htopk : st.m_topk = topk_queue.create k)
    (hJ : ∀ cs, J { st with ordered_cursors := cs }) :
    ∃ s1, run_loop (block_max_wand_query.loop_body capture md)
        (block_max_wand_query.fuel cursors) st = some s1 ∧
      stage_one_post k cursors J s1 := by
  have hwf1 := well_formed_of_block_max hwf
  apply run_loop_terminates (block_max_wand_query.loop_body capture md)
    (block_stage_one_inv md k cursors J)
    (stage_one_post k cursors J) (fun s => remaining s.ordered_cursors)
    (bmw_loop_body_step capture J hwf1 hcap)
  · refine ⟨⟨?_, by rw [htopk]; rfl, hJ⟩, 0, ?_⟩
    · rw [hcs, htopk]
      exact prune_inv_start k hwf1
    · rw [hcs]
      exact block_inv_start _ hwf
  · show remaining st.ordered_cursors < loop_fuel cursors
    rw [hcs, remaining_perm (sort_enums_perm cursors)]
    exact remaining_le_fuel cursors

end pisa

namespace pisa

variable {S : Type} [LinearOrderedCommSemiring S]

/-! ## Proofs: basic facts for the two-stage block-max loop -/

theorem Cursor.next_eq_next_geq {md : Nat} {c : Cursor S} (h : c.ok md) (hl : c.docid < md) :
    c.next = c.next_geq (c.docid + 1) := by
  have ha := Cursor.ahead_of_live h hl
  have hs := Cursor.ahead_sorted h
  have hlen : (c.ahead.takeWhile (fun p => decide (p.1 < c.docid + 1))).length = 1 := by
    rw [ha] at hs ⊢
    rw [List.takeWhile_cons, if_pos (by simp)]
    simp only [List.map_cons, List.pairwise_cons] at hs
    cases hn : c.next.ahead with
    | nil => rfl
    | cons a tl =>
      have := hs.1 a.1 (by rw [hn]; simp)
      rw [List.takeWhile_cons, if_neg (by simp; omega)]
      rfl
  unfold Cursor.ahead at hlen
  unfold Cursor.next Cursor.next_geq
  rw [hlen]

theorem dead_before_pivot_of_tracks {md : Nat} {cursors cs : List (Cursor S)}
    {q : topk_queue S} (hwf : well_formed md cursors) (ht : tracks cursors cs) (p pid : Nat)
    (hlive : ∀ c ∈ cs.take p, c.docid < md)
    (hnot : q.would_enter (sum_max (cs.take p)) = false)
    (hge : ∀ c ∈ cs.drop p, pid ≤ c.docid) (d : Nat) (hd : d < pid)
    (hs : seen cs d = false) : q.would_enter (exhaustive_score cursors d) = false := by
  have hok := tracks_ok hwf ht
  have hsplit := List.take_append_drop p cs
  have hle : exhaustive_score cursors d ≤ sum_max (cs.take p) := by
    rw [tracks_score ht, ← hsplit]
    conv_rhs => rw [List.take_append_drop]
    apply @score_le_sum_max S _ md
    · rw [hsplit]; exact hok
    · exact hlive
    · intro c hc
      apply list_score_eq_zero_of_lt (hok c (List.mem_of_mem_drop hc)) _
        (lt_of_lt_of_le hd (hge c hc))
      cases hcs : c.seen d with
      | false => rfl
      | true =>
        have : seen cs d = true := (seen_iff cs d).2 ⟨c, List.mem_of_mem_drop hc, hcs⟩
        rw [hs] at this
        exact absurd this (by decide)
  exact topk_queue.would_enter_false_mono q hle hnot

theorem dead_below_of_tracks {md : Nat} {cursors cs : List (Cursor S)} {q : topk_queue S}
    (hwf : well_formed md cursors) (ht : tracks cursors cs)
    (hsorted : cs.Pairwise (fun a b => a.docid ≤ b.docid)) (pid : Nat) (hpid : pid ≤ md)
    (hld : ∀ c ∈ cs, c.docid < pid →
      q.would_enter (sum_max (cs.filter (fun c => decide (c.docid < pid)))) = false)
    (x : Cursor S) (hx : x ∈ cs) (hxd : x.docid < pid) (d : Nat) (hd : d < pid)
    (hs : seen cs d = false) : q.would_enter (exhaustive_score cursors d) = false := by
  obtain ⟨r, hr, hf, hdr⟩ := filter_lt_eq_take pid cs hsorted
  have hnot := hld x hx hxd
  rw [hf] at hnot
  apply dead_before_pivot_of_tracks hwf ht r pid _ hnot hdr d hd hs
  intro c hc
  rw [← hf, List.mem_filter] at hc
  have := hc.2
  simp only [decide_eq_true_eq] at this
  omega

theorem skip_dead_of_tracks {md : Nat} {cursors csb : List (Cursor S)} {q : topk_queue S}
    (hwf : well_formed md cursors) (ht : tracks cursors csb) (pivot pid t : Nat)
    (hB : ∀ c ∈ csb, c.valid_blocks ∧ blocks_below pid c)
    (hbmd : ∀ c ∈ csb.take (pivot + 1), pid ≤ c.block_max_docid)
    (hskip : ∀ d, d < t → pid ≤ d → ∀ i, i ≤ pivot → ∀ c, csb[i]? = some c →
      pid ≤ c.block_max_docid → d ≤ c.block_max_docid)
    (hrest : ∀ c ∈ csb.drop (pivot + 1), t ≤ c.docid)
    (hnot : q.would_enter (sum_block (csb.take (pivot + 1))) = false)
    (d : Nat) (hpd : pid ≤ d) (hdt : d < t) (hs : seen csb d = false) :
    q.would_enter (exhaustive_score cursors d) = false := by
  have hok := tracks_ok hwf ht
  have hle : exhaustive_score cursors d ≤ sum_block (csb.take (pivot + 1)) := by
    rw [tracks_score ht, ← List.take_append_drop (pivot + 1) csb]
    conv_rhs => rw [List.take_append_drop]
    apply score_le_sum_block
    · intro c hc
      have hcm : c ∈ csb := List.mem_of_mem_take hc
      obtain ⟨i, hi, hci⟩ := getElem?_of_mem_take hc
      exact list_score_le_block (hok c hcm) (hB c hcm).1 pid d (hB c hcm).2 hpd
        (hskip d hdt hpd i (by omega) c hci (hbmd c hc))
    · intro c hc
      have hcm : c ∈ csb := List.mem_of_mem_drop hc
      apply list_score_eq_zero_of_lt (hok c hcm) _ (lt_of_lt_of_le hdt (hrest c hc))
      cases hcs : c.seen d with
      | false => rfl
      | true =>
        have : seen csb d = true := (seen_iff csb d).2 ⟨c, hcm, hcs⟩
        rw [hs] at this
        exact absurd this (by decide)
  exact topk_queue.would_enter_false_mono q hle hnot

/-- The score computed by the scoring loop for a docid no cursor has moved past is its
exhaustive score. -/
theorem full_score {md : Nat} {cursors cs : List (Cursor S)} {c0 : Cursor S} (pid : Nat)
    (hwf : well_formed md cursors) (ht : tracks cursors cs)
    (hsorted : cs.Pairwise (fun a b => a.docid ≤ b.docid))
    (hc0 : cs.head? = some c0) (hpid : c0.docid = pid) (hlive : pid < md)
    (hsp : seen cs pid = false) :
    ((cs.takeWhile (fun c => decide (c.docid = pid))).map Cursor.score).sum =
      exhaustive_score cursors pid := by
  have hok := tracks_ok hwf ht
  have hsplit := List.takeWhile_append_dropWhile (fun c : Cursor S => decide (c.docid = pid)) cs
  have hRd := rest_docid_gt hsorted hc0 hpid
  generalize hF : cs.takeWhile (fun c => decide (c.docid = pid)) = F at *
  generalize hR : cs.dropWhile (fun c => decide (c.docid = pid)) = R at *
  have hFd : ∀ c ∈ F, c.docid = pid := by rw [← hF]; exact front_docid
  have hFok : ∀ c ∈ F, c.ok md := fun c hc => hok c (by rw [← hsplit]; simp [hc])
  have hRok : ∀ c ∈ R, c.ok md := fun c hc => hok c (by rw [← hsplit]; simp [hc])
  have hRzero : (R.map (fun c => list_score c pid)).sum = 0 := by
    apply sum_list_score_eq_zero
    intro c hc
    apply list_score_eq_zero_of_lt (hRok c hc) _ (hRd c hc)
    cases hcs : c.seen pid with
    | false => rfl
    | true =>
      have : seen cs pid = true := (seen_iff cs pid).2 ⟨c, by rw [← hsplit]; simp [hc], hcs⟩
      rw [hsp] at this
      exact absurd this (by decide)
  rw [tracks_score ht, ← hsplit, List.map_append, List.sum_append,
    sum_front_score hFok hFd hlive, hRzero, add_zero]

theorem tracks_jump {cursors A B cs2 : List (Cursor S)} {c : Cursor S} (t : Nat)
    (ht : tracks cursors (A ++ c :: B)) (hperm : cs2.Perm (A ++ c.next_geq t :: B)) :
    tracks cursors cs2 := by
  refine tracks_perm (tracks_of_map_home_eq ht ?_) hperm
  simp only [List.map_append, List.map_cons]
  rfl

theorem seen_jump {md : Nat} {A B cs2 : List (Cursor S)} {c : Cursor S} (t : Nat)
    (hcok : c.ok md) (hperm : cs2.Perm (A ++ c.next_geq t :: B)) (d : Nat) :
    seen cs2 d = true ↔
      (seen (A ++ c :: B) d = true ∨ (d ∈ c.ahead.map Prod.fst ∧ d < t)) := by
  rw [seen_perm hperm, seen_append, seen_append, seen_cons, seen_cons]
  simp only [Bool.or_eq_true]
  rw [Cursor.seen_next_geq hcok]
  tauto

theorem pend_jump {md : Nat} {A B cs2 : List (Cursor S)} {c : Cursor S} (t : Nat)
    (hcok : c.ok md) (hperm : cs2.Perm (A ++ c.next_geq t :: B)) (d : Nat)
    (h : ∃ c2 ∈ cs2, d ∈ c2.ahead.map Prod.fst) :
    ∃ c2 ∈ A ++ c :: B, d ∈ c2.ahead.map Prod.fst := by
  obtain ⟨c2, hc2, hd⟩ := h
  have hc3 := hperm.subset hc2
  rw [List.mem_append, List.mem_cons] at hc3
  rcases hc3 with h | h | h
  · exact ⟨c2, by simp [h], hd⟩
  · subst h
    rw [Cursor.mem_ahead_next_geq hcok] at hd
    exact ⟨c, by simp, hd.1⟩
  · exact ⟨c2, by simp [h], hd⟩

theorem partial_below_of_unblock_eq {cs cs2 : List (Cursor S)} {scored : List Bool} {T : Nat}
    (h : cs2.map Cursor.unblock = cs.map Cursor.unblock) (hp : partial_below cs scored T) :
    partial_below cs2 scored T := by
  intro d hs hpend
  apply hp d
  · rw [← seen_of_unblock_eq h]; exact hs
  · rw [← pending_unblock] at hpend ⊢
    rw [← h]
    exact hpend

/-! ### Sums of block bounds -/

theorem sum_block_cons (c : Cursor S) (cs : List (Cursor S)) :
    sum_block (c :: cs) = c.block_max_score * c.query_weight + sum_block cs := by
  unfold sum_block
  rw [List.map_cons, List.sum_cons]

theorem sum_block_append (A B : List (Cursor S)) :
    sum_block (A ++ B) = sum_block A + sum_block B := by
  unfold sum_block
  rw [List.map_append, List.sum_append]

theorem sum_block_perm {cs cs2 : List (Cursor S)} (h : cs.Perm cs2) :
    sum_block cs = sum_block cs2 :=
  (h.map _).sum_eq

theorem sum_block_nonneg {cs : List (Cursor S)} (h : ∀ c ∈ cs, c.valid_blocks) :
    0 ≤ sum_block cs := by
  unfold sum_block
  apply List.sum_nonneg
  intro x hx
  obtain ⟨c, hc, rfl⟩ := List.mem_map.1 hx
  exact sum_block_nonneg_term (h c hc)

theorem sum_block_filter_le (p : Cursor S → Bool) :
    ∀ (cs : List (Cursor S)), (∀ c ∈ cs, c.valid_blocks) →
      sum_block (cs.filter p) ≤ sum_block cs := by
  intro cs
  induction cs with
  | nil => intro _; exact le_refl _
  | cons a l ih =>
    intro h
    have hl := ih (fun c hc => h c (List.mem_cons_of_mem _ hc))
    rw [List.filter_cons]
    split
    · rw [sum_block_cons, sum_block_cons]
      exact add_le_add_left hl _
    · rw [sum_block_cons]
      exact le_trans hl (le_add_of_nonneg_left (sum_block_nonneg_term (h a (List.mem_cons_self _ _))))

/-- Moving one cursor forward does not increase the sum of the block bounds of the cursors
below `T`. -/
theorem sum_block_filter_jump {cs2 A B : List (Cursor S)} {c c2 : Cursor S} (T : Nat)
    (hperm : cs2.Perm (A ++ c2 :: B)) (hle : c.docid ≤ c2.docid)
    (hb : c2.block_max_score * c2.query_weight = c.block_max_score * c.query_weight)
    (hv : c.valid_blocks) :
    sum_block (cs2.filter (fun c => decide (c.docid < T))) ≤
      sum_block ((A ++ c :: B).filter (fun c => decide (c.docid < T))) := by
  rw [sum_block_perm (hperm.filter _), List.filter_append, List.filter_append, sum_block_append,
    sum_block_append, List.filter_cons, List.filter_cons]
  apply add_le_add_left
  by_cases h2 : c2.docid < T
  · have h1 : c.docid < T := by omega
    rw [if_pos (by simpa using h2), if_pos (by simpa using h1), sum_block_cons, sum_block_cons,
      hb]
  · rw [if_neg (by simpa using h2)]
    by_cases h1 : c.docid < T
    · rw [if_pos (by simpa using h1), sum_block_cons]
      exact le_add_of_nonneg_left (sum_block_nonneg_term hv)
    · rw [if_neg (by simpa using h1)]

end pisa

namespace pisa

variable {S : Type} [LinearOrderedCommSemiring S]

/-! ## Proofs: the pivot search and the block-bound loop -/

theorem block_advance_eq_self {pid : Nat} {c : Cursor S} (h : pid ≤ c.block_max_docid) :
    block_advance pid c = c := by
  unfold block_advance
  rw [if_neg (by omega)]

theorem tracks_of_unblock_eq {cursors cs cs2 : List (Cursor S)}
    (h : cs2.map Cursor.unblock = cs.map Cursor.unblock) (ht : tracks cursors cs) :
    tracks cursors cs2 := by
  rw [← tracks_unblock, h, tracks_unblock]
  exact ht

theorem sorted_of_unblock_eq {cs cs2 : List (Cursor S)}
    (h : cs2.map Cursor.unblock = cs.map Cursor.unblock)
    (hs : cs.Pairwise (fun a b => a.docid ≤ b.docid)) :
    cs2.Pairwise (fun a b => a.docid ≤ b.docid) := by
  rw [← sorted_unblock, h, sorted_unblock]
  exact hs

/-- The pivot search and the block-bound loop on a state satisfying the invariant. -/
theorem pivot_ctx_intro {md : Nat} {cursors cs : List (Cursor S)} {q : topk_queue S}
    {scored : List Bool} {P T p : Nat} (hwf : well_formed md cursors)
    (hinv : walk_inv md cursors cs q scored P T) (hfp : find_pivot q md cs 0 0 = some p) :
    ∃ cp pivot csb, pivot_ctx md cursors cs q scored P T p cp pivot csb := by
  have hok := tracks_ok hwf hinv.tracks
  obtain ⟨hPmd, hB, hM⟩ := hinv.blocks
  obtain ⟨hPT, hhor⟩ := hinv.horizon
  obtain ⟨n, hn, hlen, hlive, hent, hnot⟩ := find_pivot_some cs 0 0 p hfp
  have hn2 : n = p := by omega
  subst hn2
  have hcp : cs[n]? = some cs[n] := List.getElem?_eq_getElem hlen
  generalize cs[n] = cp at hcp
  have hcplive : cp.docid < md := hlive cp (mem_take_of_getElem? hcp (by omega))
  rw [zero_add] at hent
  have hnot2 : ∀ m, 1 ≤ m → m ≤ n → q.would_enter (sum_max (cs.take m)) = false := by
    intro m h1 h2
    have := hnot m h1 h2
    rwa [zero_add] at this
  obtain ⟨hge0, hpl, htk, hdr, cl, hcl, hcld⟩ := extend_pivot_spec hinv.sorted hcp
  have hPle : P ≤ cp.docid := pivot_ge_last hok hPmd hinv.sorted hcp hent hM
  refine ⟨cp, block_max_wand_query.extend_pivot cs cp.docid n,
    (cs.take (block_max_wand_query.extend_pivot cs cp.docid n + 1)).map
      (block_advance cp.docid) ++
      cs.drop (block_max_wand_query.extend_pivot cs cp.docid n + 1), ?_⟩
  generalize hpv : block_max_wand_query.extend_pivot cs cp.docid n = pivot at *
  have hAlen : ((cs.take (pivot + 1)).map (block_advance cp.docid)).length = pivot + 1 := by
    rw [List.length_map, List.length_take]
    omega
  have hT := @List.take_left' _ _ (cs.drop (pivot + 1)) _ hAlen
  have hD := @List.drop_left' _ _ (cs.drop (pivot + 1)) _ hAlen
  have hun := map_advance_unblock cp.docid (pivot + 1) cs
  have hBb := @blocks_after_bound S _ cs P cp.docid (pivot + 1) hPle hB
  have hbmd : ∀ c ∈ (cs.take (pivot + 1)).map (block_advance cp.docid),
      cp.docid ≤ c.block_max_docid := by
    intro c hc
    obtain ⟨c1, hc1, rfl⟩ := List.mem_map.1 hc
    exact block_max_docid_advance_ge cp.docid c1 (hok c1 (List.mem_of_mem_take hc1)).1
      (le_of_lt hcplive)
  have hnear : cp.docid < T →
      (cs.take (pivot + 1)).map (block_advance cp.docid) ++ cs.drop (pivot + 1) = cs := by
    intro hlt
    have h1 := (hhor (by omega)).1
    have h2 : (cs.take (pivot + 1)).map (block_advance cp.docid) = cs.take (pivot + 1) := by
      conv_rhs => rw [← List.map_id (cs.take (pivot + 1))]
      apply List.map_congr_left
      intro c hc
      have hcd := htk c hc
      have := h1 c (List.mem_of_mem_take hc) (by omega)
      rw [id, block_advance_eq_self (by omega)]
    rw [h2, List.take_append_drop]
  have hfar : q.would_enter
      (sum_block ((cs.take (pivot + 1)).map (block_advance cp.docid))) = true →
      T ≤ cp.docid := by
    intro hwe
    by_contra hlt
    have hlt2 : cp.docid < T := by omega
    have h0 := hnear hlt2
    have h2 : (cs.take (pivot + 1)).map (block_advance cp.docid) = cs.take (pivot + 1) := by
      have := congrArg (List.take (pivot + 1)) h0
      rwa [hT] at this
    rw [h2] at hwe
    have hb := (hhor (by omega)).2
    obtain ⟨r, hr, hf, hd⟩ := filter_lt_eq_take T cs hinv.sorted
    rw [hf] at hb
    have hpr : pivot < r := by
      by_contra hge
      have hmem : cl ∈ cs.drop r := by
        rw [List.getElem?_eq_getElem hpl] at hcl
        simp only [Option.some.injEq] at hcl
        rw [← hcl, List.mem_drop_iff_getElem]
        exact ⟨pivot - r, by omega, by congr 1; omega⟩
      have := hd cl hmem
      omega
    have hsplit : cs.take r = cs.take (pivot + 1) ++ (cs.take r).drop (pivot + 1) := by
      conv_lhs => rw [← List.take_append_drop (pivot + 1) (cs.take r)]
      rw [List.take_take, Nat.min_eq_left (by omega)]
    have hnn : 0 ≤ sum_block ((cs.take r).drop (pivot + 1)) := by
      apply sum_block_nonneg
      intro c hc
      exact (hB c (List.mem_of_mem_take (List.mem_of_mem_drop hc))).1
    have hle : sum_block (cs.take (pivot + 1)) ≤ sum_block (cs.take r) := by
      conv_rhs => rw [hsplit, sum_block_append]
      exact le_add_of_nonneg_right hnn
    have := topk_queue.would_enter_false_mono q hle hb
    rw [hwe] at this
    exact absurd this (by decide)
  have hbound := block_bound_loop_eq cp.docid (pivot + 1) cs (0 : S)
  rw [zero_add] at hbound
  generalize hA : (cs.take (pivot + 1)).map (block_advance cp.docid) = A at *
  generalize hcsb : A ++ cs.drop (pivot + 1) = csb at *
  obtain ⟨clb, hclb, hclbu⟩ := getElem?_of_unblock_eq hun hcl
  have hclbd : clb.docid = cp.docid := by rw [docid_of_unblock_eq hclbu, hcld]
  have hlenb : csb.length = cs.length := by
    have := congrArg List.length hun
    rwa [List.length_map, List.length_map] at this
  have htkb : ∀ c ∈ csb.take (pivot + 1), c.docid ≤ cp.docid := by
    intro c hc
    obtain ⟨i, hi, hci⟩ := getElem?_of_mem_take hc
    have hi2 : i < cs.length := by
      by_contra hge
      rw [List.getElem?_eq_none (by omega)] at hci
      exact absurd hci (by simp)
    obtain ⟨c2, hc2, hc2u⟩ := getElem?_of_unblock_eq hun (List.getElem?_eq_getElem hi2)
    rw [hci] at hc2
    simp only [Option.some.injEq] at hc2
    subst hc2
    rw [docid_of_unblock_eq hc2u]
    exact htk _ (mem_take_of_getElem? (List.getElem?_eq_getElem hi2) hi)
  exact
    { hcp := hcp
      hlive := hcplive
      hpivot := hpv
      hbound := by rw [hT]; exact hbound
      hun := hun
      tracks := tracks_of_unblock_eq hun hinv.tracks
      sorted := sorted_of_unblock_eq hun hinv.sorted
      hP := hPle
      blocks := hBb
      low := low_dead_of_unblock_eq hun (low_dead_of_pivot hinv.sorted hcp hnot2)
      hbmd := by rw [hT]; exact hbmd
      htk := htkb
      hdr := by rw [hD]; exact hdr
      hlen := by omega
      hlast := ⟨clb, hclb, hclbd⟩
      hfar := by rw [hT]; exact hfar
      hnear := hnear
      pending := partial_below_of_unblock_eq hun hinv.pending }

end pisa

namespace pisa

variable {S : Type} [LinearOrderedCommSemiring S]

/-! ## Proofs: the steps that move one cursor forward -/

theorem docid_mem_of_unblock_eq {cs cs2 : List (Cursor S)}
    (h : cs2.map Cursor.unblock = cs.map Cursor.unblock) {x : Cursor S} (hx : x ∈ cs2) :
    ∃ y ∈ cs, y.docid = x.docid := by
  have hmem : x.unblock ∈ cs.map Cursor.unblock := by
    rw [← h]; exact List.mem_map_of_mem _ hx
  obtain ⟨y, hy, he⟩ := List.mem_map.1 hmem
  exact ⟨y, hy, docid_of_unblock_eq he⟩

/-- A step that moves the cursor `c` at an index up to the pivot by `next_geq(t)` and
reorders the list, given the new horizon `T2` and the fate of the docids `c` moves past. -/
theorem walk_jump {md : Nat} {cursors cs csb : List (Cursor S)} {q : topk_queue S}
    {scored : List Bool} {P T p pivot : Nat} {cp : Cursor S}
    (hwf : well_formed md cursors)
    (ctx : pivot_ctx md cursors cs q scored P T p cp pivot csb)
    {i : Nat} {c : Cursor S} (hc : csb[i]? = some c) (hi : i ≤ pivot) (t : Nat)
    (hct : c.docid < t) {cs2 : List (Cursor S)}
    (hperm : cs2.Perm (csb.take i ++ c.next_geq t :: csb.drop (i + 1)))
    (hsorted : cs2.Pairwise (fun a b => a.docid ≤ b.docid))
    (T2 : Nat) (hTT : T ≤ T2) (hhor : horizon_inv cs2 q cp.docid T2)
    (hnewp : ∀ d ∈ c.ahead.map Prod.fst, d < t → d < T2 ∨ bit_test scored d = true)
    (hnewd : ∀ d ∈ c.ahead.map Prod.fst, d < t → seen csb d = false →
      bit_test scored d = true ∨ q.would_enter (exhaustive_score cursors d) = false) :
    jump_ok md cursors cs q scored cs2 := by
  have hokb := tracks_ok hwf ctx.tracks
  have hsplit := eq_take_cons_drop hc
  have hcm : c ∈ csb := List.getElem?_mem hc
  have hcok := hokb c hcm
  have hcd : c.docid ≤ cp.docid := ctx.htk c (mem_take_of_getElem? hc (by omega))
  have hclive : c.docid < md := lt_of_le_of_lt hcd ctx.hlive
  have hseen := fun d => @seen_jump S _ md _ _ cs2 c t hcok hperm d
  have hsb : ∀ d, seen csb d = seen cs d := seen_of_unblock_eq ctx.hun
  refine ⟨⟨cp.docid, T2, ?_, hsorted, ⟨le_of_lt ctx.hlive, ?_, ?_⟩, hhor, ?_⟩, ?_, ?_, ?_⟩
  · apply tracks_jump t _ hperm
    rw [← hsplit]
    exact ctx.tracks
  · exact blocks_after_jump hc hperm ctx.blocks
  · apply low_dead_jump hperm (Cursor.docid_le_next_geq hcok _) rfl
      (max_score_nonneg_of_live hcok hclive)
    rw [← hsplit]
    exact ctx.low
  · intro d hs hp
    have hp2 := pend_jump t hcok hperm d hp
    rw [← hsplit] at hp2
    rcases (hseen d).1 hs with h | h
    · rw [← hsplit] at h
      rcases ctx.pending d h hp2 with h1 | h1
      · left; omega
      · right; exact h1
    · exact hnewp d h.1 h.2
  · rw [remaining_perm hperm, remaining_append, remaining_cons,
      ← remaining_of_unblock_eq ctx.hun]
    conv_rhs => rw [hsplit, remaining_append, remaining_cons]
    have := Cursor.left_next_geq_lt hcok t hclive hct
    omega
  · intro d hs
    cases hsd : seen csb d with
    | true => left; rw [← hsb]; exact hsd
    | false =>
      rcases (hseen d).1 hs with h | h
      · rw [← hsplit, hsd] at h
        exact absurd h (by decide)
      · right
        exact hnewd d h.1 h.2 hsd
  · intro c2 hc2
    have hc3 := hperm.subset hc2
    rw [List.mem_append, List.mem_cons] at hc3
    rcases hc3 with h | h | h
    · obtain ⟨y, hy, hyd⟩ := docid_mem_of_unblock_eq ctx.hun (List.mem_of_mem_take h)
      exact ⟨y, hy, le_of_eq hyd⟩
    · obtain ⟨y, hy, hyd⟩ := docid_mem_of_unblock_eq ctx.hun hcm
      refine ⟨y, hy, ?_⟩
      rw [hyd, h]
      exact Cursor.docid_le_next_geq hcok _
    · obtain ⟨y, hy, hyd⟩ := docid_mem_of_unblock_eq ctx.hun (List.mem_of_mem_drop h)
      exact ⟨y, hy, le_of_eq hyd⟩

/-- The first cursor after the block-bound loop exists. -/
theorem ctx_head {md : Nat} {cursors cs csb : List (Cursor S)} {q : topk_queue S}
    {scored : List Bool} {P T p pivot : Nat} {cp : Cursor S}
    (ctx : pivot_ctx md cursors cs q scored P T p cp pivot csb) :
    ∃ c0, csb[0]? = some c0 := by
  have hlen : 0 < csb.length := by have := ctx.hlen; omega
  exact ⟨csb[0], List.getElem?_eq_getElem hlen⟩

/-- The align branch (Case 3): some cursor below the pivot docid is moved up to it. -/
theorem ctx_align {md : Nat} {cursors cs csb : List (Cursor S)} {q : topk_queue S}
    {scored : List Bool} {P T p pivot : Nat} {cp c0 : Cursor S}
    (hwf : well_formed md cursors)
    (ctx : pivot_ctx md cursors cs q scored P T p cp pivot csb)
    (hwe : q.would_enter (sum_block (csb.take (pivot + 1))) = true)
    (hc0 : csb[0]? = some c0) (hne : cp.docid ≠ c0.docid) :
    ∃ cs2, align true csb pivot cp.docid = some cs2 ∧ jump_ok md cursors cs q scored cs2 := by
  have hokb := tracks_ok hwf ctx.tracks
  obtain ⟨clb, hclb, hclbd⟩ := ctx.hlast
  have hne2 : clb.docid ≠ c0.docid := by rw [hclbd]; exact hne
  obtain ⟨cs2, i, c, hal, hip, hc, hcd, hperm, hsorted⟩ :=
    align_spec true csb pivot clb c0 hokb ctx.sorted hclb hc0 hne2
  rw [hclbd] at hal hcd hperm
  refine ⟨cs2, hal, ?_⟩
  have hcm : c ∈ csb := List.getElem?_mem hc
  apply walk_jump hwf ctx hc (le_of_lt hip) cp.docid hcd hperm hsorted cp.docid (ctx.hfar hwe)
    ⟨le_refl _, fun h => absurd h (lt_irrefl _)⟩
  · intro d _ hd
    exact Or.inl hd
  · intro d _ hd hs
    right
    exact dead_below_of_tracks hwf ctx.tracks ctx.sorted cp.docid (le_of_lt ctx.hlive) ctx.low
      c hcm hcd d hd hs

/-- The branch of stage two for a pivot docid that is already scored (Case 1): the pivot
cursor moves one posting on. -/
theorem ctx_pass {md : Nat} {cursors cs csb : List (Cursor S)} {q : topk_queue S}
    {scored : List Bool} {P T p pivot : Nat} {cp : Cursor S}
    (hwf : well_formed md cursors)
    (ctx : pivot_ctx md cursors cs q scored P T p cp pivot csb)
    (hwe : q.would_enter (sum_block (csb.take (pivot + 1))) = true)
    (hbit : bit_test scored cp.docid = true) :
    ∃ cs2, advance_and_bubble true csb pivot (fun c => c.next) = some cs2 ∧
      jump_ok md cursors cs q scored cs2 := by
  have hokb := tracks_ok hwf ctx.tracks
  obtain ⟨clb, hclb, hclbd⟩ := ctx.hlast
  have hcm : clb ∈ csb := List.getElem?_mem hclb
  have hcok := hokb clb hcm
  have hclive : clb.docid < md := by rw [hclbd]; exact ctx.hlive
  obtain ⟨cs2, h1, hperm, h3⟩ :=
    advance_and_bubble_spec true csb pivot (fun c => c.next) clb hclb
  refine ⟨cs2, h1, ?_⟩
  have hnext := Cursor.next_eq_next_geq hcok hclive
  rw [hnext] at hperm h3
  have hsorted := h3 ctx.sorted (Cursor.docid_le_next_geq hcok _)
  have hd : ∀ d ∈ clb.ahead.map Prod.fst, d < clb.docid + 1 → d = cp.docid := by
    intro d hda hlt
    have := (Cursor.docid_le_of_mem_ahead hcok hda).1
    omega
  apply walk_jump hwf ctx hclb (le_refl _) (clb.docid + 1) (Nat.lt_succ_self _) hperm hsorted
    cp.docid (ctx.hfar hwe) ⟨le_refl _, fun h => absurd h (lt_irrefl _)⟩
  · intro d hda hlt
    right
    rw [hd d hda hlt]
    exact hbit
  · intro d hda hlt _
    left
    rw [hd d hda hlt]
    exact hbit

end pisa

namespace pisa

variable {S : Type} [LinearOrderedCommSemiring S]

/-! ## Proofs: the skip step -/

/-- The skip branch: the block bound cannot enter the heap, and one cursor up to the pivot
is moved to the skip target. -/
theorem ctx_skip {md : Nat} {cursors cs csb : List (Cursor S)} {q : topk_queue S}
    {scored : List Bool} {P T p pivot : Nat} {cp : Cursor S}
    (hwf : well_formed md cursors) (hinv : walk_inv md cursors cs q scored P T)
    (ctx : pivot_ctx md cursors cs q scored P T p cp pivot csb)
    (hwe : q.would_enter (sum_block (csb.take (pivot + 1))) = false) :
    ∃ cs2, block_max_wand_query.skip_step csb md pivot cp.docid = some cs2 ∧
      jump_ok md cursors cs q scored cs2 := by
  have hokb := tracks_ok hwf ctx.tracks
  obtain ⟨clb, hclb, hclbd⟩ := ctx.hlast
  unfold block_max_wand_query.skip_step
  simp only [hclb]
  have hile : block_max_wand_query.skip_list csb pivot clb.max_score ≤ pivot :=
    skip_list_le _ _ _
  generalize block_max_wand_query.skip_list csb pivot clb.max_score = i at hile ⊢
  obtain ⟨ht1, ht2, ht3⟩ := skip_target_spec csb md pivot cp.docid
  generalize block_max_wand_query.skip_target csb md pivot cp.docid = t at ht1 ht2 ht3 ⊢
  have hlen := ctx.hlen
  have hc : csb[i]? = some csb[i] := List.getElem?_eq_getElem (by omega)
  generalize csb[i] = c at hc
  obtain ⟨cs2, h1, hperm, h3⟩ :=
    advance_and_bubble_spec false csb i (fun c => c.next_geq t) c hc
  refine ⟨cs2, h1, ?_⟩
  have hsplit := eq_take_cons_drop hc
  have hcm : c ∈ csb := List.getElem?_mem hc
  have hcok := hokb c hcm
  have hctk : c ∈ csb.take (pivot + 1) := mem_take_of_getElem? hc (by omega)
  have hcd : c.docid ≤ cp.docid := ctx.htk c hctk
  have hsorted := h3 ctx.sorted (Cursor.docid_le_next_geq hcok t)
  have hrest : ∀ x ∈ csb.drop (pivot + 1), t ≤ x.docid := by
    intro x hx
    have hlen2 : pivot + 1 < csb.length := by
      by_contra hge
      rw [List.drop_eq_nil_of_le (by omega)] at hx
      simp at hx
    have hc1 : csb[pivot + 1]? = some csb[pivot + 1] := List.getElem?_eq_getElem hlen2
    have hc1m : csb[pivot + 1] ∈ csb.drop (pivot + 1) := by
      rw [List.drop_eq_getElem_cons hlen2]
      exact List.mem_cons_self _ _
    have h4 := ht2 _ hc1 (ctx.hdr _ hc1m)
    have h5 := drop_docid_ge ctx.sorted hc1 x hx
    omega
  have hblk : ∀ x ∈ csb.take (pivot + 1), t ≤ x.block_max_docid + 1 := by
    intro x hx
    obtain ⟨j, hj, hxj⟩ := getElem?_of_mem_take hx
    have := ht3 (t - 1) (by omega) (by omega) j (by omega) x hxj (ctx.hbmd x hx)
    omega
  have hmem_split : ∀ x ∈ csb, x ∈ csb.take (pivot + 1) ∨ x ∈ csb.drop (pivot + 1) := by
    intro x hx
    rw [← List.take_append_drop (pivot + 1) csb, List.mem_append] at hx
    exact hx
  have hnewd : ∀ d ∈ c.ahead.map Prod.fst, d < t → seen csb d = false →
      bit_test scored d = true ∨ q.would_enter (exhaustive_score cursors d) = false := by
    intro d hda hdt hs
    right
    by_cases hd : d < cp.docid
    · have := (Cursor.docid_le_of_mem_ahead hcok hda).1
      exact dead_below_of_tracks hwf ctx.tracks ctx.sorted cp.docid (le_of_lt ctx.hlive)
        ctx.low c hcm (by omega) d hd hs
    · exact skip_dead_of_tracks hwf ctx.tracks pivot cp.docid t ctx.blocks ctx.hbmd ht3 hrest
        hwe d (by omega) hdt hs
  have hjump := fun (T2 : Nat) =>
    @sum_block_filter_jump S _ cs2 (csb.take i) (csb.drop (i + 1)) c (c.next_geq t) T2 hperm
      (Cursor.docid_le_next_geq hcok t) rfl (ctx.blocks c hcm).1
  by_cases hTt : T ≤ t
  · apply walk_jump hwf ctx hc hile t (by omega) hperm hsorted t hTt _
      (fun d _ hd => Or.inl hd) hnewd
    refine ⟨le_of_lt ht1, fun _ => ⟨?_, ?_⟩⟩
    · intro x hx hxt
      have hx2 := hperm.subset hx
      rw [List.mem_append, List.mem_cons] at hx2
      have hcsb : ∀ y ∈ csb, y.docid < t → t ≤ y.block_max_docid + 1 := by
        intro y hy hyt
        rcases hmem_split y hy with h | h
        · exact hblk y h
        · have := hrest y h
          omega
      rcases hx2 with h | h | h
      · exact hcsb x (List.mem_of_mem_take h) hxt
      · rw [h]
        exact hblk c hctk
      · exact hcsb x (List.mem_of_mem_drop h) hxt
    · have hle1 := hjump t
      rw [← hsplit] at hle1
      have hle2 : sum_block (csb.filter (fun c => decide (c.docid < t))) ≤
          sum_block (csb.take (pivot + 1)) := by
        conv_lhs => rw [← List.take_append_drop (pivot + 1) csb, List.filter_append]
        have hnil : (csb.drop (pivot + 1)).filter (fun c => decide (c.docid < t)) = [] := by
          rw [List.filter_eq_nil_iff]
          intro x hx
          have := hrest x hx
          simp only [decide_eq_true_eq, not_lt]
          exact this
        rw [hnil, List.append_nil]
        exact sum_block_filter_le _ _ (fun x hx => (ctx.blocks x (List.mem_of_mem_take hx)).1)
      exact topk_queue.would_enter_false_mono q (le_trans hle1 hle2) hwe
  · have hlt : cp.docid < T := by omega
    have hcs := ctx.hnear hlt
    obtain ⟨hPT, hhor⟩ := hinv.horizon
    obtain ⟨ha, hb⟩ := hhor (lt_of_le_of_lt ctx.hP hlt)
    apply walk_jump hwf ctx hc hile t (by omega) hperm hsorted T (le_refl _) _
      (fun d _ hd => Or.inl (by omega)) hnewd
    refine ⟨le_of_lt hlt, fun _ => ⟨?_, ?_⟩⟩
    · intro x hx hxt
      have hx2 := hperm.subset hx
      rw [List.mem_append, List.mem_cons] at hx2
      rcases hx2 with h | h | h
      · exact ha x (by rw [← hcs]; exact List.mem_of_mem_take h) hxt
      · rw [h]
        exact ha c (by rw [← hcs]; exact hcm) (by omega)
      · exact ha x (by rw [← hcs]; exact List.mem_of_mem_drop h) hxt
    · have hle1 := hjump T
      rw [← hsplit, hcs] at hle1
      exact topk_queue.would_enter_false_mono q hle1 hb

end pisa

namespace pisa

variable {S : Type} [LinearOrderedCommSemiring S]

/-! ## Proofs: the scoring step and the loop exit -/

/-- At loop exit a docid of the query that no cursor has moved past cannot enter the heap. -/
theorem unseen_dead_at_exit {md : Nat} {cursors cs : List (Cursor S)} {q : topk_queue S}
    (hwf : well_formed md cursors) (ht : tracks cursors cs)
    (hsorted : cs.Pairwise (fun a b => a.docid ≤ b.docid))
    (hnone : ∀ m, 1 ≤ m → m ≤ cs.length → (∀ c ∈ cs.take m, c.docid < md) →
      q.would_enter (sum_max (cs.take m)) = false)
    (d : Nat) (hdD : d ∈ all_docids cursors) (hs : seen cs d = false) :
    q.would_enter (exhaustive_score cursors d) = false := by
  have hok := tracks_ok hwf ht
  rw [tracks_mem_all_docids ht] at hdD
  obtain ⟨c, hc, hdc⟩ := hdD
  rw [Cursor.mem_postings_iff] at hdc
  have hahead : d ∈ c.ahead.map Prod.fst := by
    rcases hdc with h | h
    · have : seen cs d = true := (seen_iff cs d).2 ⟨c, hc, h⟩
      rw [hs] at this
      exact absurd this (by decide)
    · exact h
  have hdmd := Cursor.docid_le_of_mem_ahead (hok c hc) hahead
  have hsplit := List.takeWhile_append_dropWhile (fun c : Cursor S => decide (c.docid < md)) cs
  generalize hL : cs.takeWhile (fun c => decide (c.docid < md)) = L at *
  generalize hX : cs.dropWhile (fun c => decide (c.docid < md)) = X at *
  have hLlive : ∀ c ∈ L, c.docid < md := by
    intro c2 hc2
    rw [← hL] at hc2
    simpa using List.mem_takeWhile_imp hc2
  have hXdead : ∀ c ∈ X, md ≤ c.docid := by
    have hs2 := hsorted
    rw [← hsplit, List.pairwise_append] at hs2
    have hhead := List.head?_dropWhile_not (fun c : Cursor S => decide (c.docid < md)) cs
    rw [hX] at hhead
    cases X with
    | nil => intro c2 hc2; simp at hc2
    | cons x xs =>
      simp only [List.head?_cons, Option.map_some', Option.some.injEq] at hhead
      have hx : md ≤ x.docid := by
        have : ¬ x.docid < md := by simpa using hhead
        omega
      intro c2 hc2
      rcases List.mem_cons.1 hc2 with h | h
      · rw [h]; exact hx
      · have := hs2.2.1
        rw [List.pairwise_cons] at this
        exact le_trans hx (this.1 c2 h)
  have hcL : c ∈ L := by
    rw [← hsplit, List.mem_append] at hc
    rcases hc with h | h
    · exact h
    · have := hXdead c h
      omega
  have htake : cs.take L.length = L := by
    rw [← hsplit, List.take_left]
  have hlen : 1 ≤ L.length := List.length_pos_of_mem hcL
  have hlen2 : L.length ≤ cs.length := by
    rw [← hsplit, List.length_append]; omega
  have hnot := hnone L.length hlen hlen2 (by rw [htake]; exact hLlive)
  rw [htake] at hnot
  have hle : exhaustive_score cursors d ≤ sum_max L := by
    rw [tracks_score ht, ← hsplit]
    apply @score_le_sum_max S _ md
    · rw [hsplit]; exact hok
    · exact hLlive
    · intro c2 hc2
      apply list_score_eq_zero_of_lt (hok c2 (by rw [← hsplit]; simp [hc2])) _
        (lt_of_lt_of_le hdmd.2 (hXdead c2 hc2))
      cases hcs : c2.seen d with
      | false => rfl
      | true =>
        have : seen cs d = true :=
          (seen_iff cs d).2 ⟨c2, by rw [← hsplit]; simp [hc2], hcs⟩
        rw [hs] at this
        exact absurd this (by decide)
  exact topk_queue.would_enter_false_mono q hle hnot

/-- The scoring branch (Case 2): the pivot docid is the docid of the first cursor, no cursor
has moved past it, and it is not scored yet. -/
theorem ctx_score {md : Nat} {cursors cs csb : List (Cursor S)} {q : topk_queue S}
    {scored : List Bool} {P T p pivot : Nat} {cp c0 : Cursor S}
    (hwf : well_formed md cursors)
    (ctx : pivot_ctx md cursors cs q scored P T p cp pivot csb)
    (hwe : q.would_enter (sum_block (csb.take (pivot + 1))) = true)
    (hc0 : csb[0]? = some c0) (heq : cp.docid = c0.docid)
    (hbit : bit_test scored cp.docid = false) :
    score_ok md cursors cs scored cp.docid (score_front cp.docid csb 0).1
      (sort_enums (score_front cp.docid csb 0).2) := by
  have hokb := tracks_ok hwf ctx.tracks
  have hlive := ctx.hlive
  have hTle := ctx.hfar hwe
  have hhead : csb.head? = some c0 := by
    rw [← getElem?_zero_eq_head?]; exact hc0
  have hc0m : c0 ∈ csb := List.getElem?_mem hc0
  have hc0a : cp.docid ∈ c0.ahead.map Prod.fst := by
    rw [heq]
    exact Cursor.mem_ahead_of_live (hokb c0 hc0m) (by rw [← heq]; exact hlive)
  have hsb : ∀ d, seen csb d = seen cs d := seen_of_unblock_eq ctx.hun
  have hsp : seen csb cp.docid = false := by
    cases h : seen csb cp.docid with
    | false => rfl
    | true =>
      rcases ctx.pending cp.docid h ⟨c0, hc0m, hc0a⟩ with h1 | h1
      · omega
      · rw [hbit] at h1; exact absurd h1 (by decide)
  rw [score_front_eq]
  simp only [zero_add]
  have hperm := sort_enums_perm
    ((csb.takeWhile (fun c => decide (c.docid = cp.docid))).map Cursor.next ++
      csb.dropWhile (fun c => decide (c.docid = cp.docid)))
  have hsorted := sort_enums_sorted
    ((csb.takeWhile (fun c => decide (c.docid = cp.docid))).map Cursor.next ++
      csb.dropWhile (fun c => decide (c.docid = cp.docid)))
  have hfull := full_score cp.docid hwf ctx.tracks ctx.sorted hhead heq.symm hlive hsp
  have hsplit := List.takeWhile_append_dropWhile
    (fun c : Cursor S => decide (c.docid = cp.docid)) csb
  have hRd := rest_docid_gt ctx.sorted hhead heq.symm
  have hc0F : c0 ∈ csb.takeWhile (fun c => decide (c.docid = cp.docid)) := by
    cases hco : csb with
    | nil => rw [hco] at hhead; simp at hhead
    | cons a tl =>
      rw [hco] at hhead
      simp only [List.head?_cons, Option.some.injEq] at hhead
      subst hhead
      rw [List.takeWhile_cons, if_pos (by simpa using heq.symm)]
      exact List.mem_cons_self _ _
  generalize hF : csb.takeWhile (fun c => decide (c.docid = cp.docid)) = F at *
  generalize hR : csb.dropWhile (fun c => decide (c.docid = cp.docid)) = R at *
  generalize hcs2 : sort_enums (F.map Cursor.next ++ R) = cs2 at *
  have hFd : ∀ c ∈ F, c.docid = cp.docid := by rw [← hF]; exact front_docid
  have hFmem : ∀ c ∈ F, c ∈ csb := fun c hc => by rw [← hsplit]; exact List.mem_append_left _ hc
  have hRmem : ∀ c ∈ R, c ∈ csb := fun c hc => by rw [← hsplit]; exact List.mem_append_right _ hc
  have hFok : ∀ c ∈ F, c.ok md := fun c hc => hokb c (hFmem c hc)
  have hRok : ∀ c ∈ R, c.ok md := fun c hc => hokb c (hRmem c hc)
  have hFne : F ≠ [] := List.ne_nil_of_mem hc0F
  have hseen : ∀ d, seen cs2 d = true ↔ (seen csb d = true ∨ d = cp.docid) := by
    intro d
    rw [seen_perm hperm, seen_append, ← hsplit, seen_append]
    simp only [Bool.or_eq_true]
    rw [seen_map_next hFok hFd hlive hFne]
    tauto
  have hpend : ∀ d, (∃ c2 ∈ cs2, d ∈ c2.ahead.map Prod.fst) →
      (∃ c2 ∈ csb, d ∈ c2.ahead.map Prod.fst) ∧ d ≠ cp.docid := by
    rintro d ⟨c2, hc2, hd⟩
    have hc3 := hperm.subset hc2
    rw [List.mem_append] at hc3
    rcases hc3 with h | h
    · obtain ⟨c, hc, rfl⟩ := List.mem_map.1 h
      rw [Cursor.mem_ahead_next (hFok c hc) (by rw [hFd c hc]; exact hlive), hFd c hc] at hd
      exact ⟨⟨c, hFmem c hc, hd.1⟩, hd.2⟩
    · refine ⟨⟨c2, hRmem c2 h, hd⟩, ?_⟩
      have h1 := (Cursor.docid_le_of_mem_ahead (hRok c2 h) hd).1
      have h2 := hRd c2 h
      omega
  have hbeyond : ∀ c ∈ cs2, cp.docid < c.docid := by
    intro c hc
    have hc2 := hperm.subset hc
    rw [List.mem_append] at hc2
    rcases hc2 with h | h
    · obtain ⟨f, hf, rfl⟩ := List.mem_map.1 h
      have h1 := hFd f hf
      have h2 := Cursor.docid_lt_next (hFok f hf) (by rw [h1]; exact hlive)
      omega
    · exact hRd c h
  have hge : ∀ c ∈ csb, cp.docid ≤ c.docid := by
    intro c hc
    rw [← hsplit, List.mem_append] at hc
    rcases hc with h | h
    · exact le_of_eq (hFd c h).symm
    · exact le_of_lt (hRd c h)
  refine ⟨hfull, ?_, hlive, by rw [← hsb]; exact hsp, hbit, ?_, hbeyond, ?_, ?_, ?_, ?_⟩
  · rw [tracks_mem_all_docids ctx.tracks]
    refine ⟨c0, hc0m, ?_⟩
    rw [Cursor.mem_postings_iff]
    exact Or.inr hc0a
  · intro c hc
    obtain ⟨y, hy, hyd⟩ := docid_mem_of_unblock_eq ctx.hun.symm hc
    rw [← hyd]
    exact hge y hy
  · intro c2 hc2
    have hc3 := hperm.subset hc2
    rw [List.mem_append] at hc3
    rcases hc3 with h | h
    · obtain ⟨f, hf, rfl⟩ := List.mem_map.1 h
      obtain ⟨y, hy, hyd⟩ := docid_mem_of_unblock_eq ctx.hun (hFmem f hf)
      refine ⟨y, hy, ?_⟩
      rw [hyd]
      exact le_of_lt (Cursor.docid_lt_next (hFok f hf) (by rw [hFd f hf]; exact hlive))
    · obtain ⟨y, hy, hyd⟩ := docid_mem_of_unblock_eq ctx.hun (hRmem c2 h)
      exact ⟨y, hy, le_of_eq hyd⟩
  · intro d
    rw [hseen d, hsb]
  · rw [remaining_perm hperm, remaining_append, ← remaining_of_unblock_eq ctx.hun]
    have hFl : ∀ c ∈ F, c.docid < md := fun c hc => by rw [hFd c hc]; exact hlive
    have h1 := remaining_map_next _ hFok hFl
    have h2 := List.length_pos_of_mem hc0F
    conv_rhs => rw [← hsplit, remaining_append]
    omega
  · intro q2 scored2 hsub
    refine ⟨cp.docid, cp.docid, ?_, hsorted, ⟨le_of_lt hlive, ?_, ?_⟩,
      ⟨le_refl _, fun h => absurd h (lt_irrefl _)⟩, ?_⟩
    · refine tracks_perm (tracks_of_map_home_eq ctx.tracks ?_) hperm
      rw [← hsplit]
      simp only [List.map_append, List.map_map]
      rfl
    · intro c hc
      have hc2 := hperm.subset hc
      rw [List.mem_append] at hc2
      rcases hc2 with h | h
      · obtain ⟨f, hf, rfl⟩ := List.mem_map.1 h
        exact ctx.blocks f (hFmem f hf)
      · exact ctx.blocks c (hRmem c h)
    · intro c hc hlt
      have := hbeyond c hc
      omega
    · intro d hs hp
      obtain ⟨hp1, hne⟩ := hpend d hp
      rcases (hseen d).1 hs with h | h
      · rcases ctx.pending d h hp1 with h1 | h1
        · left; omega
        · right; exact hsub d h1
      · exact absurd h hne

end pisa

namespace pisa

variable {S : Type} [LinearOrderedCommSemiring S]

/-! ## Proofs: the shape of one iteration of the block-max loops -/

/-- One iteration of a stage-one block-max loop on a state whose cursors satisfy `walk_inv`:
it exits when no pivot is found, or scores a docid no cursor has moved past and hands it to
the capture policy, or moves one cursor forward. -/
theorem bmw_loop_body_shape {md : Nat} {cursors : List (Cursor S)} {P T : Nat}
    (capture : driver_state S → S → Nat → Option (driver_state S))
    (hwf : well_formed md cursors) (st : driver_state S)
    (hinv : walk_inv md cursors st.ordered_cursors st.m_topk st.scored P T)
    (hbey : ∀ d, bit_test st.scored d = true → ∀ c ∈ st.ordered_cursors, d < c.docid) :
    (find_pivot st.m_topk md st.ordered_cursors 0 0 = none ∧
      block_max_wand_query.loop_body capture md st = loop_step.exit st) ∨
    (∃ pid s cs2, score_ok md cursors st.ordered_cursors st.scored pid s cs2 ∧
      block_max_wand_query.loop_body capture md st =
        match capture st s pid with
        | none => loop_step.undefined
        | some st1 => loop_step.next { st1 with ordered_cursors := cs2 }) ∨
    (∃ cs2, jump_ok md cursors st.ordered_cursors st.m_topk st.scored cs2 ∧
      block_max_wand_query.loop_body capture md st =
        loop_step.next { st with ordered_cursors := cs2 }) := by
  cases hfp : find_pivot st.m_topk md st.ordered_cursors 0 0 with
  | none =>
    left
    refine ⟨rfl, ?_⟩
    unfold block_max_wand_query.loop_body
    rw [hfp]
  | some p =>
    right
    obtain ⟨cp, pivot, csb, ctx⟩ := pivot_ctx_intro hwf hinv hfp
    obtain ⟨c0, hc0⟩ := ctx_head ctx
    unfold block_max_wand_query.loop_body
    rw [hfp]
    simp only [ctx.hcp, ctx.hpivot, ctx.hbound]
    by_cases hwe : st.m_topk.would_enter (sum_block (csb.take (pivot + 1))) = true
    · rw [if_pos hwe]
      simp only [hc0]
      by_cases heq : cp.docid = c0.docid
      · left
        rw [if_pos heq]
        have hbit : bit_test st.scored cp.docid = false := by
          cases h : bit_test st.scored cp.docid with
          | false => rfl
          | true =>
            have hc0m : c0 ∈ csb := List.getElem?_mem hc0
            obtain ⟨y, hy, hyd⟩ := docid_mem_of_unblock_eq ctx.hun hc0m
            have := hbey cp.docid h y hy
            omega
        exact ⟨cp.docid, _, _, ctx_score hwf ctx hwe hc0 heq hbit, rfl⟩
      · right
        rw [if_neg heq]
        obtain ⟨cs2, hal, hj⟩ := ctx_align hwf ctx hwe hc0 heq
        rw [hal]
        exact ⟨cs2, hj, rfl⟩
    · right
      rw [if_neg hwe]
      have hwe2 : st.m_topk.would_enter (sum_block (csb.take (pivot + 1))) = false := by
        cases h : st.m_topk.would_enter (sum_block (csb.take (pivot + 1))) with
        | false => rfl
        | true => exact absurd h hwe
      obtain ⟨cs2, hsk, hj⟩ := ctx_skip hwf hinv ctx hwe2
      rw [hsk]
      exact ⟨cs2, hj, rfl⟩

/-- One iteration of the stage-two loop on a state whose cursors satisfy `walk_inv` for the
secondary heap: it exits when no pivot is found, or scores a docid that is not scored and
that no cursor has moved past and offers it to the secondary heap, or moves one cursor
forward. -/
theorem bmw_stage_two_shape {md : Nat} {cursors : List (Cursor S)} {P T : Nat}
    (hwf : well_formed md cursors) (st : driver_state S)
    (hinv : walk_inv md cursors st.ordered_cursors st.m_secondary st.scored P T) :
    (find_pivot st.m_secondary md st.ordered_cursors 0 0 = none ∧
      block_max_wand_query.stage_two_body md st = loop_step.exit st) ∨
    (∃ pid s cs2, score_ok md cursors st.ordered_cursors st.scored pid s cs2 ∧
      bit_test st.scored pid = false ∧
      block_max_wand_query.stage_two_body md st =
        loop_step.next { st with m_secondary := (st.m_secondary.insert s pid).2,
                                 ordered_cursors := cs2 }) ∨
    (∃ cs2, jump_ok md cursors st.ordered_cursors st.m_secondary st.scored cs2 ∧
      block_max_wand_query.stage_two_body md st =
        loop_step.next { st with ordered_cursors := cs2 }) := by
  cases hfp : find_pivot st.m_secondary md st.ordered_cursors 0 0 with
  | none =>
    left
    refine ⟨rfl, ?_⟩
    unfold block_max_wand_query.stage_two_body
    rw [hfp]
  | some p =>
    right
    obtain ⟨cp, pivot, csb, ctx⟩ := pivot_ctx_intro hwf hinv hfp
    obtain ⟨c0, hc0⟩ := ctx_head ctx
    unfold block_max_wand_query.stage_two_body
    rw [hfp]
    simp only [ctx.hcp, ctx.hpivot, ctx.hbound]
    by_cases hwe : st.m_secondary.would_enter (sum_block (csb.take (pivot + 1))) = true
    · rw [if_pos hwe]
      by_cases hbit : bit_test st.scored cp.docid = true
      · right
        rw [if_pos hbit]
        obtain ⟨cs2, hadv, hj⟩ := ctx_pass hwf ctx hwe hbit
        rw [hadv]
        exact ⟨cs2, hj, rfl⟩
      · rw [if_neg hbit]
        have hbit2 : bit_test st.scored cp.docid = false := by
          cases h : bit_test st.scored cp.docid with
          | false => rfl
          | true => exact absurd h hbit
        simp only [hc0]
        by_cases heq : cp.docid = c0.docid
        · left
          rw [if_pos heq]
          exact ⟨cp.docid, _, _, ctx_score hwf ctx hwe hc0 heq hbit2, hbit2, rfl⟩
        · right
          rw [if_neg heq]
          obtain ⟨cs2, hal, hj⟩ := ctx_align hwf ctx hwe hc0 heq
          rw [hal]
          exact ⟨cs2, hj, rfl⟩
    · right
      rw [if_neg hwe]
      have hwe2 : st.m_secondary.would_enter (sum_block (csb.take (pivot + 1))) = false := by
        cases h : st.m_secondary.would_enter (sum_block (csb.take (pivot + 1))) with
        | false => rfl
        | true => exact absurd h hwe
      obtain ⟨cs2, hsk, hj⟩ := ctx_skip hwf hinv ctx hwe2
      rw [hsk]
      exact ⟨cs2, hj, rfl⟩

end pisa

namespace pisa

variable {S : Type} [LinearOrderedCommSemiring S]

/-! ## Proofs: the bitset and the heaps under the capture of Method 3 -/

theorem bit_set_length (s : List Bool) (d : Nat) : (bit_set s d).length = s.length := by
  unfold bit_set
  rw [List.length_set]

theorem bit_test_bit_set (s : List Bool) (d0 d : Nat) (h : d0 < s.length) :
    bit_test (bit_set s d0) d = true ↔ (bit_test s d = true ∨ d = d0) := by
  unfold bit_test bit_set
  rw [List.getD_eq_getElem?_getD, List.getD_eq_getElem?_getD, List.getElem?_set]
  by_cases hd : d0 = d
  · subst hd
    simp [h]
  · rw [if_neg hd]
    constructor
    · exact Or.inl
    · rintro (h1 | h1)
      · exact h1
      · exact absurd h1.symm hd

theorem bit_test_builder (md d : Nat) : bit_test (bit_vector_builder md) d = false := by
  unfold bit_test bit_vector_builder
  rw [List.getD_eq_getElem?_getD]
  by_cases h : d < md
  · rw [List.getElem?_eq_getElem (by simpa using h)]
    simp
  · rw [List.getElem?_eq_none (by simpa using h)]
    rfl

theorem scored_scores_set {cursors : List (Cursor S)} {scored : List Bool} {pid : Nat}
    (hD : pid ∈ all_docids cursors) (hbit : bit_test scored pid = false)
    (hlen : pid < scored.length) :
    (scored_scores cursors (bit_set scored pid)).Perm
      (exhaustive_score cursors pid :: scored_scores cursors scored) := by
  unfold scored_scores
  have hp := filter_perm_insert (all_docids cursors) (nodup_all_docids cursors)
    (bit_test scored) (bit_test (bit_set scored pid)) pid hD hbit
    (fun d => bit_test_bit_set scored pid d hlen)
  exact hp.map (exhaustive_score cursors)

theorem set_filter_subperm {α : Type} (p : α → Bool) (x : α) :
    ∀ (l : List α) (i : Nat), ((l.set i x).filter p).Subperm (x :: l.filter p) := by
  intro l
  induction l with
  | nil =>
    intro i
    rw [List.set_nil]
    exact List.nil_subperm
  | cons a t ih =>
    intro i
    cases i with
    | zero =>
      rw [List.set_cons_zero]
      apply List.Sublist.subperm
      rw [List.filter_cons, List.filter_cons]
      have h1 : (t.filter p).Sublist (if p a = true then a :: t.filter p else t.filter p) := by
        split
        · exact List.sublist_cons_self _ _
        · exact List.Sublist.refl _
      split
      · exact List.Sublist.cons₂ _ h1
      · exact List.Sublist.cons _ h1
    | succ j =>
      rw [List.set_cons_succ, List.filter_cons, List.filter_cons]
      have h := ih j
      split
      · exact ((List.subperm_cons a).2 h).trans (List.Perm.subperm (List.Perm.swap x a _))
      · exact h

namespace topk_queue

theorem heap_scores_mem {q : topk_queue S} {L : List S} (h : heap_inv q L) :
    ∀ e ∈ q.m_q, e.1 ∈ L := by
  intro e he
  obtain ⟨R, hp, _⟩ := h.2
  apply hp.symm.subset
  exact List.mem_append_left _ (List.mem_map_of_mem _ he)

theorem threshold_nonneg {q : topk_queue S} {L : List S} (h : heap_inv q L)
    (hL : ∀ x ∈ L, 0 ≤ x) : 0 ≤ q.threshold := by
  unfold threshold
  cases hq : q.m_q with
  | nil => exact le_refl _
  | cons e tl =>
    exact hL e.1 (heap_scores_mem h e (by rw [hq]; exact List.mem_cons_self _ _))

theorem insert_with_eviction_reject (q : topk_queue S) (s : S) (d : Nat)
    (h : q.would_enter s = false) : q.insert_with_eviction s d = (false, 0, 0, q) := by
  unfold insert_with_eviction
  rw [h]
  rfl

theorem insert_with_eviction_room (q : topk_queue S) (s : S) (d : Nat)
    (h : q.would_enter s = true) (hlt : q.m_q.length < q.m_k) :
    q.insert_with_eviction s d = (true, 0, 0, q.push s d) ∧
      ((q.push s d).m_q.map Prod.fst).Perm (s :: q.m_q.map Prod.fst) ∧
      (q.push s d).m_q ≠ [] := by
  unfold insert_with_eviction
  rw [h]
  simp only [if_true, if_pos hlt]
  refine ⟨trivial, ?_, ?_⟩
  · unfold push
    rw [if_pos hlt]
    exact (List.perm_orderedInsert (fun a b : S × Nat => a.1 ≤ b.1) (s, d) q.m_q).map Prod.fst
  · unfold push
    rw [if_pos hlt]
    intro hnil
    have := congrArg List.length hnil
    rw [List.orderedInsert_length] at this
    simp at this

theorem insert_with_eviction_full (q : topk_queue S) (s : S) (d : Nat)
    (h : q.would_enter s = true) (hge : ¬ q.m_q.length < q.m_k) :
    ∃ e tl, q.m_q = e :: tl ∧ q.insert_with_eviction s d = (true, e.1, e.2, q.push s d) ∧
      ((q.push s d).m_q.map Prod.fst ++ [e.1]).Perm (s :: q.m_q.map Prod.fst) ∧
      e.1 = q.threshold ∧ (q.push s d).m_q ≠ [] := by
  have hk : q.m_k ≠ 0 := by
    unfold would_enter at h
    rw [decide_eq_true_iff] at h
    exact h.1
  cases hq : q.m_q with
  | nil =>
    rw [hq] at hge
    simp only [List.length_nil] at hge
    exact absurd (Nat.pos_of_ne_zero hk) hge
  | cons e tl =>
    refine ⟨e, tl, rfl, ?_, ?_, ?_, ?_⟩
    · have hge2 : ¬ (e :: tl).length < q.m_k := by rw [← hq]; exact hge
      unfold insert_with_eviction
      rw [h]
      simp only [if_true, hq, if_neg hge2]
    · unfold push
      rw [if_neg hge, hq]
      simp only [List.tail_cons, List.map_cons]
      have hp := (List.perm_orderedInsert (fun a b : S × Nat => a.1 ≤ b.1) (s, d) tl).map
        Prod.fst
      simp only [List.map_cons] at hp
      refine (hp.append_right [e.1]).trans ?_
      simp only [List.cons_append]
      refine List.Perm.cons _ ?_
      exact (List.perm_append_singleton e.1 (tl.map Prod.fst))
    · unfold threshold
      rw [hq]
    · unfold push
      rw [if_neg hge]
      intro hnil
      have := congrArg List.length hnil
      rw [List.orderedInsert_length] at this
      simp at this

/-- A secondary heap that is not full keeps threshold zero when a non-negative score is
offered to it, provided it is not empty or the score is zero. -/
theorem fill_insert (q : topk_queue S) (k2 : Nat) (x : S) (d : Nat) (hk : q.m_k = k2)
    (hk2 : 0 < k2) (hx : 0 ≤ x) (hfill : q.m_q.length < k2 → q.threshold = 0)
    (hne : q.m_q ≠ [] ∨ x = 0) :
    ((q.insert x d).2.m_q.length < k2 → (q.insert x d).2.threshold = 0) ∧
      (q.insert x d).2.m_q ≠ [] := by
  by_cases hlt : q.m_q.length < k2
  · have hwe : q.would_enter x = true := by
      unfold would_enter
      rw [decide_eq_true_iff]
      exact ⟨by omega, Or.inl (by omega)⟩
    have hins : (q.insert x d).2 = q.push x d := by
      unfold insert; rw [hwe]; rfl
    rw [hins]
    unfold push
    rw [if_pos (by omega)]
    have hthr := hfill hlt
    refine ⟨fun _ => ?_, ?_⟩
    · unfold threshold at hthr ⊢
      cases hq : q.m_q with
      | nil =>
        rcases hne with h | h
        · exact absurd hq h
        · simp only [List.orderedInsert]
          exact h
      | cons a tl =>
        rw [hq] at hthr
        simp only at hthr
        simp only [List.orderedInsert]
        by_cases hxa : x ≤ a.1
        · rw [if_pos hxa]
          simp only
          rw [hthr] at hxa
          exact le_antisymm hxa hx
        · rw [if_neg hxa]
          exact hthr
    · intro hnil
      have := congrArg List.length hnil
      rw [List.orderedInsert_length] at this
      simp at this
  · have hlen : (q.insert x d).2.m_q.length = q.m_q.length := by
      unfold insert
      split
      · show (q.push x d).m_q.length = _
        unfold push
        rw [if_neg (by omega)]
        simp only
        rw [List.orderedInsert_length, List.length_tail]
        omega
      · rfl
    refine ⟨fun h => ?_, ?_⟩
    · rw [hlen] at h
      exact absurd h hlt
    · intro hnil
      have := congrArg List.length hnil
      rw [hlen, List.length_nil] at this
      omega

end topk_queue

end pisa

namespace pisa

variable {S : Type} [LinearOrderedCommSemiring S]

/-! ## Proofs: the capture of Method 3 in a scoring step -/

theorem exhaustive_score_nonneg {md : Nat} {cursors : List (Cursor S)}
    (hwf : well_formed md cursors) (d : Nat) : 0 ≤ exhaustive_score cursors d :=
  sum_list_score_nonneg (tracks_ok hwf (tracks_self cursors)) d

theorem exhaustive_score_eq_zero {cursors : List (Cursor S)} {d : Nat}
    (h : d ∉ all_docids cursors) : exhaustive_score cursors d = 0 := by
  unfold exhaustive_score
  apply sum_list_score_eq_zero
  intro c hc
  apply list_score_eq_zero
  intro hd
  exact h ((mem_all_docids cursors d).2 ⟨c, hc, hd⟩)

/-- A docid below every cursor that is not scored is not a docid of the query or cannot
enter the primary heap. -/
theorem below_cursors_dead {md : Nat} {cursors cs : List (Cursor S)} {q : topk_queue S}
    {scored : List Bool} (hwf : well_formed md cursors) (ht : tracks cursors cs)
    (hskip : ∀ d, seen cs d = true → bit_test scored d = false →
      q.would_enter (exhaustive_score cursors d) = false)
    (pid : Nat) (hge : ∀ c ∈ cs, pid ≤ c.docid) (d : Nat) (hd : d < pid)
    (hbit : bit_test scored d = false) :
    exhaustive_score cursors d = 0 ∨ q.would_enter (exhaustive_score cursors d) = false := by
  by_cases hD : d ∈ all_docids cursors
  · right
    rw [tracks_mem_all_docids ht] at hD
    obtain ⟨c, hc, hdc⟩ := hD
    rw [Cursor.mem_postings_iff] at hdc
    rcases hdc with h | h
    · exact hskip d ((seen_iff cs d).2 ⟨c, hc, h⟩) hbit
    · have h1 := (Cursor.docid_le_of_mem_ahead (tracks_ok hwf ht c hc) h).1
      have h2 := hge c hc
      omega
  · left
    exact exhaustive_score_eq_zero hD

/-- The update of the state by the capture of Method 3 in a scoring step, for the entry
`(x, xd)` offered to the secondary heap and the new cyclic queue `C`. -/
theorem capture_inv_update {md k2 : Nat} {cursors : List (Cursor S)} {O Z L : List S}
    {st : driver_state S} {pid : Nat} {s : S} {cs2 : List (Cursor S)}
    (hH1 : heap_inv st.m_topk L) (hc : capture_inv md k2 cursors O Z st)
    (hs : score_ok md cursors st.ordered_cursors st.scored pid s cs2)
    (x : S) (xd : Nat) (zs : List S) (C : cyclic_queue S)
    (hperm : ((st.m_topk.insert s pid).2.m_q.map Prod.fst ++ [x]).Perm
      (s :: st.m_topk.m_q.map Prod.fst ++ zs))
    (hzs : ∀ z ∈ zs, z = 0) (hx : 0 ≤ x) (hne : st.m_secondary.m_q ≠ [] ∨ x = 0)
    (hCv : C.valid) (hCk : C.m_k = k2)
    (hCsub : (positive (C.m_data.map Prod.fst)).Subperm
      (x :: positive (st.m_cyclic.m_data.map Prod.fst)))
    (hCmem : ∀ e ∈ C.m_data, e ∈ st.m_cyclic.m_data ∨
      ∀ d, d < e.2 → bit_test st.scored d = false → exhaustive_score cursors d ≤ e.1) :
    capture_inv md k2 cursors (x :: O) (zs ++ Z)
      { ordered_cursors := cs2, m_topk := (st.m_topk.insert s pid).2,
        m_secondary := (st.m_secondary.insert x xd).2, m_cyclic := C,
        scored := bit_set st.scored pid } := by
  obtain ⟨hsx, hpidD, hlive, hunseen, hbit, hge, hbeyond, hmono, hseen, hrem, hwalk⟩ := hs
  have hlen : pid < st.scored.length := by rw [hc.bits_len]; exact hlive
  have hbits := fun d => bit_test_bit_set st.scored pid d hlen
  have hk2 : 0 < k2 := by
    have := hc.cyc_valid.2
    rw [hc.cyc_k] at this
    omega
  have hfill := topk_queue.fill_insert st.m_secondary k2 x xd hc.sec_k hk2 hx
    (fun h => (hc.fill h).1) hne
  have hold : ∀ d, bit_test (bit_set st.scored pid) d = false → bit_test st.scored d = false ∧
      d ≠ pid := by
    intro d hd
    constructor
    · cases h : bit_test st.scored d with
      | false => rfl
      | true =>
        rw [(hbits d).2 (Or.inl h)] at hd
        exact absurd hd (by decide)
    · intro h
      rw [(hbits d).2 (Or.inr h)] at hd
      exact absurd hd (by decide)
  exact
    { bits_len := by rw [bit_set_length]; exact hc.bits_len
      beyond := by
        intro d hd c2 hc2
        rcases (hbits d).1 hd with h | h
        · obtain ⟨c, hcm, hle⟩ := hmono c2 hc2
          exact lt_of_lt_of_le (hc.beyond d h c hcm) hle
        · rw [h]
          exact hbeyond c2 hc2
      skipped := by
        intro d hsd hbd
        obtain ⟨hb1, hne1⟩ := hold d hbd
        rcases (hseen d).1 hsd with h | h
        · exact topk_queue.would_enter_insert s pid _ hH1 (hc.skipped d h hb1)
        · exact absurd h hne1
      sec_k := by
        show (st.m_secondary.insert x xd).2.m_k = k2
        rw [topk_queue.insert_m_k]
        exact hc.sec_k
      cyc_valid := hCv
      cyc_k := hCk
      sec_heap := topk_queue.heap_insert x xd hc.sec_heap
      acct := by
        show (scored_scores cursors (bit_set st.scored pid) ++ (zs ++ Z)).Perm
          ((st.m_topk.insert s pid).2.m_q.map Prod.fst ++ x :: O)
        have h1 := scored_scores_set hpidD hbit hlen
        rw [← hsx] at h1
        have h2 := hc.acct
        rw [List.perm_iff_count] at h1 h2 hperm ⊢
        intro a
        have e1 := h1 a
        have e2 := h2 a
        have e3 := hperm a
        simp only [List.count_append, List.count_cons, List.count_nil] at e1 e2 e3 ⊢
        omega
      zeros := by
        intro z hz
        rcases List.mem_append.1 hz with h | h
        · exact hzs z h
        · exact hc.zeros z h
      offered := by
        intro y hy
        rcases List.mem_cons.1 hy with h | h
        · rw [h]; exact hx
        · exact hc.offered y h
      cyc_sub := hCsub.trans ((List.subperm_cons x).2 hc.cyc_sub)
      cyc := by
        intro e he d hd hbd
        obtain ⟨hb1, _⟩ := hold d hbd
        rcases hCmem e he with h | h
        · exact hc.cyc e h d hd hb1
        · exact h d hd hb1
      fill := fun h => ⟨hfill.1 h, fun _ => hfill.2⟩ }

end pisa

namespace pisa

variable {S : Type} [LinearOrderedCommSemiring S]

theorem positive_set_subperm (data : List (S × Nat)) (i : Nat) (e : S × Nat) :
    (positive ((data.set i e).map Prod.fst)).Subperm
      (e.1 :: positive (data.map Prod.fst)) := by
  unfold positive
  rw [List.map_set]
  exact set_filter_subperm _ _ _ _

/-- The capture of Method 3 in a scoring step is defined and preserves the invariant of the
bitset, the secondary heap and the cyclic queue. -/
theorem capture_inv_score {md k k2 : Nat} {cursors : List (Cursor S)} {O Z L : List S}
    {st : driver_state S} {pid : Nat} {s : S} {cs2 : List (Cursor S)}
    (hwf : well_formed md cursors) (hk : 0 < k) (ht : tracks cursors st.ordered_cursors)
    (hH1 : heap_inv st.m_topk L) (hL : ∀ x ∈ L, 0 ≤ x) (hH1k : st.m_topk.m_k = k)
    (hc : capture_inv md k2 cursors O Z st)
    (hs : score_ok md cursors st.ordered_cursors st.scored pid s cs2) :
    ∃ st1 O1 Z1, capture_method_three st s pid = some st1 ∧
      st1.m_topk = (st.m_topk.insert s pid).2 ∧ st1.scored = bit_set st.scored pid ∧
      capture_inv md k2 cursors O1 Z1 { st1 with ordered_cursors := cs2 } := by
  have hs0 := hs
  obtain ⟨hsx, hpidD, hlive, hunseen, hbit, hge, hbeyond, hmono, hseen, hrem, hwalk⟩ := hs0
  have hk2 : 0 < k2 := by
    have := hc.cyc_valid.2
    rw [hc.cyc_k] at this
    omega
  have hsnn : 0 ≤ s := by rw [hsx]; exact exhaustive_score_nonneg hwf pid
  have hH2ne : st.m_topk.m_q ≠ [] → st.m_secondary.m_q ≠ [] := by
    intro h1
    by_cases hlt : st.m_secondary.m_q.length < k2
    · exact (hc.fill hlt).2 h1
    · intro hnil
      rw [hnil] at hlt
      simp only [List.length_nil] at hlt
      omega
  have hbelow := fun d hd hb =>
    @below_cursors_dead S _ md cursors st.ordered_cursors st.m_topk st.scored hwf ht hc.skipped
      pid hge d hd hb
  cases hwe : st.m_topk.would_enter s with
  | false =>
    have hins : (st.m_topk.insert s pid).2 = st.m_topk :=
      topk_queue.insert_of_not_would_enter _ _ _ hwe
    have hfullq : st.m_topk.m_q ≠ [] := by
      rw [topk_queue.would_enter_eq_false] at hwe
      rcases hwe with h | h
      · omega
      · intro hnil
        rw [hnil] at h
        simp only [List.length_nil] at h
        omega
    have hupd := capture_inv_update hH1 hc hs s pid [] st.m_cyclic
      (by rw [hins, List.append_nil]; exact List.perm_append_singleton _ _)
      (fun z hz => absurd hz (List.not_mem_nil _)) hsnn (Or.inl (hH2ne hfullq))
      hc.cyc_valid hc.cyc_k (List.Sublist.subperm (List.sublist_cons_self _ _))
      (fun e he => Or.inl he)
    rw [hins] at hupd
    refine ⟨{ ordered_cursors := st.ordered_cursors, m_topk := st.m_topk,
              m_secondary := (st.m_secondary.insert s pid).2, m_cyclic := st.m_cyclic,
              scored := bit_set st.scored pid }, s :: O, [] ++ Z, ?_, ?_, ?_, hupd⟩
    · unfold capture_method_three
      rw [topk_queue.insert_with_eviction_reject _ _ _ hwe]
    · exact hins.symm
    · rfl
  | true =>
    have hins : (st.m_topk.insert s pid).2 = st.m_topk.push s pid := by
      unfold topk_queue.insert
      rw [hwe]
      rfl
    obtain ⟨hv1, hv2⟩ := hc.cyc_valid
    have hcins : ∀ (x : S), st.m_cyclic.insert x pid =
        some { st.m_cyclic with m_data := st.m_cyclic.m_data.set st.m_cyclic.m_index (x, pid),
                                 m_index := (st.m_cyclic.m_index + 1) % st.m_cyclic.m_k } := by
      intro x
      unfold cyclic_queue.insert
      rw [if_pos ⟨by rw [hv1]; exact hv2, by omega⟩]
    have hCv : ∀ (x : S), cyclic_queue.valid
        ({ st.m_cyclic with m_data := st.m_cyclic.m_data.set st.m_cyclic.m_index (x, pid),
                            m_index := (st.m_cyclic.m_index + 1) % st.m_cyclic.m_k } :
          cyclic_queue S) := by
      intro x
      refine ⟨?_, Nat.mod_lt _ (by omega)⟩
      simp only [List.length_set]
      exact hv1
    by_cases hlt : st.m_topk.m_q.length < st.m_topk.m_k
    · obtain ⟨he, hp, hne⟩ := topk_queue.insert_with_eviction_room _ s pid hwe hlt
      have hroom : ∀ y, st.m_topk.would_enter y = true := by
        intro y
        unfold topk_queue.would_enter
        rw [decide_eq_true_iff]
        exact ⟨by omega, Or.inl hlt⟩
      have hupd := capture_inv_update hH1 hc hs 0 0 [0]
        { st.m_cyclic with m_data := st.m_cyclic.m_data.set st.m_cyclic.m_index (0, pid),
                           m_index := (st.m_cyclic.m_index + 1) % st.m_cyclic.m_k }
        (by
          rw [hins]
          exact (hp.append_right [0]).trans (List.Perm.refl _))
        (fun z hz => List.mem_singleton.1 hz) (le_refl _) (Or.inr rfl)
        (hCv 0) hc.cyc_k (positive_set_subperm _ _ _)
        (by
          intro e he2
          rcases List.mem_or_eq_of_mem_set he2 with h | h
          · exact Or.inl h
          · right
            intro d hd hb
            rw [h] at hd ⊢
            rcases hbelow d hd hb with h1 | h1
            · exact le_of_eq h1
            · rw [hroom] at h1
              exact absurd h1 (by decide))
      rw [hins] at hupd
      refine ⟨{ ordered_cursors := st.ordered_cursors, m_topk := st.m_topk.push s pid,
                m_secondary := (st.m_secondary.insert 0 0).2,
                m_cyclic :=
                  { st.m_cyclic with
                      m_data := st.m_cyclic.m_data.set st.m_cyclic.m_index (0, pid),
                      m_index := (st.m_cyclic.m_index + 1) % st.m_cyclic.m_k },
                scored := bit_set st.scored pid }, (0 : S) :: O, [0] ++ Z, ?_, ?_, ?_, hupd⟩
      · unfold capture_method_three
        rw [he]
        simp only [hcins, Option.map_some']
      · exact hins.symm
      · rfl
    · obtain ⟨e, tl, hq, he, hp, hthr, hne⟩ :=
        topk_queue.insert_with_eviction_full _ s pid hwe hlt
      have hθ : 0 ≤ e.1 := by
        rw [hthr]
        exact topk_queue.threshold_nonneg hH1 hL
      have hupd := capture_inv_update hH1 hc hs e.1 e.2 []
        { st.m_cyclic with m_data := st.m_cyclic.m_data.set st.m_cyclic.m_index (e.1, pid),
                           m_index := (st.m_cyclic.m_index + 1) % st.m_cyclic.m_k }
        (by
          rw [hins, List.append_nil]
          exact hp)
        (fun z hz => absurd hz (List.not_mem_nil _)) hθ
        (Or.inl (hH2ne (by rw [hq]; exact List.cons_ne_nil _ _)))
        (hCv e.1) hc.cyc_k (positive_set_subperm _ _ _)
        (by
          intro e2 he2
          rcases List.mem_or_eq_of_mem_set he2 with h | h
          · exact Or.inl h
          · right
            intro d hd hb
            rw [h] at hd ⊢
            rcases hbelow d hd hb with h1 | h1
            · rw [h1]; exact hθ
            · rw [topk_queue.would_enter_eq_false] at h1
              rcases h1 with h2 | h2
              · omega
              · rw [hthr]; exact h2.2)
      rw [hins] at hupd
      refine ⟨{ ordered_cursors := st.ordered_cursors, m_topk := st.m_topk.push s pid,
                m_secondary := (st.m_secondary.insert e.1 e.2).2,
                m_cyclic :=
                  { st.m_cyclic with
                      m_data := st.m_cyclic.m_data.set st.m_cyclic.m_index (e.1, pid),
                      m_index := (st.m_cyclic.m_index + 1) % st.m_cyclic.m_k },
                scored := bit_set st.scored pid }, e.1 :: O, [] ++ Z, ?_, ?_, ?_, hupd⟩
      · unfold capture_method_three
        rw [he]
        simp only [hcins, Option.map_some']
      · exact hins.symm
      · rfl

/-- A step that moves one cursor forward preserves the invariant of the bitset, the
secondary heap and the cyclic queue. -/
theorem capture_inv_jump {md k2 : Nat} {cursors : List (Cursor S)} {O Z : List S}
    {st : driver_state S} {cs2 : List (Cursor S)}
    (hc : capture_inv md k2 cursors O Z st)
    (hj : jump_ok md cursors st.ordered_cursors st.m_topk st.scored cs2) :
    capture_inv md k2 cursors O Z { st with ordered_cursors := cs2 } := by
  obtain ⟨_, _, hdead, hmono⟩ := hj
  exact
    { bits_len := hc.bits_len
      beyond := by
        intro d hd c2 hc2
        obtain ⟨c, hcm, hle⟩ := hmono c2 hc2
        exact lt_of_lt_of_le (hc.beyond d hd c hcm) hle
      skipped := by
        intro d hsd hbd
        rcases hdead d hsd with h | h | h
        · exact hc.skipped d h hbd
        · have : bit_test st.scored d = false := hbd
          rw [this] at h
          exact absurd h (by decide)
        · exact h
      sec_k := hc.sec_k
      cyc_valid := hc.cyc_valid
      cyc_k := hc.cyc_k
      sec_heap := hc.sec_heap
      acct := hc.acct
      zeros := hc.zeros
      offered := hc.offered
      cyc_sub := hc.cyc_sub
      cyc := hc.cyc
      fill := hc.fill }

end pisa

namespace pisa

variable {S : Type} [LinearOrderedCommSemiring S]

/-! ## Proofs: stage one of `block_max_wand_query::method_three` -/

/-- One iteration of the stage-one loop of `method_three` preserves the invariant and
consumes a posting, or exits with the postcondition; it is never undefined. -/
theorem method_three_stage_one_step {md k k2 : Nat} {cursors : List (Cursor S)}
    (hwf : well_formed md cursors) (hk : 0 < k) (st : driver_state S)
    (hinv : method_three_inv md k k2 cursors st) :
    step_ok (method_three_inv md k k2 cursors) (method_three_post md k k2 cursors)
      (fun s => remaining s.ordered_cursors) st
      (block_max_wand_query.loop_body capture_method_three md st) := by
  obtain ⟨hbase, ⟨P, T, hwalk⟩, O, Z, hc⟩ := hinv
  have hstep := bmw_loop_body_step capture_method_three (fun s => s.m_cyclic.valid) hwf
    capture_method_three_ok st hbase
  rcases bmw_loop_body_shape capture_method_three hwf st hwalk hc.beyond with
    ⟨hfp, hbody⟩ | ⟨pid, s, cs2, hs, hbody⟩ | ⟨cs2, hj, hbody⟩
  · rw [hbody] at hstep ⊢
    exact ⟨hstep, O, Z, hc⟩
  · have hH1 := hbase.1.1.heap
    have hL : ∀ x ∈ ((all_docids cursors).filter (seen st.ordered_cursors)).map
        (exhaustive_score cursors), 0 ≤ x := by
      intro x hx
      obtain ⟨d, _, rfl⟩ := List.mem_map.1 hx
      exact exhaustive_score_nonneg hwf d
    obtain ⟨st1, O1, Z1, hcap, h1, h2, hc1⟩ :=
      capture_inv_score hwf hk hwalk.tracks hH1 hL hbase.1.2.1 hc hs
    rw [hbody] at hstep ⊢
    simp only [hcap] at hstep ⊢
    obtain ⟨hb1, hμ⟩ := hstep
    refine ⟨⟨hb1, ?_, O1, Z1, hc1⟩, hμ⟩
    have hlen : pid < st.scored.length := by
      rw [hc.bits_len]
      exact hs.2.2.1
    apply hs.2.2.2.2.2.2.2.2.2.2 st1.m_topk st1.scored
    intro d hd
    rw [h2, bit_test_bit_set st.scored pid d hlen]
    exact Or.inl hd
  · rw [hbody] at hstep ⊢
    obtain ⟨hb1, hμ⟩ := hstep
    exact ⟨⟨hb1, hj.1, O, Z, capture_inv_jump hc hj⟩, hμ⟩

theorem positive_replicate_zero (n : Nat) (d : Nat) :
    positive ((List.replicate n ((0 : S), d)).map Prod.fst) = [] := by
  unfold positive
  rw [List.filter_eq_nil_iff]
  intro x hx
  obtain ⟨e, he, rfl⟩ := List.mem_map.1 hx
  rw [List.eq_of_mem_replicate he]
  simp

/-- The invariant of the cursors at the start of a loop: no cursor has been moved past a
docid that another still has ahead, and the block cursors are at the start. -/
theorem walk_inv_start {md : Nat} {cursors cs : List (Cursor S)} (q : topk_queue S)
    (scored : List Bool) (ht : tracks cursors cs)
    (hB : ∀ c ∈ cs, c.valid_blocks ∧ c.m_block = 0)
    (hp : ∀ d, seen cs d = true → (∃ c ∈ cs, d ∈ c.ahead.map Prod.fst) → False) :
    walk_inv md cursors (sort_enums cs) q scored 0 0 := by
  have hperm := sort_enums_perm cs
  refine ⟨tracks_perm ht hperm, sort_enums_sorted cs, ⟨Nat.zero_le _, ?_, ?_⟩,
    ⟨le_refl _, fun h => absurd h (lt_irrefl _)⟩, ?_⟩
  · intro c hc
    obtain ⟨h1, h2⟩ := hB c (hperm.subset hc)
    refine ⟨h1, ?_⟩
    intro j hj
    rw [h2] at hj
    exact absurd hj (Nat.not_lt_zero _)
  · intro c _ hc
    exact absurd hc (Nat.not_lt_zero _)
  · intro d hs hpend
    exfalso
    apply hp d
    · rw [← seen_perm hperm]; exact hs
    · obtain ⟨c, hc, hd⟩ := hpend
      exact ⟨c, hperm.subset hc, hd⟩

/-- Stage one of `method_three`, started on a well-formed query with valid block bounds and
fresh queues, returns within its fuel with the postcondition of stage one. -/
theorem method_three_stage_one_run {md k k2 : Nat} {cursors : List (Cursor S)}
    (hwf : well_formed_block_max md cursors) (hk : 0 < k) (hk2 : 0 < k2) :
    ∃ s1, run_loop (block_max_wand_query.loop_body capture_method_three md)
        (block_max_wand_query.fuel cursors)
        (block_max_wand_query.start
          { m_topk := topk_queue.create k, m_secondary := topk_queue.create k2,
            m_cyclic := cyclic_queue.create k2 } cursors (bit_vector_builder md)) = some s1 ∧
      method_three_post md k k2 cursors s1 := by
  have hwf1 := well_formed_of_block_max hwf
  have hcv : (cyclic_queue.create k2 : cyclic_queue S).valid := by
    refine ⟨?_, hk2⟩
    simp [cyclic_queue.create]
  apply run_loop_terminates (block_max_wand_query.loop_body capture_method_three md)
    (method_three_inv md k k2 cursors) (method_three_post md k k2 cursors)
    (fun s => remaining s.ordered_cursors)
    (fun s hs => method_three_stage_one_step hwf1 hk s hs)
  · refine ⟨⟨⟨prune_inv_start k hwf1, rfl, fun _ => hcv⟩, 0, block_inv_start _ hwf⟩,
      ⟨0, 0, ?_⟩, [], [], ?_⟩
    · apply walk_inv_start _ _ (tracks_self cursors)
      · intro c hc
        exact ⟨(hwf c hc).2.2, (hwf c hc).2.1⟩
      · intro d hs _
        rw [seen_of_well_formed hwf1] at hs
        exact absurd hs (by decide)
    · exact
        { bits_len := by simp [block_max_wand_query.start, bit_vector_builder]
          beyond := by
            intro d hd
            have : bit_test (bit_vector_builder md) d = true := hd
            rw [bit_test_builder] at this
            exact absurd this (by decide)
          skipped := by
            intro d hs
            have : seen (sort_enums cursors) d = true := hs
            rw [seen_perm (sort_enums_perm cursors), seen_of_well_formed hwf1] at this
            exact absurd this (by decide)
          sec_k := rfl
          cyc_valid := hcv
          cyc_k := rfl
          sec_heap := topk_queue.heap_inv_create k2
          acct := by
            show (scored_scores cursors (bit_vector_builder md) ++ []).Perm
              (([] : List (S × Nat)).map Prod.fst ++ [])
            have : scored_scores cursors (bit_vector_builder md) = [] := by
              unfold scored_scores
              rw [List.map_eq_nil_iff, List.filter_eq_nil_iff]
              intro d _
              rw [bit_test_builder]
              simp
            rw [this]
            exact List.Perm.refl _
          zeros := fun z hz => absurd hz (List.not_mem_nil _)
          offered := fun z hz => absurd hz (List.not_mem_nil _)
          cyc_sub := by
            show (positive ((List.replicate k2 ((0 : S), 0)).map Prod.fst)).Subperm []
            rw [positive_replicate_zero]
          cyc := by
            intro e he d hd
            have he2 : e ∈ List.replicate k2 ((0 : S), 0) := he
            rw [List.eq_of_mem_replicate he2] at hd
            exact absurd hd (Nat.not_lt_zero _)
          fill := fun _ => ⟨rfl, fun h => absurd rfl h⟩ }
  · show remaining (sort_enums cursors) < loop_fuel cursors
    rw [remaining_perm (sort_enums_perm cursors)]
    exact remaining_le_fuel cursors

end pisa

namespace pisa

variable {S : Type} [LinearOrderedCommSemiring S]

/-! ## Proofs: the stage transition of `block_max_wand_query::method_three` -/

/-- The entry `displaced_id(t)` reads on a valid queue: its score is at most `t`, or no entry
of the queue has a score of at most `t`. -/
theorem displaced_id_entry (q : cyclic_queue S) (t : S) (hv : q.valid) :
    ∃ e ∈ q.m_data, q.displaced_id t = some e.2 ∧
      (e.1 ≤ t ∨ ∀ e2 ∈ q.m_data, t < e2.1) := by
  obtain ⟨hv1, hv2⟩ := hv
  have hidx : q.m_index < q.m_data.length := by rw [hv1]; exact hv2
  have hlt := cyclic_queue.displaced_slot_lt q t hidx
  refine ⟨q.m_data[q.displaced_slot t], List.getElem_mem _, ?_, ?_⟩
  · rw [cyclic_queue.displaced_id_eq, List.getElem?_eq_getElem hlt]
    rfl
  · by_cases hq : (q.m_data[q.displaced_slot t]).1 ≤ t
    · exact Or.inl hq
    · right
      have hnone : (q.scan_order.filter (cyclic_queue.qualifies q.m_data t)).getLast? = none := by
        cases hl : (q.scan_order.filter (cyclic_queue.qualifies q.m_data t)).getLast? with
        | none => rfl
        | some i =>
          exfalso
          have hmem := List.mem_of_getLast?_eq_some hl
          rw [List.mem_filter] at hmem
          have hslot : q.displaced_slot t = i := by
            unfold cyclic_queue.displaced_slot
            rw [hl]
            rfl
          have h2 := hmem.2
          have hi : i < q.m_data.length := by rw [← hslot]; exact hlt
          unfold cyclic_queue.qualifies at h2
          rw [List.getElem?_eq_getElem hi] at h2
          simp only [decide_eq_true_eq] at h2
          apply hq
          have : q.m_data[q.displaced_slot t] = q.m_data[i] := by
            congr 1
          rw [this]
          exact h2
      have hslot : q.displaced_slot t = q.m_index := by
        unfold cyclic_queue.displaced_slot
        rw [hnone]
        rfl
      have hnil : q.scan_order.filter (cyclic_queue.qualifies q.m_data t) = [] :=
        List.getLast?_eq_none_iff.1 hnone
      rw [List.filter_eq_nil_iff] at hnil
      intro e2 he2
      obtain ⟨j, hj, rfl⟩ := List.mem_iff_getElem.1 he2
      by_cases hjm : j = q.m_index
      · have : q.m_data[j] = q.m_data[q.displaced_slot t] := by
          congr 1
          rw [hslot]
          exact hjm
        rw [this]
        exact lt_of_not_le hq
      · have hjs : j ∈ q.scan_order := by
          unfold cyclic_queue.scan_order
          rw [List.mem_append, List.mem_range', List.mem_range]
          by_cases h : j < q.m_index
          · exact Or.inr h
          · left
            exact ⟨j - (q.m_index + 1), by omega, by omega⟩
        have := hnil j hjs
        unfold cyclic_queue.qualifies at this
        rw [List.getElem?_eq_getElem hj] at this
        simp only [decide_eq_true_eq] at this
        exact lt_of_not_le this

/-- Some entry of the cyclic queue has a score of at most the threshold of the secondary
heap: otherwise the secondary heap would hold more than `k2 - 1` scores above its
threshold. -/
theorem cyclic_entry_below {md k2 : Nat} {cursors : List (Cursor S)} {O Z : List S}
    {st : driver_state S} (hc : capture_inv md k2 cursors O Z st) :
    ¬ ∀ e ∈ st.m_cyclic.m_data, st.m_secondary.threshold < e.1 := by
  intro hall
  have hk2 : 0 < k2 := by
    have := hc.cyc_valid.2
    rw [hc.cyc_k] at this
    omega
  have hθ : 0 ≤ st.m_secondary.threshold := topk_queue.threshold_nonneg hc.sec_heap hc.offered
  have hlen : (st.m_cyclic.m_data.map Prod.fst).length = k2 := by
    rw [List.length_map, hc.cyc_valid.1, hc.cyc_k]
  have hpos : positive (st.m_cyclic.m_data.map Prod.fst) = st.m_cyclic.m_data.map Prod.fst := by
    unfold positive
    rw [List.filter_eq_self]
    intro x hx
    obtain ⟨e, he, rfl⟩ := List.mem_map.1 hx
    simp only [decide_eq_true_eq]
    exact lt_of_le_of_lt hθ (hall e he)
  have hsub := hc.cyc_sub
  rw [hpos] at hsub
  have hfil : (st.m_cyclic.m_data.map Prod.fst).filter
      (fun x => decide (st.m_secondary.threshold < x)) = st.m_cyclic.m_data.map Prod.fst := by
    rw [List.filter_eq_self]
    intro x hx
    obtain ⟨e, he, rfl⟩ := List.mem_map.1 hx
    simp only [decide_eq_true_eq]
    exact hall e he
  have hsub2 := hsub.filter (fun x => decide (st.m_secondary.threshold < x))
  rw [hfil] at hsub2
  obtain ⟨hsorted, R, hp, hl1, hl2, hl3⟩ := hc.sec_heap
  have hlen2 := hsub2.length_le
  rw [hlen, (hp.filter _).length_eq, List.filter_append, List.length_append] at hlen2
  rw [hc.sec_k] at hl1 hl2
  cases hq : st.m_secondary.m_q with
  | nil =>
    rw [hq] at hl2 hlen2
    simp only [List.map_nil, List.length_nil, List.filter_nil] at hl2 hlen2
    rw [hl2 hk2] at hlen2
    simp only [List.filter_nil, List.length_nil] at hlen2
    omega
  | cons e tl =>
    have hthr : st.m_secondary.threshold = e.1 := by
      unfold topk_queue.threshold
      rw [hq]
    rw [hq] at hl1 hl3 hlen2
    have hR : R.filter (fun x => decide (st.m_secondary.threshold < x)) = [] := by
      rw [List.filter_eq_nil_iff]
      intro r hr
      have := hl3 e.1 (by simp) r hr
      simp only [decide_eq_true_eq, not_lt]
      rw [hthr]
      exact this
    rw [hR] at hlen2
    simp only [List.map_cons, List.length_nil, add_zero] at hlen2 hl1
    rw [List.filter_cons, if_neg (by simp [hthr])] at hlen2
    have := List.length_filter_le (fun x => decide (st.m_secondary.threshold < x))
      (tl.map Prod.fst)
    simp only [List.length_cons] at hl1
    omega

/-- The lower bound of the stage transition is defined, and every docid below it that is not
scored has score zero or cannot enter the secondary heap. -/
theorem transition_lower_bound {md k2 : Nat} {cursors : List (Cursor S)} {O Z : List S}
    {st : driver_state S} (hwf : well_formed md cursors)
    (hc : capture_inv md k2 cursors O Z st) :
    ∃ lb, st.m_cyclic.displaced_id st.m_secondary.threshold = some lb ∧
      ∀ d, d < lb → bit_test st.scored d = false →
        exhaustive_score cursors d ≤ 0 ∨
          st.m_secondary.would_enter (exhaustive_score cursors d) = false := by
  obtain ⟨e, he, hid, hq⟩ := displaced_id_entry st.m_cyclic st.m_secondary.threshold hc.cyc_valid
  refine ⟨e.2, hid, ?_⟩
  intro d hd hb
  rcases hq with hq | hq
  · have h1 := le_trans (hc.cyc e he d hd hb) hq
    by_cases hlt : st.m_secondary.m_q.length < k2
    · left
      rw [(hc.fill hlt).1] at h1
      exact h1
    · right
      rw [topk_queue.would_enter_eq_false]
      right
      rw [hc.sec_k]
      exact ⟨by omega, h1⟩
  · exact absurd hq (cyclic_entry_below hc)

end pisa

namespace pisa

variable {S : Type} [LinearOrderedCommSemiring S]

/-! ## Proofs: stage two of `block_max_wand_query::method_three` -/

theorem valid_blocks_of_tracks {md : Nat} {cursors cs : List (Cursor S)}
    (hwf : well_formed_block_max md cursors) (ht : tracks cursors cs) :
    ∀ c ∈ cs, c.valid_blocks := by
  intro c hc
  have h1 : c.home ∈ cursors.map Cursor.home :=
    ht.subset (List.mem_map_of_mem _ hc)
  obtain ⟨c1, hc1, he⟩ := List.mem_map.1 h1
  have h2 : c1.home.valid_blocks := (hwf c1 hc1).2.2
  rw [he] at h2
  exact h2

theorem seen_reset_next_geq {md : Nat} {c : Cursor S} (h : c.ok md) (lb d : Nat) :
    (c.reset.block_max_reset.next_geq lb).seen d = true → d < lb := by
  intro hs
  have hok : c.reset.block_max_reset.ok md := h
  rw [Cursor.seen_next_geq hok] at hs
  rcases hs with h1 | h1
  · rw [Cursor.seen_iff_mem] at h1
    unfold Cursor.behind at h1
    simp [Cursor.reset, Cursor.block_max_reset] at h1
  · exact h1.2

theorem ahead_reset_next_geq {md : Nat} {c : Cursor S} (h : c.ok md) (lb d : Nat) :
    d ∈ (c.reset.block_max_reset.next_geq lb).ahead.map Prod.fst → lb ≤ d := by
  intro hd
  have hok : c.reset.block_max_reset.ok md := h
  rw [Cursor.mem_ahead_next_geq hok] at hd
  exact hd.2

/-- The stage transition after stage one is defined and establishes the invariant of stage
two, with fewer postings ahead than the fuel of the loop. -/
theorem stage_two_start {md k k2 : Nat} {cursors : List (Cursor S)}
    (hwf : well_formed_block_max md cursors) (s1 : driver_state S)
    (hpost : method_three_post md k k2 cursors s1) :
    ∃ st2, block_max_wand_query.stage_transition s1 = some st2 ∧
      stage_two_safe_inv md k2 cursors s1.m_topk s1.scored st2 ∧
      remaining st2.ordered_cursors < block_max_wand_query.fuel cursors := by
  have hwf1 := well_formed_of_block_max hwf
  obtain ⟨⟨_, _, _, ht, _⟩, O, Z, hc⟩ := hpost
  have hok := tracks_ok hwf1 ht
  obtain ⟨lb, hlb, hdead⟩ := transition_lower_bound hwf1 hc
  unfold block_max_wand_query.stage_transition
  rw [hlb]
  refine ⟨_, rfl, ⟨⟨0, 0, ?_⟩, O, Z, [], ?_⟩, ?_⟩
  · apply walk_inv_start
    · apply tracks_of_map_home_eq ht
      rw [List.map_map]
      rfl
    · intro c hc2
      obtain ⟨c1, hc1, rfl⟩ := List.mem_map.1 hc2
      exact ⟨valid_blocks_of_tracks hwf ht c1 hc1, rfl⟩
    · intro d hs hp
      rw [seen_iff] at hs
      obtain ⟨c, hcm, hsd⟩ := hs
      obtain ⟨c1, hc1, rfl⟩ := List.mem_map.1 hcm
      have h1 := seen_reset_next_geq (hok c1 hc1) lb d hsd
      obtain ⟨c2, hcm2, hd2⟩ := hp
      obtain ⟨c3, hc3, rfl⟩ := List.mem_map.1 hcm2
      have h2 := ahead_reset_next_geq (hok c3 hc3) lb d hd2
      omega
  · exact
      { primary := rfl
        bits_eq := rfl
        sec_k := hc.sec_k
        sec_heap := hc.sec_heap
        nodup := List.nodup_nil
        fresh := fun d hd => absurd hd (List.not_mem_nil _)
        acct := by
          simp only [List.map_nil, List.append_nil]
          exact hc.acct
        zeros := hc.zeros
        cover := by
          intro d hs
          have hs2 : seen (sort_enums
              (s1.ordered_cursors.map (fun en => en.reset.block_max_reset.next_geq lb))) d =
              true := hs
          rw [seen_perm (sort_enums_perm _), seen_iff] at hs2
          obtain ⟨c, hcm, hsd⟩ := hs2
          obtain ⟨c1, hc1, rfl⟩ := List.mem_map.1 hcm
          have h1 := seen_reset_next_geq (hok c1 hc1) lb d hsd
          cases hb : bit_test s1.scored d with
          | true => exact Or.inl rfl
          | false =>
            right; right
            exact hdead d h1 hb }
  · show remaining (sort_enums
      (s1.ordered_cursors.map (fun en => en.reset.block_max_reset.next_geq lb))) <
      loop_fuel cursors
    rw [remaining_perm (sort_enums_perm _), loop_fuel_eq]
    have h1 := remaining_le_total
      (s1.ordered_cursors.map (fun en => en.reset.block_max_reset.next_geq lb))
    rw [total_postings_map s1.ordered_cursors
      (fun en => en.reset.block_max_reset.next_geq lb) (fun c => rfl),
      total_postings_tracks ht] at h1
    omega

/-- One iteration of the stage-two loop of `method_three` preserves the invariant and
consumes a posting, or exits; it is never undefined. -/
theorem stage_two_safe_step {md k2 : Nat} {cursors : List (Cursor S)} {T1 : topk_queue S}
    {bits : List Bool} (hwf : well_formed md cursors) (st : driver_state S)
    (hinv : stage_two_safe_inv md k2 cursors T1 bits st) :
    step_ok (stage_two_safe_inv md k2 cursors T1 bits)
      (stage_two_safe_post md k2 cursors T1 bits)
      (fun s => remaining s.ordered_cursors) st
      (block_max_wand_query.stage_two_body md st) := by
  obtain ⟨⟨P, T, hwalk⟩, O, Z, Sc2, hr⟩ := hinv
  have hbits := hr.bits_eq
  have hwalk2 : walk_inv md cursors st.ordered_cursors st.m_secondary st.scored P T := by
    rw [hbits]; exact hwalk
  have hok := tracks_ok hwf hwalk.tracks
  rcases bmw_stage_two_shape hwf st hwalk2 with
    ⟨hfp, hbody⟩ | ⟨pid, s, cs2, hs, hbit, hbody⟩ | ⟨cs2, hj, hbody⟩
  · rw [hbody]
    exact ⟨⟨⟨P, T, hwalk⟩, O, Z, Sc2, hr⟩, hfp⟩
  · rw [hbody]
    obtain ⟨hsx, hpidD, hlive, hunseen, _, hge, hbeyond, hmono, hseen, hrem, hwalk3⟩ := hs
    rw [hbits] at hbit
    have hnew : pid ∉ Sc2 := by
      intro hmem
      have hfr := (hr.fresh pid hmem).2.2
      have hD := hpidD
      rw [tracks_mem_all_docids hwalk.tracks] at hD
      obtain ⟨c, hc, hdc⟩ := hD
      rw [Cursor.mem_postings_iff] at hdc
      rcases hdc with h | h
      · have : seen st.ordered_cursors pid = true := (seen_iff _ pid).2 ⟨c, hc, h⟩
        rw [hunseen] at this
        exact absurd this (by decide)
      · have h1 := (Cursor.docid_le_of_mem_ahead (hok c hc) h).1
        have h2 := hfr c hc
        omega
    refine ⟨⟨?_, s :: O, Z, pid :: Sc2, ?_⟩, hrem⟩
    · obtain ⟨P2, T2, hw⟩ := hwalk3 (st.m_secondary.insert s pid).2 bits
        (fun d hd => by rw [← hbits]; exact hd)
      exact ⟨P2, T2, hw⟩
    · exact
        { primary := hr.primary
          bits_eq := hr.bits_eq
          sec_k := by
            show (st.m_secondary.insert s pid).2.m_k = k2
            rw [topk_queue.insert_m_k]
            exact hr.sec_k
          sec_heap := topk_queue.heap_insert s pid hr.sec_heap
          nodup := List.nodup_cons.2 ⟨hnew, hr.nodup⟩
          fresh := by
            intro d hd
            rcases List.mem_cons.1 hd with h | h
            · rw [h]
              exact ⟨hpidD, hbit, hbeyond⟩
            · obtain ⟨h1, h2, h3⟩ := hr.fresh d h
              refine ⟨h1, h2, ?_⟩
              intro c2 hc2
              obtain ⟨c, hcm, hle⟩ := hmono c2 hc2
              exact lt_of_lt_of_le (h3 c hcm) hle
          acct := by
            have h2 := hr.acct
            rw [List.perm_iff_count] at h2 ⊢
            intro a
            have e2 := h2 a
            simp only [List.count_append, List.count_cons, List.count_nil, List.map_cons]
              at e2 ⊢
            rw [← hsx]
            omega
          zeros := hr.zeros
          cover := by
            intro d hsd
            rcases (hseen d).1 hsd with h | h
            · rcases hr.cover d h with h1 | h1 | h1 | h1
              · exact Or.inl h1
              · exact Or.inr (Or.inl (List.mem_cons_of_mem _ h1))
              · exact Or.inr (Or.inr (Or.inl h1))
              · exact Or.inr (Or.inr (Or.inr
                  (topk_queue.would_enter_insert s pid _ hr.sec_heap h1)))
            · exact Or.inr (Or.inl (by rw [h]; exact List.mem_cons_self _ _)) }
  · rw [hbody]
    obtain ⟨hw, hrem, hdead, hmono⟩ := hj
    refine ⟨⟨?_, O, Z, Sc2, ?_⟩, hrem⟩
    · obtain ⟨P2, T2, hw2⟩ := hw
      rw [hbits] at hw2
      exact ⟨P2, T2, hw2⟩
    · exact
        { primary := hr.primary
          bits_eq := hr.bits_eq
          sec_k := hr.sec_k
          sec_heap := hr.sec_heap
          nodup := hr.nodup
          fresh := by
            intro d hd
            obtain ⟨h1, h2, h3⟩ := hr.fresh d hd
            refine ⟨h1, h2, ?_⟩
            intro c2 hc2
            obtain ⟨c, hcm, hle⟩ := hmono c2 hc2
            exact lt_of_lt_of_le (h3 c hcm) hle
          acct := hr.acct
          zeros := hr.zeros
          cover := by
            intro d hsd
            rcases hdead d hsd with h | h | h
            · exact hr.cover d h
            · rw [hbits] at h
              exact Or.inl h
            · exact Or.inr (Or.inr (Or.inr h)) }

end pisa

namespace pisa

variable {S : Type} [LinearOrderedCommSemiring S]

/-! ## Proofs: the union of the two heaps after stage two -/

theorem is_topk_best (n : Nat) (L : List S) : is_topk n (best n L) L := by
  unfold best
  have hs := sorted_insertionSort_ge L
  have hp := List.perm_insertionSort (fun a b : S => b ≤ a) L
  generalize L.insertionSort (fun a b => b ≤ a) = M at hs hp
  refine ⟨M.drop n, ?_, ?_, ?_, ?_⟩
  · rw [List.take_append_drop]
    exact hp.symm
  · rw [List.length_take]
    exact Nat.min_le_left _ _
  · intro h
    rw [List.length_take] at h
    apply List.drop_eq_nil_of_le
    omega
  · intro h hh r hr
    have hs2 : (M.take n ++ M.drop n).Pairwise (fun a b => b ≤ a) := by
      rw [List.take_append_drop]
      exact hs
    rw [List.pairwise_append] at hs2
    exact hs2.2.2 h hh r hr

theorem is_topk_pos_of_is_topk {n : Nat} {H L : List S} (h : is_topk n H L) :
    is_topk_pos n H L := by
  obtain ⟨R, hp, h1, h2, h3⟩ := h
  refine ⟨R, hp, h1, ?_, fun h hh r hr => Or.inl (h3 h hh r hr)⟩
  intro hlt r hr
  rw [h2 hlt] at hr
  exact absurd hr (List.not_mem_nil _)

theorem positive_append (A B : List S) : positive (A ++ B) = positive A ++ positive B := by
  unfold positive
  rw [List.filter_append]

theorem positive_zeros {Z : List S} (h : ∀ z ∈ Z, z = 0) : positive Z = [] := by
  unfold positive
  rw [List.filter_eq_nil_iff]
  intro z hz
  rw [h z hz]
  simp

/-- The positive scores of a top-`n` selection up to non-positive scores are a top-`n`
selection of the positive scores. -/
theorem positive_topk {n : Nat} {H L : List S} (h : is_topk_pos n H L) :
    is_topk n (positive H) (positive L) := by
  obtain ⟨R, hp, h1, h2, h3⟩ := h
  have hle : (positive H).length ≤ H.length := List.length_filter_le _ _
  refine ⟨positive R, ?_, by omega, ?_, ?_⟩
  · rw [← positive_append]
    exact hp.filter _
  · intro hlt
    unfold positive
    rw [List.filter_eq_nil_iff]
    intro r hr
    simp only [decide_eq_true_eq, not_lt]
    by_cases hH : H.length < n
    · exact h2 hH r hr
    · have hlt2 : (H.filter (fun x => decide (0 < x))).length < H.length := by
        unfold positive at hlt
        omega
      rw [List.length_filter_lt_length_iff_exists] at hlt2
      obtain ⟨h0, hh0, hn0⟩ := hlt2
      simp only [decide_eq_true_eq, not_lt] at hn0
      rcases h3 h0 hh0 r hr with h4 | h4
      · exact le_trans h4 hn0
      · exact h4
  · intro h hh r hr
    unfold positive at hh hr
    rw [List.mem_filter] at hh hr
    have hr0 := hr.2
    simp only [decide_eq_true_eq] at hr0
    rcases h3 h hh.1 r hr.1 with h4 | h4
    · exact h4
    · exact absurd hr0 (not_lt.2 h4)

/-- Two top-`n` selections up to non-positive scores of lists with the same positive scores
have the same positive scores. -/
theorem positive_perm_of_topk {n : Nat} {H1 H2 L1 L2 : List S} (h1 : is_topk_pos n H1 L1)
    (h2 : is_topk_pos n H2 L2) (hL : positive L1 = positive L2) :
    (positive H1).Perm (positive H2) := by
  have e1 := is_topk_perm_best (positive_topk h1)
  have e2 := is_topk_perm_best (positive_topk h2)
  rw [hL] at e1
  exact e1.trans e2.symm

/-- A nodup list splits into a nodup sublist of its members and the rest. -/
theorem perm_split_of_subset {D Sc : List Nat} (hD : D.Nodup) (hS : Sc.Nodup)
    (hsub : ∀ d ∈ Sc, d ∈ D) :
    D.Perm (Sc ++ D.filter (fun d => !decide (d ∈ Sc))) := by
  have h1 := List.filter_append_perm (fun d => decide (d ∈ Sc)) D
  refine h1.symm.trans (List.Perm.append_right _ ?_)
  rw [List.perm_ext_iff_of_nodup (hD.filter _) hS]
  intro a
  rw [List.mem_filter]
  simp only [decide_eq_true_eq]
  constructor
  · exact fun h => h.2
  · exact fun h => ⟨hsub a h, h⟩

/-- After stage two the positive scores of the two heaps are the positive scores of the
exhaustive top-`(k + k2)`. -/
theorem union_positive {md k k2 : Nat} {cursors : List (Cursor S)} {T1 : topk_queue S}
    {bits : List Bool} {O Z : List S} {Sc2 : List Nat} {st : driver_state S}
    (hH1 : heap_inv T1 ((all_docids cursors).map (exhaustive_score cursors)))
    (hk : T1.m_k = k) (hr : rescue_inv md k2 cursors T1 bits O Z Sc2 st)
    (hall : ∀ d ∈ all_docids cursors, bit_test bits d = true ∨ d ∈ Sc2 ∨
      exhaustive_score cursors d ≤ 0 ∨
      st.m_secondary.would_enter (exhaustive_score cursors d) = false) :
    (positive ((T1.m_q ++ st.m_secondary.m_q).map Prod.fst)).Perm
      (positive (best (k + k2) ((all_docids cursors).map (exhaustive_score cursors)))) := by
  have hD := nodup_all_docids cursors
  generalize hDD : all_docids cursors = D at *
  generalize hff : exhaustive_score cursors = f at *
  -- the docids: scored in stage one, scored in stage two, the rest
  have hsplit1 := (List.filter_append_perm (bit_test bits) D).symm
  have hD0 : (D.filter (fun d => !bit_test bits d)).Nodup := hD.filter _
  have hsub : ∀ d ∈ Sc2, d ∈ D.filter (fun d => !bit_test bits d) := by
    intro d hd
    obtain ⟨h1, h2, _⟩ := hr.fresh d hd
    rw [List.mem_filter]
    exact ⟨by rw [← hDD]; exact h1, by rw [h2]; rfl⟩
  have hsplit2 := perm_split_of_subset hD0 hr.nodup hsub
  generalize hM : (D.filter (fun d => !bit_test bits d)).filter
    (fun d => !decide (d ∈ Sc2)) = M at hsplit2
  have hMdead : ∀ m ∈ M.map f, m ≤ 0 ∨ st.m_secondary.would_enter m = false := by
    intro m hm
    obtain ⟨d, hd, rfl⟩ := List.mem_map.1 hm
    rw [← hM, List.mem_filter, List.mem_filter] at hd
    obtain ⟨⟨hdD, hb⟩, hs⟩ := hd
    simp only [Bool.not_eq_true', decide_eq_false_iff_not] at hb hs
    rcases hall d hdD with h | h | h | h
    · rw [hb] at h; exact absurd h (by decide)
    · exact absurd h hs
    · exact Or.inl h
    · exact Or.inr h
  have hA : (D.map f).Perm (scored_scores cursors bits ++ Sc2.map f ++ M.map f) := by
    unfold scored_scores
    rw [hDD, hff, ← List.map_append, ← List.map_append]
    apply List.Perm.map
    refine hsplit1.trans ?_
    rw [List.append_assoc]
    exact List.Perm.append_left _ hsplit2
  obtain ⟨hs2, R, hpO, hl1, hl2, hl3⟩ := hr.sec_heap
  obtain ⟨hs1, R1, hpA, hm1, hm2, hm3⟩ := hH1
  rw [hr.sec_k] at hl1 hl2
  rw [hk] at hm1 hm2
  have hacct := hr.acct
  rw [hff] at hacct
  have hcnt : ((D.map f) ++ Z).Perm
      ((T1.m_q.map Prod.fst ++ st.m_secondary.m_q.map Prod.fst) ++ (R ++ M.map f)) := by
    rw [List.perm_iff_count] at hA hpO hacct ⊢
    intro a
    have e1 := hA a
    have e2 := hpO a
    have e3 := hacct a
    simp only [List.count_append] at e1 e2 e3 ⊢
    omega
  have hrest : (R1 ++ Z).Perm (st.m_secondary.m_q.map Prod.fst ++ R ++ M.map f) := by
    rw [List.perm_iff_count] at hcnt hpA ⊢
    intro a
    have e1 := hcnt a
    have e2 := hpA a
    simp only [List.count_append] at e1 e2 ⊢
    omega
  have hrestmem : ∀ r ∈ R ++ M.map f, r ∈ R1 ∨ r = 0 := by
    intro r hr2
    have : r ∈ R1 ++ Z := by
      apply hrest.symm.subset
      rw [List.append_assoc]
      exact List.mem_append_right _ hr2
    rcases List.mem_append.1 this with h | h
    · exact Or.inl h
    · exact Or.inr (hr.zeros r h)
  have hsel : is_topk_pos (k + k2) (T1.m_q.map Prod.fst ++ st.m_secondary.m_q.map Prod.fst)
      (D.map f ++ Z) := by
    refine ⟨R ++ M.map f, hcnt, ?_, ?_, ?_⟩
    · rw [List.length_append]
      omega
    · intro hlt r hr2
      rw [List.length_append] at hlt
      by_cases h1 : (T1.m_q.map Prod.fst).length < k
      · rcases hrestmem r hr2 with h | h
        · rw [hm2 h1] at h
          exact absurd h (List.not_mem_nil _)
        · exact le_of_eq h
      · have h2 : (st.m_secondary.m_q.map Prod.fst).length < k2 := by omega
        rw [hl2 h2, List.nil_append] at hr2
        rcases hMdead r hr2 with h | h
        · exact h
        · rw [topk_queue.would_enter_eq_false, hr.sec_k] at h
          rw [List.length_map] at h2
          rcases h with h | h
          · omega
          · omega
    · intro x hx r hr2
      rcases List.mem_append.1 hx with hh1 | hh2
      · rcases hrestmem r hr2 with h | h
        · exact Or.inl (hm3 x hh1 r h)
        · exact Or.inr (le_of_eq h)
      · rcases List.mem_append.1 hr2 with h | h
        · exact Or.inl (hl3 x hh2 r h)
        · rcases hMdead r h with h4 | h4
          · exact Or.inr h4
          · left
            rw [topk_queue.would_enter_eq_false, hr.sec_k] at h4
            rcases h4 with h5 | h5
            · rw [h5] at hl1
              have : (st.m_secondary.m_q.map Prod.fst) = [] :=
                List.eq_nil_of_length_eq_zero (by omega)
              rw [this] at hh2
              exact absurd hh2 (List.not_mem_nil _)
            · exact le_trans h5.2 (topk_queue.threshold_le_of_sorted _ hs2 x hh2)
  have hbest := is_topk_pos_of_is_topk (is_topk_best (k + k2) (D.map f))
  have hpos : positive (D.map f ++ Z) = positive (D.map f) := by
    rw [positive_append, positive_zeros hr.zeros, List.append_nil]
  rw [List.map_append]
  exact positive_perm_of_topk hsel hbest hpos

end pisa

namespace pisa

variable {S : Type} [LinearOrderedCommSemiring S]

/-! ## Proofs: `block_max_wand_query::method_three` end to end -/

/-- Stage two of `method_three`, started from a state satisfying its invariant with fewer
postings ahead than the fuel, returns within the fuel with the invariant and no pivot. -/
theorem method_three_stage_two_run {md k2 : Nat} {cursors : List (Cursor S)}
    {T1 : topk_queue S} {bits : List Bool} (hwf : well_formed md cursors)
    (st2 : driver_state S) (hinv : stage_two_safe_inv md k2 cursors T1 bits st2)
    (hrem : remaining st2.ordered_cursors < block_max_wand_query.fuel cursors) :
    ∃ s3, run_loop (block_max_wand_query.stage_two_body md)
        (block_max_wand_query.fuel cursors) st2 = some s3 ∧
      stage_two_safe_post md k2 cursors T1 bits s3 :=
  run_loop_terminates (block_max_wand_query.stage_two_body md)
    (stage_two_safe_inv md k2 cursors T1 bits) (stage_two_safe_post md k2 cursors T1 bits)
    (fun s => remaining s.ordered_cursors)
    (fun s hs => stage_two_safe_step hwf s hs) _ st2 hinv hrem

/-- When stage two exits, every docid of the query is scored in stage one or in stage two,
or has a score that is not positive, or cannot enter the secondary heap. -/
theorem stage_two_cover {md k2 : Nat} {cursors : List (Cursor S)} {T1 : topk_queue S}
    {bits : List Bool} {P T : Nat} {O Z : List S} {Sc2 : List Nat} {st : driver_state S}
    (hwf : well_formed md cursors)
    (hwalk : walk_inv md cursors st.ordered_cursors st.m_secondary bits P T)
    (hr : rescue_inv md k2 cursors T1 bits O Z Sc2 st)
    (hfp : find_pivot st.m_secondary md st.ordered_cursors 0 0 = none) :
    ∀ d ∈ all_docids cursors, bit_test bits d = true ∨ d ∈ Sc2 ∨
      exhaustive_score cursors d ≤ 0 ∨
      st.m_secondary.would_enter (exhaustive_score cursors d) = false := by
  intro d hd
  cases hs : seen st.ordered_cursors d with
  | true => exact hr.cover d hs
  | false =>
    right; right; right
    apply unseen_dead_at_exit hwf hwalk.tracks hwalk.sorted _ d hd hs
    intro m h1 h2 h3
    have := find_pivot_none st.ordered_cursors 0 0 hfp m h1 h2 h3
    rwa [zero_add] at this

/-- On a well-formed query with valid block bounds, `method_three` with fresh queues of
capacities `k > 0` and `k2 > 0` returns, and the positive scores of the two heaps are the
positive scores of the exhaustive top-`(k + k2)`. -/
theorem method_three_run_positive {md k k2 : Nat} {cursors : List (Cursor S)}
    (hwf : well_formed_block_max md cursors) (hk : 0 < k) (hk2 : 0 < k2) :
    ∃ w, block_max_wand_query.method_three
        { m_topk := topk_queue.create k, m_secondary := topk_queue.create k2,
          m_cyclic := cyclic_queue.create k2 } cursors md = some w ∧
      (positive ((w.m_topk.m_q ++ w.m_secondary.m_q).map Prod.fst)).Perm
        (positive ((topk_exhaustive cursors (k + k2)).map Prod.fst)) := by
  have hwf1 := well_formed_of_block_max hwf
  unfold block_max_wand_query.method_three
  by_cases he : cursors.isEmpty = true
  · rw [if_pos he]
    refine ⟨_, rfl, ?_⟩
    have : cursors = [] := List.isEmpty_iff.1 he
    subst this
    simp [topk_exhaustive, all_docids, topk_queue.create, positive]
  · rw [if_neg he]
    obtain ⟨s1, hrun1, hpost⟩ := @method_three_stage_one_run S _ md k k2 cursors hwf hk hk2
    obtain ⟨st2, htr, hinv2, hrem⟩ := stage_two_start hwf s1 hpost
    obtain ⟨s3, hrun2, ⟨⟨P, T, hwalk⟩, O, Z, Sc2, hr⟩, hfp⟩ :=
      method_three_stage_two_run hwf1 st2 hinv2 hrem
    rw [hrun1]
    simp only [Option.some_bind, htr, hrun2, Option.map_some']
    refine ⟨_, rfl, ?_⟩
    show (positive ((s3.m_topk.m_q ++ s3.m_secondary.m_q).map Prod.fst)).Perm _
    rw [topk_exhaustive_scores, hr.primary]
    exact union_positive hpost.1.1 hpost.1.2.1 hr (stage_two_cover hwf1 hwalk hr hfp)

theorem scenario_block_lists_well_formed : well_formed_block_max 6 scenario_block_lists := by
  intro c hc
  simp only [scenario_block_lists, List.mem_cons, List.mem_singleton, List.not_mem_nil,
    or_false] at hc
  rcases hc with rfl | rfl
  · refine ⟨⟨rfl, rfl, by decide, ?_⟩, rfl, ?_, ?_, ?_⟩
    · intro p hp
      simp only [block_max_scored_cursor, List.mem_cons, List.mem_singleton,
        List.not_mem_nil, or_false] at hp
      rcases hp with rfl | rfl | rfl <;> decide
    · intro b hb
      exact Nat.zero_le _
    · intro p hp
      simp only [block_max_scored_cursor, List.mem_cons, List.mem_singleton,
        List.not_mem_nil, or_false] at hp
      rcases hp with rfl | rfl | rfl <;> decide
    · intro p hp j b hb hle hfirst
      simp only [block_max_scored_cursor, List.mem_cons, List.mem_singleton,
        List.not_mem_nil, or_false] at hp
      have hbm := List.getElem?_mem hb
      simp only [block_max_scored_cursor, List.mem_cons, List.mem_singleton,
        List.not_mem_nil, or_false] at hbm
      rcases hp with rfl | rfl | rfl <;> rcases hbm with rfl | rfl <;> decide
  · refine ⟨⟨rfl, rfl, by decide, ?_⟩, rfl, ?_, ?_, ?_⟩
    · intro p hp
      simp only [block_max_scored_cursor, List.mem_cons, List.mem_singleton,
        List.not_mem_nil, or_false] at hp
      rcases hp with rfl | rfl | rfl <;> decide
    · intro b hb
      exact Nat.zero_le _
    · intro p hp
      simp only [block_max_scored_cursor, List.mem_cons, List.mem_singleton,
        List.not_mem_nil, or_false] at hp
      rcases hp with rfl | rfl | rfl <;> decide
    · intro p hp j b hb hle hfirst
      simp only [block_max_scored_cursor, List.mem_cons, List.mem_singleton,
        List.not_mem_nil, or_false] at hp
      have hbm := List.getElem?_mem hb
      simp only [block_max_scored_cursor, List.mem_cons, List.mem_singleton,
        List.not_mem_nil, or_false] at hbm
      rcases hp with rfl | rfl | rfl <;> rcases hbm with rfl | rfl <;> decide

end pisa

namespace pisa

variable {S : Type} [LinearOrderedCommSemiring S]

/-! ## Proofs: `cyclic_queue`, scores in age order -/

namespace cyclic_queue

/-- Every slot is the write index or occurs in the scan order. -/
theorem mem_age_order (q : cyclic_queue S) (i : Nat) (hi : i < q.m_data.length) :
    i = q.m_index ∨ i ∈ scan_order q := by
  unfold scan_order
  rcases Nat.lt_trichotomy i q.m_index with h | h | h
  · right
    exact List.mem_append_right _ (List.mem_range.2 h)
  · left; exact h
  · right
    refine List.mem_append_left _ (List.mem_range'.2 ⟨i - (q.m_index + 1), by omega, by omega⟩)

/-- Slot `i` qualifies exactly when it holds an entry of score at most `t`. -/
theorem qualifies_iff (data : List (S × Nat)) (t : S) (i : Nat) :
    qualifies data t i = true ↔ ∃ e, data[i]? = some e ∧ e.1 ≤ t := by
  unfold qualifies
  cases h : data[i]? with
  | none => simp
  | some e => simp

/-- In a list ordered pairwise by `R`, every element is the last one or `R`-below it. -/
theorem pairwise_getLast {α : Type} {R : α → α → Prop} {l : List α} {r x : α}
    (hp : l.Pairwise R) (hl : l.getLast? = some r) (hx : x ∈ l) : x = r ∨ R x r := by
  obtain ⟨ys, rfl⟩ := List.getLast?_eq_some_iff.1 hl
  rcases List.mem_append.1 hx with h | h
  · right
    exact (List.pairwise_append.1 hp).2.2 x h r (List.mem_singleton_self r)
  · left
    exact List.mem_singleton.1 h

/-- The score read by `monotone` at a slot is the score of the entry stored there. -/
theorem getD_fst {data : List (S × Nat)} {i : Nat} {e : S × Nat} (h : data[i]? = some e) :
    (data.getD i (0, 0)).1 = e.1 := by
  rw [List.getD_eq_getElem?_getD, h]
  rfl

/-- In a valid queue whose scores are non-decreasing in age order, the slot `displaced_id(t)`
reads holds an entry that bounds every entry of score at most `t`; it is the newest slot of
score at most `t` when a scanned slot qualifies, and the write index otherwise. -/
theorem displaced_slot_monotone (q : cyclic_queue S) (t : S) (hq : q.valid) (hm : q.monotone) :
    ∃ e, q.m_data[q.displaced_slot t]? = some e ∧
      (∀ e2 ∈ q.m_data, e2.1 ≤ t → e2.1 ≤ e.1 ∧ e.1 ≤ t) ∧
      ((∀ e2 ∈ q.m_data, ¬ e2.1 ≤ t) → q.displaced_slot t = q.m_index) := by
  have hw : q.m_index < q.m_data.length := by rw [hq.1]; exact hq.2
  have hlt := displaced_slot_lt q t hw
  refine ⟨q.m_data[q.displaced_slot t], List.getElem?_eq_getElem hlt, ?_, ?_⟩
  · unfold monotone age_order at hm
    rw [List.Sorted, List.pairwise_map, List.pairwise_cons] at hm
    obtain ⟨hhead, htail⟩ := hm
    intro e2 he2 hle
    obtain ⟨i, hi⟩ := List.mem_iff_getElem?.1 he2
    have hilt : i < q.m_data.length := by
      by_contra hge
      rw [List.getElem?_eq_none (by omega)] at hi
      exact Option.noConfusion hi
    have hqi : qualifies q.m_data t i = true := (qualifies_iff _ _ _).2 ⟨e2, hi, hle⟩
    have hslot : ∀ r, q.displaced_slot t = r → ∀ (hr : r < q.m_data.length),
        e2.1 ≤ (q.m_data[r]).1 ∧ (q.m_data[r]).1 ≤ t := by
      intro r hr hrlt
      unfold displaced_slot at hr
      cases hl : ((scan_order q).filter (qualifies q.m_data t)).getLast? with
      | none =>
        rw [hl] at hr
        have hnil := List.getLast?_eq_none_iff.1 hl
        have hiw : i = q.m_index := by
          rcases mem_age_order q i hilt with h | h
          · exact h
          · have : i ∈ (scan_order q).filter (qualifies q.m_data t) :=
              List.mem_filter.2 ⟨h, hqi⟩
            rw [hnil] at this
            exact absurd this (List.not_mem_nil i)
        have hri : r = i := by rw [hiw]; exact hr.symm
        subst hri
        have : q.m_data[r] = e2 := by
          have := List.getElem?_eq_getElem hrlt
          rw [hi] at this
          exact (Option.some.inj this).symm
        rw [this]
        exact ⟨le_refl _, hle⟩
      | some r0 =>
        rw [hl] at hr
        have hr0 : r0 = r := hr
        subst hr0
        have hmem := List.mem_of_getLast?_eq_some hl
        obtain ⟨hscan, hqr⟩ := List.mem_filter.1 hmem
        obtain ⟨er, her, hert⟩ := (qualifies_iff _ _ _).1 hqr
        have herr : q.m_data[r0] = er := by
          have := List.getElem?_eq_getElem hrlt
          rw [her] at this
          exact (Option.some.inj this).symm
        rw [herr]
        refine ⟨?_, hert⟩
        rw [← getD_fst hi, ← getD_fst her]
        rcases mem_age_order q i hilt with h | h
        · rw [h]
          exact hhead r0 hscan
        · have hp := List.Pairwise.sublist
            (List.filter_sublist (p := qualifies q.m_data t) (scan_order q)) htail
          rcases pairwise_getLast hp hl (List.mem_filter.2 ⟨h, hqi⟩) with h2 | h2
          · rw [h2]
          · exact h2
    exact hslot _ rfl hlt
  · intro hnone
    unfold displaced_slot
    cases hl : ((scan_order q).filter (qualifies q.m_data t)).getLast? with
    | none => rfl
    | some r0 =>
      exfalso
      have hmem := List.mem_of_getLast?_eq_some hl
      obtain ⟨_, hqr⟩ := List.mem_filter.1 hmem
      obtain ⟨er, her, hert⟩ := (qualifies_iff _ _ _).1 hqr
      exact hnone er (List.mem_iff_getElem?.2 ⟨r0, her⟩) hert

/-! ## Proofs: `cyclic_queue`, `finalize` -/

/-- The storage after `finalize()` is in non-increasing score order. -/
theorem sorted_finalize (q : cyclic_queue S) :
    (q.finalize.topk).Sorted (fun a b => b.1 ≤ a.1) := by
  haveI : IsTotal (S × Nat) (fun a b => b.1 ≤ a.1) := ⟨fun a b => le_total b.1 a.1⟩
  haveI : IsTrans (S × Nat) (fun a b => b.1 ≤ a.1) :=
    ⟨fun a b c hab hbc => le_trans hbc hab⟩
  exact List.sorted_insertionSort _ q.m_data

/-- Two arrangements of the same entries in non-increasing score order show the same sequence
of scores, whatever the order among equal scores. -/
theorem scores_of_sorted_perm {l1 l2 : List (S × Nat)} (hp : l1.Perm l2)
    (h1 : l1.Sorted (fun a b => b.1 ≤ a.1)) (h2 : l2.Sorted (fun a b => b.1 ≤ a.1)) :
    l1.map Prod.fst = l2.map Prod.fst := by
  haveI : IsAntisymm S (fun a b => b ≤ a) := ⟨fun a b hab hba => le_antisymm hba hab⟩
  refine List.eq_of_perm_of_sorted (r := fun a b : S => b ≤ a) (hp.map _) ?_ ?_
  · exact List.pairwise_map.2 h1
  · exact List.pairwise_map.2 h2

/-! ## Proofs: `cyclic_queue`, call sequences -/

/-- A valid queue stays valid under `insert`, which is then defined. -/
theorem insert_valid (q : cyclic_queue S) (s : S) (d : Nat) (hq : q.valid) :
    ∃ q1, q.insert s d = some q1 ∧ q1.valid ∧ q1.m_k = q.m_k := by
  have hw : q.m_index < q.m_data.length := by rw [hq.1]; exact hq.2
  have hk : q.m_k ≠ 0 := by have := hq.2; omega
  refine ⟨{ q with m_data := q.m_data.set q.m_index (s, d),
                    m_index := (q.m_index + 1) % q.m_k },
    by unfold insert; rw [if_pos ⟨hw, hk⟩], ?_, rfl⟩
  refine ⟨?_, ?_⟩
  · show (q.m_data.set q.m_index (s, d)).length = q.m_k
    rw [List.length_set]; exact hq.1
  · show (q.m_index + 1) % q.m_k < q.m_k
    exact Nat.mod_lt _ (by omega)

/-- A valid queue stays valid under `finalize`. -/
theorem finalize_valid (q : cyclic_queue S) (hq : q.valid) :
    q.finalize.valid ∧ q.finalize.m_k = q.m_k := by
  refine ⟨⟨?_, hq.2⟩, rfl⟩
  show (q.m_data.insertionSort _).length = q.m_k
  rw [List.length_insertionSort]; exact hq.1

/-- A sequence of `insert` and `finalize` calls on a valid queue is defined and leaves a valid
queue of the same capacity. -/
theorem run_valid (ops : List (op S)) (q : cyclic_queue S) (hq : q.valid)
    (hops : ∀ o ∈ ops, op.is_clear o = false) :
    ∃ q1, run q ops = some q1 ∧ q1.valid ∧ q1.m_k = q.m_k := by
  induction ops generalizing q with
  | nil => exact ⟨q, rfl, hq, rfl⟩
  | cons o os ih =>
    have hos : ∀ o2 ∈ os, op.is_clear o2 = false :=
      fun o2 h => hops o2 (List.mem_cons_of_mem _ h)
    have ho := hops o (List.mem_cons_self _ _)
    cases o with
    | insert s d =>
      obtain ⟨q1, h1, hv1, hk1⟩ := insert_valid q s d hq
      obtain ⟨q2, h2, hv2, hk2⟩ := ih q1 hv1 hos
      refine ⟨q2, ?_, hv2, by rw [hk2, hk1]⟩
      show (cyclic_queue.insert q s d).bind (fun q1 => run q1 os) = some q2
      rw [h1]; exact h2
    | finalize =>
      obtain ⟨hv1, hk1⟩ := finalize_valid q hq
      obtain ⟨q2, h2, hv2, hk2⟩ := ih q.finalize hv1 hos
      exact ⟨q2, h2, hv2, by rw [hk2, hk1]⟩
    | clear => exact absurd ho (by simp [op.is_clear])

/-- A fresh queue of positive capacity is valid. -/
theorem create_valid (k : Nat) (hk : 0 < k) : (create k : cyclic_queue S).valid :=
  ⟨by simp [create], hk⟩

end cyclic_queue

end pisa

namespace pisa

variable {S : Type} [LinearOrderedCommSemiring S]

/-! ## Proofs: states at the head of an iteration -/

/-- Consecutive heads of iterations are linked by one `next` step of the body. -/
theorem loop_state_step {σ : Type} (body : σ → loop_step σ) (n : Nat) (s st st1 : σ)
    (h : loop_state body n s = some st) (h1 : loop_state body (n + 1) s = some st1) :
    body st = loop_step.next st1 := by
  induction n generalizing s with
  | zero =>
    have hs : s = st := Option.some.inj h
    subst hs
    unfold loop_state at h1
    cases hb : body s with
    | exit s2 => rw [hb] at h1; exact Option.noConfusion h1
    | undefined => rw [hb] at h1; exact Option.noConfusion h1
    | next s2 =>
      rw [hb] at h1
      have : s2 = st1 := Option.some.inj h1
      rw [this]
  | succ n ih =>
    unfold loop_state at h h1
    cases hb : body s with
    | exit s2 => rw [hb] at h; exact Option.noConfusion h
    | undefined => rw [hb] at h; exact Option.noConfusion h
    | next s2 =>
      rw [hb] at h h1
      exact ih s2 h h1

/-- A property of the initial state that every `next` step preserves holds at the head of
every iteration. -/
theorem loop_state_inv {σ : Type} (body : σ → loop_step σ) (P : σ → Prop)
    (hstep : ∀ a b, P a → body a = loop_step.next b → P b) (n : Nat) (s st : σ) (hs : P s)
    (h : loop_state body n s = some st) : P st := by
  induction n generalizing s with
  | zero =>
    have : s = st := Option.some.inj h
    rw [← this]; exact hs
  | succ n ih =>
    unfold loop_state at h
    cases hb : body s with
    | exit s2 => rw [hb] at h; exact Option.noConfusion h
    | undefined => rw [hb] at h; exact Option.noConfusion h
    | next s2 =>
      rw [hb] at h
      exact ih s2 (hstep s s2 hs hb) h

/-! ## Proofs: the threshold of the primary heap -/

namespace topk_queue

/-- The storage stays in heap order under `insert`. -/
theorem sorted_insert (q : topk_queue S) (s : S) (d : Nat)
    (hs : q.m_q.Sorted (fun a b => a.1 ≤ b.1)) :
    (q.insert s d).2.m_q.Sorted (fun a b => a.1 ≤ b.1) := by
  unfold insert
  split
  · unfold push
    split
    · exact sorted_orderedInsert _ _ hs
    · exact sorted_orderedInsert _ _ hs.tail
  · exact hs

/-- The number of entries never decreases under `insert`, and never exceeds the capacity of a
heap that respects it. -/
theorem length_insert (q : topk_queue S) (s : S) (d : Nat) (hle : q.m_q.length ≤ q.m_k) :
    q.m_q.length ≤ (q.insert s d).2.m_q.length ∧ (q.insert s d).2.m_q.length ≤ q.m_k := by
  unfold insert
  split
  · rename_i hw
    unfold push
    split
    · rename_i hlt
      simp only [List.orderedInsert_length]
      omega
    · rename_i hge
      simp only [List.orderedInsert_length, List.length_tail]
      have hk : q.m_k ≠ 0 := by
        unfold would_enter at hw
        exact (of_decide_eq_true hw).1
      omega
  · exact ⟨le_refl _, hle⟩

/-- Once the heap is full, `insert` does not lower `threshold()`. -/
theorem threshold_insert_ge (q : topk_queue S) (s : S) (d : Nat)
    (hs : q.m_q.Sorted (fun a b => a.1 ≤ b.1)) (hfull : q.m_q.length = q.m_k) :
    q.threshold ≤ (q.insert s d).2.threshold := by
  unfold insert
  split
  · rename_i hw
    unfold would_enter at hw
    obtain ⟨hk, hor⟩ := of_decide_eq_true hw
    have hlt : q.threshold < s := by
      rcases hor with h | h
      · omega
      · exact h
    unfold push
    rw [if_neg (by omega)]
    cases hq : q.m_q with
    | nil => rw [hq] at hfull; exact absurd hfull.symm hk
    | cons e tl =>
      have hth : q.threshold = e.1 := by unfold threshold; rw [hq]
      rw [hth]
      rw [hq] at hs
      refine threshold_orderedInsert_ge (s, d) tl e.1 ?_ ?_ q.m_k
      · rw [← hth]; exact le_of_lt hlt
      · intro a ha
        exact List.rel_of_sorted_cons hs a ha
  · exact le_refl _

end topk_queue

/-! ## Proofs: the primary heap along the baseline WAND loop -/

/-- One iteration of the baseline WAND loop leaves the primary heap as it is or inserts one
scored candidate into it. -/
theorem wand_baseline_step_topk (md : Nat) (st st1 : driver_state S)
    (h : wand_query.loop_body capture_baseline md st = loop_step.next st1) :
    st1.m_topk = st.m_topk ∨ ∃ s d, st1.m_topk = (st.m_topk.insert s d).2 := by
  unfold wand_query.loop_body at h
  cases hp : find_pivot st.m_topk md st.ordered_cursors 0 0 with
  | none => rw [hp] at h; exact loop_step.noConfusion h
  | some pivot =>
    rw [hp] at h
    cases hcp : st.ordered_cursors[pivot]? with
    | none => simp only [hcp] at h; exact loop_step.noConfusion h
    | some cp =>
      cases hc0 : st.ordered_cursors[0]? with
      | none => simp only [hcp, hc0] at h; exact loop_step.noConfusion h
      | some c0 =>
        simp only [hcp, hc0] at h
        by_cases heq : cp.docid = c0.docid
        · rw [if_pos heq] at h
          simp only [capture_baseline] at h
          right
          refine ⟨(score_front cp.docid st.ordered_cursors 0).1, cp.docid, ?_⟩
          have := loop_step.next.inj h
          rw [← this]
        · rw [if_neg heq] at h
          cases hal : align false st.ordered_cursors pivot cp.docid with
          | none => rw [hal] at h; exact loop_step.noConfusion h
          | some cs =>
            rw [hal] at h
            left
            have := loop_step.next.inj h
            rw [← this]

/-- At the head of every iteration of the baseline WAND loop started on an empty primary heap
of capacity `k`, the heap is in heap order, has capacity `k` and holds at most `k` entries. -/
theorem wand_baseline_heap_inv (k : Nat) (sec : topk_queue S) (cyc : cyclic_queue S)
    (cursors : List (Cursor S)) (md n : Nat) (st : driver_state S)
    (h : loop_state (wand_query.loop_body capture_baseline md) n
      (wand_query.start { m_topk := topk_queue.create k, m_secondary := sec, m_cyclic := cyc }
        cursors []) = some st) :
    st.m_topk.m_q.Sorted (fun a b => a.1 ≤ b.1) ∧ st.m_topk.m_k = k ∧
      st.m_topk.m_q.length ≤ k := by
  refine loop_state_inv (wand_query.loop_body capture_baseline md)
    (fun st => st.m_topk.m_q.Sorted (fun a b => a.1 ≤ b.1) ∧ st.m_topk.m_k = k ∧
      st.m_topk.m_q.length ≤ k) ?_ n _ st ?_ h
  · intro a b ⟨hs, hk, hlen⟩ hb
    rcases wand_baseline_step_topk md a b hb with h1 | ⟨s, d, h1⟩
    · rw [h1]; exact ⟨hs, hk, hlen⟩
    · rw [h1]
      refine ⟨topk_queue.sorted_insert _ s d hs, ?_, ?_⟩
      · rw [topk_queue.insert_m_k]; exact hk
      · have := (topk_queue.length_insert a.m_topk s d (by rw [hk]; exact hlen)).2
        rw [hk] at this
        exact this
  · exact ⟨List.sorted_nil, rfl, Nat.zero_le _⟩

end pisa

namespace pisa

variable {S : Type} [LinearOrderedCommSemiring S]

/-! ## Proofs: what the baseline drivers leave untouched -/

/-- A property of the initial state that every step of the body preserves holds of the state
a loop returns. -/
theorem run_loop_preserves {σ : Type} (body : σ → loop_step σ) (P : σ → Prop)
    (hnext : ∀ a b, P a → body a = loop_step.next b → P b)
    (hexit : ∀ a b, P a → body a = loop_step.exit b → P b) (n : Nat) (s st : σ) (hs : P s)
    (h : run_loop body n s = some st) : P st := by
  induction n generalizing s with
  | zero => exact Option.noConfusion h
  | succ n ih =>
    unfold run_loop at h
    cases hb : body s with
    | exit s2 =>
      rw [hb] at h
      have : s2 = st := Option.some.inj h
      rw [← this]; exact hexit s s2 hs hb
    | undefined => rw [hb] at h; exact Option.noConfusion h
    | next s2 =>
      rw [hb] at h
      exact ih s2 (hnext s s2 hs hb) h

/-- The baseline capture statement touches the primary heap only. -/
theorem capture_baseline_secondary (st st1 : driver_state S) (s : S) (d : Nat)
    (h : capture_baseline st s d = some st1) :
    st1.m_secondary = st.m_secondary ∧ st1.m_cyclic = st.m_cyclic := by
  unfold capture_baseline at h
  have := Option.some.inj h
  rw [← this]
  exact ⟨rfl, rfl⟩

/-- One iteration of a WAND loop whose capture statement leaves the secondary heap and the
cyclic queue alone leaves them alone. -/
theorem wand_loop_body_secondary
    (capture : driver_state S → S → Nat → Option (driver_state S))
    (hcap : ∀ st st1 s d, capture st s d = some st1 →
      st1.m_secondary = st.m_secondary ∧ st1.m_cyclic = st.m_cyclic)
    (md : Nat) (st st1 : driver_state S)
    (h : wand_query.loop_body capture md st = loop_step.next st1 ∨
      wand_query.loop_body capture md st = loop_step.exit st1) :
    st1.m_secondary = st.m_secondary ∧ st1.m_cyclic = st.m_cyclic := by
  unfold wand_query.loop_body at h
  cases hp : find_pivot st.m_topk md st.ordered_cursors 0 0 with
  | none =>
    rw [hp] at h
    rcases h with h | h
    · exact loop_step.noConfusion h
    · have := loop_step.exit.inj h
      rw [← this]
      exact ⟨rfl, rfl⟩
  | some pivot =>
    rw [hp] at h
    cases hcp : st.ordered_cursors[pivot]? with
    | none =>
      simp only [hcp] at h
      rcases h with h | h <;> exact loop_step.noConfusion h
    | some cp =>
      cases hc0 : st.ordered_cursors[0]? with
      | none =>
        simp only [hcp, hc0] at h
        rcases h with h | h <;> exact loop_step.noConfusion h
      | some c0 =>
        simp only [hcp, hc0] at h
        by_cases heq : cp.docid = c0.docid
        · rw [if_pos heq] at h
          cases hc : capture st (score_front cp.docid st.ordered_cursors 0).1 cp.docid with
          | none =>
            rw [hc] at h
            rcases h with h | h <;> exact loop_step.noConfusion h
          | some st2 =>
            rw [hc] at h
            rcases h with h | h
            · have := loop_step.next.inj h
              rw [← this]
              exact hcap st st2 _ _ hc
            · exact loop_step.noConfusion h
        · rw [if_neg heq] at h
          cases hal : align false st.ordered_cursors pivot cp.docid with
          | none =>
            rw [hal] at h
            rcases h with h | h <;> exact loop_step.noConfusion h
          | some cs =>
            rw [hal] at h
            rcases h with h | h
            · have := loop_step.next.inj h
              rw [← this]
              exact ⟨rfl, rfl⟩
            · exact loop_step.noConfusion h

/-- One iteration of a block-max loop whose capture statement leaves the secondary heap and
the cyclic queue alone leaves them alone. -/
theorem bmw_loop_body_secondary
    (capture : driver_state S → S → Nat → Option (driver_state S))
    (hcap : ∀ st st1 s d, capture st s d = some st1 →
      st1.m_secondary = st.m_secondary ∧ st1.m_cyclic = st.m_cyclic)
    (md : Nat) (st st1 : driver_state S)
    (h : block_max_wand_query.loop_body capture md st = loop_step.next st1 ∨
      block_max_wand_query.loop_body capture md st = loop_step.exit st1) :
    st1.m_secondary = st.m_secondary ∧ st1.m_cyclic = st.m_cyclic := by
  unfold block_max_wand_query.loop_body at h
  cases hp : find_pivot st.m_topk md st.ordered_cursors 0 0 with
  | none =>
    rw [hp] at h
    rcases h with h | h
    · exact loop_step.noConfusion h
    · have := loop_step.exit.inj h
      rw [← this]
      exact ⟨rfl, rfl⟩
  | some pivot0 =>
    rw [hp] at h
    cases hcp : st.ordered_cursors[pivot0]? with
    | none =>
      simp only [hcp] at h
      rcases h with h | h <;> exact loop_step.noConfusion h
    | some cp =>
      simp only [hcp] at h
      split at h
      · split at h
        · rcases h with h | h <;> exact loop_step.noConfusion h
        · split at h
          · split at h
            · rcases h with h | h <;> exact loop_step.noConfusion h
            · rename_i st2 hc
              rcases h with h | h
              · have := loop_step.next.inj h
                rw [← this]
                exact hcap st st2 _ _ hc
              · exact loop_step.noConfusion h
          · split at h
            · rcases h with h | h <;> exact loop_step.noConfusion h
            · rcases h with h | h
              · have := loop_step.next.inj h
                rw [← this]
                exact ⟨rfl, rfl⟩
              · exact loop_step.noConfusion h
      · split at h
        · rcases h with h | h <;> exact loop_step.noConfusion h
        · rcases h with h | h
          · have := loop_step.next.inj h
            rw [← this]
            exact ⟨rfl, rfl⟩
          · exact loop_step.noConfusion h

/-- The baseline WAND driver returns the secondary heap and the cyclic queue it was given. -/
theorem wand_call_secondary (w w1 : wand_query S) (cursors : List (Cursor S)) (md : Nat)
    (h : w.call cursors md = some w1) :
    w1.m_secondary = w.m_secondary ∧ w1.m_cyclic = w.m_cyclic := by
  unfold wand_query.call at h
  split at h
  · have := Option.some.inj h
    rw [← this]
    exact ⟨rfl, rfl⟩
  · cases hr : run_loop (wand_query.loop_body capture_baseline md) (loop_fuel cursors)
        (wand_query.start w cursors []) with
    | none => rw [hr] at h; exact Option.noConfusion h
    | some st =>
      rw [hr] at h
      have hw : wand_query.finish st = w1 := Option.some.inj h
      rw [← hw]
      exact run_loop_preserves (wand_query.loop_body capture_baseline md)
        (fun st => st.m_secondary = w.m_secondary ∧ st.m_cyclic = w.m_cyclic)
        (fun a b ha hb => by
          have := wand_loop_body_secondary capture_baseline capture_baseline_secondary md a b
            (Or.inl hb)
          exact ⟨this.1.trans ha.1, this.2.trans ha.2⟩)
        (fun a b ha hb => by
          have := wand_loop_body_secondary capture_baseline capture_baseline_secondary md a b
            (Or.inr hb)
          exact ⟨this.1.trans ha.1, this.2.trans ha.2⟩)
        _ _ st ⟨rfl, rfl⟩ hr

/-- The baseline block-max driver returns the secondary heap and the cyclic queue it was
given. -/
theorem bmw_call_secondary (w w1 : block_max_wand_query S) (cursors : List (Cursor S))
    (md : Nat) (h : w.call cursors md = some w1) :
    w1.m_secondary = w.m_secondary ∧ w1.m_cyclic = w.m_cyclic := by
  unfold block_max_wand_query.call at h
  split at h
  · have := Option.some.inj h
    rw [← this]
    exact ⟨rfl, rfl⟩
  · cases hr : run_loop (block_max_wand_query.loop_body capture_baseline md)
        (block_max_wand_query.fuel cursors) (block_max_wand_query.start w cursors []) with
    | none => rw [hr] at h; exact Option.noConfusion h
    | some st =>
      rw [hr] at h
      have hw : block_max_wand_query.finish st = w1 := Option.some.inj h
      rw [← hw]
      exact run_loop_preserves (block_max_wand_query.loop_body capture_baseline md)
        (fun st => st.m_secondary = w.m_secondary ∧ st.m_cyclic = w.m_cyclic)
        (fun a b ha hb => by
          have := bmw_loop_body_secondary capture_baseline capture_baseline_secondary md a b
            (Or.inl hb)
          exact ⟨this.1.trans ha.1, this.2.trans ha.2⟩)
        (fun a b ha hb => by
          have := bmw_loop_body_secondary capture_baseline capture_baseline_secondary md a b
            (Or.inr hb)
          exact ⟨this.1.trans ha.1, this.2.trans ha.2⟩)
        _ _ st ⟨rfl, rfl⟩ hr

/-- The lambda for `"wand"` returns an empty second output. -/
theorem query_fun_wand_eq (k : Nat) (cursors : List (Cursor S)) (n : Nat) :
    query_fun_wand k cursors n =
      (wand_query.call
        { m_topk := topk_queue.create k, m_secondary := topk_queue.create 0,
          m_cyclic := cyclic_queue.create 0 } cursors n).map
        (fun w => (w.m_topk.finalize.topk, [])) := by
  unfold query_fun_wand
  cases h : wand_query.call
      { m_topk := topk_queue.create k, m_secondary := topk_queue.create 0,
        m_cyclic := cyclic_queue.create 0 } cursors n with
  | none => rfl
  | some w =>
    have := (wand_call_secondary _ w cursors n h).1
    simp only [Option.map_some']
    rw [this]
    rfl

/-- The lambda for `"block_max_wand"` returns an empty second output. -/
theorem query_fun_block_max_wand_eq (k : Nat) (cursors : List (Cursor S)) (n : Nat) :
    query_fun_block_max_wand k cursors n =
      (block_max_wand_query.call
        { m_topk := topk_queue.create k, m_secondary := topk_queue.create 0,
          m_cyclic := cyclic_queue.create 0 } cursors n).map
        (fun w => (w.m_topk.finalize.topk, [])) := by
  unfold query_fun_block_max_wand
  cases h : block_max_wand_query.call
      { m_topk := topk_queue.create k, m_secondary := topk_queue.create 0,
        m_cyclic := cyclic_queue.create 0 } cursors n with
  | none => rfl
  | some w =>
    have := (bmw_call_secondary _ w cursors n h).1
    simp only [Option.map_some']
    rw [this]
    rfl

/-- Sorting a fresh cyclic queue leaves its zero entries as they are. -/
theorem finalize_create (k : Nat) :
    (cyclic_queue.create k : cyclic_queue S).finalize.topk = List.replicate k (0, 0) := by
  show (List.replicate k ((0 : S), 0)).insertionSort _ = _
  refine List.Sorted.insertionSort_eq ?_
  exact List.pairwise_replicate.2 (Or.inr (le_refl _))

end pisa

namespace pisa

variable {S : Type} [LinearOrderedCommSemiring S]

/-! ## Proofs: the choice of `query_fun` and the query loop -/

/-- No query function is assigned for a `query_type` outside the eight supported values. -/
theorem query_fun_unsupported (query_type : String) (k secondary_k : Nat)
    (h : query_type ∉ supported_variants) :
    query_fun (S := S) query_type k secondary_k = none := by
  unfold query_fun
  simp only [supported_variants, List.mem_cons, List.mem_singleton, List.not_mem_nil,
    or_false, not_or] at h
  obtain ⟨h1, h2, h3, h4, h5, h6, h7, h8⟩ := h
  rw [if_neg h1, if_neg h2, if_neg h3, if_neg h4, if_neg h5, if_neg h6, if_neg h7, if_neg h8]

/-- With no query function assigned, the query loop writes nothing: it returns at once on an
empty list of queries and throws at the first query otherwise. -/
theorem query_loop_unassigned (num_docs query_idx : Nat) (queries : List (List (Cursor S)))
    (out : List (result_line S)) :
    query_loop none num_docs query_idx queries out =
      (out, if queries.isEmpty then ending.returned else ending.bad_function_call) := by
  cases queries with
  | nil => rfl
  | cons q rest => rfl

/-! ## Proofs: pivot selection -/

/-- The index `find_pivot` returns qualifies and no smaller index does. -/
theorem find_pivot_least (heap : topk_queue S) (md : Nat) (cs : List (Cursor S)) (p : Nat)
    (h : find_pivot heap md cs 0 0 = some p) :
    prefix_qualifies heap md cs p ∧ ∀ j, j < p → ¬ prefix_qualifies heap md cs j := by
  obtain ⟨n, hn, hlen, hlive, hent, hnot⟩ := find_pivot_some cs 0 0 p h
  have hnp : n = p := by omega
  subst hnp
  rw [zero_add] at hent
  refine ⟨⟨hlen, hlive, hent⟩, ?_⟩
  intro j hj hq
  have := hnot (j + 1) (by omega) (by omega)
  rw [zero_add, hq.2.2] at this
  exact Bool.noConfusion this

/-- When `find_pivot` finds nothing, no index qualifies. -/
theorem find_pivot_none_iff (heap : topk_queue S) (md : Nat) (cs : List (Cursor S)) :
    find_pivot heap md cs 0 0 = none ↔ ∀ p, ¬ prefix_qualifies heap md cs p := by
  constructor
  · intro h p hq
    have := find_pivot_none cs 0 0 h (p + 1) (by omega) (by have := hq.1; omega) hq.2.1
    rw [zero_add, hq.2.2] at this
    exact Bool.noConfusion this
  · intro h
    cases hf : find_pivot heap md cs 0 0 with
    | none => rfl
    | some p => exact absurd (find_pivot_least heap md cs p hf).1 (h p)

/-- The least qualifying index is the one `find_pivot` returns. -/
theorem find_pivot_of_least (heap : topk_queue S) (md : Nat) (cs : List (Cursor S)) (p : Nat)
    (hq : prefix_qualifies heap md cs p)
    (hmin : ∀ j, j < p → ¬ prefix_qualifies heap md cs j) :
    find_pivot heap md cs 0 0 = some p := by
  cases hf : find_pivot heap md cs 0 0 with
  | none => exact absurd hq ((find_pivot_none_iff heap md cs).1 hf p)
  | some p2 =>
    obtain ⟨hq2, hmin2⟩ := find_pivot_least heap md cs p2 hf
    rcases Nat.lt_trichotomy p2 p with h | h | h
    · exact absurd hq2 (hmin p2 h)
    · rw [h]
    · exact absurd hq (hmin2 p h)

/-- A WAND loop body leaves the loop exactly when `find_pivot` finds nothing. -/
theorem wand_loop_body_exit_iff
    (capture : driver_state S → S → Nat → Option (driver_state S)) (md : Nat)
    (st : driver_state S) :
    (∃ st1, wand_query.loop_body capture md st = loop_step.exit st1) ↔
      find_pivot st.m_topk md st.ordered_cursors 0 0 = none := by
  constructor
  · rintro ⟨st1, h⟩
    cases hf : find_pivot st.m_topk md st.ordered_cursors 0 0 with
    | none => rfl
    | some p =>
      exfalso
      unfold wand_query.loop_body at h
      rw [hf] at h
      simp only at h
      split at h
      · split at h
        · split at h
          · exact loop_step.noConfusion h
          · exact loop_step.noConfusion h
        · split at h
          · exact loop_step.noConfusion h
          · exact loop_step.noConfusion h
      · exact loop_step.noConfusion h
  · intro h
    exact ⟨st, wand_query.loop_body_exit capture md st h⟩

end pisa

namespace pisa

variable {S : Type} [LinearOrderedCommSemiring S]

/-! ## Proofs: the skip step of block-max WAND -/

/-- The loop `for (i = 0; i <= pivot; ++i) if (block_max_docid() < next) next = ...` computes
the minimum of its start value and the block ends of the cursors it visits. -/
theorem foldl_block_min (cs : List (Cursor S)) (f : Nat → Nat → Nat)
    (hf : ∀ next i, f next i = (cs[i]?).elim next (fun c => min next c.block_max_docid))
    (n init : Nat) :
    (List.range n).foldl f init = ((cs.take n).map Cursor.block_max_docid).foldl min init := by
  induction n with
  | zero => simp
  | succ n ih =>
    rw [List.range_succ, List.foldl_append, ih, List.take_succ, List.map_append,
      List.foldl_append]
    simp only [List.foldl_cons, List.foldl_nil]
    rw [hf]
    cases cs[n]? with
    | none => simp
    | some c => simp

/-- The target of the skip step is the one the specification's formula gives. -/
theorem skip_target_eq_formula (cs : List (Cursor S)) (md p pid : Nat) :
    block_max_wand_query.skip_target cs md p pid = skip_target_formula cs md p pid := by
  have hfold := foldl_block_min cs
    (fun next i =>
      match cs[i]? with
      | some c => if c.block_max_docid < next then c.block_max_docid else next
      | none => next)
    (fun next i => by
      show (match cs[i]? with
        | some c => if c.block_max_docid < next then c.block_max_docid else next
        | none => next) = _
      cases cs[i]? with
      | none => rfl
      | some c =>
        show (if c.block_max_docid < next then c.block_max_docid else next)
          = min next c.block_max_docid
        rw [Nat.min_def]
        split_ifs <;> omega)
    (p + 1) md
  obtain ⟨m, hm⟩ : ∃ m : Nat, m = (List.range (p + 1)).foldl (fun next i =>
      match cs[i]? with
      | some c => if c.block_max_docid < next then c.block_max_docid else next
      | none => next) md := ⟨_, rfl⟩
  have h1 : block_max_wand_query.skip_target cs md p pid =
      if (match cs[p + 1]? with
          | some c => if c.docid < m + 1 then c.docid else m + 1
          | none => m + 1) ≤ pid then pid + 1
      else (match cs[p + 1]? with
          | some c => if c.docid < m + 1 then c.docid else m + 1
          | none => m + 1) := by
    rw [hm]; rfl
  have hm2 : m = ((cs.take (p + 1)).map Cursor.block_max_docid).foldl min md :=
    hm.trans hfold
  rw [h1]
  unfold skip_target_formula least_block_end
  rw [← hm2]
  cases cs[p + 1]? with
  | none =>
    show (if m + 1 ≤ pid then pid + 1 else m + 1) = max (pid + 1) (m + 1)
    rw [Nat.max_def]
    split_ifs <;> omega
  | some c =>
    show (if (if c.docid < m + 1 then c.docid else m + 1) ≤ pid then pid + 1
      else (if c.docid < m + 1 then c.docid else m + 1)) = max (pid + 1) (min (m + 1) c.docid)
    rw [Nat.max_def, Nat.min_def]
    split_ifs <;> omega

/-- The minimum over block ends started from `init` is at most `init`. -/
theorem foldl_min_le (l : List Nat) (init : Nat) : l.foldl min init ≤ init := by
  induction l generalizing init with
  | nil => exact le_refl _
  | cons a l ih =>
    simp only [List.foldl_cons]
    exact le_trans (ih _) (Nat.min_le_left _ _)

/-- The choice of `next_list`: the accumulator of the loop holds an index and the
`max_score()` of its cursor, which is at least the start value and the `max_score()` of every
cursor visited. -/
theorem skip_list_foldl_max (cs : List (Cursor S)) (f : Nat × S → Nat → Nat × S)
    (hf : ∀ acc i, f acc i =
      (cs[i]?).elim acc (fun c => if acc.2 < c.max_score then (i, c.max_score) else acc)) :
    ∀ (l : List Nat) (acc : Nat × S),
      (∃ c, cs[acc.1]? = some c ∧ c.max_score = acc.2) →
      (∃ c, cs[(l.foldl f acc).1]? = some c ∧ c.max_score = (l.foldl f acc).2) ∧
        acc.2 ≤ (l.foldl f acc).2 ∧
        ∀ i ∈ l, ∀ c, cs[i]? = some c → c.max_score ≤ (l.foldl f acc).2 := by
  intro l
  induction l with
  | nil =>
    intro acc h
    exact ⟨h, le_refl _, fun i hi => absurd hi (List.not_mem_nil i)⟩
  | cons a l ih =>
    intro acc h
    simp only [List.foldl_cons]
    have hstep : (∃ c, cs[(f acc a).1]? = some c ∧ c.max_score = (f acc a).2) ∧
        acc.2 ≤ (f acc a).2 ∧ ∀ c, cs[a]? = some c → c.max_score ≤ (f acc a).2 := by
      rw [hf]
      cases ha : cs[a]? with
      | none =>
        exact ⟨h, le_refl _, fun c hc => Option.noConfusion hc⟩
      | some c =>
        simp only [Option.elim]
        by_cases hlt : acc.2 < c.max_score
        · rw [if_pos hlt]
          refine ⟨⟨c, ha, rfl⟩, le_of_lt hlt, ?_⟩
          intro c2 hc2
          rw [← Option.some.inj hc2]
        · rw [if_neg hlt]
          refine ⟨h, le_refl _, ?_⟩
          intro c2 hc2
          rw [← Option.some.inj hc2]
          exact not_lt.1 hlt
    obtain ⟨h1, h2, h3⟩ := ih (f acc a) hstep.1
    refine ⟨h1, le_trans hstep.2.1 h2, ?_⟩
    intro i hi c hc
    rcases List.mem_cons.1 hi with rfl | hi
    · exact le_trans (hstep.2.2 c hc) h2
    · exact h3 i hi c hc

/-- The cursor the skip step advances is one of `C[0..pivot]` with the largest
`max_score()`. -/
theorem skip_list_largest (cs : List (Cursor S)) (p : Nat) (cp : Cursor S)
    (hcp : cs[p]? = some cp) :
    block_max_wand_query.skip_list cs p cp.max_score ≤ p ∧
    ∃ c, cs[block_max_wand_query.skip_list cs p cp.max_score]? = some c ∧
      ∀ i, i ≤ p → ∀ c2, cs[i]? = some c2 → c2.max_score ≤ c.max_score := by
  refine ⟨skip_list_le cs p cp.max_score, ?_⟩
  have h := skip_list_foldl_max cs
    (fun (acc : Nat × S) i =>
      match cs[i]? with
      | some c => if acc.2 < c.max_score then (i, c.max_score) else acc
      | none => acc)
    (fun acc i => by
      show (match cs[i]? with
        | some c => if acc.2 < c.max_score then (i, c.max_score) else acc
        | none => acc) = _
      cases cs[i]? with
      | none => rfl
      | some c => rfl)
    (List.range p) (p, cp.max_score) ⟨cp, hcp, rfl⟩
  obtain ⟨⟨c, hc, hcm⟩, hge, hall⟩ := h
  refine ⟨c, hc, ?_⟩
  intro i hi c2 hc2
  rw [hcm]
  rcases Nat.lt_or_eq_of_le hi with hlt | heq
  · exact hall i (List.mem_range.2 hlt) c2 hc2
  · subst heq
    rw [hcp] at hc2
    rw [← Option.some.inj hc2]
    exact hge

/-! ## Proofs: where the bubble-down leaves the advanced cursor -/

/-- The bubble-down loop moves the advanced cursor past the longest run of cursors that its
comparator lets it pass, and no further. -/
theorem bubble_eq (b : Bool) (c : Cursor S) (l : List (Cursor S)) :
    bubble b c l =
      l.takeWhile (fun d => if b then decide (d.docid ≤ c.docid) else decide (d.docid < c.docid))
        ++ c :: l.dropWhile
          (fun d => if b then decide (d.docid ≤ c.docid) else decide (d.docid < c.docid)) := by
  induction l with
  | nil => rfl
  | cons d rest ih =>
    unfold bubble
    by_cases h : (if b then decide (d.docid ≤ c.docid) else decide (d.docid < c.docid)) = true
    · rw [if_pos h, List.takeWhile_cons, List.dropWhile_cons, if_pos h, if_pos h, ih]
      rfl
    · rw [if_neg h, List.takeWhile_cons, List.dropWhile_cons, if_neg h, if_neg h]
      rfl

/-- The cursors the bubble-down with `<` passes have a smaller docid, and on a sorted list
the ones it does not pass have a docid that is not smaller. -/
theorem bubble_lt_split (c : Cursor S) (l : List (Cursor S))
    (hs : l.Pairwise (fun a b => a.docid ≤ b.docid)) :
    (∀ d ∈ l.takeWhile (fun d => decide (d.docid < c.docid)), d.docid < c.docid) ∧
    (∀ d ∈ l.dropWhile (fun d => decide (d.docid < c.docid)), c.docid ≤ d.docid) := by
  constructor
  · intro d hd
    have := List.mem_takeWhile_imp hd
    exact of_decide_eq_true this
  · intro d hd
    cases hdw : l.dropWhile (fun d => decide (d.docid < c.docid)) with
    | nil => rw [hdw] at hd; exact absurd hd (List.not_mem_nil d)
    | cons e rest =>
      have hsub : (e :: rest).Sublist l := hdw ▸ (List.dropWhile_suffix _).sublist
      have hs2 := hs.sublist hsub
      have he : ¬ e.docid < c.docid := by
        have := List.head_dropWhile_not (fun d : Cursor S => decide (d.docid < c.docid)) l
          (by rw [hdw]; exact List.cons_ne_nil _ _)
        simp only [hdw, List.head_cons] at this
        exact of_decide_eq_false this
      rw [hdw] at hd
      rcases List.mem_cons.1 hd with rfl | hd
      · exact not_lt.1 he
      · exact le_trans (not_lt.1 he) (List.rel_of_pairwise_cons hs2 hd)

/-- The cursors the bubble-down with `<=` passes have a docid that is not larger, and on a
sorted list the ones it does not pass have a larger docid. -/
theorem bubble_le_split (c : Cursor S) (l : List (Cursor S))
    (hs : l.Pairwise (fun a b => a.docid ≤ b.docid)) :
    (∀ d ∈ l.takeWhile (fun d => decide (d.docid ≤ c.docid)), d.docid ≤ c.docid) ∧
    (∀ d ∈ l.dropWhile (fun d => decide (d.docid ≤ c.docid)), c.docid < d.docid) := by
  constructor
  · intro d hd
    have := List.mem_takeWhile_imp hd
    exact of_decide_eq_true this
  · intro d hd
    cases hdw : l.dropWhile (fun d => decide (d.docid ≤ c.docid)) with
    | nil => rw [hdw] at hd; exact absurd hd (List.not_mem_nil d)
    | cons e rest =>
      have hsub : (e :: rest).Sublist l := hdw ▸ (List.dropWhile_suffix _).sublist
      have hs2 := hs.sublist hsub
      have he : ¬ e.docid ≤ c.docid := by
        have := List.head_dropWhile_not (fun d : Cursor S => decide (d.docid ≤ c.docid)) l
          (by rw [hdw]; exact List.cons_ne_nil _ _)
        simp only [hdw, List.head_cons] at this
        exact of_decide_eq_false this
      rw [hdw] at hd
      rcases List.mem_cons.1 hd with rfl | hd
      · exact not_le.1 he
      · exact lt_of_lt_of_le (not_le.1 he) (List.rel_of_pairwise_cons hs2 hd)

end pisa

namespace pisa

variable {S : Type} [LinearOrderedCommSemiring S]

/-! ## Proofs: the non-aligned branch, position of the advanced cursor -/

/-- The non-aligned branch on a sorted list of well-formed cursors whose cursor at `p` sits
on `pid` while the first one does not: the cursor `c` found by the backward walk is advanced
to `c.next_geq pid` and placed between the cursors `L` and `R`, which are the other cursors
in their previous order. With the `<` comparator every cursor of `L` has a smaller docid than
the advanced cursor and every cursor of `R` a docid that is not smaller; with the `<=`
comparator every cursor of `L` has a docid that is not larger and every cursor of `R` a
larger one. -/
theorem align_position {md : Nat} (b : Bool) (cs : List (Cursor S)) (p : Nat)
    (cp c0 : Cursor S) (hok : ∀ c ∈ cs, c.ok md)
    (hs : cs.Pairwise (fun a b => a.docid ≤ b.docid))
    (hcp : cs[p]? = some cp) (hc0 : cs[0]? = some c0) (hne : cp.docid ≠ c0.docid) :
    ∃ i c L R, i < p ∧ cs[i]? = some c ∧ c.docid < cp.docid ∧
      align b cs p cp.docid = some (L ++ c.next_geq cp.docid :: R) ∧
      L ++ R = cs.take i ++ cs.drop (i + 1) ∧
      (b = false → (∀ d ∈ L, d.docid < (c.next_geq cp.docid).docid) ∧
        ∀ d ∈ R, (c.next_geq cp.docid).docid ≤ d.docid) ∧
      (b = true → (∀ d ∈ L, d.docid ≤ (c.next_geq cp.docid).docid) ∧
        ∀ d ∈ R, (c.next_geq cp.docid).docid < d.docid) := by
  have hp : p < cs.length := by
    by_contra hge
    rw [List.getElem?_eq_none (by omega)] at hcp
    exact Option.noConfusion hcp
  obtain ⟨i, hi⟩ := walk_back_exists cs cp.docid p hp
    ⟨0, Nat.zero_le _, c0, hc0, fun h => hne h.symm⟩
  obtain ⟨hip, c, hc, hcd⟩ := walk_back_spec cs cp.docid p i hi
  have hmemcp : cp ∈ cs := List.getElem?_mem hcp
  have hcple : cp.docid ≤ md := Cursor.docid_le_universe (hok cp hmemcp)
  have hcok : c.ok md := hok c (List.getElem?_mem hc)
  have hip2 : i < p := by
    rcases Nat.lt_or_eq_of_le hip with h | h
    · exact h
    · exfalso
      subst h
      rw [hcp] at hc
      exact hcd (by rw [← Option.some.inj hc])
  have hcle : c.docid ≤ cp.docid := by
    have hilt : i < cs.length := by omega
    have h1 : cs[i] = c := by
      have := List.getElem?_eq_getElem hilt
      rw [hc] at this
      exact (Option.some.inj this).symm
    have h2 : cs[p] = cp := by
      have := List.getElem?_eq_getElem hp
      rw [hcp] at this
      exact (Option.some.inj this).symm
    rw [← h1, ← h2]
    exact List.pairwise_iff_getElem.1 hs i p hilt hp hip2
  have hclt : c.docid < cp.docid := lt_of_le_of_ne hcle hcd
  have hnew : cp.docid ≤ (c.next_geq cp.docid).docid :=
    Cursor.docid_next_geq_ge hcok cp.docid hcple
  have hsplit := eq_take_cons_drop hc
  have htake : ∀ d ∈ cs.take i, d.docid ≤ c.docid := by
    intro d hd
    rw [hsplit] at hs
    exact (List.pairwise_append.1 hs).2.2 d hd c (List.mem_cons_self _ _)
  have hdrop : (cs.drop (i + 1)).Pairwise (fun a b => a.docid ≤ b.docid) :=
    hs.sublist (List.drop_sublist _ _)
  have hal : align b cs p cp.docid =
      some (cs.take i ++ bubble b (c.next_geq cp.docid) (cs.drop (i + 1))) := by
    unfold align
    rw [hi]
    show advance_and_bubble b cs i (fun c => c.next_geq cp.docid) = _
    unfold advance_and_bubble
    rw [hc]
  rw [bubble_eq] at hal
  refine ⟨i, c,
    cs.take i ++ (cs.drop (i + 1)).takeWhile (fun d =>
      if b then decide (d.docid ≤ (c.next_geq cp.docid).docid)
      else decide (d.docid < (c.next_geq cp.docid).docid)),
    (cs.drop (i + 1)).dropWhile (fun d =>
      if b then decide (d.docid ≤ (c.next_geq cp.docid).docid)
      else decide (d.docid < (c.next_geq cp.docid).docid)),
    hip2, hc, hclt, ?_, ?_, ?_, ?_⟩
  · rw [hal, List.append_assoc]
  · rw [List.append_assoc, List.takeWhile_append_dropWhile]
  · intro hb
    subst hb
    obtain ⟨h1, h2⟩ := bubble_lt_split (c.next_geq cp.docid) (cs.drop (i + 1)) hdrop
    refine ⟨?_, ?_⟩
    · intro d hd
      rcases List.mem_append.1 hd with hd | hd
      · exact lt_of_le_of_lt (htake d hd) (lt_of_lt_of_le hclt hnew)
      · exact h1 d hd
    · intro d hd
      exact h2 d hd
  · intro hb
    subst hb
    obtain ⟨h1, h2⟩ := bubble_le_split (c.next_geq cp.docid) (cs.drop (i + 1)) hdrop
    refine ⟨?_, ?_⟩
    · intro d hd
      rcases List.mem_append.1 hd with hd | hd
      · exact le_of_lt (lt_of_le_of_lt (htake d hd) (lt_of_lt_of_le hclt hnew))
      · exact h1 d hd
    · intro d hd
      exact h2 d hd

end pisa

namespace pisa

variable {S : Type} [LinearOrderedCommSemiring S]

/-! ## Proofs: no cursor moves backward -/

theorem not_behind_refl {md : Nat} {c : Cursor S} (h : c.ok md) : not_behind md c c :=
  ⟨rfl, le_refl _, le_refl _, Cursor.docid_le_universe h⟩

theorem not_behind_next {md : Nat} {c : Cursor S} (h : c.ok md) (hl : c.docid < md) :
    not_behind md c c.next ∧ c.docid < c.next.docid :=
  ⟨⟨rfl, Nat.le_succ _, le_of_lt (Cursor.docid_lt_next h hl),
    Cursor.docid_le_universe ((Cursor.ok_next md c).2 h)⟩, Cursor.docid_lt_next h hl⟩

theorem not_behind_next_geq {md : Nat} {c : Cursor S} (h : c.ok md) (t : Nat) :
    not_behind md c (c.next_geq t) :=
  ⟨rfl, Nat.le_add_right _ _, Cursor.docid_le_next_geq h t,
    Cursor.docid_le_universe ((Cursor.ok_next_geq md c t).2 h)⟩

/-- `next_geq(t)` leaves the cursor on a docid that is at least `t`, or exhausted. -/
theorem min_le_docid_next_geq {md : Nat} {c : Cursor S} (h : c.ok md) (t : Nat) :
    min t md ≤ (c.next_geq t).docid := by
  rw [Cursor.docid_eq, Cursor.ahead_next_geq]
  cases hd : c.ahead.dropWhile (fun p => decide (p.1 < t)) with
  | nil =>
    simp only
    rw [show (c.next_geq t).m_universe = c.m_universe from rfl, h.1]
    exact Nat.min_le_right _ _
  | cons q tl =>
    simp only
    have := List.head?_dropWhile_not (fun p : Nat × S => decide (p.1 < t)) c.ahead
    rw [hd] at this
    simp only [List.head?_cons, Option.some.injEq] at this
    have hq : ¬ q.1 < t := by simpa using this
    exact le_trans (Nat.min_le_left _ _) (not_lt.1 hq)

/-- `next_geq(t)` with a target beyond the docid of a live cursor moves it to a strictly
larger docid. -/
theorem docid_lt_next_geq {md : Nat} {c : Cursor S} (h : c.ok md) (hl : c.docid < md)
    (t : Nat) (ht : c.docid < t) : c.docid < (c.next_geq t).docid :=
  lt_of_lt_of_le (lt_min ht hl) (min_le_docid_next_geq h t)

/-- Replacing the cursor at index `i` by a later position of the same cursor, on a strictly
larger docid, and reordering: an advance. -/
theorem advances_replace {md : Nat} {cs cs2 : List (Cursor S)} {i : Nat} {c c2 : Cursor S}
    (hok : ∀ x ∈ cs, x.ok md) (hc : cs[i]? = some c) (hnb : not_behind md c c2)
    (hlt : c.docid < c2.docid) (hperm : cs2.Perm (cs.take i ++ c2 :: cs.drop (i + 1))) :
    advances md cs cs2 := by
  have hsplit := eq_take_cons_drop hc
  have hilt : i < cs.length := by
    by_contra hge
    rw [List.getElem?_eq_none (by omega)] at hc
    exact Option.noConfusion hc
  refine ⟨cs.take i ++ c2 :: cs.drop (i + 1), hperm, ?_, i, c, c2, hc, ?_, hlt⟩
  · conv_lhs => rw [hsplit]
    apply List.rel_append
    · exact List.forall₂_same.2 (fun x hx => not_behind_refl (hok x (List.mem_of_mem_take hx)))
    · exact List.Forall₂.cons hnb
        (List.forall₂_same.2 (fun x hx => not_behind_refl (hok x (List.mem_of_mem_drop hx))))
  · rw [List.getElem?_append_right (by rw [List.length_take]; omega)]
    have : i - (cs.take i).length = 0 := by rw [List.length_take]; omega
    rw [this]
    exact List.getElem?_cons_zero

/-- The scoring loop followed by the full resort: an advance, when the first cursor is on
the pivot docid and the pivot is live. -/
theorem advances_score_front {md : Nat} {cs cs2 : List (Cursor S)} {pid : Nat}
    {c0 : Cursor S} (hok : ∀ x ∈ cs, x.ok md) (hc0 : cs[0]? = some c0) (hpid : c0.docid = pid)
    (hlive : pid < md) (acc : S) (hperm : cs2.Perm (score_front pid cs acc).2) :
    advances md cs cs2 := by
  rw [score_front_eq] at hperm
  have hsplit := List.takeWhile_append_dropWhile (fun c : Cursor S => decide (c.docid = pid)) cs
  refine ⟨_, hperm, ?_, 0, c0, c0.next, hc0, ?_, ?_⟩
  · conv_lhs => rw [← hsplit]
    apply List.rel_append
    · rw [List.forall₂_map_right_iff]
      apply List.forall₂_same.2
      intro x hx
      have hxm : x ∈ cs := by rw [← hsplit]; exact List.mem_append_left _ hx
      exact (not_behind_next (hok x hxm) (by rw [front_docid x hx]; exact hlive)).1
    · apply List.forall₂_same.2
      intro x hx
      have hxm : x ∈ cs := by rw [← hsplit]; exact List.mem_append_right _ hx
      exact not_behind_refl (hok x hxm)
  · cases hcs : cs with
    | nil => rw [hcs] at hc0; exact Option.noConfusion hc0
    | cons a tl =>
      rw [hcs] at hc0
      have ha : a = c0 := by
        rw [List.getElem?_cons_zero] at hc0
        exact Option.some.inj hc0
      subst ha
      rw [List.takeWhile_cons, if_pos (by simpa using hpid)]
      exact List.getElem?_cons_zero
  · exact Cursor.docid_lt_next (hok c0 (List.getElem?_mem hc0)) (by rw [hpid]; exact hlive)

/-- An advance keeps the cursors those of the query and well formed. -/
theorem advances_tracks {md : Nat} {cursors cs cs2 : List (Cursor S)}
    (h : advances md cs cs2) (ht : tracks cursors cs) : tracks cursors cs2 := by
  obtain ⟨cs1, hperm, hall, -⟩ := h
  have hmap : ∀ (l l1 : List (Cursor S)), List.Forall₂ (not_behind md) l l1 →
      l1.map Cursor.home = l.map Cursor.home := by
    intro l l1 hl
    induction hl with
    | nil => rfl
    | cons hab _ ih => rw [List.map_cons, List.map_cons, hab.1, ih]
  have hmap := hmap cs cs1 hall
  unfold tracks
  exact ((hperm.map _).trans (by rw [hmap])).trans ht

/-- Cursors that differ from the cursors `cs` in their block position only advance exactly
when `cs` does. -/
theorem advances_of_same_position {md : Nat} {cs csb cs2 : List (Cursor S)}
    (hsame : List.Forall₂ (fun c cb => cb.home = c.home ∧ cb.m_pos = c.m_pos ∧
      cb.docid = c.docid) cs csb)
    (h : advances md csb cs2) : advances md cs cs2 := by
  obtain ⟨cs1, hperm, hall, i, cb, c1, hcb, hc1, hlt⟩ := h
  have hcomp : ∀ (l lb l1 : List (Cursor S)),
      List.Forall₂ (fun c cb => cb.home = c.home ∧ cb.m_pos = c.m_pos ∧
        cb.docid = c.docid) l lb →
      List.Forall₂ (not_behind md) lb l1 → List.Forall₂ (not_behind md) l l1 := by
    intro l lb l1 h1
    induction h1 generalizing l1 with
    | nil => intro h2; cases h2; exact List.Forall₂.nil
    | cons hab _ ih =>
      intro h2
      cases h2 with
      | cons hbc hrest =>
        refine List.Forall₂.cons ?_ (ih _ hrest)
        obtain ⟨e1, e2, e3⟩ := hab
        obtain ⟨f1, f2, f3, f4⟩ := hbc
        exact ⟨f1.trans e1, by omega, by omega, f4⟩
  refine ⟨cs1, hperm, hcomp cs csb cs1 hsame hall, i, ?_⟩
  have hlen := hsame.length_eq
  have hib : i < csb.length := by
    by_contra hge
    rw [List.getElem?_eq_none (by omega)] at hcb
    exact Option.noConfusion hcb
  have hi : i < cs.length := by omega
  refine ⟨cs[i], c1, List.getElem?_eq_getElem hi, hc1, ?_⟩
  have hrel := List.Forall₂.get hsame hi hib
  have hcbe : csb.get ⟨i, hib⟩ = cb := by
    have := List.getElem?_eq_getElem hib
    rw [hcb] at this
    exact (Option.some.inj this).symm
  rw [hcbe] at hrel
  have : cs[i].docid = cb.docid := hrel.2.2.symm
  rw [this]
  exact hlt

end pisa

namespace pisa

variable {S : Type} [LinearOrderedCommSemiring S]

/-! ## Proofs: an advance consumes a posting -/

theorem left_le_of_not_behind {md : Nat} {c c1 : Cursor S} (h : not_behind md c c1) :
    c1.left ≤ c.left := by
  have hpost : c1.postings = c.postings :=
    show c1.home.postings = c.home.postings from congrArg Cursor.postings h.1
  have := h.2.1
  unfold Cursor.left
  rw [hpost]
  omega

theorem left_lt_of_docid_lt {md : Nat} {c c1 : Cursor S} (h : not_behind md c c1)
    (hlt : c.docid < c1.docid) : c1.left < c.left := by
  have hpost : c1.postings = c.postings :=
    show c1.home.postings = c.home.postings from congrArg Cursor.postings h.1
  have huni : c1.m_universe = c.m_universe :=
    show c1.home.m_universe = c.home.m_universe from congrArg Cursor.m_universe h.1
  have hpos := h.2.1
  unfold Cursor.docid at hlt
  rw [hpost, huni] at hlt
  unfold Cursor.left
  rw [hpost]
  by_cases hlen : c.m_pos < c.postings.length
  · rcases Nat.lt_or_eq_of_le hpos with h1 | h1
    · omega
    · rw [h1] at hlt
      exact absurd hlt (lt_irrefl _)
  · rw [List.getElem?_eq_none (by omega), List.getElem?_eq_none (by omega)] at hlt
    exact absurd hlt (lt_irrefl _)

theorem remaining_le_of_not_behind {md : Nat} (l l1 : List (Cursor S))
    (h : List.Forall₂ (not_behind md) l l1) : remaining l1 ≤ remaining l := by
  induction h with
  | nil => exact le_refl _
  | cons hab _ ih =>
    rw [remaining_cons, remaining_cons]
    have := left_le_of_not_behind hab
    omega

theorem remaining_lt_of_not_behind {md : Nat} (l l1 : List (Cursor S))
    (h : List.Forall₂ (not_behind md) l l1) :
    ∀ (i : Nat) (c c1 : Cursor S), l[i]? = some c → l1[i]? = some c1 → c.docid < c1.docid →
      remaining l1 < remaining l := by
  induction h with
  | nil => intro i c c1 hc; exact Option.noConfusion hc
  | cons hab hrest ih =>
    intro i c c1 hc hc1 hlt
    rw [remaining_cons, remaining_cons]
    cases i with
    | zero =>
      rw [List.getElem?_cons_zero] at hc hc1
      have e1 := Option.some.inj hc
      have e2 := Option.some.inj hc1
      subst e1 e2
      have h1 := left_lt_of_docid_lt hab hlt
      have h2 := remaining_le_of_not_behind _ _ hrest
      omega
    | succ j =>
      rw [List.getElem?_cons_succ] at hc hc1
      have h1 := ih j c c1 hc hc1 hlt
      have h2 := left_le_of_not_behind hab
      omega

/-- An advance leaves fewer postings ahead of the cursors. -/
theorem advances_remaining {md : Nat} {cs cs2 : List (Cursor S)} (h : advances md cs cs2) :
    remaining cs2 < remaining cs := by
  obtain ⟨cs1, hperm, hall, i, c, c1, hc, hc1, hlt⟩ := h
  rw [remaining_perm hperm]
  exact remaining_lt_of_not_behind cs cs1 hall i c c1 hc hc1 hlt

/-! ## Proofs: the three outcomes of one iteration of a WAND loop -/

/-- One iteration of a WAND loop from a state with well-formed, sorted cursors: it exits
with the state unchanged; or the capture statement is undefined; or it goes on to the next
iteration with the cursors sorted again, none moved backward and one on a larger docid. -/
theorem wand_loop_body_cases {md : Nat}
    (capture : driver_state S → S → Nat → Option (driver_state S)) (st : driver_state S)
    (hok : ∀ c ∈ st.ordered_cursors, c.ok md)
    (hs : st.ordered_cursors.Pairwise (fun a b => a.docid ≤ b.docid)) :
    wand_query.loop_body capture md st = loop_step.exit st ∨
    ((∃ s d, capture st s d = none) ∧
      wand_query.loop_body capture md st = loop_step.undefined) ∨
    ∃ st1, wand_query.loop_body capture md st = loop_step.next st1 ∧
      advances md st.ordered_cursors st1.ordered_cursors ∧
      st1.ordered_cursors.Pairwise (fun a b => a.docid ≤ b.docid) := by
  cases hfp : find_pivot st.m_topk md st.ordered_cursors 0 0 with
  | none => exact Or.inl (wand_query.loop_body_exit capture md st hfp)
  | some p =>
    right
    obtain ⟨n, hn, hlen, hlive, _, _⟩ := find_pivot_some st.ordered_cursors 0 0 p hfp
    have hn2 : n = p := by omega
    subst hn2
    have hcp : st.ordered_cursors[n]? = some st.ordered_cursors[n] :=
      List.getElem?_eq_getElem hlen
    have hc0 : st.ordered_cursors[0]? = some st.ordered_cursors[0] :=
      List.getElem?_eq_getElem (by omega)
    generalize st.ordered_cursors[n] = cp at hcp
    generalize st.ordered_cursors[0] = c0 at hc0
    have hcplive : cp.docid < md := hlive cp (mem_take_of_getElem? hcp (by omega))
    by_cases heq : cp.docid = c0.docid
    · cases hcap : capture st (score_front cp.docid st.ordered_cursors 0).1 cp.docid with
      | none =>
        left
        refine ⟨⟨_, _, hcap⟩, ?_⟩
        unfold wand_query.loop_body
        rw [hfp]
        simp only [hcp, hc0]
        rw [if_pos heq, hcap]
      | some st2 =>
        right
        refine ⟨_, wand_query.loop_body_score capture md st st2 n cp c0 hfp hcp hc0 heq hcap,
          ?_, ?_⟩
        · exact advances_score_front hok hc0 heq.symm hcplive 0 (sort_enums_perm _)
        · exact sort_enums_sorted _
    · right
      obtain ⟨cs2, i, c, hal, hip, hc, hcd, hperm, hsorted⟩ :=
        align_spec false st.ordered_cursors n cp c0 hok hs hcp hc0 heq
      have hcok : c.ok md := hok c (List.getElem?_mem hc)
      refine ⟨_, wand_query.loop_body_align capture md st n cp c0 cs2 hfp hcp hc0 heq hal,
        ?_, hsorted⟩
      exact advances_replace hok hc (not_behind_next_geq hcok cp.docid)
        (docid_lt_next_geq hcok (by omega) cp.docid hcd) hperm

end pisa

namespace pisa

variable {S : Type} [LinearOrderedCommSemiring S]

/-! ## Proofs: the three outcomes of one iteration of a block-max WAND loop -/

/-- Cursors that agree up to the block position are the same cursors on the same postings. -/
theorem same_position_of_unblock_eq :
    ∀ (cs cs2 : List (Cursor S)), cs2.map Cursor.unblock = cs.map Cursor.unblock →
      List.Forall₂ (fun c cb => cb.home = c.home ∧ cb.m_pos = c.m_pos ∧ cb.docid = c.docid)
        cs cs2 := by
  intro cs
  induction cs with
  | nil =>
    intro cs2 h
    cases cs2 with
    | nil => exact List.Forall₂.nil
    | cons a l => exact List.noConfusion h
  | cons c cs ih =>
    intro cs2 h
    cases cs2 with
    | nil => exact List.noConfusion h
    | cons a l =>
      rw [List.map_cons, List.map_cons] at h
      have h1 : a.unblock = c.unblock := List.head_eq_of_cons_eq h
      have h2 := List.tail_eq_of_cons_eq h
      refine List.Forall₂.cons ⟨?_, ?_, docid_of_unblock_eq h1⟩ (ih l h2)
      · exact show a.unblock.home = c.unblock.home from congrArg Cursor.home h1
      · exact show a.unblock.m_pos = c.unblock.m_pos from congrArg Cursor.m_pos h1

theorem ok_of_unblock_eq {md : Nat} {cs cs2 : List (Cursor S)}
    (h : cs2.map Cursor.unblock = cs.map Cursor.unblock) (hok : ∀ c ∈ cs, c.ok md) :
    ∀ c ∈ cs2, c.ok md := by
  intro c hc
  obtain ⟨i, hi, hci⟩ := List.getElem_of_mem hc
  obtain ⟨c2, hc2, hu⟩ := getElem?_of_unblock_eq h.symm (List.getElem?_eq_getElem hi)
  rw [hci] at hu
  have h2 : c2.unblock.ok md := hok c2 (List.getElem?_mem hc2)
  rw [hu] at h2
  exact h2

/-- One iteration of a block-max WAND loop from a state with well-formed, sorted cursors: it
exits with the state unchanged; or the capture statement is undefined; or it goes on to the
next iteration with the cursors sorted again, none moved backward and one on a larger
docid. -/
theorem bmw_loop_body_cases {md : Nat}
    (capture : driver_state S → S → Nat → Option (driver_state S)) (st : driver_state S)
    (hok : ∀ c ∈ st.ordered_cursors, c.ok md)
    (hs : st.ordered_cursors.Pairwise (fun a b => a.docid ≤ b.docid)) :
    block_max_wand_query.loop_body capture md st = loop_step.exit st ∨
    ((∃ s d, capture st s d = none) ∧
      block_max_wand_query.loop_body capture md st = loop_step.undefined) ∨
    ∃ st1, block_max_wand_query.loop_body capture md st = loop_step.next st1 ∧
      advances md st.ordered_cursors st1.ordered_cursors ∧
      st1.ordered_cursors.Pairwise (fun a b => a.docid ≤ b.docid) := by
  cases hfp : find_pivot st.m_topk md st.ordered_cursors 0 0 with
  | none =>
    left
    unfold block_max_wand_query.loop_body
    rw [hfp]
  | some p =>
    right
    obtain ⟨n, hn, hlen, hlive, hent, hnot⟩ := find_pivot_some st.ordered_cursors 0 0 p hfp
    have hn2 : n = p := by omega
    subst hn2
    have hcp : st.ordered_cursors[n]? = some st.ordered_cursors[n] :=
      List.getElem?_eq_getElem hlen
    generalize st.ordered_cursors[n] = cp at hcp
    have hcplive : cp.docid < md := hlive cp (mem_take_of_getElem? hcp (by omega))
    obtain ⟨hge0, hpl, htk, hdr, cl, hcl, hcld⟩ := extend_pivot_spec hs hcp
    unfold block_max_wand_query.loop_body
    rw [hfp]
    simp only [hcp, block_bound_loop_eq, zero_add]
    generalize block_max_wand_query.extend_pivot st.ordered_cursors cp.docid n = pivot at *
    have hun := map_advance_unblock cp.docid (pivot + 1) st.ordered_cursors
    generalize hA : (st.ordered_cursors.take (pivot + 1)).map (block_advance cp.docid) = A at *
    generalize hcsb : A ++ st.ordered_cursors.drop (pivot + 1) = csb at *
    have hokb : ∀ c ∈ csb, c.ok md := ok_of_unblock_eq hun hok
    have hsb := sorted_of_unblock_eq hun hs
    have hsame := same_position_of_unblock_eq st.ordered_cursors csb hun
    obtain ⟨clb, hclb, hclbu⟩ := getElem?_of_unblock_eq hun hcl
    have hclbd : clb.docid = cp.docid := by rw [docid_of_unblock_eq hclbu, hcld]
    have hlenb : csb.length = st.ordered_cursors.length := by
      have := congrArg List.length hun
      rwa [List.length_map, List.length_map] at this
    have htkb : ∀ c ∈ csb.take (pivot + 1), c.docid ≤ cp.docid := by
      intro c hc
      obtain ⟨i, hi, hci⟩ := getElem?_of_mem_take hc
      have hi2 : i < st.ordered_cursors.length := by omega
      obtain ⟨c2, hc2, hc2u⟩ := getElem?_of_unblock_eq hun (List.getElem?_eq_getElem hi2)
      rw [hci] at hc2
      simp only [Option.some.injEq] at hc2
      subst hc2
      rw [docid_of_unblock_eq hc2u]
      exact htk _ (mem_take_of_getElem? (List.getElem?_eq_getElem hi2) hi)
    by_cases hwe : st.m_topk.would_enter (sum_block A) = true
    · simp only [if_pos hwe]
      have hc0 : csb[0]? = some csb[0] := List.getElem?_eq_getElem (by omega)
      generalize csb[0] = c0 at hc0
      simp only [hc0]
      by_cases heq : cp.docid = c0.docid
      · simp only [if_pos heq]
        cases hcap : capture st (score_front cp.docid csb 0).1 cp.docid with
        | none => exact Or.inl ⟨⟨_, _, hcap⟩, rfl⟩
        | some st2 =>
          right
          refine ⟨_, rfl, ?_, sort_enums_sorted _⟩
          exact advances_of_same_position hsame
            (advances_score_front hokb hc0 heq.symm hcplive 0 (sort_enums_perm _))
      · simp only [if_neg heq]
        right
        have hne : clb.docid ≠ c0.docid := by rw [hclbd]; exact heq
        obtain ⟨cs2, i, c, hal, hip, hc, hcd, hperm, hsorted⟩ :=
          align_spec true csb pivot clb c0 hokb hsb hclb hc0 hne
        rw [hclbd] at hal hcd hperm
        rw [hal]
        have hcok : c.ok md := hokb c (List.getElem?_mem hc)
        refine ⟨_, rfl, ?_, hsorted⟩
        exact advances_of_same_position hsame
          (advances_replace hokb hc (not_behind_next_geq hcok cp.docid)
            (docid_lt_next_geq hcok (by omega) cp.docid hcd) hperm)
    · simp only [if_neg hwe]
      right
      unfold block_max_wand_query.skip_step
      simp only [hclb]
      have hile : block_max_wand_query.skip_list csb pivot clb.max_score ≤ pivot :=
        skip_list_le _ _ _
      generalize block_max_wand_query.skip_list csb pivot clb.max_score = i at hile ⊢
      obtain ⟨ht1, ht2, ht3⟩ := skip_target_spec csb md pivot cp.docid
      generalize block_max_wand_query.skip_target csb md pivot cp.docid = t at ht1 ht2 ht3 ⊢
      have hc : csb[i]? = some csb[i] := List.getElem?_eq_getElem (by omega)
      generalize csb[i] = c at hc
      obtain ⟨cs2, h1, hperm, h3⟩ :=
        advance_and_bubble_spec false csb i (fun c => c.next_geq t) c hc
      rw [h1]
      have hcm : c ∈ csb := List.getElem?_mem hc
      have hcok := hokb c hcm
      have hcd : c.docid ≤ cp.docid := htkb c (mem_take_of_getElem? hc (by omega))
      have hclive : c.docid < md := by omega
      refine ⟨_, rfl, ?_, h3 hsb (Cursor.docid_le_next_geq hcok t)⟩
      exact advances_of_same_position hsame
        (advances_replace hokb hc (not_behind_next_geq hcok t)
          (docid_lt_next_geq hcok hclive t (by omega)) hperm)

end pisa

namespace pisa

variable {S : Type} [LinearOrderedCommSemiring S]

/-! ## Proofs: the cursors of stage two of `wand_query::method_three` -/

theorem home_perm_advance_and_bubble (b : Bool) (cs cs2 : List (Cursor S)) (i : Nat)
    (f : Cursor S → Cursor S) (hf : ∀ c, (f c).home = c.home)
    (h : advance_and_bubble b cs i f = some cs2) :
    (cs2.map Cursor.home).Perm (cs.map Cursor.home) := by
  cases hc : cs[i]? with
  | none =>
    unfold advance_and_bubble at h
    rw [hc] at h
    exact Option.noConfusion h
  | some c =>
    obtain ⟨cs3, h1, hperm, _⟩ := advance_and_bubble_spec b cs i f c hc
    rw [h] at h1
    have e := Option.some.inj h1
    subst e
    have h2 := hperm.map Cursor.home
    rw [List.map_append, List.map_cons, hf] at h2
    have h3 := congrArg (List.map Cursor.home) (eq_take_cons_drop hc)
    rw [List.map_append, List.map_cons] at h3
    rw [h3]
    exact h2

theorem home_perm_align (b : Bool) (cs cs2 : List (Cursor S)) (p pid : Nat)
    (h : align b cs p pid = some cs2) :
    (cs2.map Cursor.home).Perm (cs.map Cursor.home) := by
  unfold align at h
  cases hw : walk_back cs pid p with
  | none => rw [hw] at h; exact Option.noConfusion h
  | some i =>
    rw [hw] at h
    exact home_perm_advance_and_bubble b cs cs2 i (fun c => c.next_geq pid) (fun _ => rfl) h

theorem home_score_front (pid : Nat) (cs : List (Cursor S)) (acc : S) :
    (score_front pid cs acc).2.map Cursor.home = cs.map Cursor.home := by
  rw [score_front_eq]
  simp only
  rw [List.map_append, List.map_map]
  have : (Cursor.home ∘ Cursor.next : Cursor S → Cursor S) = Cursor.home := by
    funext c; rfl
  rw [this, ← List.map_append, List.takeWhile_append_dropWhile]

/-- One iteration of the stage-two loop that goes on to the next iteration leaves the same
cursors, moved and reordered. -/
theorem wand_stage_two_home {md : Nat} (st st1 : driver_state S)
    (h : wand_query.stage_two_body md st = loop_step.next st1) :
    (st1.ordered_cursors.map Cursor.home).Perm (st.ordered_cursors.map Cursor.home) := by
  unfold wand_query.stage_two_body at h
  cases hfp : find_pivot st.m_secondary md st.ordered_cursors 0 0 with
  | none => rw [hfp] at h; exact loop_step.noConfusion h
  | some p =>
    rw [hfp] at h
    simp only at h
    cases hcp : st.ordered_cursors[p]? with
    | none => rw [hcp] at h; exact loop_step.noConfusion h
    | some cp =>
      rw [hcp] at h
      simp only at h
      cases hc1 : (if bit_test st.scored cp.docid = true then
          advance_and_bubble true st.ordered_cursors p (fun c => c.next)
        else some st.ordered_cursors) with
      | none => rw [hc1] at h; exact loop_step.noConfusion h
      | some cs1 =>
        have hp1 : (cs1.map Cursor.home).Perm (st.ordered_cursors.map Cursor.home) := by
          by_cases hb : bit_test st.scored cp.docid = true
          · rw [if_pos hb] at hc1
            exact home_perm_advance_and_bubble true _ _ p (fun c => c.next) (fun _ => rfl) hc1
          · rw [if_neg hb] at hc1
            rw [← Option.some.inj hc1]
        rw [hc1] at h
        simp only at h
        cases hc0 : cs1[0]? with
        | none => rw [hc0] at h; exact loop_step.noConfusion h
        | some c0 =>
          rw [hc0] at h
          simp only at h
          by_cases heq : cp.docid = c0.docid
          · rw [if_pos heq] at h
            have e := loop_step.next.inj h
            rw [← e]
            simp only
            refine ((sort_enums_perm _).map Cursor.home).trans ?_
            rw [home_score_front]
            exact hp1
          · rw [if_neg heq] at h
            cases hal : align false cs1 p cp.docid with
            | none => rw [hal] at h; exact loop_step.noConfusion h
            | some cs2 =>
              rw [hal] at h
              have e := loop_step.next.inj h
              rw [← e]
              exact (home_perm_align false cs1 cs2 p cp.docid hal).trans hp1

/-- The stage transition leaves the cursors of the query, sorted. -/
theorem wand_stage_transition_cursors {cursors : List (Cursor S)} (s1 s2 : driver_state S)
    (ht : tracks cursors s1.ordered_cursors) (h : wand_query.stage_transition s1 = some s2) :
    s2.ordered_cursors.Pairwise (fun a b => a.docid ≤ b.docid) ∧
      tracks cursors s2.ordered_cursors := by
  unfold wand_query.stage_transition at h
  cases hd : s1.m_cyclic.displaced_id s1.m_secondary.threshold with
  | none => rw [hd] at h; exact Option.noConfusion h
  | some lb =>
    rw [hd] at h
    have e := Option.some.inj h
    rw [← e]
    refine ⟨sort_enums_sorted _, ?_⟩
    unfold tracks
    refine ((sort_enums_perm _).map Cursor.home).trans ?_
    rw [List.map_map]
    have : (Cursor.home ∘ fun en : Cursor S => en.reset.next_geq lb) = Cursor.home := by
      funext c; rfl
    rw [this]
    exact ht

/-- One iteration of a WAND loop that exits leaves the state as it is. -/
theorem wand_loop_body_exit_eq {md : Nat}
    (capture : driver_state S → S → Nat → Option (driver_state S)) (st st1 : driver_state S)
    (hok : ∀ c ∈ st.ordered_cursors, c.ok md)
    (hs : st.ordered_cursors.Pairwise (fun a b => a.docid ≤ b.docid))
    (h : wand_query.loop_body capture md st = loop_step.exit st1) : st1 = st := by
  rcases wand_loop_body_cases capture st hok hs with h1 | ⟨_, h1⟩ | ⟨st2, h1, _⟩
  · rw [h1] at h; exact (loop_step.exit.inj h).symm
  · rw [h1] at h; exact loop_step.noConfusion h
  · rw [h1] at h; exact loop_step.noConfusion h

/-- The cursors at the head of an iteration of a WAND loop started on a well-formed query
are those of the query, sorted; the same holds when the loop has exited. -/
theorem wand_loop_cursors {md : Nat} {cursors : List (Cursor S)}
    (capture : driver_state S → S → Nat → Option (driver_state S))
    (hwf : well_formed md cursors) (a b : driver_state S)
    (ha : a.ordered_cursors.Pairwise (fun x y => x.docid ≤ y.docid) ∧
      tracks cursors a.ordered_cursors)
    (hb : wand_query.loop_body capture md a = loop_step.next b ∨
      wand_query.loop_body capture md a = loop_step.exit b) :
    b.ordered_cursors.Pairwise (fun x y => x.docid ≤ y.docid) ∧
      tracks cursors b.ordered_cursors := by
  have hok := tracks_ok hwf ha.2
  rcases hb with hb | hb
  · rcases wand_loop_body_cases capture a hok ha.1 with h1 | ⟨_, h1⟩ | ⟨st2, h1, hadv, hsort⟩
    · rw [h1] at hb; exact loop_step.noConfusion hb
    · rw [h1] at hb; exact loop_step.noConfusion hb
    · rw [h1] at hb
      have e := loop_step.next.inj hb
      subst e
      exact ⟨hsort, advances_tracks hadv ha.2⟩
  · rw [wand_loop_body_exit_eq capture a b hok ha.1 hb]
    exact ha

end pisa

namespace pisa

variable {S : Type} [LinearOrderedCommSemiring S]

/-! ## Proofs: the baseline loops advance until they exit -/

theorem capture_baseline_defined (st : driver_state S) :
    ¬ ∃ s d, capture_baseline st s d = none := by
  rintro ⟨s, d, h⟩
  exact Option.noConfusion h

/-- The cursors at the head of an iteration of a block-max WAND loop started on a well-formed
query are those of the query, sorted. -/
theorem bmw_loop_cursors {md : Nat} {cursors : List (Cursor S)}
    (capture : driver_state S → S → Nat → Option (driver_state S))
    (hwf : well_formed md cursors) (a b : driver_state S)
    (ha : a.ordered_cursors.Pairwise (fun x y => x.docid ≤ y.docid) ∧
      tracks cursors a.ordered_cursors)
    (hb : block_max_wand_query.loop_body capture md a = loop_step.next b) :
    b.ordered_cursors.Pairwise (fun x y => x.docid ≤ y.docid) ∧
      tracks cursors b.ordered_cursors := by
  have hok := tracks_ok hwf ha.2
  rcases bmw_loop_body_cases capture a hok ha.1 with h1 | ⟨_, h1⟩ | ⟨st2, h1, hadv, hsort⟩
  · rw [h1] at hb; exact loop_step.noConfusion hb
  · rw [h1] at hb; exact loop_step.noConfusion hb
  · rw [h1] at hb
    have e := loop_step.next.inj hb
    subst e
    exact ⟨hsort, advances_tracks hadv ha.2⟩

theorem start_cursors (cursors : List (Cursor S)) :
    (sort_enums cursors).Pairwise (fun x y => x.docid ≤ y.docid) ∧
      tracks cursors (sort_enums cursors) :=
  ⟨sort_enums_sorted cursors, tracks_perm (tracks_self cursors) (sort_enums_perm cursors)⟩

/-- One iteration of the baseline WAND loop on the cursors of a well-formed query, sorted:
it exits, or it goes on with the cursors of the query, sorted, and fewer postings ahead. -/
theorem wand_baseline_step_ok {md : Nat} {cursors : List (Cursor S)}
    (hwf : well_formed md cursors) (s : driver_state S)
    (hinv : s.ordered_cursors.Pairwise (fun x y => x.docid ≤ y.docid) ∧
      tracks cursors s.ordered_cursors) :
    step_ok (fun s : driver_state S =>
        s.ordered_cursors.Pairwise (fun x y => x.docid ≤ y.docid) ∧
          tracks cursors s.ordered_cursors)
      (fun _ => True) (fun s => remaining s.ordered_cursors) s
      (wand_query.loop_body capture_baseline md s) := by
  have hok := tracks_ok hwf hinv.2
  rcases wand_loop_body_cases capture_baseline s hok hinv.1 with
    h1 | ⟨h0, _⟩ | ⟨st2, h1, hadv, hsort⟩
  · rw [h1]; exact trivial
  · exact absurd h0 (capture_baseline_defined s)
  · rw [h1]
    exact ⟨⟨hsort, advances_tracks hadv hinv.2⟩, advances_remaining hadv⟩

/-- One iteration of the baseline block-max WAND loop on the cursors of a well-formed query,
sorted: it exits, or it goes on with the cursors of the query, sorted, and fewer postings
ahead. -/
theorem bmw_baseline_step_ok {md : Nat} {cursors : List (Cursor S)}
    (hwf : well_formed md cursors) (s : driver_state S)
    (hinv : s.ordered_cursors.Pairwise (fun x y => x.docid ≤ y.docid) ∧
      tracks cursors s.ordered_cursors) :
    step_ok (fun s : driver_state S =>
        s.ordered_cursors.Pairwise (fun x y => x.docid ≤ y.docid) ∧
          tracks cursors s.ordered_cursors)
      (fun _ => True) (fun s => remaining s.ordered_cursors) s
      (block_max_wand_query.loop_body capture_baseline md s) := by
  have hok := tracks_ok hwf hinv.2
  rcases bmw_loop_body_cases capture_baseline s hok hinv.1 with
    h1 | ⟨h0, _⟩ | ⟨st2, h1, hadv, hsort⟩
  · rw [h1]; exact trivial
  · exact absurd h0 (capture_baseline_defined s)
  · rw [h1]
    exact ⟨⟨hsort, advances_tracks hadv hinv.2⟩, advances_remaining hadv⟩

theorem start_remaining (cursors : List (Cursor S)) :
    remaining (sort_enums cursors) < loop_fuel cursors := by
  rw [remaining_perm (sort_enums_perm cursors)]
  exact remaining_le_fuel cursors

/-- The cursor the skip step advances is on a docid that is at most `pivot_id`, and the
target of the skip step is larger than `pivot_id`. -/
theorem skip_step_forward (cs : List (Cursor S)) (md pivot pid : Nat) (cp : Cursor S)
    (hcp : cs[pivot]? = some cp) (htk : ∀ c ∈ cs.take (pivot + 1), c.docid ≤ pid) :
    ∃ c, cs[block_max_wand_query.skip_list cs pivot cp.max_score]? = some c ∧
      c.docid ≤ pid ∧ pid < block_max_wand_query.skip_target cs md pivot pid := by
  have hile := skip_list_le cs pivot cp.max_score
  have hp : pivot < cs.length := by
    by_contra hge
    rw [List.getElem?_eq_none (by omega)] at hcp
    exact Option.noConfusion hcp
  have hc := List.getElem?_eq_getElem
    (show block_max_wand_query.skip_list cs pivot cp.max_score < cs.length by omega)
  exact ⟨_, hc, htk _ (mem_take_of_getElem? hc (by omega)),
    (skip_target_spec cs md pivot pid).1⟩

/-! ## Concrete inputs -/

theorem scenario_lists_well_formed : well_formed 6 scenario_lists := by
  intro c hc
  simp only [scenario_lists, List.mem_cons, List.mem_singleton, List.not_mem_nil,
    or_false] at hc
  rcases hc with rfl | rfl
  · refine ⟨rfl, rfl, by decide, ?_⟩
    intro p hp
    simp only [max_scored_cursor, List.mem_cons, List.mem_singleton, List.not_mem_nil,
      or_false] at hp
    rcases hp with rfl | rfl | rfl <;> decide
  · refine ⟨rfl, rfl, by decide, ?_⟩
    intro p hp
    simp only [max_scored_cursor, List.mem_cons, List.mem_singleton, List.not_mem_nil,
      or_false] at hp
    rcases hp with rfl | rfl | rfl <;> decide

end pisa

namespace pisa

variable {S : Type} [LinearOrderedCommSemiring S]

/-! ## Proofs: the candidates of a WAND loop and what the capture statements do with them -/

/-- An iteration of a WAND loop that goes on either scores no document and leaves the queues
and the bitset alone, or hands its candidate to the capture statement, whose queues and
bitset are those of the next state. -/
theorem wand_loop_body_next_candidate
    (capture : driver_state S → S → Nat → Option (driver_state S)) (md : Nat)
    (s s2 : driver_state S) (h : wand_query.loop_body capture md s = loop_step.next s2) :
    (wand_query.candidate md s = none ∧ s2.m_topk = s.m_topk ∧
      s2.m_secondary = s.m_secondary ∧ s2.m_cyclic = s.m_cyclic ∧ s2.scored = s.scored) ∨
    ∃ sc d st1, wand_query.candidate md s = some (sc, d) ∧ capture s sc d = some st1 ∧
      s2.m_topk = st1.m_topk ∧ s2.m_secondary = st1.m_secondary ∧
      s2.m_cyclic = st1.m_cyclic ∧ s2.scored = st1.scored := by
  unfold wand_query.loop_body at h
  unfold wand_query.candidate
  cases hfp : find_pivot s.m_topk md s.ordered_cursors 0 0 with
  | none => rw [hfp] at h; exact loop_step.noConfusion h
  | some p =>
    rw [hfp] at h
    simp only at h ⊢
    cases hcp : s.ordered_cursors[p]? with
    | none => rw [hcp] at h; exact loop_step.noConfusion h
    | some cp =>
      cases hc0 : s.ordered_cursors[0]? with
      | none => rw [hcp, hc0] at h; exact loop_step.noConfusion h
      | some c0 =>
        rw [hcp, hc0] at h
        simp only at h ⊢
        by_cases heq : cp.docid = c0.docid
        · rw [if_pos heq] at h ⊢
          right
          cases hcap : capture s (score_front cp.docid s.ordered_cursors 0).1 cp.docid with
          | none => rw [hcap] at h; exact loop_step.noConfusion h
          | some st1 =>
            rw [hcap] at h
            have e := loop_step.next.inj h
            rw [← e]
            exact ⟨_, _, st1, rfl, hcap, rfl, rfl, rfl, rfl⟩
        · rw [if_neg heq] at h ⊢
          left
          cases hal : align false s.ordered_cursors p cp.docid with
          | none => rw [hal] at h; exact loop_step.noConfusion h
          | some cs =>
            rw [hal] at h
            have e := loop_step.next.inj h
            rw [← e]
            exact ⟨rfl, rfl, rfl, rfl, rfl⟩

/-- An iteration of a WAND loop that exits leaves the state as it is. -/
theorem wand_loop_body_exit_state
    (capture : driver_state S → S → Nat → Option (driver_state S)) (md : Nat)
    (s s2 : driver_state S) (h : wand_query.loop_body capture md s = loop_step.exit s2) :
    s2 = s := by
  unfold wand_query.loop_body at h
  cases hfp : find_pivot s.m_topk md s.ordered_cursors 0 0 with
  | none => rw [hfp] at h; exact (loop_step.exit.inj h).symm
  | some p =>
    rw [hfp] at h
    simp only at h
    cases hcp : s.ordered_cursors[p]? with
    | none => rw [hcp] at h; exact loop_step.noConfusion h
    | some cp =>
      cases hc0 : s.ordered_cursors[0]? with
      | none => rw [hcp, hc0] at h; exact loop_step.noConfusion h
      | some c0 =>
        rw [hcp, hc0] at h
        simp only at h
        by_cases heq : cp.docid = c0.docid
        · rw [if_pos heq] at h
          cases hcap : capture s (score_front cp.docid s.ordered_cursors 0).1 cp.docid with
          | none => rw [hcap] at h; exact loop_step.noConfusion h
          | some st1 => rw [hcap] at h; exact loop_step.noConfusion h
        · rw [if_neg heq] at h
          cases hal : align false s.ordered_cursors p cp.docid with
          | none => rw [hal] at h; exact loop_step.noConfusion h
          | some cs => rw [hal] at h; exact loop_step.noConfusion h

theorem candidates_exit {σ α : Type} (body : σ → loop_step σ) (candidate : σ → Option α)
    (n : Nat) (s s2 : σ) (h : body s = loop_step.exit s2) :
    candidates body candidate (n + 1) s = [] := by
  unfold candidates
  rw [h]

theorem candidates_next {σ α : Type} (body : σ → loop_step σ) (candidate : σ → Option α)
    (n : Nat) (s s2 : σ) (h : body s = loop_step.next s2) :
    candidates body candidate (n + 1) s =
      (candidate s).toList ++ candidates body candidate n s2 := by
  conv_lhs => unfold candidates
  rw [h]

theorem cyclic_queue.insert_all_concat (q : cyclic_queue S) (l1 l2 : List (S × Nat)) :
    q.insert_all (l1 ++ l2) = (q.insert_all l1).bind (fun q1 => q1.insert_all l2) := by
  induction l1 generalizing q with
  | nil => rfl
  | cons e l1 ih =>
    simp only [List.cons_append, cyclic_queue.insert_all]
    cases h : q.insert e.1 e.2 with
    | none => rfl
    | some q1 => simp only [Option.some_bind]; exact ih q1

theorem topk_queue.insert_of_would_enter (q : topk_queue S) (s : S) (d : Nat)
    (h : q.would_enter s = true) : (q.insert s d).2 = q.push s d := by
  unfold topk_queue.insert
  rw [h]
  rfl

/-- The capture statement of Method 1: the primary heap is offered the candidate, and the
cyclic queue receives the sentinel while the heap is filling, the evicted root when the heap
is full, and nothing when the heap rejects the candidate. -/
theorem capture_method_one_entries (st st1 : driver_state S) (s : S) (d : Nat)
    (h : capture_method_one st s d = some st1) :
    st1.m_topk = (st.m_topk.insert s d).2 ∧ st1.m_secondary = st.m_secondary ∧
    st.m_cyclic.insert_all
      (if st.m_topk.would_enter s then
        (if st.m_topk.m_q.length < st.m_topk.m_k then [(0, 0)]
         else st.m_topk.m_q.head?.toList)
       else []) = some st1.m_cyclic := by
  unfold capture_method_one at h
  cases hw : st.m_topk.would_enter s with
  | false =>
    rw [topk_queue.insert_with_eviction_reject _ s d hw] at h
    simp only at h
    have e := Option.some.inj h
    rw [← e, topk_queue.insert_of_not_would_enter _ s d hw]
    exact ⟨rfl, rfl, rfl⟩
  | true =>
    rw [topk_queue.insert_of_would_enter _ s d hw]
    simp only [if_true]
    by_cases hlt : st.m_topk.m_q.length < st.m_topk.m_k
    · rw [(topk_queue.insert_with_eviction_room _ s d hw hlt).1] at h
      simp only at h
      rw [if_pos hlt]
      cases hc : st.m_cyclic.insert 0 0 with
      | none => rw [hc] at h; exact Option.noConfusion h
      | some cyc =>
        rw [hc] at h
        have e := Option.some.inj h
        rw [← e]
        refine ⟨rfl, rfl, ?_⟩
        simp only [cyclic_queue.insert_all, hc, Option.some_bind]
    · obtain ⟨e0, tl, hq, hiw, _⟩ := topk_queue.insert_with_eviction_full _ s d hw hlt
      rw [hiw] at h
      simp only at h
      rw [if_neg hlt, hq]
      cases hc : st.m_cyclic.insert e0.1 e0.2 with
      | none => rw [hc] at h; exact Option.noConfusion h
      | some cyc =>
        rw [hc] at h
        have e := Option.some.inj h
        rw [← e]
        refine ⟨rfl, rfl, ?_⟩
        simp only [List.head?_cons, Option.toList, cyclic_queue.insert_all, hc,
          Option.some_bind]

/-- The capture statement of Method 2: the primary heap is offered the candidate, and the
secondary heap is offered the sentinel while the primary heap is filling, the evicted root
when it is full, and the candidate itself when the primary heap rejects it. -/
theorem capture_method_two_offers (st st1 : driver_state S) (s : S) (d : Nat)
    (h : capture_method_two st s d = some st1) :
    st1.m_topk = (st.m_topk.insert s d).2 ∧ st1.m_cyclic = st.m_cyclic ∧
    st1.m_secondary = offer_all st.m_secondary
      (if st.m_topk.would_enter s then
        (if st.m_topk.m_q.length < st.m_topk.m_k then [(0, 0)]
         else st.m_topk.m_q.head?.toList)
       else [(s, d)]) := by
  unfold capture_method_two at h
  cases hw : st.m_topk.would_enter s with
  | false =>
    rw [topk_queue.insert_with_eviction_reject _ s d hw] at h
    simp only at h
    have e := Option.some.inj h
    rw [← e, topk_queue.insert_of_not_would_enter _ s d hw]
    exact ⟨rfl, rfl, rfl⟩
  | true =>
    rw [topk_queue.insert_of_would_enter _ s d hw]
    simp only [if_true]
    by_cases hlt : st.m_topk.m_q.length < st.m_topk.m_k
    · rw [(topk_queue.insert_with_eviction_room _ s d hw hlt).1] at h
      simp only at h
      rw [if_pos hlt]
      have e := Option.some.inj h
      rw [← e]
      exact ⟨rfl, rfl, rfl⟩
    · obtain ⟨e0, tl, hq, hiw, _⟩ := topk_queue.insert_with_eviction_full _ s d hw hlt
      rw [hiw] at h
      simp only at h
      rw [if_neg hlt, hq]
      have e := Option.some.inj h
      rw [← e]
      exact ⟨rfl, rfl, rfl⟩

end pisa

namespace pisa

variable {S : Type} [LinearOrderedCommSemiring S]

/-! ## Proofs: the streams of Methods 1 and 2 along a run -/

theorem offer_all_concat (h : topk_queue S) (l1 l2 : List (S × Nat)) :
    offer_all h (l1 ++ l2) = offer_all (offer_all h l1) l2 := by
  induction l1 generalizing h with
  | nil => rfl
  | cons e l1 ih =>
    obtain ⟨s, d⟩ := e
    simp only [List.cons_append, offer_all]
    exact ih _

theorem offer_all_m_k (h : topk_queue S) (l : List (S × Nat)) :
    (offer_all h l).m_k = h.m_k := by
  induction l generalizing h with
  | nil => rfl
  | cons e l ih =>
    obtain ⟨s, d⟩ := e
    simp only [offer_all]
    rw [ih, topk_queue.insert_m_k]

/-- The run of the loop of Method 1: the primary heap has been offered the scored documents
in order, and the cyclic queue has received the entries of the specification in order. -/
theorem method_one_trace (md : Nat) :
    ∀ (n : Nat) (s s1 : driver_state S),
      run_loop (wand_query.loop_body capture_method_one md) n s = some s1 →
      s1.m_topk = offer_all s.m_topk
        (candidates (wand_query.loop_body capture_method_one md) (wand_query.candidate md)
          n s) ∧
      s.m_cyclic.insert_all (cyclic_entries s.m_topk
        (candidates (wand_query.loop_body capture_method_one md) (wand_query.candidate md)
          n s)) = some s1.m_cyclic := by
  intro n
  induction n with
  | zero => intro s s1 h; exact Option.noConfusion h
  | succ n ih =>
    intro s s1 h
    unfold run_loop at h
    cases hb : wand_query.loop_body capture_method_one md s with
    | exit s2 =>
      rw [hb] at h
      have e : s2 = s1 := Option.some.inj h
      have e2 := wand_loop_body_exit_state capture_method_one md s s2 hb
      rw [candidates_exit _ _ n s s2 hb, ← e, e2]
      exact ⟨rfl, rfl⟩
    | undefined => rw [hb] at h; exact Option.noConfusion h
    | next s2 =>
      rw [hb] at h
      obtain ⟨ih1, ih2⟩ := ih s2 s1 h
      rw [candidates_next _ _ n s s2 hb]
      rcases wand_loop_body_next_candidate capture_method_one md s s2 hb with
        ⟨hc, h1, _, h3, _⟩ | ⟨sc, d, st1, hc, hcap, h1, _, h3, _⟩
      · rw [hc, show (none : Option (S × Nat)).toList = [] from rfl, List.nil_append]
        rw [← h1, ← h3]
        exact ⟨ih1, ih2⟩
      · obtain ⟨g1, _, g3⟩ := capture_method_one_entries s st1 sc d hcap
        rw [hc, show (some (sc, d) : Option (S × Nat)).toList = [(sc, d)] from rfl,
          List.singleton_append]
        simp only [offer_all, cyclic_entries]
        rw [cyclic_queue.insert_all_concat, g3, Option.some_bind, ← g1, ← h1, ← h3]
        exact ⟨ih1, ih2⟩

/-- The run of the loop of Method 2: the primary heap has been offered the scored documents
in order, and the secondary heap the stream of the specification in order. -/
theorem method_two_trace (md : Nat) :
    ∀ (n : Nat) (s s1 : driver_state S),
      run_loop (wand_query.loop_body capture_method_two md) n s = some s1 →
      s1.m_topk = offer_all s.m_topk
        (candidates (wand_query.loop_body capture_method_two md) (wand_query.candidate md)
          n s) ∧
      s1.m_secondary = offer_all s.m_secondary (secondary_offers s.m_topk
        (candidates (wand_query.loop_body capture_method_two md) (wand_query.candidate md)
          n s)) := by
  intro n
  induction n with
  | zero => intro s s1 h; exact Option.noConfusion h
  | succ n ih =>
    intro s s1 h
    unfold run_loop at h
    cases hb : wand_query.loop_body capture_method_two md s with
    | exit s2 =>
      rw [hb] at h
      have e : s2 = s1 := Option.some.inj h
      have e2 := wand_loop_body_exit_state capture_method_two md s s2 hb
      rw [candidates_exit _ _ n s s2 hb, ← e, e2]
      exact ⟨rfl, rfl⟩
    | undefined => rw [hb] at h; exact Option.noConfusion h
    | next s2 =>
      rw [hb] at h
      obtain ⟨ih1, ih2⟩ := ih s2 s1 h
      rw [candidates_next _ _ n s s2 hb]
      rcases wand_loop_body_next_candidate capture_method_two md s s2 hb with
        ⟨hc, h1, h2, _, _⟩ | ⟨sc, d, st1, hc, hcap, h1, h2, _, _⟩
      · rw [hc, show (none : Option (S × Nat)).toList = [] from rfl, List.nil_append]
        rw [← h1, ← h2]
        exact ⟨ih1, ih2⟩
      · obtain ⟨g1, _, g2⟩ := capture_method_two_offers s st1 sc d hcap
        rw [hc, show (some (sc, d) : Option (S × Nat)).toList = [(sc, d)] from rfl,
          List.singleton_append]
        simp only [offer_all, secondary_offers]
        rw [offer_all_concat, ← g2, ← g1, ← h1, ← h2]
        exact ⟨ih1, ih2⟩

/-- One offer to the primary heap: what goes to the secondary heap, together with the new
content of the primary heap, is the candidate, the old content, and a sentinel when the heap
was filling. -/
theorem secondary_offers_step (h : topk_queue S) (s : S) (d : Nat) :
    ((if h.would_enter s then
        (if h.m_q.length < h.m_k then [((0 : S), 0)] else h.m_q.head?.toList)
      else [(s, d)]) ++ (h.insert s d).2.m_q).Perm
      ((s, d) :: h.m_q ++ List.replicate
        (if h.would_enter s then (if h.m_q.length < h.m_k then 1 else 0) else 0)
        ((0 : S), 0)) := by
  cases hw : h.would_enter s with
  | false =>
    rw [topk_queue.insert_of_not_would_enter _ s d hw]
    simp
  | true =>
    rw [topk_queue.insert_of_would_enter _ s d hw]
    simp only [if_true]
    unfold topk_queue.push
    by_cases hlt : h.m_q.length < h.m_k
    · simp only [if_pos hlt, List.replicate_one]
      have hp := List.perm_orderedInsert (fun a b : S × Nat => a.1 ≤ b.1) (s, d) h.m_q
      rw [List.perm_iff_count] at hp ⊢
      intro a
      have hpa := hp a
      simp only [List.count_append, List.count_cons, List.count_nil] at hpa ⊢
      omega
    · obtain ⟨e0, tl, hq, _⟩ := topk_queue.insert_with_eviction_full h s d hw hlt
      simp only [if_neg hlt]
      simp only [hq, List.head?_cons, Option.toList, List.tail_cons,
        List.replicate_zero, List.append_nil]
      have hp := List.perm_orderedInsert (fun a b : S × Nat => a.1 ≤ b.1) (s, d) tl
      rw [List.perm_iff_count] at hp ⊢
      intro a
      have hpa := hp a
      simp only [List.count_append, List.count_cons, List.count_nil] at hpa ⊢
      omega

/-- The stream offered to the secondary heap, together with the final content of the primary
heap, is the candidates, the initial content of the primary heap, and one sentinel for each
insertion made while the primary heap was filling. -/
theorem secondary_offers_perm (cands : List (S × Nat)) :
    ∀ (h : topk_queue S),
      (secondary_offers h cands ++ (offer_all h cands).m_q).Perm
        (cands ++ h.m_q ++ List.replicate (filling_insertions h cands) ((0 : S), 0)) := by
  induction cands with
  | nil => intro h; simp [secondary_offers, offer_all, filling_insertions]
  | cons e rest ih =>
    intro h
    obtain ⟨s, d⟩ := e
    have h1 := ih (h.insert s d).2
    have h2 := secondary_offers_step h s d
    simp only [secondary_offers, offer_all, filling_insertions]
    generalize (if h.would_enter s = true then
      (if h.m_q.length < h.m_k then [((0 : S), 0)] else h.m_q.head?.toList)
      else [(s, d)]) = step at h2 ⊢
    generalize (if h.would_enter s = true then
      (if h.m_q.length < h.m_k then 1 else 0) else 0) = δ at h2 ⊢
    rw [List.replicate_add]
    rw [List.perm_iff_count] at h1 h2 ⊢
    intro a
    have h1a := h1 a
    have h2a := h2 a
    simp only [List.count_append, List.count_cons, List.cons_append] at h1a h2a ⊢
    omega

/-- The content of a heap after an offer is among the offered entry and the old content. -/
theorem insert_subperm (h : topk_queue S) (s : S) (d : Nat) :
    (h.insert s d).2.m_q.Subperm ((s, d) :: h.m_q) := by
  cases hw : h.would_enter s with
  | false =>
    rw [topk_queue.insert_of_not_would_enter _ s d hw]
    exact (List.sublist_cons_self _ _).subperm
  | true =>
    rw [topk_queue.insert_of_would_enter _ s d hw]
    unfold topk_queue.push
    by_cases hlt : h.m_q.length < h.m_k
    · rw [if_pos hlt]
      exact (List.perm_orderedInsert (fun a b : S × Nat => a.1 ≤ b.1) (s, d) h.m_q).subperm
    · rw [if_neg hlt]
      exact (List.perm_orderedInsert (fun a b : S × Nat => a.1 ≤ b.1) (s, d)
        h.m_q.tail).subperm.trans
          ((List.Sublist.cons₂ _ (List.tail_sublist h.m_q)).subperm)

/-- The content of a heap after a stream of offers is among the stream and the old
content. -/
theorem offer_all_subperm (l : List (S × Nat)) :
    ∀ (h : topk_queue S), (offer_all h l).m_q.Subperm (l ++ h.m_q) := by
  induction l with
  | nil => intro h; exact List.Subperm.refl _
  | cons e rest ih =>
    intro h
    obtain ⟨s, d⟩ := e
    simp only [offer_all]
    refine (ih (h.insert s d).2).trans ?_
    refine ((List.subperm_append_left rest).2 (insert_subperm h s d)).trans ?_
    exact List.perm_middle.subperm

/-- On the empty query the loop exits at once. -/
theorem wand_run_empty (capture : driver_state S → S → Nat → Option (driver_state S))
    (md : Nat) (w : wand_query S) (scored : List Bool) :
    run_loop (wand_query.loop_body capture md) (loop_fuel ([] : List (Cursor S)))
      (wand_query.start w [] scored) = some (wand_query.start w [] scored) := rfl

end pisa

namespace pisa

variable {S : Type} [LinearOrderedCommSemiring S]

/-! ## Proofs: the capture of Method 3 in the WAND loop -/

/-- The update of the state by the capture of Method 3 in a scoring step of a WAND loop, for
the entry `(x, xd)` offered to the secondary heap and the new cyclic queue `C`. -/
theorem capture_inv_update_at {md k2 : Nat} {cursors : List (Cursor S)} {O Z L : List S}
    {st : driver_state S} {pid : Nat} {s : S} {cs2 : List (Cursor S)}
    (hH1 : heap_inv st.m_topk L) (hc : capture_inv md k2 cursors O Z st)
    (hs : scored_at md cursors st.ordered_cursors st.scored pid s cs2)
    (x : S) (xd : Nat) (zs : List S) (C : cyclic_queue S)
    (hperm : ((st.m_topk.insert s pid).2.m_q.map Prod.fst ++ [x]).Perm
      (s :: st.m_topk.m_q.map Prod.fst ++ zs))
    (hzs : ∀ z ∈ zs, z = 0) (hx : 0 ≤ x) (hne : st.m_secondary.m_q ≠ [] ∨ x = 0)
    (hCv : C.valid) (hCk : C.m_k = k2)
    (hCsub : (positive (C.m_data.map Prod.fst)).Subperm
      (x :: positive (st.m_cyclic.m_data.map Prod.fst)))
    (hCmem : ∀ e ∈ C.m_data, e ∈ st.m_cyclic.m_data ∨
      ∀ d, d < e.2 → bit_test st.scored d = false → exhaustive_score cursors d ≤ e.1) :
    capture_inv md k2 cursors (x :: O) (zs ++ Z)
      { ordered_cursors := cs2, m_topk := (st.m_topk.insert s pid).2,
        m_secondary := (st.m_secondary.insert x xd).2, m_cyclic := C,
        scored := bit_set st.scored pid } := by
  obtain ⟨hsx, hpidD, hlive, hunseen, hbit, hge, hbeyond, hmono, hseen⟩ := hs
  have hlen : pid < st.scored.length := by rw [hc.bits_len]; exact hlive
  have hbits := fun d => bit_test_bit_set st.scored pid d hlen
  have hk2 : 0 < k2 := by
    have := hc.cyc_valid.2
    rw [hc.cyc_k] at this
    omega
  have hfill := topk_queue.fill_insert st.m_secondary k2 x xd hc.sec_k hk2 hx
    (fun h => (hc.fill h).1) hne
  have hold : ∀ d, bit_test (bit_set st.scored pid) d = false → bit_test st.scored d = false ∧
      d ≠ pid := by
    intro d hd
    constructor
    · cases h : bit_test st.scored d with
      | false => rfl
      | true =>
        rw [(hbits d).2 (Or.inl h)] at hd
        exact absurd hd (by decide)
    · intro h
      rw [(hbits d).2 (Or.inr h)] at hd
      exact absurd hd (by decide)
  exact
    { bits_len := by rw [bit_set_length]; exact hc.bits_len
      beyond := by
        intro d hd c2 hc2
        rcases (hbits d).1 hd with h | h
        · obtain ⟨c, hcm, hle⟩ := hmono c2 hc2
          exact lt_of_lt_of_le (hc.beyond d h c hcm) hle
        · rw [h]
          exact hbeyond c2 hc2
      skipped := by
        intro d hsd hbd
        obtain ⟨hb1, hne1⟩ := hold d hbd
        rcases (hseen d).1 hsd with h | h
        · exact topk_queue.would_enter_insert s pid _ hH1 (hc.skipped d h hb1)
        · exact absurd h hne1
      sec_k := by
        show (st.m_secondary.insert x xd).2.m_k = k2
        rw [topk_queue.insert_m_k]
        exact hc.sec_k
      cyc_valid := hCv
      cyc_k := hCk
      sec_heap := topk_queue.heap_insert x xd hc.sec_heap
      acct := by
        show (scored_scores cursors (bit_set st.scored pid) ++ (zs ++ Z)).Perm
          ((st.m_topk.insert s pid).2.m_q.map Prod.fst ++ x :: O)
        have h1 := scored_scores_set hpidD hbit hlen
        rw [← hsx] at h1
        have h2 := hc.acct
        rw [List.perm_iff_count] at h1 h2 hperm ⊢
        intro a
        have e1 := h1 a
        have e2 := h2 a
        have e3 := hperm a
        simp only [List.count_append, List.count_cons, List.count_nil] at e1 e2 e3 ⊢
        omega
      zeros := by
        intro z hz
        rcases List.mem_append.1 hz with h | h
        · exact hzs z h
        · exact hc.zeros z h
      offered := by
        intro y hy
        rcases List.mem_cons.1 hy with h | h
        · rw [h]; exact hx
        · exact hc.offered y h
      cyc_sub := hCsub.trans ((List.subperm_cons x).2 hc.cyc_sub)
      cyc := by
        intro e he d hd hbd
        obtain ⟨hb1, _⟩ := hold d hbd
        rcases hCmem e he with h | h
        · exact hc.cyc e h d hd hb1
        · exact h d hd hb1
      fill := fun h => ⟨hfill.1 h, fun _ => hfill.2⟩ }

/-- The capture of Method 3 in a scoring step of a WAND loop is defined and preserves the
invariant of the bitset, the secondary heap and the cyclic queue. -/
theorem capture_inv_score_at {md k k2 : Nat} {cursors : List (Cursor S)} {O Z L : List S}
    {st : driver_state S} {pid : Nat} {s : S} {cs2 : List (Cursor S)}
    (hwf : well_formed md cursors) (hk : 0 < k) (ht : tracks cursors st.ordered_cursors)
    (hH1 : heap_inv st.m_topk L) (hL : ∀ x ∈ L, 0 ≤ x) (hH1k : st.m_topk.m_k = k)
    (hc : capture_inv md k2 cursors O Z st)
    (hs : scored_at md cursors st.ordered_cursors st.scored pid s cs2) :
    ∃ st1 O1 Z1, capture_method_three st s pid = some st1 ∧
      st1.m_topk = (st.m_topk.insert s pid).2 ∧ st1.scored = bit_set st.scored pid ∧
      capture_inv md k2 cursors O1 Z1 { st1 with ordered_cursors := cs2 } := by
  have hs0 := hs
  obtain ⟨hsx, hpidD, hlive, hunseen, hbit, hge, hbeyond, hmono, hseen⟩ := hs0
  have hk2 : 0 < k2 := by
    have := hc.cyc_valid.2
    rw [hc.cyc_k] at this
    omega
  have hsnn : 0 ≤ s := by rw [hsx]; exact exhaustive_score_nonneg hwf pid
  have hH2ne : st.m_topk.m_q ≠ [] → st.m_secondary.m_q ≠ [] := by
    intro h1
    by_cases hlt : st.m_secondary.m_q.length < k2
    · exact (hc.fill hlt).2 h1
    · intro hnil
      rw [hnil] at hlt
      simp only [List.length_nil] at hlt
      omega
  have hbelow := fun d hd hb =>
    @below_cursors_dead S _ md cursors st.ordered_cursors st.m_topk st.scored hwf ht hc.skipped
      pid hge d hd hb
  cases hwe : st.m_topk.would_enter s with
  | false =>
    have hins : (st.m_topk.insert s pid).2 = st.m_topk :=
      topk_queue.insert_of_not_would_enter _ _ _ hwe
    have hfullq : st.m_topk.m_q ≠ [] := by
      rw [topk_queue.would_enter_eq_false] at hwe
      rcases hwe with h | h
      · omega
      · intro hnil
        rw [hnil] at h
        simp only [List.length_nil] at h
        omega
    have hupd := capture_inv_update_at hH1 hc hs s pid [] st.m_cyclic
      (by rw [hins, List.append_nil]; exact List.perm_append_singleton _ _)
      (fun z hz => absurd hz (List.not_mem_nil _)) hsnn (Or.inl (hH2ne hfullq))
      hc.cyc_valid hc.cyc_k (List.Sublist.subperm (List.sublist_cons_self _ _))
      (fun e he => Or.inl he)
    rw [hins] at hupd
    refine ⟨{ ordered_cursors := st.ordered_cursors, m_topk := st.m_topk,
              m_secondary := (st.m_secondary.insert s pid).2, m_cyclic := st.m_cyclic,
              scored := bit_set st.scored pid }, s :: O, [] ++ Z, ?_, ?_, ?_, hupd⟩
    · unfold capture_method_three
      rw [topk_queue.insert_with_eviction_reject _ _ _ hwe]
    · exact hins.symm
    · rfl
  | true =>
    have hins : (st.m_topk.insert s pid).2 = st.m_topk.push s pid := by
      unfold topk_queue.insert
      rw [hwe]
      rfl
    obtain ⟨hv1, hv2⟩ := hc.cyc_valid
    have hcins : ∀ (x : S), st.m_cyclic.insert x pid =
        some { st.m_cyclic with m_data := st.m_cyclic.m_data.set st.m_cyclic.m_index (x, pid),
                                 m_index := (st.m_cyclic.m_index + 1) % st.m_cyclic.m_k } := by
      intro x
      unfold cyclic_queue.insert
      rw [if_pos ⟨by rw [hv1]; exact hv2, by omega⟩]
    have hCv : ∀ (x : S), cyclic_queue.valid
        ({ st.m_cyclic with m_data := st.m_cyclic.m_data.set st.m_cyclic.m_index (x, pid),
                            m_index := (st.m_cyclic.m_index + 1) % st.m_cyclic.m_k } :
          cyclic_queue S) := by
      intro x
      refine ⟨?_, Nat.mod_lt _ (by omega)⟩
      simp only [List.length_set]
      exact hv1
    by_cases hlt : st.m_topk.m_q.length < st.m_topk.m_k
    · obtain ⟨he, hp, hne⟩ := topk_queue.insert_with_eviction_room _ s pid hwe hlt
      have hroom : ∀ y, st.m_topk.would_enter y = true := by
        intro y
        unfold topk_queue.would_enter
        rw [decide_eq_true_iff]
        exact ⟨by omega, Or.inl hlt⟩
      have hupd := capture_inv_update_at hH1 hc hs 0 0 [0]
        { st.m_cyclic with m_data := st.m_cyclic.m_data.set st.m_cyclic.m_index (0, pid),
                           m_index := (st.m_cyclic.m_index + 1) % st.m_cyclic.m_k }
        (by
          rw [hins]
          exact (hp.append_right [0]).trans (List.Perm.refl _))
        (fun z hz => List.mem_singleton.1 hz) (le_refl _) (Or.inr rfl)
        (hCv 0) hc.cyc_k (positive_set_subperm _ _ _)
        (by
          intro e he2
          rcases List.mem_or_eq_of_mem_set he2 with h | h
          · exact Or.inl h
          · right
            intro d hd hb
            rw [h] at hd ⊢
            rcases hbelow d hd hb with h1 | h1
            · exact le_of_eq h1
            · rw [hroom] at h1
              exact absurd h1 (by decide))
      rw [hins] at hupd
      refine ⟨{ ordered_cursors := st.ordered_cursors, m_topk := st.m_topk.push s pid,
                m_secondary := (st.m_secondary.insert 0 0).2,
                m_cyclic :=
                  { st.m_cyclic with
                      m_data := st.m_cyclic.m_data.set st.m_cyclic.m_index (0, pid),
                      m_index := (st.m_cyclic.m_index + 1) % st.m_cyclic.m_k },
                scored := bit_set st.scored pid }, (0 : S) :: O, [0] ++ Z, ?_, ?_, ?_, hupd⟩
      · unfold capture_method_three
        rw [he]
        simp only [hcins, Option.map_some']
      · exact hins.symm
      · rfl
    · obtain ⟨e, tl, hq, he, hp, hthr, hne⟩ :=
        topk_queue.insert_with_eviction_full _ s pid hwe hlt
      have hθ : 0 ≤ e.1 := by
        rw [hthr]
        exact topk_queue.threshold_nonneg hH1 hL
      have hupd := capture_inv_update_at hH1 hc hs e.1 e.2 []
        { st.m_cyclic with m_data := st.m_cyclic.m_data.set st.m_cyclic.m_index (e.1, pid),
                           m_index := (st.m_cyclic.m_index + 1) % st.m_cyclic.m_k }
        (by
          rw [hins, List.append_nil]
          exact hp)
        (fun z hz => absurd hz (List.not_mem_nil _)) hθ
        (Or.inl (hH2ne (by rw [hq]; exact List.cons_ne_nil _ _)))
        (hCv e.1) hc.cyc_k (positive_set_subperm _ _ _)
        (by
          intro e2 he2
          rcases List.mem_or_eq_of_mem_set he2 with h | h
          · exact Or.inl h
          · right
            intro d hd hb
            rw [h] at hd ⊢
            rcases hbelow d hd hb with h1 | h1
            · rw [h1]; exact hθ
            · rw [topk_queue.would_enter_eq_false] at h1
              rcases h1 with h2 | h2
              · omega
              · rw [hthr]; exact h2.2)
      rw [hins] at hupd
      refine ⟨{ ordered_cursors := st.ordered_cursors, m_topk := st.m_topk.push s pid,
                m_secondary := (st.m_secondary.insert e.1 e.2).2,
                m_cyclic :=
                  { st.m_cyclic with
                      m_data := st.m_cyclic.m_data.set st.m_cyclic.m_index (e.1, pid),
                      m_index := (st.m_cyclic.m_index + 1) % st.m_cyclic.m_k },
                scored := bit_set st.scored pid }, e.1 :: O, [] ++ Z, ?_, ?_, ?_, hupd⟩
      · unfold capture_method_three
        rw [he]
        simp only [hcins, Option.map_some']
      · exact hins.symm
      · rfl

/-- A step of a WAND loop that moves one cursor forward preserves the invariant of the
bitset, the secondary heap and the cyclic queue. -/
theorem capture_inv_jump_on {md k2 : Nat} {cursors : List (Cursor S)} {O Z : List S}
    {st : driver_state S} {cs2 : List (Cursor S)}
    (hc : capture_inv md k2 cursors O Z st)
    (hj : moved_on cursors st.ordered_cursors st.m_topk st.scored cs2) :
    capture_inv md k2 cursors O Z { st with ordered_cursors := cs2 } := by
  obtain ⟨hdead, hmono⟩ := hj
  exact
    { bits_len := hc.bits_len
      beyond := by
        intro d hd c2 hc2
        obtain ⟨c, hcm, hle⟩ := hmono c2 hc2
        exact lt_of_lt_of_le (hc.beyond d hd c hcm) hle
      skipped := by
        intro d hsd hbd
        rcases hdead d hsd with h | h | h
        · exact hc.skipped d h hbd
        · have : bit_test st.scored d = false := hbd
          rw [this] at h
          exact absurd h (by decide)
        · exact h
      sec_k := hc.sec_k
      cyc_valid := hc.cyc_valid
      cyc_k := hc.cyc_k
      sec_heap := hc.sec_heap
      acct := hc.acct
      zeros := hc.zeros
      offered := hc.offered
      cyc_sub := hc.cyc_sub
      cyc := hc.cyc
      fill := hc.fill }

end pisa

namespace pisa

variable {S : Type} [LinearOrderedCommSemiring S]

/-! ## Proofs: the shape of one iteration of a WAND loop -/

/-- The non-aligned branch of a WAND loop on a state whose cursors satisfy `wand_walk_inv`:
the docids the advanced cursor passes are scored or cannot enter the heap, and the invariant
holds again with the pivot docid as the last pivot. -/
theorem wand_jump {md : Nat} {cursors cs cs2 : List (Cursor S)} {q : topk_queue S}
    {scored : List Bool} {P p i : Nat} {cp c : Cursor S}
    (hwf : well_formed md cursors) (hinv : wand_walk_inv md cursors cs q scored P)
    (hcp : cs[p]? = some cp) (hlive : cp.docid < md) (hPle : P ≤ cp.docid)
    (hnot : ∀ m, 1 ≤ m → m ≤ p → q.would_enter (sum_max (cs.take m)) = false)
    (hc : cs[i]? = some c) (hcd : c.docid < cp.docid)
    (hperm : cs2.Perm (cs.take i ++ c.next_geq cp.docid :: cs.drop (i + 1)))
    (hsorted : cs2.Pairwise (fun a b => a.docid ≤ b.docid)) :
    moved_on cursors cs q scored cs2 ∧ wand_walk_inv md cursors cs2 q scored cp.docid := by
  have hok := tracks_ok hwf hinv.tracks
  have hsplit := eq_take_cons_drop hc
  have hcm : c ∈ cs := List.getElem?_mem hc
  have hcok := hok c hcm
  have hclive : c.docid < md := by omega
  have hld := low_dead_of_pivot hinv.sorted hcp hnot
  have hseen := fun d => seen_jump cp.docid hcok hperm d
  rw [← hsplit] at hseen
  refine ⟨⟨?_, ?_⟩, ?_⟩
  · intro d hd
    rcases (hseen d).1 hd with h | ⟨h1, h2⟩
    · exact Or.inl h
    · cases hs : seen cs d with
      | true => exact Or.inl rfl
      | false =>
        right; right
        exact dead_below_of_tracks hwf hinv.tracks hinv.sorted cp.docid (le_of_lt hlive) hld
          c hcm hcd d h2 hs
  · intro c2 hc2
    have h := hperm.subset hc2
    rw [List.mem_append, List.mem_cons] at h
    rcases h with h | h | h
    · exact ⟨c2, List.mem_of_mem_take h, le_refl _⟩
    · rw [h]
      exact ⟨c, hcm, Cursor.docid_le_next_geq hcok _⟩
    · exact ⟨c2, List.mem_of_mem_drop h, le_refl _⟩
  · refine ⟨?_, hsorted, le_of_lt hlive, ?_, ?_⟩
    · have ht := hinv.tracks
      rw [hsplit] at ht
      exact tracks_jump cp.docid ht hperm
    · apply low_dead_jump hperm (Cursor.docid_le_next_geq hcok _) rfl
        (max_score_nonneg_of_live hcok hclive)
      rw [← hsplit]
      exact hld
    · intro d hs hp
      have hp2 := pend_jump cp.docid hcok hperm d hp
      rw [← hsplit] at hp2
      rcases (hseen d).1 hs with h | ⟨h1, h2⟩
      · rcases hinv.pending d h hp2 with h3 | h3
        · left; omega
        · exact Or.inr h3
      · exact Or.inl h2

/-- The scoring branch of a WAND loop on a state whose cursors satisfy `wand_walk_inv` and
whose scored docids are behind every cursor: the pivot docid is a docid no cursor has moved
past, not scored yet, the computed score is its exhaustive score, and the invariant holds
again for any heap and any bitset that extends `scored`. -/
theorem wand_score {md : Nat} {cursors cs : List (Cursor S)} {q : topk_queue S}
    {scored : List Bool} {P : Nat} {cp c0 : Cursor S}
    (hwf : well_formed md cursors) (hinv : wand_walk_inv md cursors cs q scored P)
    (hbey : ∀ d, bit_test scored d = true → ∀ c ∈ cs, d < c.docid)
    (hlive : cp.docid < md) (hPle : P ≤ cp.docid)
    (hc0 : cs[0]? = some c0) (heq : cp.docid = c0.docid) :
    scored_at md cursors cs scored cp.docid (score_front cp.docid cs 0).1
        (sort_enums (score_front cp.docid cs 0).2) ∧
      ∀ (q2 : topk_queue S) (scored2 : List Bool),
        (∀ d, bit_test scored d = true → bit_test scored2 d = true) →
        wand_walk_inv md cursors (sort_enums (score_front cp.docid cs 0).2) q2 scored2
          cp.docid := by
  have hok := tracks_ok hwf hinv.tracks
  have hhead : cs.head? = some c0 := by
    rw [← getElem?_zero_eq_head?]; exact hc0
  have hc0m : c0 ∈ cs := List.getElem?_mem hc0
  have hc0a : cp.docid ∈ c0.ahead.map Prod.fst := by
    rw [heq]
    exact Cursor.mem_ahead_of_live (hok c0 hc0m) (by rw [← heq]; exact hlive)
  have hbit : bit_test scored cp.docid = false := by
    cases h : bit_test scored cp.docid with
    | false => rfl
    | true =>
      have := hbey cp.docid h c0 hc0m
      omega
  have hsp : seen cs cp.docid = false := by
    cases h : seen cs cp.docid with
    | false => rfl
    | true =>
      rcases hinv.pending cp.docid h ⟨c0, hc0m, hc0a⟩ with h1 | h1
      · omega
      · rw [hbit] at h1; exact absurd h1 (by decide)
  rw [score_front_eq]
  simp only [zero_add]
  have hperm := sort_enums_perm
    ((cs.takeWhile (fun c => decide (c.docid = cp.docid))).map Cursor.next ++
      cs.dropWhile (fun c => decide (c.docid = cp.docid)))
  have hsorted := sort_enums_sorted
    ((cs.takeWhile (fun c => decide (c.docid = cp.docid))).map Cursor.next ++
      cs.dropWhile (fun c => decide (c.docid = cp.docid)))
  have hfull := full_score cp.docid hwf hinv.tracks hinv.sorted hhead heq.symm hlive hsp
  have hsplit := List.takeWhile_append_dropWhile
    (fun c : Cursor S => decide (c.docid = cp.docid)) cs
  have hRd := rest_docid_gt hinv.sorted hhead heq.symm
  have hc0F : c0 ∈ cs.takeWhile (fun c => decide (c.docid = cp.docid)) := by
    cases hco : cs with
    | nil => rw [hco] at hhead; simp at hhead
    | cons a tl =>
      rw [hco] at hhead
      simp only [List.head?_cons, Option.some.injEq] at hhead
      subst hhead
      rw [List.takeWhile_cons, if_pos (by simpa using heq.symm)]
      exact List.mem_cons_self _ _
  have htr : tracks cursors
      ((cs.takeWhile (fun c => decide (c.docid = cp.docid))).map Cursor.next ++
        cs.dropWhile (fun c => decide (c.docid = cp.docid))) := by
    refine tracks_of_map_home_eq hinv.tracks ?_
    conv_rhs => rw [← hsplit]
    simp only [List.map_append, List.map_map]
    rfl
  generalize hF : cs.takeWhile (fun c => decide (c.docid = cp.docid)) = F at *
  generalize hR : cs.dropWhile (fun c => decide (c.docid = cp.docid)) = R at *
  generalize hcs2 : sort_enums (F.map Cursor.next ++ R) = cs2 at *
  have hFd : ∀ c ∈ F, c.docid = cp.docid := by rw [← hF]; exact front_docid
  have hFmem : ∀ c ∈ F, c ∈ cs := fun c hc => by rw [← hsplit]; exact List.mem_append_left _ hc
  have hRmem : ∀ c ∈ R, c ∈ cs := fun c hc => by rw [← hsplit]; exact List.mem_append_right _ hc
  have hFok : ∀ c ∈ F, c.ok md := fun c hc => hok c (hFmem c hc)
  have hRok : ∀ c ∈ R, c.ok md := fun c hc => hok c (hRmem c hc)
  have hFne : F ≠ [] := List.ne_nil_of_mem hc0F
  have hseen : ∀ d, seen cs2 d = true ↔ (seen cs d = true ∨ d = cp.docid) := by
    intro d
    rw [seen_perm hperm, seen_append, ← hsplit, seen_append]
    simp only [Bool.or_eq_true]
    rw [seen_map_next hFok hFd hlive hFne]
    tauto
  have hpend : ∀ d, (∃ c2 ∈ cs2, d ∈ c2.ahead.map Prod.fst) →
      (∃ c2 ∈ cs, d ∈ c2.ahead.map Prod.fst) ∧ d ≠ cp.docid := by
    rintro d ⟨c2, hc2, hd⟩
    have hc3 := hperm.subset hc2
    rw [List.mem_append] at hc3
    rcases hc3 with h | h
    · obtain ⟨c, hc, rfl⟩ := List.mem_map.1 h
      rw [Cursor.mem_ahead_next (hFok c hc) (by rw [hFd c hc]; exact hlive), hFd c hc] at hd
      exact ⟨⟨c, hFmem c hc, hd.1⟩, hd.2⟩
    · refine ⟨⟨c2, hRmem c2 h, hd⟩, ?_⟩
      have h1 := (Cursor.docid_le_of_mem_ahead (hRok c2 h) hd).1
      have h2 := hRd c2 h
      omega
  have hbeyond : ∀ c ∈ cs2, cp.docid < c.docid := by
    intro c hc
    have hc2 := hperm.subset hc
    rw [List.mem_append] at hc2
    rcases hc2 with h | h
    · obtain ⟨f, hf, rfl⟩ := List.mem_map.1 h
      have h1 := hFd f hf
      have h2 := Cursor.docid_lt_next (hFok f hf) (by rw [h1]; exact hlive)
      omega
    · exact hRd c h
  have hge : ∀ c ∈ cs, cp.docid ≤ c.docid := by
    intro c hc
    rw [← hsplit, List.mem_append] at hc
    rcases hc with h | h
    · exact le_of_eq (hFd c h).symm
    · exact le_of_lt (hRd c h)
  refine ⟨⟨hfull, ?_, hlive, hsp, hbit, hge, hbeyond, ?_, hseen⟩, ?_⟩
  · rw [tracks_mem_all_docids hinv.tracks]
    refine ⟨c0, hc0m, ?_⟩
    rw [Cursor.mem_postings_iff]
    exact Or.inr hc0a
  · intro c2 hc2
    have hc3 := hperm.subset hc2
    rw [List.mem_append] at hc3
    rcases hc3 with h | h
    · obtain ⟨f, hf, rfl⟩ := List.mem_map.1 h
      refine ⟨f, hFmem f hf, ?_⟩
      exact le_of_lt (Cursor.docid_lt_next (hFok f hf) (by rw [hFd f hf]; exact hlive))
    · exact ⟨c2, hRmem c2 h, le_refl _⟩
  · intro q2 scored2 hsub
    refine ⟨tracks_perm htr hperm, hsorted, le_of_lt hlive, ?_, ?_⟩
    · intro c hc hlt
      have := hbeyond c hc
      omega
    · intro d hs hp
      obtain ⟨hp1, hne⟩ := hpend d hp
      rcases (hseen d).1 hs with h | h
      · rcases hinv.pending d h hp1 with h1 | h1
        · left; omega
        · right; exact hsub d h1
      · exact absurd h hne

end pisa

namespace pisa

variable {S : Type} [LinearOrderedCommSemiring S]

/-! ## Proofs: stage one of `wand_query::method_three` -/

/-- One iteration of the stage-one loop of `wand_query::method_three` preserves the
invariant and consumes a posting, or exits with the postcondition; it is never undefined. -/
theorem wand_method_three_step {md k k2 : Nat} {cursors : List (Cursor S)}
    (hwf : well_formed md cursors) (hk : 0 < k) (st : driver_state S)
    (hinv : wand_method_three_inv md k k2 cursors st) :
    step_ok (wand_method_three_inv md k k2 cursors) (method_three_post md k k2 cursors)
      (fun s => remaining s.ordered_cursors) st
      (wand_query.loop_body capture_method_three md st) := by
  obtain ⟨hbase, ⟨P, hwalk⟩, O, Z, hc⟩ := hinv
  have hstep := wand_loop_body_step capture_method_three (fun s => s.m_cyclic.valid) hwf
    capture_method_three_ok st hbase
  have hok := tracks_ok hwf hwalk.tracks
  cases hfp : find_pivot st.m_topk md st.ordered_cursors 0 0 with
  | none =>
    rw [wand_query.loop_body_exit capture_method_three md st hfp] at hstep ⊢
    exact ⟨hstep, O, Z, hc⟩
  | some p =>
    obtain ⟨n, hn, hlen, hlive, hent, hnot⟩ := find_pivot_some st.ordered_cursors 0 0 p hfp
    have hn2 : n = p := by omega
    subst hn2
    have hcp : st.ordered_cursors[n]? = some st.ordered_cursors[n] :=
      List.getElem?_eq_getElem hlen
    have hc0 : st.ordered_cursors[0]? = some st.ordered_cursors[0] :=
      List.getElem?_eq_getElem (by omega)
    generalize st.ordered_cursors[n] = cp at hcp
    generalize st.ordered_cursors[0] = c0 at hc0
    have hcplive : cp.docid < md := hlive cp (mem_take_of_getElem? hcp (by omega))
    rw [zero_add] at hent
    have hnot2 : ∀ m, 1 ≤ m → m ≤ n →
        st.m_topk.would_enter (sum_max (st.ordered_cursors.take m)) = false := by
      intro m h1 h2
      have := hnot m h1 h2
      rwa [zero_add] at this
    have hPle : P ≤ cp.docid :=
      pivot_ge_last hok hwalk.last hwalk.sorted hcp hent hwalk.low
    by_cases heq : cp.docid = c0.docid
    · obtain ⟨hs, hw⟩ := wand_score hwf hwalk hc.beyond hcplive hPle hc0 heq
      have hH1 := hbase.1.heap
      have hL : ∀ x ∈ ((all_docids cursors).filter (seen st.ordered_cursors)).map
          (exhaustive_score cursors), 0 ≤ x := by
        intro x hx
        obtain ⟨d, _, rfl⟩ := List.mem_map.1 hx
        exact exhaustive_score_nonneg hwf d
      obtain ⟨st1, O1, Z1, hcap, h1, h2, hc1⟩ :=
        capture_inv_score_at hwf hk hwalk.tracks hH1 hL hbase.2.1 hc hs
      rw [wand_query.loop_body_score capture_method_three md st st1 n cp c0 hfp hcp hc0 heq
        hcap] at hstep ⊢
      obtain ⟨hb1, hμ⟩ := hstep
      refine ⟨⟨hb1, ⟨cp.docid, hw st1.m_topk st1.scored ?_⟩, O1, Z1, hc1⟩, hμ⟩
      have hlen2 : cp.docid < st.scored.length := by
        rw [hc.bits_len]
        exact hcplive
      intro d hd
      rw [h2, bit_test_bit_set st.scored cp.docid d hlen2]
      exact Or.inl hd
    · obtain ⟨cs2, i, c, hal, hip, hci, hcd, hperm, hsorted⟩ :=
        align_spec false st.ordered_cursors n cp c0 hok hwalk.sorted hcp hc0 heq
      rw [wand_query.loop_body_align capture_method_three md st n cp c0 cs2 hfp hcp hc0 heq
        hal] at hstep ⊢
      obtain ⟨hb1, hμ⟩ := hstep
      obtain ⟨hmo, hw⟩ := wand_jump hwf hwalk hcp hcplive hPle hnot2 hci hcd hperm hsorted
      exact ⟨⟨hb1, ⟨cp.docid, hw⟩, O, Z, capture_inv_jump_on hc hmo⟩, hμ⟩

/-- The invariant of the bitset, the secondary heap and the cyclic queue at the start of
`method_three`, with fresh queues. -/
theorem capture_inv_start {md : Nat} {cursors : List (Cursor S)} (k k2 : Nat)
    (hwf : well_formed md cursors) (hk2 : 0 < k2) :
    capture_inv md k2 cursors [] []
      { ordered_cursors := sort_enums cursors, m_topk := topk_queue.create k,
        m_secondary := topk_queue.create k2, m_cyclic := cyclic_queue.create k2,
        scored := bit_vector_builder md } :=
  { bits_len := by simp [bit_vector_builder]
    beyond := by
      intro d hd
      have : bit_test (bit_vector_builder md) d = true := hd
      rw [bit_test_builder] at this
      exact absurd this (by decide)
    skipped := by
      intro d hs
      have : seen (sort_enums cursors) d = true := hs
      rw [seen_perm (sort_enums_perm cursors), seen_of_well_formed hwf] at this
      exact absurd this (by decide)
    sec_k := rfl
    cyc_valid := ⟨by simp [cyclic_queue.create], hk2⟩
    cyc_k := rfl
    sec_heap := topk_queue.heap_inv_create k2
    acct := by
      show (scored_scores cursors (bit_vector_builder md) ++ []).Perm
        (([] : List (S × Nat)).map Prod.fst ++ [])
      have : scored_scores cursors (bit_vector_builder md) = [] := by
        unfold scored_scores
        rw [List.map_eq_nil_iff, List.filter_eq_nil_iff]
        intro d _
        rw [bit_test_builder]
        simp
      rw [this]
      exact List.Perm.refl _
    zeros := fun z hz => absurd hz (List.not_mem_nil _)
    offered := fun z hz => absurd hz (List.not_mem_nil _)
    cyc_sub := by
      show (positive ((List.replicate k2 ((0 : S), 0)).map Prod.fst)).Subperm []
      rw [positive_replicate_zero]
    cyc := by
      intro e he d hd
      have he2 : e ∈ List.replicate k2 ((0 : S), 0) := he
      rw [List.eq_of_mem_replicate he2] at hd
      exact absurd hd (Nat.not_lt_zero _)
    fill := fun _ => ⟨rfl, fun h => absurd rfl h⟩ }

/-- Stage one of `wand_query::method_three`, started on a well-formed query with fresh
queues, returns within its fuel with the postcondition of stage one. -/
theorem wand_method_three_stage_one_run {md k k2 : Nat} {cursors : List (Cursor S)}
    (hwf : well_formed md cursors) (hk : 0 < k) (hk2 : 0 < k2) :
    ∃ s1, run_loop (wand_query.loop_body capture_method_three md) (loop_fuel cursors)
        (wand_query.start
          { m_topk := topk_queue.create k, m_secondary := topk_queue.create k2,
            m_cyclic := cyclic_queue.create k2 } cursors (bit_vector_builder md)) = some s1 ∧
      method_three_post md k k2 cursors s1 := by
  have hcv : (cyclic_queue.create k2 : cyclic_queue S).valid :=
    ⟨by simp [cyclic_queue.create], hk2⟩
  apply run_loop_terminates (wand_query.loop_body capture_method_three md)
    (wand_method_three_inv md k k2 cursors) (method_three_post md k k2 cursors)
    (fun s => remaining s.ordered_cursors)
    (fun s hs => wand_method_three_step hwf hk s hs)
  · refine ⟨⟨prune_inv_start k hwf, rfl, fun _ => hcv⟩, ⟨0, ?_⟩, [], [],
      capture_inv_start k k2 hwf hk2⟩
    have hperm := sort_enums_perm cursors
    refine ⟨tracks_perm (tracks_self cursors) hperm, sort_enums_sorted cursors,
      Nat.zero_le _, ?_, ?_⟩
    · intro c _ hc
      exact absurd hc (Nat.not_lt_zero _)
    · intro d hs _
      have : seen (sort_enums cursors) d = true := hs
      rw [seen_perm hperm, seen_of_well_formed hwf] at this
      exact absurd this (by decide)
  · exact start_remaining cursors

/-- A heap of capacity 0 never yields a pivot. -/
theorem find_pivot_capacity_zero (q : topk_queue S) (md : Nat) (hq : q.m_k = 0) :
    ∀ (cs : List (Cursor S)) (ub : S) (i : Nat), find_pivot q md cs ub i = none := by
  intro cs
  induction cs with
  | nil => intro ub i; rfl
  | cons c cs ih =>
    intro ub i
    unfold find_pivot
    by_cases h : md ≤ c.docid
    · rw [if_pos h]
    · rw [if_neg h]
      have hw : q.would_enter (ub + c.max_score) = false := by
        rw [topk_queue.would_enter_eq_false]
        exact Or.inl hq
      rw [hw]
      exact ih _ _

/-- At the end of stage one of `wand_query::method_three` on a well-formed query with fresh
queues and `k2 > 0`, the lower bound of the stage transition is defined, and every docid
below it whose bit is unset has an exhaustive score of at most the threshold of the secondary
heap: it cannot enter a full secondary heap, and its score is zero when the secondary heap is
not full. -/
theorem wand_rewind_point {md k k2 : Nat} {cursors : List (Cursor S)}
    (hwf : well_formed md cursors) (hk2 : 0 < k2) :
    ∃ s1 lb, run_loop (wand_query.loop_body capture_method_three md) (loop_fuel cursors)
        (wand_query.start
          { m_topk := topk_queue.create k, m_secondary := topk_queue.create k2,
            m_cyclic := cyclic_queue.create k2 } cursors (bit_vector_builder md)) = some s1 ∧
      s1.m_cyclic.displaced_id s1.m_secondary.threshold = some lb ∧
      ∀ d, d < lb → bit_test s1.scored d = false →
        exhaustive_score cursors d ≤ s1.m_secondary.threshold ∧
        (k2 ≤ s1.m_secondary.m_q.length →
          s1.m_secondary.would_enter (exhaustive_score cursors d) = false) ∧
        (s1.m_secondary.m_q.length < k2 → exhaustive_score cursors d = 0) := by
  have hmain : ∀ (s1 : driver_state S) (O Z : List S), capture_inv md k2 cursors O Z s1 →
      ∃ lb, s1.m_cyclic.displaced_id s1.m_secondary.threshold = some lb ∧
        ∀ d, d < lb → bit_test s1.scored d = false →
          exhaustive_score cursors d ≤ s1.m_secondary.threshold ∧
          (k2 ≤ s1.m_secondary.m_q.length →
            s1.m_secondary.would_enter (exhaustive_score cursors d) = false) ∧
          (s1.m_secondary.m_q.length < k2 → exhaustive_score cursors d = 0) := by
    intro s1 O Z hc
    obtain ⟨e, he, hid, hq⟩ :=
      displaced_id_entry s1.m_cyclic s1.m_secondary.threshold hc.cyc_valid
    refine ⟨e.2, hid, ?_⟩
    intro d hd hb
    have hle : exhaustive_score cursors d ≤ s1.m_secondary.threshold := by
      rcases hq with hq | hq
      · exact le_trans (hc.cyc e he d hd hb) hq
      · exact absurd hq (cyclic_entry_below hc)
    refine ⟨hle, ?_, ?_⟩
    · intro hfull
      rw [topk_queue.would_enter_eq_false]
      right
      rw [hc.sec_k]
      exact ⟨hfull, hle⟩
    · intro hlt
      rw [(hc.fill hlt).1] at hle
      exact le_antisymm hle (exhaustive_score_nonneg hwf d)
  by_cases hk : 0 < k
  · obtain ⟨s1, hrun, _, O, Z, hc⟩ := @wand_method_three_stage_one_run S _ md k k2 cursors
      hwf hk hk2
    obtain ⟨lb, h1, h2⟩ := hmain s1 O Z hc
    exact ⟨s1, lb, hrun, h1, h2⟩
  · have hk0 : k = 0 := by omega
    subst hk0
    have hexit : wand_query.loop_body capture_method_three md
        (wand_query.start
          { m_topk := topk_queue.create 0, m_secondary := topk_queue.create k2,
            m_cyclic := cyclic_queue.create k2 } cursors (bit_vector_builder md)) =
        loop_step.exit (wand_query.start
          { m_topk := topk_queue.create 0, m_secondary := topk_queue.create k2,
            m_cyclic := cyclic_queue.create k2 } cursors (bit_vector_builder md)) :=
      wand_query.loop_body_exit _ md _ (find_pivot_capacity_zero _ md rfl _ _ _)
    have hrun : run_loop (wand_query.loop_body capture_method_three md) (loop_fuel cursors)
        (wand_query.start
          { m_topk := topk_queue.create 0, m_secondary := topk_queue.create k2,
            m_cyclic := cyclic_queue.create k2 } cursors (bit_vector_builder md)) =
        some (wand_query.start
          { m_topk := topk_queue.create 0, m_secondary := topk_queue.create k2,
            m_cyclic := cyclic_queue.create k2 } cursors (bit_vector_builder md)) := by
      unfold loop_fuel run_loop
      rw [hexit]
    obtain ⟨lb, h1, h2⟩ := hmain _ [] [] (capture_inv_start 0 k2 hwf hk2)
    exact ⟨_, lb, hrun, h1, h2⟩

/-! ## Concrete inputs -/

theorem zero_score_lists_well_formed : well_formed 4 zero_score_lists := by
  intro c hc
  simp only [zero_score_lists, List.mem_cons, List.mem_singleton, List.not_mem_nil,
    or_false] at hc
  rcases hc with rfl | rfl
  · refine ⟨rfl, rfl, by decide, ?_⟩
    intro p hp
    simp only [max_scored_cursor, List.mem_cons, List.mem_singleton, List.not_mem_nil,
      or_false] at hp
    rcases hp with rfl | rfl <;> decide
  · refine ⟨rfl, rfl, by decide, ?_⟩
    intro p hp
    simp only [max_scored_cursor, List.mem_cons, List.mem_singleton, List.not_mem_nil,
      or_false] at hp
    rcases hp with rfl
    decide

end pisa

namespace pisa

variable {S : Type} [LinearOrderedCommSemiring S]

/-! ## Proofs: `cyclic_queue`, the newest qualifying slot -/

/-- The last element of a list that satisfies `p` splits the list: nothing after it
satisfies `p`; and when there is none, nothing in the list satisfies `p`. -/
theorem getLast?_filter_split {α : Type} (p : α → Bool) (l : List α) :
    (∀ i, (l.filter p).getLast? = some i →
      ∃ L R, l = L ++ i :: R ∧ p i = true ∧ ∀ j ∈ R, p j = false) ∧
    ((l.filter p).getLast? = none → ∀ j ∈ l, p j = false) := by
  induction l with
  | nil =>
    refine ⟨fun i h => ?_, fun _ j hj => absurd hj (List.not_mem_nil j)⟩
    exact Option.noConfusion h
  | cons a l ih =>
    obtain ⟨ih1, ih2⟩ := ih
    cases hl : (l.filter p).getLast? with
    | some i2 =>
      have hne : l.filter p ≠ [] := by
        intro h0
        rw [h0] at hl
        exact Option.noConfusion hl
      have hlast : ((a :: l).filter p).getLast? = some i2 := by
        rw [List.filter_cons]
        split
        · rw [List.getLast?_cons, hl]
          rfl
        · exact hl
      refine ⟨fun i h => ?_, fun h => ?_⟩
      · rw [hlast] at h
        have e := Option.some.inj h
        subst e
        obtain ⟨L, R, h1, h2, h3⟩ := ih1 i2 hl
        exact ⟨a :: L, R, by rw [h1]; rfl, h2, h3⟩
      · rw [hlast] at h
        exact Option.noConfusion h
    | none =>
      have hall := ih2 hl
      have hnil : l.filter p = [] := List.getLast?_eq_none_iff.1 hl
      cases hp : p a with
      | true =>
        have hlast : ((a :: l).filter p).getLast? = some a := by
          rw [List.filter_cons, if_pos hp, hnil]
          rfl
        refine ⟨fun i h => ?_, fun h => ?_⟩
        · rw [hlast] at h
          have e := Option.some.inj h
          subst e
          exact ⟨[], l, rfl, hp, hall⟩
        · rw [hlast] at h
          exact Option.noConfusion h
      | false =>
        have hlast : ((a :: l).filter p).getLast? = none := by
          rw [List.filter_cons, if_neg (by rw [hp]; decide), hnil]
          rfl
        refine ⟨fun i h => ?_, fun _ j hj => ?_⟩
        · rw [hlast] at h
          exact Option.noConfusion h
        · rcases List.mem_cons.1 hj with h | h
          · rw [h]; exact hp
          · exact hall j h

namespace cyclic_queue

/-- In a valid queue the slot `displaced_id(t)` reads is in range, and every slot that is
newer in age order holds a score above `t`. -/
theorem displaced_slot_newest (q : cyclic_queue S) (t : S) (hq : q.valid) :
    ∃ L R e, age_order q = L ++ q.displaced_slot t :: R ∧
      q.m_data[q.displaced_slot t]? = some e ∧ q.displaced_id t = some e.2 ∧
      ∀ j ∈ R, ∀ e2, q.m_data[j]? = some e2 → t < e2.1 := by
  have hw : q.m_index < q.m_data.length := by rw [hq.1]; exact hq.2
  have hlt := displaced_slot_lt q t hw
  have hid : q.displaced_id t = some (q.m_data[q.displaced_slot t]).2 := by
    rw [displaced_id_eq, List.getElem?_eq_getElem hlt]
    rfl
  have hnot : ∀ j, qualifies q.m_data t j = false → ∀ e2, q.m_data[j]? = some e2 → t < e2.1 := by
    intro j hj e2 he2
    by_contra hle
    have : qualifies q.m_data t j = true := (qualifies_iff q.m_data t j).2 ⟨e2, he2, not_lt.1 hle⟩
    rw [hj] at this
    exact Bool.noConfusion this
  obtain ⟨h1, h2⟩ := getLast?_filter_split (qualifies q.m_data t) (scan_order q)
  cases hl : ((scan_order q).filter (qualifies q.m_data t)).getLast? with
  | some i =>
    have hslot : q.displaced_slot t = i := by
      unfold displaced_slot
      rw [hl]
      rfl
    obtain ⟨L, R, hs, _, hR⟩ := h1 i hl
    refine ⟨q.m_index :: L, R, _, ?_, List.getElem?_eq_getElem hlt, hid, ?_⟩
    · unfold age_order
      rw [hs, hslot]
      rfl
    · intro j hj
      exact hnot j (hR j hj)
  | none =>
    have hslot : q.displaced_slot t = q.m_index := by
      unfold displaced_slot
      rw [hl]
      rfl
    refine ⟨[], scan_order q, _, ?_, List.getElem?_eq_getElem hlt, hid, ?_⟩
    · unfold age_order
      rw [hslot]
      rfl
    · intro j hj
      exact hnot j (h2 hl j hj)

/-- The slots `displaced_id` scans are in range. -/
theorem scan_order_lt (q : cyclic_queue S) (hq : q.valid) :
    ∀ i ∈ scan_order q, i < q.m_data.length := by
  have hw : q.m_index < q.m_data.length := by rw [hq.1]; exact hq.2
  intro i hi
  unfold scan_order at hi
  rcases List.mem_append.1 hi with h | h
  · have := List.mem_range'.1 h
    obtain ⟨j, hj, rfl⟩ := this
    omega
  · have := List.mem_range.1 h
    omega

end cyclic_queue

end pisa

namespace pisa

variable {S : Type} [LinearOrderedCommSemiring S]

/-! ## Proofs: the documents a WAND loop scores come in increasing docid order -/

/-- After an advance every cursor is at or beyond some cursor before it. -/
theorem advances_mono {md : Nat} {cs cs2 : List (Cursor S)} (h : advances md cs cs2) :
    ∀ c2 ∈ cs2, ∃ c ∈ cs, c.docid ≤ c2.docid := by
  obtain ⟨cs1, hperm, hall, -⟩ := h
  intro c2 hc2
  have hc1 := hperm.subset hc2
  have key : ∀ l l1 : List (Cursor S), List.Forall₂ (not_behind md) l l1 →
      ∀ x ∈ l1, ∃ c ∈ l, c.docid ≤ x.docid := by
    intro l l1 hf
    induction hf with
    | nil => intro x hx; exact absurd hx (List.not_mem_nil _)
    | cons hab _ ih =>
      intro x hx
      rcases List.mem_cons.1 hx with h | h
      · subst h; exact ⟨_, List.mem_cons_self _ _, hab.2.2.1⟩
      · obtain ⟨c, hc, hle⟩ := ih x h
        exact ⟨c, List.mem_cons_of_mem _ hc, hle⟩
  exact key cs cs1 hall c2 hc1

theorem Cursor.score_nonneg {md : Nat} {c : Cursor S} (h : c.ok md) : 0 ≤ c.score := by
  rw [Cursor.score_eq]
  cases ha : c.ahead with
  | nil => exact le_refl _
  | cons p tl =>
    have hp : p ∈ c.ahead := by rw [ha]; exact List.mem_cons_self _ _
    exact (h.2.2 p (Cursor.mem_ahead_postings hp)).2.1

/-- The candidate of an iteration that goes on: its score is non-negative, its docid is a
live docid, the least among the cursors before the iteration, and every cursor is beyond it
afterwards. -/
theorem wand_candidate_step {md : Nat}
    (capture : driver_state S → S → Nat → Option (driver_state S)) (s s2 : driver_state S)
    (sc : S) (pid : Nat) (hok : ∀ c ∈ s.ordered_cursors, c.ok md)
    (hs : s.ordered_cursors.Pairwise (fun a b => a.docid ≤ b.docid))
    (hb : wand_query.loop_body capture md s = loop_step.next s2)
    (hc : wand_query.candidate md s = some (sc, pid)) :
    0 ≤ sc ∧ pid < md ∧ (∃ c ∈ s.ordered_cursors, c.docid = pid) ∧
      (∀ c ∈ s.ordered_cursors, pid ≤ c.docid) ∧
      ∀ c ∈ s2.ordered_cursors, pid < c.docid := by
  rcases wand_loop_body_next_candidate capture md s s2 hb with
    ⟨hn, _⟩ | ⟨sc1, d1, st1, hc1, hcap, _⟩
  · rw [hn] at hc; exact Option.noConfusion hc
  rw [hc] at hc1
  have e0 := Option.some.inj hc1
  have e01 : sc = sc1 := congrArg Prod.fst e0
  have e02 : pid = d1 := congrArg Prod.snd e0
  subst e01 e02
  unfold wand_query.candidate at hc
  cases hfp : find_pivot s.m_topk md s.ordered_cursors 0 0 with
  | none => rw [hfp] at hc; exact Option.noConfusion hc
  | some p =>
    obtain ⟨n, hn, hlen, hlive, hent, hnot⟩ := find_pivot_some s.ordered_cursors 0 0 p hfp
    have hn2 : n = p := by omega
    subst hn2
    have hcp : s.ordered_cursors[n]? = some s.ordered_cursors[n] :=
      List.getElem?_eq_getElem hlen
    have hc0 : s.ordered_cursors[0]? = some s.ordered_cursors[0] :=
      List.getElem?_eq_getElem (by omega)
    generalize s.ordered_cursors[n] = cp at hcp
    generalize s.ordered_cursors[0] = c0 at hc0
    have hcplive : cp.docid < md := hlive cp (mem_take_of_getElem? hcp (by omega))
    rw [hfp] at hc
    simp only [hcp, hc0] at hc
    by_cases heq : cp.docid = c0.docid
    · rw [if_pos heq] at hc
      have e := Option.some.inj hc
      have e1 : (score_front cp.docid s.ordered_cursors 0).1 = sc := congrArg Prod.fst e
      have e2 : cp.docid = pid := congrArg Prod.snd e
      subst e1 e2
      rw [wand_query.loop_body_score capture md s st1 n cp c0 hfp hcp hc0 heq hcap] at hb
      have e3 := loop_step.next.inj hb
      rw [← e3]
      show _ ∧ _ ∧ _ ∧ _ ∧
        ∀ c ∈ sort_enums (score_front cp.docid s.ordered_cursors 0).2, cp.docid < c.docid
      rw [score_front_eq]
      simp only [zero_add]
      have hhead : s.ordered_cursors.head? = some c0 := by
        rw [← getElem?_zero_eq_head?]; exact hc0
      have hc0m : c0 ∈ s.ordered_cursors := List.getElem?_mem hc0
      have hsplit := List.takeWhile_append_dropWhile
        (fun c : Cursor S => decide (c.docid = cp.docid)) s.ordered_cursors
      have hRd := rest_docid_gt hs hhead heq.symm
      have hFd : ∀ c ∈ s.ordered_cursors.takeWhile (fun c => decide (c.docid = cp.docid)),
          c.docid = cp.docid := front_docid
      have hFmem : ∀ c ∈ s.ordered_cursors.takeWhile (fun c => decide (c.docid = cp.docid)),
          c ∈ s.ordered_cursors :=
        fun c hc => by rw [← hsplit]; exact List.mem_append_left _ hc
      refine ⟨?_, hcplive, ⟨c0, hc0m, heq.symm⟩, ?_, ?_⟩
      · apply List.sum_nonneg
        intro x hx
        obtain ⟨c, hcm, rfl⟩ := List.mem_map.1 hx
        exact Cursor.score_nonneg (hok c (hFmem c hcm))
      · intro c hcm
        rw [← hsplit, List.mem_append] at hcm
        rcases hcm with h | h
        · exact le_of_eq (hFd c h).symm
        · exact le_of_lt (hRd c h)
      · intro c hcm
        have hc2 := (sort_enums_perm _).subset hcm
        rw [List.mem_append] at hc2
        rcases hc2 with h | h
        · obtain ⟨f, hf, rfl⟩ := List.mem_map.1 h
          have h1 := hFd f hf
          have h2 := Cursor.docid_lt_next (hok f (hFmem f hf)) (by rw [h1]; exact hcplive)
          omega
        · exact hRd c h
    · rw [if_neg heq] at hc
      exact Option.noConfusion hc

/-- The documents a WAND loop scores from a state with sorted cursors of a well-formed query:
their docids are strictly increasing, below `max_docid` and not below the least docid of the
cursors, and their scores are non-negative. -/
theorem candidates_facts {md : Nat} {cursors : List (Cursor S)}
    (capture : driver_state S → S → Nat → Option (driver_state S))
    (hwf : well_formed md cursors) :
    ∀ (n : Nat) (s : driver_state S),
      s.ordered_cursors.Pairwise (fun a b => a.docid ≤ b.docid) →
      tracks cursors s.ordered_cursors →
      (candidates (wand_query.loop_body capture md) (wand_query.candidate md) n s).Pairwise
        (fun a b => a.2 < b.2) ∧
      ∀ e ∈ candidates (wand_query.loop_body capture md) (wand_query.candidate md) n s,
        0 ≤ e.1 ∧ e.2 < md ∧ ∀ m, (∀ c ∈ s.ordered_cursors, m ≤ c.docid) → m ≤ e.2 := by
  intro n
  induction n with
  | zero =>
    intro s _ _
    exact ⟨List.Pairwise.nil, fun e he => absurd he (List.not_mem_nil _)⟩
  | succ n ih =>
    intro s hs ht
    have hok := tracks_ok hwf ht
    cases hb : wand_query.loop_body capture md s with
    | exit s2 =>
      rw [candidates_exit _ _ n s s2 hb]
      exact ⟨List.Pairwise.nil, fun e he => absurd he (List.not_mem_nil _)⟩
    | undefined =>
      have e : candidates (wand_query.loop_body capture md) (wand_query.candidate md)
          (n + 1) s = [] := by
        unfold candidates
        rw [hb]
      rw [e]
      exact ⟨List.Pairwise.nil, fun e he => absurd he (List.not_mem_nil _)⟩
    | next s2 =>
      obtain ⟨hs2, ht2⟩ := wand_loop_cursors capture hwf s s2 ⟨hs, ht⟩ (Or.inl hb)
      obtain ⟨ih1, ih2⟩ := ih s2 hs2 ht2
      have hmono : ∀ c2 ∈ s2.ordered_cursors, ∃ c ∈ s.ordered_cursors,
          c.docid ≤ c2.docid := by
        rcases wand_loop_body_cases capture s hok hs with h1 | ⟨_, h1⟩ | ⟨st2, h1, hadv, _⟩
        · rw [h1] at hb; exact loop_step.noConfusion hb
        · rw [h1] at hb; exact loop_step.noConfusion hb
        · rw [h1] at hb
          have e := loop_step.next.inj hb
          rw [← e]
          exact advances_mono hadv
      have htail : ∀ e ∈ candidates (wand_query.loop_body capture md)
          (wand_query.candidate md) n s2,
          0 ≤ e.1 ∧ e.2 < md ∧ ∀ m, (∀ c ∈ s.ordered_cursors, m ≤ c.docid) → m ≤ e.2 := by
        intro e he
        obtain ⟨g1, g2, g3⟩ := ih2 e he
        refine ⟨g1, g2, fun m hm => g3 m ?_⟩
        intro c2 hc2
        obtain ⟨c, hc, hle⟩ := hmono c2 hc2
        exact le_trans (hm c hc) hle
      rw [candidates_next _ _ n s s2 hb]
      cases hc : wand_query.candidate md s with
      | none =>
        rw [show (none : Option (S × Nat)).toList = [] from rfl, List.nil_append]
        exact ⟨ih1, htail⟩
      | some e0 =>
        obtain ⟨sc, pid⟩ := e0
        obtain ⟨f1, f2, ⟨c0, hc0m, hc0d⟩, f3, f4⟩ :=
          wand_candidate_step capture s s2 sc pid hok hs hb hc
        rw [show (some (sc, pid) : Option (S × Nat)).toList = [(sc, pid)] from rfl,
          List.singleton_append]
        refine ⟨List.Pairwise.cons ?_ ih1, ?_⟩
        · intro e he
          have := (ih2 e he).2.2 (pid + 1) (fun c hcm => f4 c hcm)
          exact this
        · intro e he
          rcases List.mem_cons.1 he with h | h
          · rw [h]
            refine ⟨f1, f2, fun m hm => ?_⟩
            have := hm c0 hc0m
            rw [hc0d] at this
            exact this
          · exact htail e h

/-! ## Proofs: the primary heap and the cyclic queue along a run -/

/-- The run of a WAND loop whose capture statement offers the candidate to the primary heap:
the primary heap has been offered the scored documents in order. -/
theorem topk_trace (capture : driver_state S → S → Nat → Option (driver_state S)) (md : Nat)
    (hcap : ∀ st s d st1, capture st s d = some st1 →
      st1.m_topk = (st.m_topk.insert s d).2) :
    ∀ (n : Nat) (s s1 : driver_state S),
      run_loop (wand_query.loop_body capture md) n s = some s1 →
      s1.m_topk = offer_all s.m_topk
        (candidates (wand_query.loop_body capture md) (wand_query.candidate md) n s) := by
  intro n
  induction n with
  | zero => intro s s1 h; exact Option.noConfusion h
  | succ n ih =>
    intro s s1 h
    unfold run_loop at h
    cases hb : wand_query.loop_body capture md s with
    | exit s2 =>
      rw [hb] at h
      have e : s2 = s1 := Option.some.inj h
      have e2 := wand_loop_body_exit_state capture md s s2 hb
      rw [candidates_exit _ _ n s s2 hb, ← e, e2]
      rfl
    | undefined => rw [hb] at h; exact Option.noConfusion h
    | next s2 =>
      rw [hb] at h
      have ih1 := ih s2 s1 h
      rw [candidates_next _ _ n s s2 hb]
      rcases wand_loop_body_next_candidate capture md s s2 hb with
        ⟨hc, h1, _⟩ | ⟨sc, d, st1, hc, hcp, h1, _⟩
      · rw [hc, show (none : Option (S × Nat)).toList = [] from rfl, List.nil_append]
        rw [← h1]
        exact ih1
      · have g1 := hcap s sc d st1 hcp
        rw [hc, show (some (sc, d) : Option (S × Nat)).toList = [(sc, d)] from rfl,
          List.singleton_append]
        simp only [offer_all]
        rw [← g1, ← h1]
        exact ih1

theorem capture_baseline_topk (st st1 : driver_state S) (s : S) (d : Nat)
    (h : capture_baseline st s d = some st1) : st1.m_topk = (st.m_topk.insert s d).2 := by
  unfold capture_baseline at h
  rw [← Option.some.inj h]

/-- The capture statement of stage one of Method 3: the primary heap is offered the
candidate, and the cyclic queue receives `(ejected_score, pivot_id)` when the heap accepts
the candidate and nothing otherwise. -/
theorem capture_method_three_entries (st st1 : driver_state S) (s : S) (d : Nat)
    (h : capture_method_three st s d = some st1) :
    st1.m_topk = (st.m_topk.insert s d).2 ∧
    st.m_cyclic.insert_all
      (if st.m_topk.would_enter s then
        [((if st.m_topk.m_q.length < st.m_topk.m_k then 0 else st.m_topk.threshold), d)]
       else []) = some st1.m_cyclic := by
  unfold capture_method_three at h
  cases hw : st.m_topk.would_enter s with
  | false =>
    rw [topk_queue.insert_with_eviction_reject _ s d hw] at h
    simp only at h
    have e := Option.some.inj h
    rw [← e, topk_queue.insert_of_not_would_enter _ s d hw]
    exact ⟨rfl, rfl⟩
  | true =>
    rw [topk_queue.insert_of_would_enter _ s d hw]
    simp only [if_true]
    by_cases hlt : st.m_topk.m_q.length < st.m_topk.m_k
    · rw [(topk_queue.insert_with_eviction_room _ s d hw hlt).1] at h
      simp only at h
      rw [if_pos hlt]
      cases hc : st.m_cyclic.insert 0 d with
      | none => rw [hc] at h; exact Option.noConfusion h
      | some cyc =>
        rw [hc] at h
        have e := Option.some.inj h
        rw [← e]
        refine ⟨rfl, ?_⟩
        simp only [cyclic_queue.insert_all, hc, Option.some_bind]
    · obtain ⟨e0, tl, hq, hiw, _⟩ := topk_queue.insert_with_eviction_full _ s d hw hlt
      rw [hiw] at h
      simp only at h
      have hth : st.m_topk.threshold = e0.1 := by
        unfold topk_queue.threshold
        rw [hq]
      rw [if_neg hlt, hth]
      cases hc : st.m_cyclic.insert e0.1 d with
      | none => rw [hc] at h; exact Option.noConfusion h
      | some cyc =>
        rw [hc] at h
        have e := Option.some.inj h
        rw [← e]
        refine ⟨rfl, ?_⟩
        simp only [cyclic_queue.insert_all, hc, Option.some_bind]

/-- The run of the stage-one loop of Method 3: the cyclic queue has received the entries
`rewind_entries` in order. -/
theorem method_three_trace (md : Nat) :
    ∀ (n : Nat) (s s1 : driver_state S),
      run_loop (wand_query.loop_body capture_method_three md) n s = some s1 →
      s.m_cyclic.insert_all (rewind_entries s.m_topk
        (candidates (wand_query.loop_body capture_method_three md) (wand_query.candidate md)
          n s)) = some s1.m_cyclic := by
  intro n
  induction n with
  | zero => intro s s1 h; exact Option.noConfusion h
  | succ n ih =>
    intro s s1 h
    unfold run_loop at h
    cases hb : wand_query.loop_body capture_method_three md s with
    | exit s2 =>
      rw [hb] at h
      have e : s2 = s1 := Option.some.inj h
      have e2 := wand_loop_body_exit_state capture_method_three md s s2 hb
      rw [candidates_exit _ _ n s s2 hb, ← e, e2]
      rfl
    | undefined => rw [hb] at h; exact Option.noConfusion h
    | next s2 =>
      rw [hb] at h
      have ih1 := ih s2 s1 h
      rw [candidates_next _ _ n s s2 hb]
      rcases wand_loop_body_next_candidate capture_method_three md s s2 hb with
        ⟨hc, h1, _, h3, _⟩ | ⟨sc, d, st1, hc, hcap, h1, _, h3, _⟩
      · rw [hc, show (none : Option (S × Nat)).toList = [] from rfl, List.nil_append]
        rw [← h1, ← h3]
        exact ih1
      · obtain ⟨g1, g3⟩ := capture_method_three_entries s st1 sc d hcap
        rw [hc, show (some (sc, d) : Option (S × Nat)).toList = [(sc, d)] from rfl,
          List.singleton_append]
        simp only [rewind_entries]
        rw [cyclic_queue.insert_all_concat, g3, Option.some_bind, ← g1, ← h1, ← h3]
        exact ih1

end pisa

namespace pisa

variable {S : Type} [LinearOrderedCommSemiring S]

/-! ## Proofs: the floor of a heap along a stream of offers -/

theorem heap_ok_create (k : Nat) : heap_ok (topk_queue.create k : topk_queue S) :=
  ⟨List.sorted_nil, Nat.zero_le _, fun e he => absurd he (List.not_mem_nil _)⟩

theorem heap_ok_insert {h : topk_queue S} (hh : heap_ok h) (s : S) (d : Nat) (hs : 0 ≤ s) :
    heap_ok (h.insert s d).2 := by
  refine ⟨topk_queue.sorted_insert h s d hh.1, ?_, ?_⟩
  · rw [topk_queue.insert_m_k]
    exact (topk_queue.length_insert h s d hh.2.1).2
  · intro e he
    have hm := (insert_subperm h s d).subset he
    rcases List.mem_cons.1 hm with h1 | h1
    · rw [h1]; exact hs
    · exact hh.2.2 e h1

theorem heap_floor_nonneg {h : topk_queue S} (hh : heap_ok h) : 0 ≤ heap_floor h := by
  unfold heap_floor
  split
  · exact le_refl _
  · unfold topk_queue.threshold
    cases hq : h.m_q with
    | nil => exact le_refl _
    | cons e tl => exact hh.2.2 e (by rw [hq]; exact List.mem_cons_self _ _)

theorem heap_floor_insert {h : topk_queue S} (hh : heap_ok h) (s : S) (d : Nat) (hs : 0 ≤ s) :
    heap_floor h ≤ heap_floor (h.insert s d).2 := by
  have hh2 := heap_ok_insert hh s d hs
  by_cases hlt : h.m_q.length < h.m_k
  · have e : heap_floor h = 0 := by unfold heap_floor; rw [if_pos hlt]
    rw [e]
    exact heap_floor_nonneg hh2
  · have hfull : h.m_q.length = h.m_k := by have := hh.2.1; omega
    have hl := topk_queue.length_insert h s d hh.2.1
    have hnlt2 : ¬ (h.insert s d).2.m_q.length < (h.insert s d).2.m_k := by
      rw [topk_queue.insert_m_k]; omega
    unfold heap_floor
    rw [if_neg hlt, if_neg hnlt2]
    exact topk_queue.threshold_insert_ge h s d hh.1 hfull

theorem heap_floor_le_mem {h : topk_queue S} (hh : heap_ok h) :
    ∀ y ∈ h.m_q, heap_floor h ≤ y.1 := by
  intro y hy
  unfold heap_floor
  split
  · exact hh.2.2 y hy
  · exact topk_queue.threshold_le_of_sorted h hh.1 y.1 (List.mem_map_of_mem _ hy)

/-- A stream of offers with non-negative scores keeps the heap in order and never lowers its
floor. -/
theorem offer_all_floor (l : List (S × Nat)) :
    ∀ (h : topk_queue S), heap_ok h → (∀ e ∈ l, 0 ≤ e.1) →
      heap_ok (offer_all h l) ∧ heap_floor h ≤ heap_floor (offer_all h l) := by
  induction l with
  | nil => intro h hh _; exact ⟨hh, le_refl _⟩
  | cons e rest ih =>
    intro h hh hl
    obtain ⟨s, d⟩ := e
    have hs : 0 ≤ s := hl (s, d) (List.mem_cons_self _ _)
    obtain ⟨g1, g2⟩ := ih (h.insert s d).2 (heap_ok_insert hh s d hs)
      (fun e he => hl e (List.mem_cons_of_mem _ he))
    simp only [offer_all]
    exact ⟨g1, le_trans (heap_floor_insert hh s d hs) g2⟩

theorem offer_all_floor_le_mem (l : List (S × Nat)) (h : topk_queue S) (hh : heap_ok h)
    (hl : ∀ e ∈ l, 0 ≤ e.1) : ∀ y ∈ (offer_all h l).m_q, heap_floor h ≤ y.1 := by
  intro y hy
  obtain ⟨g1, g2⟩ := offer_all_floor l h hh hl
  exact le_trans g2 (heap_floor_le_mem g1 y hy)

/-! ## Proofs: the entries of stage one of Method 3 -/

/-- The entries stage one of Method 3 inserts into the cyclic queue have non-decreasing
scores, none below the floor of the heap at the start. -/
theorem rewind_entries_scores (l : List (S × Nat)) :
    ∀ (h : topk_queue S), heap_ok h → (∀ e ∈ l, 0 ≤ e.1) →
      (rewind_entries h l).Pairwise (fun a b => a.1 ≤ b.1) ∧
      ∀ x ∈ rewind_entries h l, heap_floor h ≤ x.1 := by
  induction l with
  | nil =>
    intro h _ _
    exact ⟨List.Pairwise.nil, fun x hx => absurd hx (List.not_mem_nil _)⟩
  | cons e rest ih =>
    intro h hh hl
    obtain ⟨s, d⟩ := e
    have hs : 0 ≤ s := hl (s, d) (List.mem_cons_self _ _)
    obtain ⟨g1, g2⟩ := ih (h.insert s d).2 (heap_ok_insert hh s d hs)
      (fun e he => hl e (List.mem_cons_of_mem _ he))
    have hfl := heap_floor_insert hh s d hs
    have hE : ∀ x ∈ (if h.would_enter s then
        [((if h.m_q.length < h.m_k then 0 else h.threshold), d)] else []),
        x.1 = heap_floor h := by
      intro x hx
      split at hx
      · rw [List.mem_singleton] at hx
        rw [hx]
        rfl
      · exact absurd hx (List.not_mem_nil _)
    simp only [rewind_entries]
    refine ⟨List.pairwise_append.2 ⟨?_, g1, ?_⟩, ?_⟩
    · split
      · exact List.pairwise_singleton _ _
      · exact List.Pairwise.nil
    · intro a ha b hb
      rw [hE a ha]
      exact le_trans hfl (g2 b hb)
    · intro x hx
      rcases List.mem_append.1 hx with h1 | h1
      · rw [hE x h1]
      · exact le_trans hfl (g2 x h1)

/-- The docids of the entries stage one of Method 3 inserts into the cyclic queue are, in
order, docids of the candidates. -/
theorem rewind_entries_docids (l : List (S × Nat)) :
    ∀ (h : topk_queue S),
      ((rewind_entries h l).map Prod.snd).Sublist (l.map Prod.snd) := by
  induction l with
  | nil => intro h; exact List.Sublist.refl _
  | cons e rest ih =>
    intro h
    obtain ⟨s, d⟩ := e
    simp only [rewind_entries, List.map_append, List.map_cons]
    split
    · exact List.Sublist.cons₂ _ (ih _)
    · exact List.Sublist.cons _ (ih _)

/-! ## Proofs: the stream of Method 2 against the primary heap -/

/-- Every entry of the stream Method 2 offers to H2 scores at most every entry H1 holds at
the end. -/
theorem secondary_offers_le (l : List (S × Nat)) :
    ∀ (h : topk_queue S), heap_ok h → (∀ e ∈ l, 0 ≤ e.1) →
      ∀ x ∈ secondary_offers h l, ∀ y ∈ (offer_all h l).m_q, x.1 ≤ y.1 := by
  induction l with
  | nil => intro h _ _ x hx; exact absurd hx (List.not_mem_nil _)
  | cons e rest ih =>
    intro h hh hl
    obtain ⟨s, d⟩ := e
    have hs : 0 ≤ s := hl (s, d) (List.mem_cons_self _ _)
    have hrest : ∀ e ∈ rest, 0 ≤ e.1 := fun e he => hl e (List.mem_cons_of_mem _ he)
    have hh2 := heap_ok_insert hh s d hs
    have hfl := heap_floor_insert hh s d hs
    have hfin := offer_all_floor_le_mem rest (h.insert s d).2 hh2 hrest
    have hfinok := (offer_all_floor rest (h.insert s d).2 hh2 hrest).1
    simp only [secondary_offers, offer_all]
    intro x hx y hy
    rcases List.mem_append.1 hx with h1 | h1
    · cases hw : h.would_enter s with
      | true =>
        rw [hw] at h1
        simp only [if_true] at h1
        by_cases hlt : h.m_q.length < h.m_k
        · rw [if_pos hlt, List.mem_singleton] at h1
          rw [h1]
          exact hfinok.2.2 y hy
        · rw [if_neg hlt] at h1
          cases hq : h.m_q with
          | nil => rw [hq] at h1; exact absurd h1 (List.not_mem_nil _)
          | cons e0 tl =>
            rw [hq] at h1
            have hx0 : x = e0 := by
              have : x ∈ [e0] := h1
              exact List.mem_singleton.1 this
            have hf : heap_floor h = e0.1 := by
              unfold heap_floor topk_queue.threshold
              rw [if_neg hlt, hq]
            rw [hx0, ← hf]
            exact le_trans hfl (hfin y hy)
      | false =>
        rw [hw] at h1
        have hx0 : x = (s, d) := by
          have : x ∈ [(s, d)] := h1
          exact List.mem_singleton.1 this
        rw [topk_queue.would_enter_eq_false] at hw
        rcases hw with hk | ⟨hfull, hle⟩
        · have hlen := hfinok.2.1
          rw [offer_all_m_k, topk_queue.insert_m_k, hk] at hlen
          have : (offer_all (h.insert s d).2 rest).m_q = [] :=
            List.length_eq_zero.1 (Nat.le_zero.1 hlen)
          rw [this] at hy
          exact absurd hy (List.not_mem_nil _)
        · have hf : heap_floor h = h.threshold := by
            unfold heap_floor
            rw [if_neg (by omega)]
          rw [hx0]
          show s ≤ y.1
          exact le_trans hle (by rw [← hf]; exact le_trans hfl (hfin y hy))
    · exact ih (h.insert s d).2 hh2 hrest x h1 y hy

/-- With distinct docids among the candidates and an empty primary heap at the start, an
entry of the stream Method 2 offers to H2 shares its docid with an entry H1 holds at the end
only if it is the zero sentinel. -/
theorem secondary_offers_disjoint (l : List (S × Nat)) (h : topk_queue S) (hq : h.m_q = [])
    (hd : l.Pairwise (fun a b => a.2 < b.2)) :
    ∀ x ∈ secondary_offers h l, ∀ y ∈ (offer_all h l).m_q, y.2 = x.2 → x = (0, 0) := by
  intro x hx y hy hxy
  by_contra hne
  have hperm := secondary_offers_perm l h
  have hsub := offer_all_subperm l h
  rw [hq, List.append_nil] at hperm hsub
  have hnd : (l.map Prod.snd).Nodup := by
    rw [List.Nodup, List.pairwise_map]
    exact hd.imp (fun hlt => Nat.ne_of_lt hlt)
  have hndl : l.Nodup := List.Nodup.of_map _ hnd
  have hyl : y ∈ l := hsub.subset hy
  have hxl : x ∈ l := by
    have := hperm.subset (List.mem_append_left _ hx)
    rcases List.mem_append.1 this with h1 | h1
    · exact h1
    · exact absurd (List.eq_of_mem_replicate h1) hne
  have hyx : y = x := List.inj_on_of_nodup_map hnd hyl hxl hxy
  rw [hyx] at hy
  have hc := (hperm.filter (fun e : S × Nat => decide (e = x))).length_eq
  rw [List.filter_append, List.filter_append, List.length_append, List.length_append] at hc
  have h1 : 0 < ((secondary_offers h l).filter (fun e : S × Nat => decide (e = x))).length :=
    List.length_pos_of_mem (List.mem_filter.2 ⟨hx, decide_eq_true rfl⟩)
  have h2 : 0 < ((offer_all h l).m_q.filter (fun e : S × Nat => decide (e = x))).length :=
    List.length_pos_of_mem (List.mem_filter.2 ⟨hy, decide_eq_true rfl⟩)
  have h4 : (List.replicate (filling_insertions h l) ((0 : S), 0)).filter
      (fun e : S × Nat => decide (e = x)) = [] := by
    rw [List.filter_eq_nil_iff]
    intro e he hp
    exact hne ((of_decide_eq_true hp).symm.trans (List.eq_of_mem_replicate he))
  have h3 : (l.filter (fun e : S × Nat => decide (e = x))).length ≤ 1 := by
    have hnf : (l.filter (fun e : S × Nat => decide (e = x))).Nodup :=
      hndl.sublist (List.filter_sublist l)
    have hall : ∀ e ∈ l.filter (fun e : S × Nat => decide (e = x)), e = x :=
      fun e he => of_decide_eq_true (List.mem_filter.1 he).2
    generalize l.filter (fun e : S × Nat => decide (e = x)) = F at hnf hall
    match F, hnf, hall with
    | [], _, _ => exact Nat.zero_le _
    | [_], _, _ => exact le_refl _
    | a :: b :: t, hnf, hall =>
      have ha := hall a (List.mem_cons_self _ _)
      have hb := hall b (List.mem_cons_of_mem _ (List.mem_cons_self _ _))
      have := (List.nodup_cons.1 hnf).1
      rw [ha, ← hb] at this
      exact absurd (List.mem_cons_self _ _) this
  rw [h4, List.length_nil] at hc
  omega

/-- A heap that starts empty and is offered candidates with distinct docids holds no docid
twice. -/
theorem offer_all_docids_nodup (l : List (S × Nat)) (h : topk_queue S) (hq : h.m_q = [])
    (hd : l.Pairwise (fun a b => a.2 < b.2)) :
    ((offer_all h l).m_q.map Prod.snd).Nodup := by
  have hsub := offer_all_subperm l h
  rw [hq, List.append_nil] at hsub
  have hnd : (l.map Prod.snd).Nodup := by
    rw [List.Nodup, List.pairwise_map]
    exact hd.imp (fun hlt => Nat.ne_of_lt hlt)
  obtain ⟨l1, hp, hs⟩ := hsub
  exact ((hp.map Prod.snd).nodup_iff).1 (hnd.sublist (hs.map Prod.snd))

end pisa

namespace pisa

variable {S : Type} [LinearOrderedCommSemiring S]

/-! ## Proofs: the documents a WAND loop scores carry their exhaustive scores -/

theorem wand_query.candidate_score (md : Nat) (s : driver_state S) (p : Nat)
    (cp c0 : Cursor S) (h : find_pivot s.m_topk md s.ordered_cursors 0 0 = some p)
    (hcp : s.ordered_cursors[p]? = some cp) (hc0 : s.ordered_cursors[0]? = some c0)
    (heq : cp.docid = c0.docid) :
    wand_query.candidate md s =
      some ((score_front cp.docid s.ordered_cursors 0).1, cp.docid) := by
  unfold wand_query.candidate
  rw [h]
  simp only [hcp, hc0]
  rw [if_pos heq]

theorem wand_query.candidate_align (md : Nat) (s : driver_state S) (p : Nat)
    (cp c0 : Cursor S) (h : find_pivot s.m_topk md s.ordered_cursors 0 0 = some p)
    (hcp : s.ordered_cursors[p]? = some cp) (hc0 : s.ordered_cursors[0]? = some c0)
    (hne : cp.docid ≠ c0.docid) :
    wand_query.candidate md s = none := by
  unfold wand_query.candidate
  rw [h]
  simp only [hcp, hc0]
  rw [if_neg hne]

/-- One iteration that goes on, of a WAND loop whose capture statement offers the candidate
to the primary heap and leaves the bitset alone: the invariant holds again, and the
candidate, if any, is a docid of the query with its exhaustive score. -/
theorem wand_plain_step {md : Nat} {cursors : List (Cursor S)}
    (capture : driver_state S → S → Nat → Option (driver_state S))
    (hcap : ∀ st s d st1, capture st s d = some st1 → st1.scored = st.scored)
    (hwf : well_formed md cursors) (s s2 : driver_state S)
    (hinv : wand_plain_inv md cursors s)
    (hb : wand_query.loop_body capture md s = loop_step.next s2) :
    wand_plain_inv md cursors s2 ∧
      ∀ e, wand_query.candidate md s = some e →
        e.1 = exhaustive_score cursors e.2 ∧ e.2 ∈ all_docids cursors := by
  obtain ⟨hbits, P, hwalk⟩ := hinv
  have hok := tracks_ok hwf hwalk.tracks
  cases hfp : find_pivot s.m_topk md s.ordered_cursors 0 0 with
  | none =>
    rw [wand_query.loop_body_exit capture md s hfp] at hb
    exact loop_step.noConfusion hb
  | some p =>
    obtain ⟨n, hn, hlen, hlive, hent, hnot⟩ := find_pivot_some s.ordered_cursors 0 0 p hfp
    have hn2 : n = p := by omega
    subst hn2
    have hcp : s.ordered_cursors[n]? = some s.ordered_cursors[n] :=
      List.getElem?_eq_getElem hlen
    have hc0 : s.ordered_cursors[0]? = some s.ordered_cursors[0] :=
      List.getElem?_eq_getElem (by omega)
    generalize s.ordered_cursors[n] = cp at hcp
    generalize s.ordered_cursors[0] = c0 at hc0
    have hcplive : cp.docid < md := hlive cp (mem_take_of_getElem? hcp (by omega))
    rw [zero_add] at hent
    have hnot2 : ∀ m, 1 ≤ m → m ≤ n →
        s.m_topk.would_enter (sum_max (s.ordered_cursors.take m)) = false := by
      intro m h1 h2
      have := hnot m h1 h2
      rwa [zero_add] at this
    have hPle : P ≤ cp.docid :=
      pivot_ge_last hok hwalk.last hwalk.sorted hcp hent hwalk.low
    by_cases heq : cp.docid = c0.docid
    · have hbey : ∀ d, bit_test s.scored d = true → ∀ c ∈ s.ordered_cursors, d < c.docid := by
        intro d hd
        rw [hbits d] at hd
        exact absurd hd (by decide)
      obtain ⟨hs, hw⟩ := wand_score hwf hwalk hbey hcplive hPle hc0 heq
      have hcand := wand_query.candidate_score md s n cp c0 hfp hcp hc0 heq
      rcases wand_loop_body_next_candidate capture md s s2 hb with
        ⟨hnone, _⟩ | ⟨sc, d, st1, hc, hcp1, _⟩
      · rw [hcand] at hnone; exact Option.noConfusion hnone
      rw [hcand] at hc
      have e0 := Option.some.inj hc
      have e01 : (score_front cp.docid s.ordered_cursors 0).1 = sc := congrArg Prod.fst e0
      have e02 : cp.docid = d := congrArg Prod.snd e0
      subst e01 e02
      rw [wand_query.loop_body_score capture md s st1 n cp c0 hfp hcp hc0 heq hcp1] at hb
      have e3 := loop_step.next.inj hb
      have hsc := hcap s _ _ st1 hcp1
      refine ⟨?_, ?_⟩
      · rw [← e3]
        refine ⟨?_, cp.docid, ?_⟩
        · intro d
          show bit_test st1.scored d = false
          rw [hsc]
          exact hbits d
        · exact hw st1.m_topk st1.scored (fun d hd => by rw [hbits d] at hd; exact absurd hd (by decide))
      · intro e he
        rw [hcand] at he
        rw [← Option.some.inj he]
        exact ⟨hs.1, hs.2.1⟩
    · obtain ⟨cs2, i, c, hal, hip, hci, hcd, hperm, hsorted⟩ :=
        align_spec false s.ordered_cursors n cp c0 hok hwalk.sorted hcp hc0 heq
      rw [wand_query.loop_body_align capture md s n cp c0 cs2 hfp hcp hc0 heq hal] at hb
      have e3 := loop_step.next.inj hb
      obtain ⟨_, hw⟩ := wand_jump hwf hwalk hcp hcplive hPle hnot2 hci hcd hperm hsorted
      refine ⟨?_, ?_⟩
      · rw [← e3]
        exact ⟨hbits, cp.docid, hw⟩
      · intro e he
        rw [wand_query.candidate_align md s n cp c0 hfp hcp hc0 heq] at he
        exact Option.noConfusion he

/-- The documents a WAND loop scores from a state satisfying the invariant are docids of the
query with their exhaustive scores. -/
theorem candidates_exhaustive {md : Nat} {cursors : List (Cursor S)}
    (capture : driver_state S → S → Nat → Option (driver_state S))
    (hcap : ∀ st s d st1, capture st s d = some st1 → st1.scored = st.scored)
    (hwf : well_formed md cursors) :
    ∀ (n : Nat) (s : driver_state S), wand_plain_inv md cursors s →
      ∀ e ∈ candidates (wand_query.loop_body capture md) (wand_query.candidate md) n s,
        e.1 = exhaustive_score cursors e.2 ∧ e.2 ∈ all_docids cursors := by
  intro n
  induction n with
  | zero => intro s _ e he; exact absurd he (List.not_mem_nil _)
  | succ n ih =>
    intro s hinv e he
    cases hb : wand_query.loop_body capture md s with
    | exit s2 =>
      rw [candidates_exit _ _ n s s2 hb] at he
      exact absurd he (List.not_mem_nil _)
    | undefined =>
      have e0 : candidates (wand_query.loop_body capture md) (wand_query.candidate md)
          (n + 1) s = [] := by
        unfold candidates
        rw [hb]
      rw [e0] at he
      exact absurd he (List.not_mem_nil _)
    | next s2 =>
      obtain ⟨hinv2, hcand⟩ := wand_plain_step capture hcap hwf s s2 hinv hb
      rw [candidates_next _ _ n s s2 hb] at he
      rcases List.mem_append.1 he with h | h
      · cases hc : wand_query.candidate md s with
        | none => rw [hc] at h; exact absurd h (List.not_mem_nil _)
        | some e1 =>
          rw [hc] at h
          have : e ∈ [e1] := h
          rw [List.mem_singleton.1 this]
          exact hcand e1 hc
      · exact ih s2 hinv2 e h

/-- The invariant at the start of a WAND loop with no bit set. -/
theorem wand_plain_start {md : Nat} {cursors : List (Cursor S)} (hwf : well_formed md cursors)
    (w : wand_query S) : wand_plain_inv md cursors (wand_query.start w cursors []) := by
  have hperm := sort_enums_perm cursors
  refine ⟨fun d => rfl, 0, tracks_perm (tracks_self cursors) hperm, sort_enums_sorted cursors,
    Nat.zero_le _, ?_, ?_⟩
  · intro c _ hc
    exact absurd hc (Nat.not_lt_zero _)
  · intro d hs _
    have : seen (sort_enums cursors) d = true := hs
    rw [seen_perm hperm, seen_of_well_formed hwf] at this
    exact absurd this (by decide)

theorem capture_baseline_scored (st st1 : driver_state S) (s : S) (d : Nat)
    (h : capture_baseline st s d = some st1) : st1.scored = st.scored := by
  unfold capture_baseline at h
  rw [← Option.some.inj h]

theorem capture_method_one_scored (st st1 : driver_state S) (s : S) (d : Nat)
    (h : capture_method_one st s d = some st1) : st1.scored = st.scored := by
  unfold capture_method_one at h
  rcases hi : st.m_topk.insert_with_eviction s d with ⟨b, es, ed, topk⟩
  rw [hi] at h
  cases b with
  | false =>
    simp only at h
    rw [← Option.some.inj h]
  | true =>
    simp only at h
    cases hc : st.m_cyclic.insert es ed with
    | none => rw [hc] at h; exact Option.noConfusion h
    | some cyc =>
      rw [hc] at h
      rw [← Option.some.inj h]

/-! ## Proofs: what the cyclic queue of Method 1 holds -/

theorem cyclic_queue.mem_insert (q q1 : cyclic_queue S) (s : S) (d : Nat)
    (h : q.insert s d = some q1) : ∀ e ∈ q1.m_data, e ∈ q.m_data ∨ e = (s, d) := by
  unfold cyclic_queue.insert at h
  split at h
  · rw [← Option.some.inj h]
    intro e he
    exact List.mem_or_eq_of_mem_set he
  · exact Option.noConfusion h

theorem cyclic_queue.mem_insert_all (l : List (S × Nat)) :
    ∀ (q q1 : cyclic_queue S), q.insert_all l = some q1 →
      ∀ e ∈ q1.m_data, e ∈ q.m_data ∨ e ∈ l := by
  induction l with
  | nil =>
    intro q q1 h e he
    have e0 : q = q1 := Option.some.inj h
    rw [e0]
    exact Or.inl he
  | cons x rest ih =>
    intro q q1 h e he
    simp only [cyclic_queue.insert_all] at h
    cases hi : q.insert x.1 x.2 with
    | none => rw [hi] at h; exact Option.noConfusion h
    | some q2 =>
      rw [hi, Option.some_bind] at h
      rcases ih q2 q1 h e he with h1 | h1
      · rcases cyclic_queue.mem_insert q q2 x.1 x.2 hi e h1 with h2 | h2
        · exact Or.inl h2
        · exact Or.inr (by rw [h2]; exact List.mem_cons_self _ _)
      · exact Or.inr (List.mem_cons_of_mem _ h1)

/-- An entry Method 1 inserts into the cyclic queue is the zero sentinel, an entry the
primary heap held at the start, or a candidate. -/
theorem cyclic_entries_mem (l : List (S × Nat)) :
    ∀ (h : topk_queue S), ∀ x ∈ cyclic_entries h l, x = (0, 0) ∨ x ∈ h.m_q ∨ x ∈ l := by
  induction l with
  | nil => intro h x hx; exact absurd hx (List.not_mem_nil _)
  | cons e rest ih =>
    intro h x hx
    obtain ⟨s, d⟩ := e
    simp only [cyclic_entries] at hx
    rcases List.mem_append.1 hx with h1 | h1
    · split at h1
      · split at h1
        · exact Or.inl (List.mem_singleton.1 h1)
        · right; left
          cases hq : h.m_q with
          | nil => rw [hq] at h1; exact absurd h1 (List.not_mem_nil _)
          | cons e0 tl =>
            rw [hq] at h1
            have : x ∈ [e0] := h1
            rw [List.mem_singleton.1 this]
            exact List.mem_cons_self _ _
      · exact absurd h1 (List.not_mem_nil _)
    · rcases ih (h.insert s d).2 x h1 with h2 | h2 | h2
      · exact Or.inl h2
      · have := (insert_subperm h s d).subset h2
        rcases List.mem_cons.1 this with h3 | h3
        · exact Or.inr (Or.inr (by rw [h3]; exact List.mem_cons_self _ _))
        · exact Or.inr (Or.inl h3)
      · exact Or.inr (Or.inr (List.mem_cons_of_mem _ h2))

theorem cyclic_queue.mem_finalize_data (q : cyclic_queue S) (e : S × Nat) :
    e ∈ q.finalize.topk ↔ e ∈ q.m_data :=
  (List.perm_insertionSort _ q.m_data).mem_iff

theorem topk_queue.mem_finalize_heap (q : topk_queue S) (e : S × Nat) :
    e ∈ q.finalize.topk ↔ e ∈ q.m_q :=
  (List.perm_insertionSort _ q.m_q).mem_iff

theorem topk_queue.sorted_finalize_heap (q : topk_queue S) :
    (q.finalize.topk).Sorted (fun a b => b.1 ≤ a.1) := by
  haveI : IsTotal (S × Nat) (fun a b => b.1 ≤ a.1) := ⟨fun a b => le_total b.1 a.1⟩
  haveI : IsTrans (S × Nat) (fun a b => b.1 ≤ a.1) :=
    ⟨fun a b c hab hbc => le_trans hbc hab⟩
  exact List.sorted_insertionSort _ q.m_q

/-! ## Concrete inputs -/

theorem first_docid_lists_well_formed : well_formed 1 first_docid_lists := by
  intro c hc
  simp only [first_docid_lists, List.mem_singleton] at hc
  subst hc
  refine ⟨rfl, rfl, by decide, ?_⟩
  intro p hp
  simp only [max_scored_cursor, List.mem_singleton] at hp
  subst hp
  decide

end pisa

namespace pisa

variable {S : Type} [LinearOrderedCommSemiring S]

/-! ## Proofs: the outcomes of `finalize()` -/

namespace cyclic_queue

theorem finalize_outcome_sorted {q q1 : cyclic_queue S} (h : finalize_outcome q q1) :
    q1.topk.Sorted (fun a b => b.1 ≤ a.1) := by
  have h4 := h.2.2.2
  refine List.Pairwise.imp ?_ h4
  intro a b hab
  unfold min_heap_order at hab
  exact not_lt.1 (of_decide_eq_false hab)

/-- The stable sort of the model is one outcome of `finalize()`. -/
theorem finalize_outcome_finalize (q : cyclic_queue S) : finalize_outcome q q.finalize := by
  refine ⟨rfl, rfl, List.perm_insertionSort _ _, ?_⟩
  refine List.Pairwise.imp ?_ (sorted_finalize q)
  intro a b hab
  unfold min_heap_order
  exact decide_eq_false (not_lt.2 hab)

end cyclic_queue

/-- Two lists with the same image under a map that is injective across them are equal. -/
theorem eq_of_map_eq_of_inj {α β : Type} (f : α → β) :
    ∀ (l1 l2 : List α), (∀ x ∈ l1, ∀ y ∈ l2, f x = f y → x = y) → l1.map f = l2.map f →
      l1 = l2 := by
  intro l1
  induction l1 with
  | nil =>
    intro l2 _ h
    cases l2 with
    | nil => rfl
    | cons b t => exact absurd h (by simp)
  | cons a t ih =>
    intro l2 hinj h
    cases l2 with
    | nil => exact absurd h (by simp)
    | cons b t2 =>
      simp only [List.map_cons, List.cons.injEq] at h
      have hab : a = b := hinj a (List.mem_cons_self _ _) b (List.mem_cons_self _ _) h.1
      have ht : t = t2 := ih t2
        (fun x hx y hy => hinj x (List.mem_cons_of_mem _ hx) y (List.mem_cons_of_mem _ hy)) h.2
      rw [hab, ht]

/-- Two outcomes of `finalize()`, the second from the first: the second is an outcome of
`finalize()` on the state before the first call, it holds the same entries, the same
sequence of scores, and the same sequence of entries when no two scores are equal. -/
theorem cyclic_queue.finalize_outcome_twice {q q1 q2 : cyclic_queue S}
    (h1 : cyclic_queue.finalize_outcome q q1) (h2 : cyclic_queue.finalize_outcome q1 q2) :
    cyclic_queue.finalize_outcome q q2 ∧ q2.topk.Perm q1.topk ∧
    q2.topk.map Prod.fst = q1.topk.map Prod.fst ∧
    ((q.m_data.map Prod.fst).Nodup → q2.topk = q1.topk) := by
  have hp : q2.topk.Perm q1.topk := h2.2.2.1
  have hs1 := cyclic_queue.finalize_outcome_sorted h1
  have hs2 := cyclic_queue.finalize_outcome_sorted h2
  have hsc := cyclic_queue.scores_of_sorted_perm hp hs2 hs1
  refine ⟨⟨h2.1.trans h1.1, h2.2.1.trans h1.2.1, h2.2.2.1.trans h1.2.2.1, h2.2.2.2⟩, hp, hsc,
    ?_⟩
  intro hnd
  have hnd1 : (q1.topk.map Prod.fst).Nodup :=
    ((List.Perm.map Prod.fst h1.2.2.1).nodup_iff).2 hnd
  apply eq_of_map_eq_of_inj Prod.fst _ _ _ hsc
  intro x hx y hy hxy
  exact List.inj_on_of_nodup_map hnd1 (hp.subset hx) hy hxy

/-! ## Proofs: the outputs of the orchestrator are finalized sequences -/

theorem topk_queue.finalized_heap (q : topk_queue S) : finalized q.finalize.topk q.m_q :=
  ⟨List.perm_insertionSort _ _, topk_queue.sorted_finalize_heap q⟩

theorem cyclic_queue.finalized_data (q : cyclic_queue S) :
    finalized q.finalize.topk q.m_data :=
  ⟨List.perm_insertionSort _ _, cyclic_queue.sorted_finalize q⟩

theorem outputs_of_map {W : Type} (run : Option W)
    (f : W → List (S × Nat) × List (S × Nat))
    (P : W → List (S × Nat) → List (S × Nat) → Prop)
    (h : ∀ w, run = some w → P w (f w).1 (f w).2) : outputs_of run (run.map f) P := by
  cases run with
  | none => exact trivial
  | some w => exact h w rfl

/-! ## Proofs: sub-multisets -/

theorem subperm_append {α : Type} {a b c d : List α} (h1 : a.Subperm b) (h2 : c.Subperm d) :
    (a ++ c).Subperm (b ++ d) :=
  ((List.subperm_append_right c).2 h1).trans ((List.subperm_append_left b).2 h2)

theorem subperm_map {α β : Type} (f : α → β) {a b : List α} (h : a.Subperm b) :
    (a.map f).Subperm (b.map f) := by
  obtain ⟨l, hp, hs⟩ := h
  exact ⟨l.map f, hp.map f, hs.map f⟩

theorem nodup_of_subperm {α : Type} {a b : List α} (h : a.Subperm b) (hb : b.Nodup) :
    a.Nodup := by
  obtain ⟨l, hp, hs⟩ := h
  exact (hp.nodup_iff).1 (hb.sublist hs)

end pisa

namespace pisa

variable {S : Type} [LinearOrderedCommSemiring S]

/-! ## Proofs: the entries of the two heaps in `block_max_wand_query::method_three` -/

/-- The capture statement of stage one of Method 3: the bit of the pivot docid is set, and
what the two heaps hold afterwards is among the candidate, one zero sentinel and what they
held before. -/
theorem capture_method_three_heaps (st st1 : driver_state S) (s : S) (d : Nat)
    (h : capture_method_three st s d = some st1) :
    st1.scored = bit_set st.scored d ∧
    (st1.m_topk.m_q ++ st1.m_secondary.m_q).Subperm
      ((s, d) :: (0, 0) :: (st.m_topk.m_q ++ st.m_secondary.m_q)) := by
  unfold capture_method_three at h
  cases hw : st.m_topk.would_enter s with
  | false =>
    rw [topk_queue.insert_with_eviction_reject _ s d hw] at h
    simp only at h
    have e := Option.some.inj h
    rw [← e]
    refine ⟨rfl, ?_⟩
    show (st.m_topk.m_q ++ (st.m_secondary.insert s d).2.m_q).Subperm _
    refine (subperm_append (List.Subperm.refl _) (insert_subperm st.m_secondary s d)).trans ?_
    refine (List.perm_middle.subperm).trans ?_
    exact (List.subperm_cons _).2 (List.sublist_cons_self _ _).subperm
  | true =>
    by_cases hlt : st.m_topk.m_q.length < st.m_topk.m_k
    · rw [(topk_queue.insert_with_eviction_room _ s d hw hlt).1] at h
      simp only at h
      cases hc : st.m_cyclic.insert 0 d with
      | none => rw [hc] at h; exact Option.noConfusion h
      | some cyc =>
        rw [hc] at h
        have e := Option.some.inj h
        rw [← e]
        refine ⟨rfl, ?_⟩
        show ((st.m_topk.push s d).m_q ++ (st.m_secondary.insert 0 0).2.m_q).Subperm _
        have hp : (st.m_topk.push s d).m_q.Perm ((s, d) :: st.m_topk.m_q) := by
          unfold topk_queue.push
          rw [if_pos hlt]
          exact List.perm_orderedInsert _ _ _
        refine (subperm_append hp.subperm (insert_subperm st.m_secondary 0 0)).trans ?_
        exact ((List.Perm.cons _ List.perm_middle)).subperm
    · obtain ⟨e0, tl, hq, hiw, _⟩ := topk_queue.insert_with_eviction_full _ s d hw hlt
      rw [hiw] at h
      simp only at h
      cases hc : st.m_cyclic.insert e0.1 d with
      | none => rw [hc] at h; exact Option.noConfusion h
      | some cyc =>
        rw [hc] at h
        have e := Option.some.inj h
        rw [← e]
        refine ⟨rfl, ?_⟩
        show ((st.m_topk.push s d).m_q ++ (st.m_secondary.insert e0.1 e0.2).2.m_q).Subperm _
        have hp : (st.m_topk.push s d).m_q.Perm ((s, d) :: tl) := by
          unfold topk_queue.push
          rw [if_neg hlt, hq]
          exact List.perm_orderedInsert _ _ _
        refine (subperm_append hp.subperm (insert_subperm st.m_secondary e0.1 e0.2)).trans ?_
        rw [hq]
        have h1 : (((s, d) :: tl) ++ ((e0.1, e0.2) :: st.m_secondary.m_q)).Perm
            ((s, d) :: (e0 :: tl ++ st.m_secondary.m_q)) :=
          List.Perm.cons _ List.perm_middle
        refine h1.subperm.trans ?_
        exact (List.subperm_cons _).2 (List.sublist_cons_self _ _).subperm

/-- A docid that belongs to the query and that no cursor has moved past is at or beyond
some cursor. -/
theorem cursor_le_of_unseen {md : Nat} {cursors cs : List (Cursor S)}
    (hwf : well_formed md cursors) (ht : tracks cursors cs) {pid : Nat}
    (hD : pid ∈ all_docids cursors) (hun : seen cs pid = false) :
    ∃ c ∈ cs, c.docid ≤ pid := by
  have hok := tracks_ok hwf ht
  rw [tracks_mem_all_docids ht] at hD
  obtain ⟨c, hc, hdc⟩ := hD
  rw [Cursor.mem_postings_iff] at hdc
  rcases hdc with h | h
  · have : seen cs pid = true := (seen_iff _ pid).2 ⟨c, hc, h⟩
    rw [hun] at this
    exact absurd this (by decide)
  · exact ⟨c, hc, (Cursor.docid_le_of_mem_ahead (hok c hc) h).1⟩

theorem documents_and_sentinels_cons (cursors : List (Cursor S)) (D : List Nat) (n pid : Nat) :
    documents_and_sentinels cursors (pid :: D) n =
      (exhaustive_score cursors pid, pid) :: documents_and_sentinels cursors D n := rfl

theorem documents_and_sentinels_succ (cursors : List (Cursor S)) (D : List Nat) (n : Nat) :
    (documents_and_sentinels cursors D (n + 1)).Perm
      ((0, 0) :: documents_and_sentinels cursors D n) := by
  unfold documents_and_sentinels
  rw [List.replicate_succ]
  exact List.perm_middle

/-- The invariant of the entries at the start: both heaps are empty. -/
theorem scored_entries_inv_start (cursors : List (Cursor S)) (st : driver_state S)
    (h1 : st.m_topk.m_q = []) (h2 : st.m_secondary.m_q = []) :
    scored_entries_inv cursors [] 0 st := by
  refine ⟨List.nodup_nil, fun d hd => absurd hd (List.not_mem_nil _), ?_⟩
  rw [h1, h2]
  exact List.Subperm.refl _

/-- One iteration of stage one of `method_three` that leaves a state: the invariant of the
loop and the invariant of the entries hold again. -/
theorem method_three_entries_step {md k k2 : Nat} {cursors : List (Cursor S)}
    (hwf : well_formed md cursors) (hk : 0 < k) (a b : driver_state S)
    (hP : method_three_inv md k k2 cursors a ∧ ∃ D n, scored_entries_inv cursors D n a)
    (hb : block_max_wand_query.loop_body capture_method_three md a = loop_step.next b ∨
      block_max_wand_query.loop_body capture_method_three md a = loop_step.exit b) :
    method_three_inv md k k2 cursors b ∧ ∃ D n, scored_entries_inv cursors D n b := by
  obtain ⟨hinv, D, n, hD, hbits, hsub⟩ := hP
  have hstep := method_three_stage_one_step hwf hk a hinv
  obtain ⟨hbase, ⟨P, T, hwalk⟩, O, Z, hc⟩ := hinv
  have hinv : method_three_inv md k k2 cursors a := ⟨hbase, ⟨P, T, hwalk⟩, O, Z, hc⟩
  rcases bmw_loop_body_shape capture_method_three hwf a hwalk hc.beyond with
    ⟨hfp, hbody⟩ | ⟨pid, s, cs2, hs, hbody⟩ | ⟨cs2, hj, hbody⟩
  · rw [hbody] at hb
    rcases hb with hb | hb
    · exact loop_step.noConfusion hb
    · rw [← loop_step.exit.inj hb]
      exact ⟨hinv, D, n, hD, hbits, hsub⟩
  · rw [hbody] at hstep hb
    cases hcap : capture_method_three a s pid with
    | none =>
      simp only [hcap] at hb
      rcases hb with hb | hb <;> exact loop_step.noConfusion hb
    | some st1 =>
      simp only [hcap] at hstep hb
      rcases hb with hb | hb
      · rw [← loop_step.next.inj hb]
        refine ⟨hstep.1, pid :: D, n + 1, ?_, ?_, ?_⟩
        · refine List.nodup_cons.2 ⟨?_, hD⟩
          intro hmem
          have h1 := (hbits pid hmem).2
          rw [hs.2.2.2.2.1] at h1
          exact absurd h1 (by decide)
        · obtain ⟨hsc, _⟩ := capture_method_three_heaps a st1 s pid hcap
          have hlen : pid < a.scored.length := by
            rw [hc.bits_len]
            exact hs.2.2.1
          intro d hd
          show _ ∧ bit_test st1.scored d = true
          rw [hsc, bit_test_bit_set a.scored pid d hlen]
          rcases List.mem_cons.1 hd with h | h
          · exact ⟨by rw [h]; exact hs.2.1, Or.inr h⟩
          · exact ⟨(hbits d h).1, Or.inl (hbits d h).2⟩
        · obtain ⟨_, hsp⟩ := capture_method_three_heaps a st1 s pid hcap
          show (st1.m_topk.m_q ++ st1.m_secondary.m_q).Subperm _
          refine hsp.trans ?_
          rw [documents_and_sentinels_cons, ← hs.1]
          refine (List.subperm_cons _).2 ?_
          refine List.Subperm.trans ?_ (documents_and_sentinels_succ cursors D n).symm.subperm
          exact (List.subperm_cons _).2 hsub
      · exact loop_step.noConfusion hb
  · rw [hbody] at hstep hb
    rcases hb with hb | hb
    · rw [← loop_step.next.inj hb]
      exact ⟨hstep.1, D, n, hD, hbits, hsub⟩
    · exact loop_step.noConfusion hb

/-- The stage transition changes the cursors only. -/
theorem bmw_stage_transition_fields (s1 st2 : driver_state S)
    (h : block_max_wand_query.stage_transition s1 = some st2) :
    st2.m_topk = s1.m_topk ∧ st2.m_secondary = s1.m_secondary ∧ st2.scored = s1.scored := by
  unfold block_max_wand_query.stage_transition at h
  cases hd : s1.m_cyclic.displaced_id s1.m_secondary.threshold with
  | none => rw [hd] at h; exact Option.noConfusion h
  | some lb =>
    rw [hd] at h
    rw [← Option.some.inj h]
    exact ⟨rfl, rfl, rfl⟩

/-- One iteration of stage two of `method_three` that leaves a state: the invariant of the
loop and the invariant of the entries hold again. -/
theorem stage_two_entries_step {md k2 : Nat} {cursors : List (Cursor S)} {T1 : topk_queue S}
    {bits : List Bool} (hwf : well_formed md cursors) (a b : driver_state S)
    (hP : stage_two_safe_inv md k2 cursors T1 bits a ∧ ∃ D n, entries_inv cursors D n a)
    (hb : block_max_wand_query.stage_two_body md a = loop_step.next b ∨
      block_max_wand_query.stage_two_body md a = loop_step.exit b) :
    stage_two_safe_inv md k2 cursors T1 bits b ∧ ∃ D n, entries_inv cursors D n b := by
  obtain ⟨hinv, D, n, hD, hfresh, hsub⟩ := hP
  have hstep := stage_two_safe_step hwf a hinv
  obtain ⟨⟨P, T, hwalk⟩, O, Z, Sc2, hr⟩ := hinv
  have hinv : stage_two_safe_inv md k2 cursors T1 bits a := ⟨⟨P, T, hwalk⟩, O, Z, Sc2, hr⟩
  have hbits := hr.bits_eq
  have hwalk2 : walk_inv md cursors a.ordered_cursors a.m_secondary a.scored P T := by
    rw [hbits]; exact hwalk
  rcases bmw_stage_two_shape hwf a hwalk2 with
    ⟨hfp, hbody⟩ | ⟨pid, s, cs2, hs, hbit, hbody⟩ | ⟨cs2, hj, hbody⟩
  · rw [hbody] at hb
    rcases hb with hb | hb
    · exact loop_step.noConfusion hb
    · rw [← loop_step.exit.inj hb]
      exact ⟨hinv, D, n, hD, hfresh, hsub⟩
  · rw [hbody] at hstep hb
    rcases hb with hb | hb
    · rw [← loop_step.next.inj hb]
      obtain ⟨hsx, hpidD, hlive, hunseen, _, hge, hbeyond, hmono, _⟩ := hs
      obtain ⟨c0, hc0, hc0le⟩ := cursor_le_of_unseen hwf hwalk.tracks hpidD hunseen
      refine ⟨hstep.1, pid :: D, n, ?_, ?_, ?_⟩
      · refine List.nodup_cons.2 ⟨?_, hD⟩
        intro hmem
        rcases (hfresh pid hmem).2 with h1 | h1
        · rw [hbit] at h1
          exact absurd h1 (by decide)
        · have := h1 c0 hc0
          omega
      · intro d hd
        rcases List.mem_cons.1 hd with h | h
        · rw [h]
          exact ⟨hpidD, Or.inr hbeyond⟩
        · refine ⟨(hfresh d h).1, ?_⟩
          rcases (hfresh d h).2 with h1 | h1
          · exact Or.inl h1
          · right
            intro c2 hc2
            obtain ⟨c, hcm, hle⟩ := hmono c2 hc2
            exact lt_of_lt_of_le (h1 c hcm) hle
      · show (a.m_topk.m_q ++ (a.m_secondary.insert s pid).2.m_q).Subperm _
        refine (subperm_append (List.Subperm.refl _)
          (insert_subperm a.m_secondary s pid)).trans ?_
        refine (List.perm_middle.subperm).trans ?_
        rw [documents_and_sentinels_cons, ← hsx]
        exact (List.subperm_cons _).2 hsub
    · exact loop_step.noConfusion hb
  · rw [hbody] at hstep hb
    rcases hb with hb | hb
    · rw [← loop_step.next.inj hb]
      obtain ⟨_, _, _, hmono⟩ := hj
      refine ⟨hstep.1, D, n, hD, ?_, hsub⟩
      intro d hd
      refine ⟨(hfresh d hd).1, ?_⟩
      rcases (hfresh d hd).2 with h1 | h1
      · exact Or.inl h1
      · right
        intro c2 hc2
        obtain ⟨c, hcm, hle⟩ := hmono c2 hc2
        exact lt_of_lt_of_le (h1 c hcm) hle
    · exact loop_step.noConfusion hb

end pisa

namespace pisa

variable {S : Type} [LinearOrderedCommSemiring S]

/-! ## Proofs: a query with enough documents of positive score -/

theorem take_positive_of_sorted :
    ∀ (Ls : List S), Ls.Sorted (fun a b => b ≤ a) → ∀ n, n ≤ (positive Ls).length →
      ∀ x ∈ Ls.take n, 0 < x := by
  intro Ls
  induction Ls with
  | nil => intro _ n _ x hx; simp at hx
  | cons a t ih =>
    intro hs n hn x hx
    cases n with
    | zero => simp at hx
    | succ m =>
      have hs2 := List.sorted_cons.1 hs
      by_cases ha : 0 < a
      · have hp : positive (a :: t) = a :: positive t := by
          unfold positive
          rw [List.filter_cons_of_pos (by simpa using ha)]
        rw [hp, List.length_cons] at hn
        rw [List.take_succ_cons] at hx
        rcases List.mem_cons.1 hx with h | h
        · rw [h]; exact ha
        · exact ih hs2.2 m (by omega) x h
      · have hp : positive (a :: t) = [] := by
          unfold positive
          rw [List.filter_eq_nil_iff]
          intro y hy
          rcases List.mem_cons.1 hy with h | h
          · rw [h]; simpa using ha
          · have := hs2.1 y h
            have hy0 : ¬ 0 < y := fun h0 => ha (lt_of_lt_of_le h0 this)
            simpa using hy0
        rw [hp] at hn
        exact absurd hn (by simp)

/-- With at least `n` positive scores, the `n` highest scores are `n` positive scores. -/
theorem best_positive (n : Nat) (L : List S) (h : n ≤ (positive L).length) :
    (∀ x ∈ best n L, 0 < x) ∧ (best n L).length = n := by
  have hperm : (L.insertionSort (fun a b => b ≤ a)).Perm L := List.perm_insertionSort _ L
  have hlen : (positive (L.insertionSort (fun a b => b ≤ a))).length = (positive L).length :=
    (hperm.filter _).length_eq
  constructor
  · exact take_positive_of_sorted _ (sorted_insertionSort_ge L) n (by rw [hlen]; exact h)
  · unfold best
    rw [List.length_take, hperm.length_eq]
    have : (positive L).length ≤ L.length := List.length_filter_le _ _
    omega

theorem positive_eq_self {l : List S} (h : ∀ x ∈ l, 0 < x) : positive l = l := by
  unfold positive
  rw [List.filter_eq_self]
  intro x hx
  simpa using h x hx

/-- A list whose positive scores are as many as its entries has positive scores only. -/
theorem all_positive_of_length {l : List S} (h : l.length ≤ (positive l).length) :
    ∀ x ∈ l, 0 < x := by
  have hsub : (positive l).Sublist l := List.filter_sublist l
  have heq : positive l = l := hsub.eq_of_length_le h
  intro x hx
  rw [← heq] at hx
  have := (List.mem_filter.1 hx).2
  simpa using this

theorem heap_length_le {q : topk_queue S} {L : List S} (h : heap_inv q L) :
    q.m_q.length ≤ q.m_k := by
  obtain ⟨_, R, _, hlen, _⟩ := h
  rw [List.length_map] at hlen
  exact hlen

/-! ## Proofs: `block_max_wand_query::method_three` end to end, with the entries -/

/-- On a well-formed query with valid block bounds, `method_three` with fresh queues of
capacities `k > 0` and `k2 > 0` returns; the positive scores of the two heaps are the
positive scores of the exhaustive top-`(k + k2)`; the heaps are within their capacities; and
their entries are among distinct documents of the query with their exhaustive scores and
zero sentinels. -/
theorem method_three_run_entries {md k k2 : Nat} {cursors : List (Cursor S)}
    (hwf : well_formed_block_max md cursors) (hk : 0 < k) (hk2 : 0 < k2) :
    ∃ w, block_max_wand_query.method_three
        { m_topk := topk_queue.create k, m_secondary := topk_queue.create k2,
          m_cyclic := cyclic_queue.create k2 } cursors md = some w ∧
      (positive ((w.m_topk.m_q ++ w.m_secondary.m_q).map Prod.fst)).Perm
        (positive ((topk_exhaustive cursors (k + k2)).map Prod.fst)) ∧
      w.m_topk.m_q.length ≤ k ∧ w.m_secondary.m_q.length ≤ k2 ∧
      ∃ D n, D.Nodup ∧ (∀ d ∈ D, d ∈ all_docids cursors) ∧
        (w.m_topk.m_q ++ w.m_secondary.m_q).Subperm (documents_and_sentinels cursors D n) := by
  have hwf1 := well_formed_of_block_max hwf
  unfold block_max_wand_query.method_three
  by_cases he : cursors.isEmpty = true
  · rw [if_pos he]
    refine ⟨_, rfl, ?_, Nat.zero_le _, Nat.zero_le _, [], 0, List.nodup_nil,
      fun d hd => absurd hd (List.not_mem_nil _), List.Subperm.refl _⟩
    have : cursors = [] := List.isEmpty_iff.1 he
    subst this
    simp [topk_exhaustive, all_docids, topk_queue.create, positive]
  · rw [if_neg he]
    obtain ⟨s1, hrun1, hpost⟩ := @method_three_stage_one_run S _ md k k2 cursors hwf hk hk2
    have hcv : (cyclic_queue.create k2 : cyclic_queue S).valid := by
      refine ⟨?_, hk2⟩
      simp [cyclic_queue.create]
    have hstart : method_three_inv md k k2 cursors
        (block_max_wand_query.start
          { m_topk := topk_queue.create k, m_secondary := topk_queue.create k2,
            m_cyclic := cyclic_queue.create k2 } cursors (bit_vector_builder md)) := by
      refine ⟨⟨⟨prune_inv_start k hwf1, rfl, fun _ => hcv⟩, 0, block_inv_start _ hwf⟩,
        ⟨0, 0, ?_⟩, [], [], capture_inv_start k k2 hwf1 hk2⟩
      apply walk_inv_start _ _ (tracks_self cursors)
      · intro c hc
        exact ⟨(hwf c hc).2.2, (hwf c hc).2.1⟩
      · intro d hs _
        rw [seen_of_well_formed hwf1] at hs
        exact absurd hs (by decide)
    obtain ⟨_, D1, n1, hD1, hbits1, hsub1⟩ := run_loop_preserves
      (block_max_wand_query.loop_body capture_method_three md)
      (fun st => method_three_inv md k k2 cursors st ∧
        ∃ D n, scored_entries_inv cursors D n st)
      (fun a b hP hb => method_three_entries_step hwf1 hk a b hP (Or.inl hb))
      (fun a b hP hb => method_three_entries_step hwf1 hk a b hP (Or.inr hb))
      _ _ s1 ⟨hstart, [], 0, scored_entries_inv_start cursors _ rfl rfl⟩ hrun1
    obtain ⟨st2, htr, hinv2, hrem⟩ := stage_two_start hwf s1 hpost
    obtain ⟨f1, f2, f3⟩ := bmw_stage_transition_fields s1 st2 htr
    have hent2 : entries_inv cursors D1 n1 st2 := by
      refine ⟨hD1, ?_, ?_⟩
      · intro d hd
        refine ⟨(hbits1 d hd).1, Or.inl ?_⟩
        rw [f3]
        exact (hbits1 d hd).2
      · rw [f1, f2]
        exact hsub1
    obtain ⟨s3, hrun2, ⟨⟨P, T, hwalk⟩, O, Z, Sc2, hr⟩, hfp⟩ :=
      method_three_stage_two_run hwf1 st2 hinv2 hrem
    obtain ⟨_, D, n, hD, hfresh, hsub⟩ := run_loop_preserves
      (block_max_wand_query.stage_two_body md)
      (fun st => stage_two_safe_inv md k2 cursors s1.m_topk s1.scored st ∧
        ∃ D n, entries_inv cursors D n st)
      (fun a b hP hb => stage_two_entries_step hwf1 a b hP (Or.inl hb))
      (fun a b hP hb => stage_two_entries_step hwf1 a b hP (Or.inr hb))
      _ _ s3 ⟨hinv2, D1, n1, hent2⟩ hrun2
    rw [hrun1]
    simp only [Option.some_bind, htr, hrun2, Option.map_some']
    refine ⟨_, rfl, ?_, ?_, ?_, D, n, hD, fun d hd => (hfresh d hd).1, hsub⟩
    · show (positive ((s3.m_topk.m_q ++ s3.m_secondary.m_q).map Prod.fst)).Perm _
      rw [topk_exhaustive_scores, hr.primary]
      exact union_positive hpost.1.1 hpost.1.2.1 hr (stage_two_cover hwf1 hwalk hr hfp)
    · show s3.m_topk.m_q.length ≤ k
      rw [hr.primary]
      have := heap_length_le hpost.1.1
      rw [hpost.1.2.1] at this
      exact this
    · show s3.m_secondary.m_q.length ≤ k2
      have := heap_length_le hr.sec_heap
      rw [hr.sec_k] at this
      exact this

/-- What follows for the entries of the two heaps from the facts of `method_three_run_entries`:
every entry is the zero sentinel or a document with its exhaustive score, no document occurs
twice, and with at least `k + k2` documents of positive score the heaps are full of distinct
documents whose scores are those of the exhaustive top-`(|H1| + |H2|)`. -/
theorem union_entries {k k2 : Nat} {cursors : List (Cursor S)} {H1 H2 : List (S × Nat)}
    {D : List Nat} {n : Nat}
    (hpos : (positive ((H1 ++ H2).map Prod.fst)).Perm
      (positive ((topk_exhaustive cursors (k + k2)).map Prod.fst)))
    (h1 : H1.length ≤ k) (h2 : H2.length ≤ k2) (hD : D.Nodup)
    (hDd : ∀ d ∈ D, d ∈ all_docids cursors)
    (hsub : (H1 ++ H2).Subperm (documents_and_sentinels cursors D n)) :
    (∀ e ∈ H1 ++ H2, e = (0, 0) ∨
      (e.2 ∈ all_docids cursors ∧ e.1 = exhaustive_score cursors e.2)) ∧
    (((H1 ++ H2).filter (fun e => decide (e ≠ (0, 0)))).map Prod.snd).Nodup ∧
    (k + k2 ≤ (positive ((all_docids cursors).map (exhaustive_score cursors))).length →
      H1.length = k ∧ H2.length = k2 ∧
      (∀ e ∈ H1 ++ H2, 0 < e.1 ∧ e.2 ∈ all_docids cursors ∧
        e.1 = exhaustive_score cursors e.2) ∧
      ((H1 ++ H2).map Prod.snd).Nodup ∧
      ((H1 ++ H2).map Prod.fst).Perm
        ((topk_exhaustive cursors (H1.length + H2.length)).map Prod.fst)) := by
  have hmem : ∀ e ∈ H1 ++ H2, e = (0, 0) ∨
      (e.2 ∈ all_docids cursors ∧ e.1 = exhaustive_score cursors e.2) := by
    intro e he
    have h := hsub.subset he
    unfold documents_and_sentinels at h
    rcases List.mem_append.1 h with h | h
    · obtain ⟨d, hd, rfl⟩ := List.mem_map.1 h
      exact Or.inr ⟨hDd d hd, rfl⟩
    · exact Or.inl (List.eq_of_mem_replicate h)
  have hnd : (((H1 ++ H2).filter (fun e => decide (e ≠ (0, 0)))).map Prod.snd).Nodup := by
    have hf : ((H1 ++ H2).filter (fun e : S × Nat => decide (e ≠ (0, 0)))).Subperm
        ((D.map (fun d => (exhaustive_score cursors d, d))).filter
            (fun e : S × Nat => decide (e ≠ (0, 0))) ++
          (List.replicate n ((0 : S), 0)).filter (fun e : S × Nat => decide (e ≠ (0, 0)))) := by
      rw [← List.filter_append]
      exact List.Subperm.filter _ hsub
    have hz : (List.replicate n ((0 : S), 0)).filter (fun e => decide (e ≠ (0, 0))) = [] := by
      rw [List.filter_eq_nil_iff]
      intro e he
      rw [List.eq_of_mem_replicate he]
      simp
    rw [hz, List.append_nil] at hf
    have hm := subperm_map Prod.snd hf
    have hs : (((D.map (fun d => (exhaustive_score cursors d, d))).filter
        (fun e => decide (e ≠ (0, 0)))).map Prod.snd).Sublist D := by
      have := (List.filter_sublist (p := fun e : S × Nat => decide (e ≠ (0, 0)))
        (D.map (fun d => (exhaustive_score cursors d, d)))).map Prod.snd
      rw [List.map_map] at this
      have e : (Prod.snd ∘ fun d => (exhaustive_score cursors d, d)) = id := rfl
      rw [e, List.map_id] at this
      exact this
    exact nodup_of_subperm hm (hD.sublist hs)
  refine ⟨hmem, hnd, ?_⟩
  intro hmany
  rw [topk_exhaustive_scores] at hpos
  obtain ⟨hbp, hbl⟩ := best_positive (k + k2) _ hmany
  rw [positive_eq_self hbp] at hpos
  have hlenE : ((H1 ++ H2).map Prod.fst).length ≤ k + k2 := by
    rw [List.length_map, List.length_append]
    omega
  have hlenP : (positive ((H1 ++ H2).map Prod.fst)).length = k + k2 := by
    rw [hpos.length_eq, hbl]
  have hallpos := all_positive_of_length (l := (H1 ++ H2).map Prod.fst) (by omega)
  have hEq : positive ((H1 ++ H2).map Prod.fst) = (H1 ++ H2).map Prod.fst :=
    positive_eq_self hallpos
  rw [hEq] at hpos hlenP
  rw [List.length_map, List.length_append] at hlenP
  have hpose : ∀ e ∈ H1 ++ H2, 0 < e.1 :=
    fun e he => hallpos e.1 (List.mem_map_of_mem _ he)
  have hne : ∀ e ∈ H1 ++ H2, e ≠ (0, 0) := by
    intro e he h0
    have := hpose e he
    rw [h0] at this
    exact absurd this (lt_irrefl _)
  have hfe : (H1 ++ H2).filter (fun e => decide (e ≠ (0, 0))) = H1 ++ H2 := by
    rw [List.filter_eq_self]
    intro e he
    exact decide_eq_true (hne e he)
  rw [hfe] at hnd
  refine ⟨by omega, by omega, ?_, hnd, ?_⟩
  · intro e he
    rcases hmem e he with h | h
    · exact absurd h (hne e he)
    · exact ⟨hpose e he, h.1, h.2⟩
  · rw [topk_exhaustive_scores]
    have : H1.length + H2.length = k + k2 := by omega
    rw [this]
    exact hpos

end pisa

namespace pisa

variable {S : Type} [LinearOrderedCommSemiring S]

/-- C1. For every well-formed query (docids of each list strictly increasing and below
`max_docid`, scores non-negative exact numbers bounded by `max_score()`) and every `k > 0`,
`wand_query::operator()` run with a fresh primary heap of capacity `k` returns, and the
primary heap then holds the same multiset of scores as the exhaustive disjunctive top-k. -/
theorem wand_query_call_exhaustive (max_docid k : Nat) (cursors : List (Cursor S))
    (secondary : topk_queue S) (cyclic : cyclic_queue S)
    (hwf : well_formed max_docid cursors) (hk : 0 < k) :
    ∃ w, wand_query.call
        { m_topk := topk_queue.create k, m_secondary := secondary, m_cyclic := cyclic }
        cursors max_docid = some w ∧
      ((w.m_topk.m_q.map Prod.fst : List S) : Multiset S) =
        (((topk_exhaustive cursors k).map Prod.fst : List S) : Multiset S) := by
  unfold wand_query.call
  by_cases he : cursors.isEmpty = true
  · rw [if_pos he]
    refine ⟨_, rfl, ?_⟩
    have : cursors = [] := List.isEmpty_iff.1 he
    subst this
    simp [topk_exhaustive, all_docids, topk_queue.create]
  · rw [if_neg he]
    obtain ⟨s1, hrun, hpost⟩ := wand_stage_one_run k capture_baseline (fun _ => True) hwf
      capture_baseline_ok
      (wand_query.start
        { m_topk := topk_queue.create k, m_secondary := secondary, m_cyclic := cyclic }
        cursors []) rfl rfl (fun _ => trivial)
    rw [hrun]
    refine ⟨wand_query.finish s1, rfl, ?_⟩
    rw [Multiset.coe_eq_coe]
    exact stage_one_post_scores hpost

/-- Witness for C1: the two-list scenario with `k = 2`. -/
theorem wand_query_call_exhaustive_witness :
    well_formed 6 scenario_lists ∧ 0 < 2 ∧
    ∃ w, wand_query.call
        { m_topk := topk_queue.create 2, m_secondary := topk_queue.create 0,
          m_cyclic := cyclic_queue.create 0 }
        scenario_lists 6 = some w ∧
      ((w.m_topk.m_q.map Prod.fst : List ℕ) : Multiset ℕ) =
        (((topk_exhaustive scenario_lists 2).map Prod.fst : List ℕ) : Multiset ℕ) :=
  have hwf : well_formed 6 scenario_lists := by
    intro c hc
    simp only [scenario_lists, List.mem_cons, List.mem_singleton, List.not_mem_nil,
      or_false] at hc
    rcases hc with rfl | rfl
    · refine ⟨rfl, rfl, by decide, ?_⟩
      intro p hp
      simp only [max_scored_cursor, List.mem_cons, List.mem_singleton, List.not_mem_nil,
        or_false] at hp
      rcases hp with rfl | rfl | rfl <;> decide
    · refine ⟨rfl, rfl, by decide, ?_⟩
      intro p hp
      simp only [max_scored_cursor, List.mem_cons, List.mem_singleton, List.not_mem_nil,
        or_false] at hp
      rcases hp with rfl | rfl | rfl <;> decide
  ⟨hwf, by decide, wand_query_call_exhaustive 6 2 scenario_lists _ _ hwf (by decide)⟩

end pisa

namespace pisa

variable {S : Type} [LinearOrderedCommSemiring S]

/-- C2. For every well-formed query whose block bounds are valid (every posting lies in a
block, the weighted bound `block_max_score() * query_weight()` of that block is at least its
score and no weighted bound is negative, `max_score()` bounds the whole list) and every
`k > 0`, `block_max_wand_query::operator()` run with a fresh primary heap of capacity `k`
returns, and the primary heap then holds the same multiset of scores as the exhaustive
disjunctive top-k, hence the same as baseline WAND, which also returns, on the same query. -/
theorem block_max_wand_query_call_exhaustive (max_docid k : Nat) (cursors : List (Cursor S))
    (secondary : topk_queue S) (cyclic : cyclic_queue S)
    (hwf : well_formed_block_max max_docid cursors) (hk : 0 < k) :
    ∃ w, block_max_wand_query.call
        { m_topk := topk_queue.create k, m_secondary := secondary, m_cyclic := cyclic }
        cursors max_docid = some w ∧
      ((w.m_topk.m_q.map Prod.fst : List S) : Multiset S) =
        (((topk_exhaustive cursors k).map Prod.fst : List S) : Multiset S) ∧
      ∃ w0, wand_query.call
          { m_topk := topk_queue.create k, m_secondary := secondary, m_cyclic := cyclic }
          cursors max_docid = some w0 ∧
        ((w.m_topk.m_q.map Prod.fst : List S) : Multiset S) =
          ((w0.m_topk.m_q.map Prod.fst : List S) : Multiset S) := by
  unfold block_max_wand_query.call wand_query.call
  by_cases he : cursors.isEmpty = true
  · rw [if_pos he, if_pos he]
    refine ⟨_, rfl, ?_, _, rfl, rfl⟩
    have : cursors = [] := List.isEmpty_iff.1 he
    subst this
    simp [topk_exhaustive, all_docids, topk_queue.create]
  · rw [if_neg he, if_neg he]
    obtain ⟨s1, hrun, hpost⟩ := bmw_stage_one_run k capture_baseline (fun _ => True) hwf
      capture_baseline_ok
      (block_max_wand_query.start
        { m_topk := topk_queue.create k, m_secondary := secondary, m_cyclic := cyclic }
        cursors []) rfl rfl (fun _ => trivial)
    obtain ⟨s0, hrun0, hpost0⟩ := wand_stage_one_run k capture_baseline (fun _ => True)
      (well_formed_of_block_max hwf) capture_baseline_ok
      (wand_query.start
        { m_topk := topk_queue.create k, m_secondary := secondary, m_cyclic := cyclic }
        cursors []) rfl rfl (fun _ => trivial)
    rw [hrun, hrun0]
    refine ⟨block_max_wand_query.finish s1, rfl, ?_, wand_query.finish s0, rfl, ?_⟩
    · rw [Multiset.coe_eq_coe]
      exact stage_one_post_scores hpost
    · rw [Multiset.coe_eq_coe]
      exact (stage_one_post_scores hpost).trans (stage_one_post_scores hpost0).symm

/-- Witness for C2: the two-list scenario with block tables, `k = 2`. -/
theorem block_max_wand_query_call_exhaustive_witness :
    well_formed_block_max 6 scenario_block_lists ∧ 0 < 2 ∧
    ∃ w, block_max_wand_query.call
        { m_topk := topk_queue.create 2, m_secondary := topk_queue.create 0,
          m_cyclic := cyclic_queue.create 0 }
        scenario_block_lists 6 = some w ∧
      ((w.m_topk.m_q.map Prod.fst : List ℕ) : Multiset ℕ) =
        (((topk_exhaustive scenario_block_lists 2).map Prod.fst : List ℕ) : Multiset ℕ) ∧
      ∃ w0, wand_query.call
          { m_topk := topk_queue.create 2, m_secondary := topk_queue.create 0,
            m_cyclic := cyclic_queue.create 0 }
          scenario_block_lists 6 = some w0 ∧
        ((w.m_topk.m_q.map Prod.fst : List ℕ) : Multiset ℕ) =
          ((w0.m_topk.m_q.map Prod.fst : List ℕ) : Multiset ℕ) :=
  have hwf : well_formed_block_max 6 scenario_block_lists := by
    intro c hc
    simp only [scenario_block_lists, List.mem_cons, List.mem_singleton, List.not_mem_nil,
      or_false] at hc
    rcases hc with rfl | rfl
    · refine ⟨⟨rfl, rfl, by decide, ?_⟩, rfl, ?_, ?_, ?_⟩
      · intro p hp
        simp only [block_max_scored_cursor, List.mem_cons, List.mem_singleton,
          List.not_mem_nil, or_false] at hp
        rcases hp with rfl | rfl | rfl <;> decide
      · intro b hb
        exact Nat.zero_le _
      · intro p hp
        simp only [block_max_scored_cursor, List.mem_cons, List.mem_singleton,
          List.not_mem_nil, or_false] at hp
        rcases hp with rfl | rfl | rfl <;> decide
      · intro p hp j b hb hle hfirst
        simp only [block_max_scored_cursor, List.mem_cons, List.mem_singleton,
          List.not_mem_nil, or_false] at hp
        have hbm := List.getElem?_mem hb
        simp only [block_max_scored_cursor, List.mem_cons, List.mem_singleton,
          List.not_mem_nil, or_false] at hbm
        rcases hp with rfl | rfl | rfl <;> rcases hbm with rfl | rfl <;> decide
    · refine ⟨⟨rfl, rfl, by decide, ?_⟩, rfl, ?_, ?_, ?_⟩
      · intro p hp
        simp only [block_max_scored_cursor, List.mem_cons, List.mem_singleton,
          List.not_mem_nil, or_false] at hp
        rcases hp with rfl | rfl | rfl <;> decide
      · intro b hb
        exact Nat.zero_le _
      · intro p hp
        simp only [block_max_scored_cursor, List.mem_cons, List.mem_singleton,
          List.not_mem_nil, or_false] at hp
        rcases hp with rfl | rfl | rfl <;> decide
      · intro p hp j b hb hle hfirst
        simp only [block_max_scored_cursor, List.mem_cons, List.mem_singleton,
          List.not_mem_nil, or_false] at hp
        have hbm := List.getElem?_mem hb
        simp only [block_max_scored_cursor, List.mem_cons, List.mem_singleton,
          List.not_mem_nil, or_false] at hbm
        rcases hp with rfl | rfl | rfl <;> rcases hbm with rfl | rfl <;> decide
  ⟨hwf, by decide,
    block_max_wand_query_call_exhaustive 6 2 scenario_block_lists _ _ hwf (by decide)⟩

end pisa

namespace pisa

variable {S : Type} [LinearOrderedCommSemiring S]

/-- C3 (code evaluated at the failing input). On `rescoring_lists` with `k = 1`, `k' = 1`,
`wand_query::method_three` ends with docid 1 in the primary heap with its exhaustive score 10
and again in the secondary heap with the partial score 5, whereas the exhaustive top-2 is
docid 1 (score 10) and docid 3 (score 2): the union of the two heaps is not the exhaustive
top-(k + k'). -/
theorem method_three_union_not_exhaustive :
    wand_query.method_three
        { m_topk := topk_queue.create 1, m_secondary := topk_queue.create 1,
          m_cyclic := cyclic_queue.create 1 } rescoring_lists 4
      = some { m_topk := { m_k := 1, m_q := [(10, 1)] },
               m_secondary := { m_k := 1, m_q := [(5, 1)] },
               m_cyclic := { m_k := 1, m_index := 0, m_data := [(0, 1)] } } ∧
    topk_exhaustive rescoring_lists 2 = [(10, 1), (2, 3)] := by
  constructor
  · decide
  · decide

/-- C5 (code evaluated at the failing input). `rescoring_state` is the state in which
`wand_query::method_three` on `rescoring_lists` (`k = 1`, `k' = 1`) enters stage two; there
the pivot is cursor 0 with `pivot_id = 1`, whose bit is set in `scored`; the iteration
advances that cursor and then falls through into the scoring branch, which scores the other
cursor still at docid 1 and inserts `(5, 1)` into the secondary heap. -/
theorem stage_two_scores_scored_docid :
    ((run_loop (wand_query.loop_body capture_method_three 4) (loop_fuel rescoring_lists)
        (wand_query.start
          { m_topk := topk_queue.create 1, m_secondary := topk_queue.create 1,
            m_cyclic := cyclic_queue.create 1 } rescoring_lists (bit_vector_builder 4))).bind
      wand_query.stage_transition) = some rescoring_state ∧
    find_pivot rescoring_state.m_secondary 4 rescoring_state.ordered_cursors 0 0 = some 0 ∧
    rescoring_state.ordered_cursors.map Cursor.docid = [1, 1] ∧
    bit_test rescoring_state.scored 1 = true ∧
    (rescoring_state.m_secondary.insert 5 1).2 = { m_k := 1, m_q := [(5, 1)] } ∧
    wand_query.stage_two_body 4 rescoring_state =
      loop_step.next
        { ordered_cursors := rescoring_lists.map Cursor.next,
          m_topk := { m_k := 1, m_q := [(10, 1)] },
          m_secondary := { m_k := 1, m_q := [(5, 1)] },
          m_cyclic := { m_k := 1, m_index := 0, m_data := [(0, 1)] },
          scored := [false, true, false, false] } := by
  refine ⟨by decide, by decide, by decide, by decide, by decide, ?_⟩
  decide

/-- C7 (counterexample). On the two-list scenario, WAND Method 2 with `k = 1`, `k' = 2` does
not return a secondary ranking made of `(2, 2)` and `(2, 4)`. -/
theorem method_two_scenario_counterexample :
    ¬ ∃ secondary : List (ℕ × Nat),
      query_fun_wand_method_2 1 2 scenario_lists 6 = some ([(3, 3)], secondary) ∧
      secondary.Perm [(2, 2), (2, 4)] := by
  rintro ⟨secondary, h, hperm⟩
  have h2 : query_fun_wand_method_2 1 2 scenario_lists 6 = some ([(3, 3)], [(2, 2), (1, 1)]) := by
    decide
  rw [h2] at h
  have h3 : secondary = [(2, 2), (1, 1)] := by
    simpa using (congrArg (fun o => o.map Prod.snd) h).symm
  subst h3
  have := hperm.subset (List.mem_cons_of_mem _ (List.mem_singleton_self _))
  revert this
  decide

/-- C7 (amended). On the two-list scenario, WAND Method 2 with `k = 1`, `k' = 2` returns
primary `[(3, 3)]` and secondary `[(2, 2), (1, 1)]`: the secondary heap holds the two
documents that were scored and then evicted from the primary heap; docid 4 (score 2) is
pruned without being scored and is not captured. -/
theorem method_two_scenario :
    query_fun_wand_method_2 1 2 scenario_lists 6 = some ([(3, 3)], [(2, 2), (1, 1)]) := by
  decide

/-- C8. On the two-list scenario, WAND Method 3 with `k = 1`, `k' = 1` returns primary
`[(3, 3)]` and secondary `[(2, x)]` with `x` in `{2, 4}`, and the scores of the union are the
scores of the exhaustive top-2. -/
theorem method_three_scenario :
    ∃ x : Nat, (x = 2 ∨ x = 4) ∧
      query_fun_wand_method_3 1 1 scenario_lists 6 = some ([(3, 3)], [(2, x)]) ∧
      ([((3 : ℕ), 3)] ++ [(2, x)]).map Prod.fst
        = (topk_exhaustive scenario_lists 2).map Prod.fst :=
  ⟨2, Or.inl rfl, by decide, by decide⟩

end pisa

namespace pisa

variable {S : Type} [LinearOrderedCommSemiring S]

/-- C4 (counterexample). On the well-formed one-document query `single_document_lists`
(docid 1, score 5) with `k = 1`, `k' = 1`, `block_max_wand_query::method_three` ends with
the document in the primary heap and the zero sentinel `(0, 0)` in the secondary heap: stage
one inserts the sentinel that `insert_with_eviction` reports when nothing is evicted. The
union of the two heaps has two entries, the exhaustive top-2 of the query has one, and their
scores differ. -/
theorem method_three_union_sentinel_counterexample :
    well_formed_block_max 2 single_document_lists ∧
    ∃ w, block_max_wand_query.method_three
        { m_topk := topk_queue.create 1, m_secondary := topk_queue.create 1,
          m_cyclic := cyclic_queue.create 1 } single_document_lists 2 = some w ∧
      w.m_topk.m_q = [(5, 1)] ∧ w.m_secondary.m_q = [(0, 0)] ∧
      topk_exhaustive single_document_lists
        (w.m_topk.m_q.length + w.m_secondary.m_q.length) = [(5, 1)] ∧
      (((w.m_topk.m_q ++ w.m_secondary.m_q).map Prod.fst : List ℕ) : Multiset ℕ) ≠
        (((topk_exhaustive single_document_lists
          (w.m_topk.m_q.length + w.m_secondary.m_q.length)).map Prod.fst : List ℕ) :
          Multiset ℕ) := by
  refine ⟨?_, { m_topk := { m_k := 1, m_q := [(5, 1)] },
                m_secondary := { m_k := 1, m_q := [(0, 0)] },
                m_cyclic := { m_k := 1, m_index := 0, m_data := [(0, 1)] } },
    by decide, rfl, rfl, by decide, by decide⟩
  intro c hc
  simp only [single_document_lists, List.mem_singleton] at hc
  subst hc
  refine ⟨⟨rfl, rfl, by decide, ?_⟩, rfl, ?_, ?_, ?_⟩
  · intro p hp
    simp only [block_max_scored_cursor, List.mem_singleton] at hp
    subst hp
    decide
  · intro b hb
    exact Nat.zero_le _
  · intro p hp
    simp only [block_max_scored_cursor, List.mem_singleton] at hp
    subst hp
    decide
  · intro p hp j b hb hle hfirst
    simp only [block_max_scored_cursor, List.mem_singleton] at hp
    have hbm := List.getElem?_mem hb
    simp only [block_max_scored_cursor, List.mem_singleton] at hbm
    subst hp
    subst hbm
    decide

/-- C4 (amended). For every well-formed query with valid block bounds and all `k > 0`,
`k' > 0`, `block_max_wand_query::method_three` (reset loop read as an iteration over all
cursors, stage two writing into the one secondary heap), run with fresh heaps of capacities
`k` and `k'` and a fresh cyclic queue of capacity `k'`, returns. After stage two every entry
of the union of the primary and the secondary heap is the zero sentinel `(0, 0)` or a
document of the query with its exhaustive score, and no document occurs twice; the positive
scores of the union are, as a multiset, the positive scores of the exhaustive
top-`(k + k')`; and when the query has at least `k + k'` documents of positive score, both
heaps are full, every entry is a document of positive score with its exhaustive score, no
docid occurs twice, and the scores of the union are, as a multiset, the scores of the
exhaustive top-`(|H1| + |H2|)`. -/
theorem method_three_union_positive (max_docid k k2 : Nat) (cursors : List (Cursor S))
    (hwf : well_formed_block_max max_docid cursors) (hk : 0 < k) (hk2 : 0 < k2) :
    ∃ w, block_max_wand_query.method_three
        { m_topk := topk_queue.create k, m_secondary := topk_queue.create k2,
          m_cyclic := cyclic_queue.create k2 } cursors max_docid = some w ∧
      (∀ e ∈ w.m_topk.m_q ++ w.m_secondary.m_q, e = (0, 0) ∨
        (e.2 ∈ all_docids cursors ∧ e.1 = exhaustive_score cursors e.2)) ∧
      (((w.m_topk.m_q ++ w.m_secondary.m_q).filter
        (fun e => decide (e ≠ (0, 0)))).map Prod.snd).Nodup ∧
      ((positive ((w.m_topk.m_q ++ w.m_secondary.m_q).map Prod.fst) : List S) :
          Multiset S) =
        ((positive ((topk_exhaustive cursors (k + k2)).map Prod.fst) : List S) :
          Multiset S) ∧
      (k + k2 ≤ (positive ((all_docids cursors).map (exhaustive_score cursors))).length →
        w.m_topk.m_q.length = k ∧ w.m_secondary.m_q.length = k2 ∧
        (∀ e ∈ w.m_topk.m_q ++ w.m_secondary.m_q, 0 < e.1 ∧ e.2 ∈ all_docids cursors ∧
          e.1 = exhaustive_score cursors e.2) ∧
        ((w.m_topk.m_q ++ w.m_secondary.m_q).map Prod.snd).Nodup ∧
        (((w.m_topk.m_q ++ w.m_secondary.m_q).map Prod.fst : List S) : Multiset S) =
          (((topk_exhaustive cursors
            (w.m_topk.m_q.length + w.m_secondary.m_q.length)).map Prod.fst : List S) :
            Multiset S)) := by
  obtain ⟨w, hw, hp, h1, h2, D, n, hD, hDd, hsub⟩ :=
    @method_three_run_entries S _ max_docid k k2 cursors hwf hk hk2
  obtain ⟨g1, g2, g3⟩ := union_entries hp h1 h2 hD hDd hsub
  refine ⟨w, hw, g1, g2, Multiset.coe_eq_coe.2 hp, ?_⟩
  intro hmany
  obtain ⟨f1, f2, f3, f4, f5⟩ := g3 hmany
  exact ⟨f1, f2, f3, f4, Multiset.coe_eq_coe.2 f5⟩

/-- Witness for the amended C4: the two-list scenario with block tables, `k = 1`,
`k' = 1`; its five documents all have a positive score. -/
theorem method_three_union_positive_witness :
    well_formed_block_max 6 scenario_block_lists ∧ 0 < 1 ∧ 0 < 1 ∧
    ∃ w, block_max_wand_query.method_three
        { m_topk := topk_queue.create 1, m_secondary := topk_queue.create 1,
          m_cyclic := cyclic_queue.create 1 } scenario_block_lists 6 = some w ∧
      (∀ e ∈ w.m_topk.m_q ++ w.m_secondary.m_q, e = (0, 0) ∨
        (e.2 ∈ all_docids scenario_block_lists ∧
          e.1 = exhaustive_score scenario_block_lists e.2)) ∧
      (((w.m_topk.m_q ++ w.m_secondary.m_q).filter
        (fun e => decide (e ≠ (0, 0)))).map Prod.snd).Nodup ∧
      ((positive ((w.m_topk.m_q ++ w.m_secondary.m_q).map Prod.fst) : List ℕ) :
          Multiset ℕ) =
        ((positive ((topk_exhaustive scenario_block_lists (1 + 1)).map Prod.fst) : List ℕ) :
          Multiset ℕ) ∧
      (1 + 1 ≤ (positive ((all_docids scenario_block_lists).map
          (exhaustive_score scenario_block_lists))).length →
        w.m_topk.m_q.length = 1 ∧ w.m_secondary.m_q.length = 1 ∧
        (∀ e ∈ w.m_topk.m_q ++ w.m_secondary.m_q, 0 < e.1 ∧
          e.2 ∈ all_docids scenario_block_lists ∧
          e.1 = exhaustive_score scenario_block_lists e.2) ∧
        ((w.m_topk.m_q ++ w.m_secondary.m_q).map Prod.snd).Nodup ∧
        (((w.m_topk.m_q ++ w.m_secondary.m_q).map Prod.fst : List ℕ) : Multiset ℕ) =
          (((topk_exhaustive scenario_block_lists
            (w.m_topk.m_q.length + w.m_secondary.m_q.length)).map Prod.fst : List ℕ) :
            Multiset ℕ)) :=
  ⟨scenario_block_lists_well_formed, by decide, by decide,
    method_three_union_positive 6 1 1 scenario_block_lists scenario_block_lists_well_formed
      (by decide) (by decide)⟩

end pisa

namespace pisa

variable {S : Type} [LinearOrderedCommSemiring S]

/-- C6. For every well-formed query, every `k` and every cyclic queue in a valid state
(capacity `k' > 0`), the baseline `operator()` and `method_one`, `method_two`,
`method_three` of `wand_query`, run on the same cursors with a fresh primary heap of
capacity `k`, all return, and the primary heap after each method is the primary heap after
the baseline: the capture policies and stage two of Method 3 never change what enters or
leaves the primary heap. -/
theorem methods_keep_primary_heap (max_docid k : Nat) (cursors : List (Cursor S))
    (secondary : topk_queue S) (cyclic : cyclic_queue S)
    (hwf : well_formed max_docid cursors) (hcyclic : cyclic.valid) :
    ∃ w0 w1 w2 w3,
      wand_query.call
        { m_topk := topk_queue.create k, m_secondary := secondary, m_cyclic := cyclic }
        cursors max_docid = some w0 ∧
      wand_query.method_one
        { m_topk := topk_queue.create k, m_secondary := secondary, m_cyclic := cyclic }
        cursors max_docid = some w1 ∧
      wand_query.method_two
        { m_topk := topk_queue.create k, m_secondary := secondary, m_cyclic := cyclic }
        cursors max_docid = some w2 ∧
      wand_query.method_three
        { m_topk := topk_queue.create k, m_secondary := secondary, m_cyclic := cyclic }
        cursors max_docid = some w3 ∧
      w1.m_topk = w0.m_topk ∧ w2.m_topk = w0.m_topk ∧ w3.m_topk = w0.m_topk := by
  unfold wand_query.call wand_query.method_one wand_query.method_two wand_query.method_three
  by_cases he : cursors.isEmpty = true
  · simp only [if_pos he]
    exact ⟨_, _, _, _, rfl, rfl, rfl, rfl, rfl, rfl, rfl⟩
  · simp only [if_neg he]
    obtain ⟨r0, hrun0, hpost0⟩ := wand_stage_one_run k capture_baseline (fun _ => True) hwf
      capture_baseline_ok
      (wand_query.start
        { m_topk := topk_queue.create k, m_secondary := secondary, m_cyclic := cyclic }
        cursors []) rfl rfl (fun _ => trivial)
    obtain ⟨r1, hrun1, hsame1⟩ := @run_loop_same S _ max_docid capture_method_one
      (fun st => st.m_cyclic.valid) capture_method_one_ok (loop_fuel cursors)
      (wand_query.start
        { m_topk := topk_queue.create k, m_secondary := secondary, m_cyclic := cyclic }
        cursors []) _ r0 ⟨rfl, rfl, fun _ => hcyclic⟩ hrun0
    obtain ⟨r2, hrun2, hsame2⟩ := @run_loop_same S _ max_docid capture_method_two
      (fun _ => True) capture_method_two_ok (loop_fuel cursors)
      (wand_query.start
        { m_topk := topk_queue.create k, m_secondary := secondary, m_cyclic := cyclic }
        cursors []) _ r0 ⟨rfl, rfl, fun _ => trivial⟩ hrun0
    obtain ⟨r3, hrun3, hsame3⟩ := @run_loop_same S _ max_docid capture_method_three
      (fun st => st.m_cyclic.valid) capture_method_three_ok (loop_fuel cursors)
      (wand_query.start
        { m_topk := topk_queue.create k, m_secondary := secondary, m_cyclic := cyclic }
        cursors (bit_vector_builder max_docid))
      (wand_query.start
        { m_topk := topk_queue.create k, m_secondary := secondary, m_cyclic := cyclic }
        cursors []) r0 ⟨rfl, rfl, fun _ => hcyclic⟩ hrun0
    -- the stage transition of Method 3 is defined on a valid cyclic queue
    have hvalid3 : r3.m_cyclic.valid := hsame3.2.2 r3.ordered_cursors
    have hlt : r3.m_cyclic.displaced_slot r3.m_secondary.threshold < r3.m_cyclic.m_data.length :=
      cyclic_queue.displaced_slot_lt _ _ (by rw [hvalid3.1]; exact hvalid3.2)
    have htrans : wand_query.stage_transition r3 = some
        { r3 with ordered_cursors := sort_enums (r3.ordered_cursors.map (fun en =>
            en.reset.next_geq
              (r3.m_cyclic.m_data[r3.m_cyclic.displaced_slot r3.m_secondary.threshold]).2)) } := by
      unfold wand_query.stage_transition
      rw [cyclic_queue.displaced_id_eq, List.getElem?_eq_getElem hlt]
      rfl
    generalize (r3.m_cyclic.m_data[r3.m_cyclic.displaced_slot r3.m_secondary.threshold]).2 = lb
      at htrans
    -- stage two terminates and leaves the primary heap alone
    have hok0 := tracks_ok hwf hpost0.2.2.2.1
    have hinv2 : stage_two_inv max_docid r0.m_topk
        { r3 with ordered_cursors := sort_enums (r3.ordered_cursors.map (fun en =>
            en.reset.next_geq lb)) } := by
      refine ⟨?_, sort_enums_sorted _, hsame3.2.1⟩
      intro c hc
      have h1 := (sort_enums_perm _).subset hc
      obtain ⟨c2, hc2, rfl⟩ := List.mem_map.1 h1
      rw [hsame3.1] at hc2
      exact hok0 c2 hc2
    have hfuel : remaining (sort_enums (r3.ordered_cursors.map (fun en =>
        en.reset.next_geq lb))) < loop_fuel cursors := by
      rw [loop_fuel_eq]
      have h1 := remaining_le_total (sort_enums (r3.ordered_cursors.map (fun en =>
        en.reset.next_geq lb)))
      have h2 : total_postings (sort_enums (r3.ordered_cursors.map (fun en =>
          en.reset.next_geq lb))) = total_postings cursors := by
        rw [total_postings_perm (sort_enums_perm _),
          total_postings_map _ (fun en => en.reset.next_geq lb) (fun _ => rfl),
          hsame3.1, total_postings_tracks hpost0.2.2.2.1]
      omega
    obtain ⟨r4, hrun4, hpost4⟩ := run_loop_terminates (wand_query.stage_two_body max_docid)
      (stage_two_inv max_docid r0.m_topk) (fun s => s.m_topk = r0.m_topk)
      (fun s => remaining s.ordered_cursors) (wand_stage_two_step r0.m_topk)
      (loop_fuel cursors) _ hinv2 hfuel
    refine ⟨wand_query.finish r0, wand_query.finish r1, wand_query.finish r2,
      wand_query.finish r4, ?_, ?_, ?_, ?_, hsame1.2.1, hsame2.2.1, hpost4⟩
    · rw [hrun0]; rfl
    · rw [hrun1]; rfl
    · rw [hrun2]; rfl
    · rw [hrun3]
      simp only [Option.some_bind, htrans, hrun4, Option.map_some']

/-- Witness for C6: the two-list scenario, `k = 1`, secondary structures of capacity 2. -/
theorem methods_keep_primary_heap_witness :
    well_formed 6 scenario_lists ∧ (cyclic_queue.create 2 : cyclic_queue ℕ).valid ∧
    ∃ w0 w1 w2 w3,
      wand_query.call
        { m_topk := topk_queue.create 1, m_secondary := topk_queue.create 2,
          m_cyclic := cyclic_queue.create 2 } scenario_lists 6 = some w0 ∧
      wand_query.method_one
        { m_topk := topk_queue.create 1, m_secondary := topk_queue.create 2,
          m_cyclic := cyclic_queue.create 2 } scenario_lists 6 = some w1 ∧
      wand_query.method_two
        { m_topk := topk_queue.create 1, m_secondary := topk_queue.create 2,
          m_cyclic := cyclic_queue.create 2 } scenario_lists 6 = some w2 ∧
      wand_query.method_three
        { m_topk := topk_queue.create 1, m_secondary := topk_queue.create 2,
          m_cyclic := cyclic_queue.create 2 } scenario_lists 6 = some w3 ∧
      w1.m_topk = w0.m_topk ∧ w2.m_topk = w0.m_topk ∧ w3.m_topk = w0.m_topk :=
  have hwf : well_formed 6 scenario_lists := by
    intro c hc
    simp only [scenario_lists, List.mem_cons, List.mem_singleton, List.not_mem_nil,
      or_false] at hc
    rcases hc with rfl | rfl
    · refine ⟨rfl, rfl, by decide, ?_⟩
      intro p hp
      simp only [max_scored_cursor, List.mem_cons, List.mem_singleton, List.not_mem_nil,
        or_false] at hp
      rcases hp with rfl | rfl | rfl <;> decide
    · refine ⟨rfl, rfl, by decide, ?_⟩
      intro p hp
      simp only [max_scored_cursor, List.mem_cons, List.mem_singleton, List.not_mem_nil,
        or_false] at hp
      rcases hp with rfl | rfl | rfl <;> decide
  have hv : (cyclic_queue.create 2 : cyclic_queue ℕ).valid := ⟨rfl, by decide⟩
  ⟨hwf, hv, methods_keep_primary_heap 6 1 scenario_lists _ _ hwf hv⟩

end pisa

namespace pisa

variable {S : Type} [LinearOrderedCommSemiring S]

/-- C9. On a fresh `cyclic_queue` of capacity `k > 0`, any sequence of inserts `es` (numbered
from 0) succeeds and leaves the write index at `es.length % k`; slot `i` holds the last
inserted entry whose number is `i` modulo `k`, or the zero entry `(0, 0)` if there is none;
and once `k ≤ es.length` the `k` slots, read cyclically from the write index, are exactly the
last `k` inserted entries in insertion order. -/
theorem cyclic_queue_insert_sequence (k : Nat) (es : List (S × Nat)) (hk : 0 < k) :
    ∃ q : cyclic_queue S, cyclic_queue.insert_all (cyclic_queue.create k) es = some q ∧
      q.m_index = es.length % k ∧ q.m_data.length = k ∧
      (∀ i, i < k → q.m_data[i]? = some (cyclic_queue.last_insert_at k es i)) ∧
      (k ≤ es.length → q.m_data.rotate q.m_index = es.drop (es.length - k)) := by
  obtain ⟨q, hq, _, hlen, hidx, hslot, hrot⟩ := cyclic_queue.insert_all_create_inv k hk es
  refine ⟨q, hq, hidx, hlen, hslot, ?_⟩
  intro hle
  rw [hrot]
  have h1 : es.length = (List.replicate k ((0 : S), 0)).length + (es.length - k) := by
    rw [List.length_replicate]; omega
  conv_lhs => rw [h1]
  rw [List.drop_append]

/-- Witness for C9: capacity 3 and the four inserts of the specification's round-trip. -/
theorem cyclic_queue_insert_sequence_witness :
    0 < 3 ∧ ∃ q : cyclic_queue ℕ,
      cyclic_queue.insert_all (cyclic_queue.create 3) [(1, 10), (5, 20), (3, 30), (7, 40)]
        = some q ∧
      q.m_index = [((1 : ℕ), 10), (5, 20), (3, 30), (7, 40)].length % 3 ∧ q.m_data.length = 3 ∧
      (∀ i, i < 3 → q.m_data[i]? = some
        (cyclic_queue.last_insert_at 3 [(1, 10), (5, 20), (3, 30), (7, 40)] i)) ∧
      (3 ≤ [((1 : ℕ), 10), (5, 20), (3, 30), (7, 40)].length →
        q.m_data.rotate q.m_index
          = [((1 : ℕ), 10), (5, 20), (3, 30), (7, 40)].drop
              ([((1 : ℕ), 10), (5, 20), (3, 30), (7, 40)].length - 3)) :=
  ⟨by decide, cyclic_queue_insert_sequence 3 [(1, 10), (5, 20), (3, 30), (7, 40)] (by decide)⟩

/-- C10. In every valid `cyclic_queue` state (`k` slots, write index `w < k`),
`displaced_id(t)` returns the docid stored in the last slot, in the scan order
`w+1, ..., k-1, 0, ..., w-1`, whose score is at most `t`, and the docid stored at slot `w` when
no scanned slot qualifies; and on the queue with `k = 3` after inserting `(0.1, 10)`,
`(0.5, 20)`, `(0.3, 30)`, `(0.7, 40)` (write index 1, slots `(0.7, 40), (0.5, 20), (0.3, 30)`),
`displaced_id(0.4)` is 30. -/
theorem displaced_id_scan_contract (q : cyclic_queue S) (t : S) (hq : q.valid) :
    (∃ e, q.m_data[q.displaced_slot t]? = some e ∧ q.displaced_id t = some e.2) ∧
    (∃ q0 : cyclic_queue ℚ,
      cyclic_queue.insert_all (cyclic_queue.create 3)
        [(1 / 10, 10), (1 / 2, 20), (3 / 10, 30), (7 / 10, 40)] = some q0 ∧
      q0.m_index = 1 ∧ q0.m_data = [(7 / 10, 40), (1 / 2, 20), (3 / 10, 30)] ∧
      q0.displaced_id (2 / 5) = some 30) := by
  constructor
  · have hlt : q.displaced_slot t < q.m_data.length :=
      cyclic_queue.displaced_slot_lt q t (by rw [hq.1]; exact hq.2)
    refine ⟨q.m_data[q.displaced_slot t], List.getElem?_eq_getElem hlt, ?_⟩
    rw [cyclic_queue.displaced_id_eq, List.getElem?_eq_getElem hlt]
    rfl
  · refine ⟨⟨3, 1, [(7 / 10, 40), (1 / 2, 20), (3 / 10, 30)]⟩, ?_, rfl, rfl, ?_⟩
    · simp [cyclic_queue.insert_all, cyclic_queue.insert, cyclic_queue.create, List.replicate]
    · rw [cyclic_queue.displaced_id_eq]
      have h : cyclic_queue.displaced_slot
          (⟨3, 1, [(7 / 10, 40), (1 / 2, 20), (3 / 10, 30)]⟩ : cyclic_queue ℚ) (2 / 5) = 2 := by
        simp [cyclic_queue.displaced_slot, cyclic_queue.scan_order, cyclic_queue.qualifies,
          List.range', List.range, List.range.loop, List.filter]
        norm_num
      rw [h]
      rfl

/-- Witness for C10: the queue of the specification's round-trip is a valid state. -/
theorem displaced_id_scan_contract_witness :
    (⟨3, 1, [(7, 40), (5, 20), (3, 30)]⟩ : cyclic_queue ℕ).valid ∧
    ((∃ e, (⟨3, 1, [(7, 40), (5, 20), (3, 30)]⟩ : cyclic_queue ℕ).m_data[
        (⟨3, 1, [(7, 40), (5, 20), (3, 30)]⟩ : cyclic_queue ℕ).displaced_slot 4]? = some e ∧
      (⟨3, 1, [(7, 40), (5, 20), (3, 30)]⟩ : cyclic_queue ℕ).displaced_id 4 = some e.2) ∧
    (∃ q0 : cyclic_queue ℚ,
      cyclic_queue.insert_all (cyclic_queue.create 3)
        [(1 / 10, 10), (1 / 2, 20), (3 / 10, 30), (7 / 10, 40)] = some q0 ∧
      q0.m_index = 1 ∧ q0.m_data = [(7 / 10, 40), (1 / 2, 20), (3 / 10, 30)] ∧
      q0.displaced_id (2 / 5) = some 30)) :=
  ⟨⟨rfl, by decide⟩, displaced_id_scan_contract _ 4 ⟨rfl, by decide⟩⟩

end pisa

namespace pisa

variable {S : Type} [LinearOrderedCommSemiring S]

/-- C11. The code does not do what the claim and the comment above `displaced_id` ("Finds
the largest score which is <= threshold") say. The queue of capacity 3 after the inserts
`(9, 10)`, `(5, 50)`, `(3, 30)` is a valid state (write index 0) with entries of score at
most 6, and `displaced_id(6)` returns 30, the docid of the last scanned slot; its score 3 is
not the largest score `≤ 6` in the queue, which is 5 (docid 50), and no entry of docid 30 has
that score. -/
theorem displaced_id_not_largest :
    cyclic_queue.insert_all (cyclic_queue.create 3) [(9, 10), (5, 50), (3, 30)]
      = some unordered_queue ∧
    unordered_queue.valid ∧ (∃ e ∈ unordered_queue.m_data, e.1 ≤ 6) ∧
    unordered_queue.displaced_id 6 = some 30 ∧
    ¬ (∃ d, unordered_queue.displaced_id 6 = some d ∧ unordered_queue.largest_below 6 d) := by
  refine ⟨by decide, by decide, ⟨(5, 50), by decide, by decide⟩, by decide, ?_⟩
  rintro ⟨d, hd, e, he, hed, _, hmax⟩
  have h30 : unordered_queue.displaced_id 6 = some 30 := by decide
  rw [h30] at hd
  have hd30 : d = 30 := (Option.some.inj hd).symm
  subst hd30
  have h5 := hmax (5, 50) (by decide) (by decide)
  have he3 : e = (3, 30) := by
    simp only [unordered_queue, List.mem_cons, List.mem_singleton, List.not_mem_nil,
      or_false] at he
    rcases he with rfl | rfl | rfl
    · exact absurd hed (by decide)
    · exact absurd hed (by decide)
    · rfl
  rw [he3] at h5
  exact absurd h5 (by decide)

/-- C12. After `n` inserts `es` on a fresh `cyclic_queue` of capacity `k > 0`, `threshold()`
returns the score stored at the write index; that is 0 when `n < k`, and otherwise the score
of `es[n - k]` (the entry `e_{n-k+1}` counting from 1), the oldest of the last `k` inserted
entries, which is the entry held by the slot the next insert overwrites. -/
theorem cyclic_queue_threshold_after_inserts (k : Nat) (es : List (S × Nat)) (hk : 0 < k) :
    ∃ q : cyclic_queue S, cyclic_queue.insert_all (cyclic_queue.create k) es = some q ∧
      q.threshold = (q.m_data[q.m_index]?).map Prod.fst ∧
      (es.length < k → q.threshold = some 0) ∧
      (k ≤ es.length → ∃ e, es[es.length - k]? = some e ∧ q.m_data[q.m_index]? = some e ∧
        q.threshold = some e.1 ∧
        ∀ s d, ∃ q1, q.insert s d = some q1 ∧ q1.m_data = q.m_data.set q.m_index (s, d)) := by
  obtain ⟨q, hq, hqk, hlen, hidx, _, hrot⟩ := cyclic_queue.insert_all_create_inv k hk es
  have hw : q.m_index < q.m_data.length := by
    rw [hlen, hidx]; exact Nat.mod_lt _ hk
  have hslot : q.m_data[q.m_index]? = (List.replicate k ((0 : S), 0) ++ es)[es.length]? := by
    rw [← List.head?_rotate hw, hrot, List.head?_drop]
  refine ⟨q, hq, rfl, ?_, ?_⟩
  · intro hlt
    unfold cyclic_queue.threshold
    rw [hslot, List.getElem?_append_left (by rw [List.length_replicate]; exact hlt),
      List.getElem?_replicate, if_pos hlt]
    rfl
  · intro hle
    have hlt : es.length - k < es.length := by omega
    have hes : (List.replicate k ((0 : S), 0) ++ es)[es.length]? = es[es.length - k]? := by
      rw [List.getElem?_append_right (by rw [List.length_replicate]; exact hle),
        List.length_replicate]
    refine ⟨es[es.length - k], List.getElem?_eq_getElem hlt, ?_, ?_, ?_⟩
    · rw [hslot, hes, List.getElem?_eq_getElem hlt]
    · unfold cyclic_queue.threshold
      rw [hslot, hes, List.getElem?_eq_getElem hlt]
      rfl
    · intro s d
      have hk0 : q.m_k ≠ 0 := by omega
      exact ⟨{ q with m_data := q.m_data.set q.m_index (s, d),
                      m_index := (q.m_index + 1) % q.m_k },
        by unfold cyclic_queue.insert; rw [if_pos ⟨hw, hk0⟩], rfl⟩

/-- Witness for C12: capacity 3 and the four inserts of the specification's round-trip. -/
theorem cyclic_queue_threshold_after_inserts_witness :
    0 < 3 ∧ ∃ q : cyclic_queue ℕ,
      cyclic_queue.insert_all (cyclic_queue.create 3) [(1, 10), (5, 20), (3, 30), (7, 40)]
        = some q ∧
      q.threshold = (q.m_data[q.m_index]?).map Prod.fst ∧
      ([((1 : ℕ), 10), (5, 20), (3, 30), (7, 40)].length < 3 → q.threshold = some 0) ∧
      (3 ≤ [((1 : ℕ), 10), (5, 20), (3, 30), (7, 40)].length →
        ∃ e, [((1 : ℕ), 10), (5, 20), (3, 30), (7, 40)][
            [((1 : ℕ), 10), (5, 20), (3, 30), (7, 40)].length - 3]? = some e ∧
          q.m_data[q.m_index]? = some e ∧ q.threshold = some e.1 ∧
          ∀ s d, ∃ q1, q.insert s d = some q1 ∧ q1.m_data = q.m_data.set q.m_index (s, d)) :=
  ⟨by decide,
   cyclic_queue_threshold_after_inserts 3 [(1, 10), (5, 20), (3, 30), (7, 40)] (by decide)⟩

/-- C13, as stated, fails. On a `cyclic_queue` constructed with `k = 0` the storage is empty:
`threshold()` does not return 0, `displaced_id(0)` does not return 0 and `insert(1, 1)` is not
a call that leaves the queue unchanged; each reads or writes slot 0 of the empty array. -/
theorem cyclic_queue_zero_capacity_counterexample :
    (cyclic_queue.create 0 : cyclic_queue ℕ).m_data = [] ∧
    (cyclic_queue.create 0 : cyclic_queue ℕ).threshold ≠ some 0 ∧
    (cyclic_queue.create 0 : cyclic_queue ℕ).displaced_id 0 ≠ some 0 ∧
    (cyclic_queue.create 0 : cyclic_queue ℕ).insert 1 1
      ≠ some (cyclic_queue.create 0 : cyclic_queue ℕ) := by
  decide

/-- C13, amended. A `cyclic_queue` constructed with `k = 0` has no slots: its `size()` and
`capacity()` are 0 and `finalize()` leaves `topk()` empty, while `threshold()`,
`displaced_id(t)` and `insert(s, d)` are not defined on it: each indexes slot 0 of the empty
array, and `insert` also takes a remainder modulo 0. -/
theorem cyclic_queue_zero_capacity (t s : S) (d : Nat) :
    (cyclic_queue.create 0 : cyclic_queue S).size = 0 ∧
    (cyclic_queue.create 0 : cyclic_queue S).capacity = 0 ∧
    (cyclic_queue.create 0 : cyclic_queue S).finalize.topk = [] ∧
    (cyclic_queue.create 0 : cyclic_queue S).threshold = none ∧
    (cyclic_queue.create 0 : cyclic_queue S).displaced_id t = none ∧
    (cyclic_queue.create 0 : cyclic_queue S).insert s d = none := by
  refine ⟨rfl, rfl, rfl, rfl, ?_, ?_⟩
  · simp [cyclic_queue.displaced_id, cyclic_queue.create]
  · simp [cyclic_queue.insert, cyclic_queue.create]

/-- C14. For every `cyclic_queue` state, after `finalize()` the sequence returned by `topk()`
is a permutation of the slots held before the call and is sorted by non-increasing score. -/
theorem cyclic_queue_finalize_sorted_perm (q : cyclic_queue S) :
    (q.finalize.topk).Perm q.topk ∧ (q.finalize.topk).Sorted (fun a b => b.1 ≤ a.1) :=
  ⟨List.perm_insertionSort _ _, cyclic_queue.sorted_finalize q⟩

/-- C16, as stated, fails. On a queue constructed with capacity 2, `clear()` leaves
`size() = 0` while `capacity()` is still 2, and the `insert` that follows is undefined; and on
a queue constructed with capacity 0 a single `insert` is undefined. -/
theorem cyclic_queue_size_counterexample :
    (cyclic_queue.run (cyclic_queue.create 2 : cyclic_queue ℕ) [cyclic_queue.op.clear]).map
      (fun q => (q.size, q.capacity)) = some (0, 2) ∧
    cyclic_queue.run (cyclic_queue.create 2 : cyclic_queue ℕ)
      [cyclic_queue.op.clear, cyclic_queue.op.insert 1 1] = none ∧
    cyclic_queue.run (cyclic_queue.create 0 : cyclic_queue ℕ) [cyclic_queue.op.insert 1 1]
      = none := by
  decide

/-- C16, amended. A `cyclic_queue` constructed with capacity `k' > 0` holds exactly `k'`
entries after every sequence of `insert` and `finalize` calls: the sequence is defined and
leaves `size() = capacity() = k'`. -/
theorem cyclic_queue_size_eq_capacity (k : Nat) (ops : List (cyclic_queue.op S)) (hk : 0 < k)
    (hops : ∀ o ∈ ops, cyclic_queue.op.is_clear o = false) :
    ∃ q, cyclic_queue.run (cyclic_queue.create k) ops = some q ∧ q.size = k ∧
      q.capacity = k := by
  obtain ⟨q, hq, hv, hqk⟩ :=
    cyclic_queue.run_valid ops (cyclic_queue.create k) (cyclic_queue.create_valid k hk) hops
  have hcap : q.m_k = k := hqk
  exact ⟨q, hq, by unfold cyclic_queue.size; rw [hv.1, hcap], hcap⟩

/-- Witness for C16: capacity 2 and the calls `insert(5, 1)`, `finalize()`, `insert(7, 2)`,
`insert(9, 3)`. -/
theorem cyclic_queue_size_eq_capacity_witness :
    0 < 2 ∧
    (∀ o ∈ [cyclic_queue.op.insert (5 : ℕ) 1, cyclic_queue.op.finalize,
        cyclic_queue.op.insert 7 2, cyclic_queue.op.insert 9 3],
      cyclic_queue.op.is_clear o = false) ∧
    ∃ q, cyclic_queue.run (cyclic_queue.create 2)
        [cyclic_queue.op.insert (5 : ℕ) 1, cyclic_queue.op.finalize,
          cyclic_queue.op.insert 7 2, cyclic_queue.op.insert 9 3] = some q ∧
      q.size = 2 ∧ q.capacity = 2 :=
  ⟨by decide, by decide,
   cyclic_queue_size_eq_capacity 2
     [cyclic_queue.op.insert (5 : ℕ) 1, cyclic_queue.op.finalize,
       cyclic_queue.op.insert 7 2, cyclic_queue.op.insert 9 3] (by decide) (by decide)⟩

end pisa

namespace pisa

variable {S : Type} [LinearOrderedCommSemiring S]

/-- C17, as stated, fails. On the one-list query with docid 1 scoring 5 and docid 2 scoring 3
and `k = 2`, the primary heap of the baseline WAND driver has `threshold() = 0` at the head of
the first iteration, 5 at the head of the second (it holds docid 1) and 3 at the head of the
third (it holds both documents): while the heap is filling, the minimum score held goes
down. -/
theorem threshold_monotone_counterexample :
    (loop_state (wand_query.loop_body capture_baseline 3) 0
      (wand_query.start
        { m_topk := topk_queue.create 2, m_secondary := topk_queue.create 0,
          m_cyclic := cyclic_queue.create 0 } filling_lists [])).map
      (fun st => st.m_topk.threshold) = some 0 ∧
    (loop_state (wand_query.loop_body capture_baseline 3) 1
      (wand_query.start
        { m_topk := topk_queue.create 2, m_secondary := topk_queue.create 0,
          m_cyclic := cyclic_queue.create 0 } filling_lists [])).map
      (fun st => st.m_topk.threshold) = some 5 ∧
    (loop_state (wand_query.loop_body capture_baseline 3) 2
      (wand_query.start
        { m_topk := topk_queue.create 2, m_secondary := topk_queue.create 0,
          m_cyclic := cyclic_queue.create 0 } filling_lists [])).map
      (fun st => st.m_topk.threshold) = some 3 := by
  decide

/-- C17, amended. At every step of the baseline WAND driver, for every query and every `k`,
once the primary heap holds `k` entries its `threshold()` never decreases from one step to
the next (and the heap stays full): if the heap is full at the head of iteration `n` and the
loop reaches iteration `n + 1`, the threshold there is at least the threshold at `n`. -/
theorem threshold_monotone_once_full (k : Nat) (sec : topk_queue S) (cyc : cyclic_queue S)
    (cursors : List (Cursor S)) (max_docid n : Nat) (st st1 : driver_state S)
    (h : loop_state (wand_query.loop_body capture_baseline max_docid) n
      (wand_query.start { m_topk := topk_queue.create k, m_secondary := sec, m_cyclic := cyc }
        cursors []) = some st)
    (h1 : loop_state (wand_query.loop_body capture_baseline max_docid) (n + 1)
      (wand_query.start { m_topk := topk_queue.create k, m_secondary := sec, m_cyclic := cyc }
        cursors []) = some st1)
    (hfull : st.m_topk.m_q.length = k) :
    st.m_topk.threshold ≤ st1.m_topk.threshold ∧ st1.m_topk.m_q.length = k := by
  obtain ⟨hs, hk, hlen⟩ := wand_baseline_heap_inv k sec cyc cursors max_docid n st h
  obtain ⟨_, _, hlen1⟩ := wand_baseline_heap_inv k sec cyc cursors max_docid (n + 1) st1 h1
  have hstep := loop_state_step _ n _ st st1 h h1
  rcases wand_baseline_step_topk max_docid st st1 hstep with h2 | ⟨s, d, h2⟩
  · rw [h2]; exact ⟨le_refl _, hfull⟩
  · refine ⟨?_, ?_⟩
    · rw [h2]
      exact topk_queue.threshold_insert_ge st.m_topk s d hs (by rw [hk]; exact hfull)
    · have := (topk_queue.length_insert st.m_topk s d (by rw [hk]; exact hlen)).1
      rw [← h2] at this
      omega

/-- Witness for C17: the one-list query with docid 1 scoring 3 and docid 2 scoring 5, `k = 1`;
the heap is full at the head of the second iteration with threshold 3, and holds docid 2
with threshold 5 at the head of the third. -/
theorem threshold_monotone_once_full_witness :
    (loop_state (wand_query.loop_body capture_baseline 3) 1
      (wand_query.start
        { m_topk := topk_queue.create 1, m_secondary := topk_queue.create 0,
          m_cyclic := cyclic_queue.create 0 } rising_lists [])).map
      (fun st => st.m_topk.m_q) = some [(3, 1)] ∧
    (loop_state (wand_query.loop_body capture_baseline 3) 2
      (wand_query.start
        { m_topk := topk_queue.create 1, m_secondary := topk_queue.create 0,
          m_cyclic := cyclic_queue.create 0 } rising_lists [])).map
      (fun st => st.m_topk.m_q) = some [(5, 2)] ∧
    ((3 : ℕ) ≤ 5 ∧ [((5 : ℕ), 2)].length = 1) :=
  ⟨by decide, by decide,
   threshold_monotone_once_full 1 (topk_queue.create 0) (cyclic_queue.create 0) rising_lists 3 1
    { ordered_cursors :=
        [{ (max_scored_cursor [(1, 3), (2, 5)] 5 3 : Cursor ℕ) with m_pos := 1 }],
      m_topk := { m_k := 1, m_q := [(3, 1)] }, m_secondary := topk_queue.create 0,
      m_cyclic := cyclic_queue.create 0, scored := [] }
    { ordered_cursors :=
        [{ (max_scored_cursor [(1, 3), (2, 5)] 5 3 : Cursor ℕ) with m_pos := 2 }],
      m_topk := { m_k := 1, m_q := [(5, 2)] }, m_secondary := topk_queue.create 0,
      m_cyclic := cyclic_queue.create 0, scored := [] }
    (by decide) (by decide) (by decide)⟩

/-- C18, as stated, fails. With an empty cursor set, `k = 1` and `k' = 2`, both Method 1
variants return an empty primary output and a secondary output of two zero entries `(0, 0)`:
the finalized cyclic queue, which is never empty when `k' > 0`. -/
theorem empty_query_method_one_counterexample :
    (query_fun "wand_method_1" 1 2).map (fun f => f ([] : List (Cursor ℕ)) 10)
      = some (some ([], [(0, 0), (0, 0)])) ∧
    (query_fun "block_max_wand_method_1" 1 2).map (fun f => f ([] : List (Cursor ℕ)) 10)
      = some (some ([], [(0, 0), (0, 0)])) := by
  decide

/-- C18, amended. For every variant (baseline, Method 1, Method 2, Method 3, WAND or BMW) and
every `k`, `k'`, evaluating a query with an empty cursor set returns without error and yields
an empty primary output; the secondary output is empty for the baselines and for Methods 2
and 3, and for Method 1 it is the untouched cyclic queue, `k'` zero entries `(0, 0)`. -/
theorem empty_query_outputs (query_type : String) (k secondary_k num_docs : Nat)
    (f : List (Cursor S) → Nat → Option (List (S × Nat) × List (S × Nat)))
    (h : query_fun query_type k secondary_k = some f) :
    f [] num_docs = some ([],
      if query_type = "wand_method_1" ∨ query_type = "block_max_wand_method_1" then
        List.replicate secondary_k (0, 0)
      else []) := by
  unfold query_fun at h
  split_ifs at h with h1 h2 h3 h4 h5 h6 h7 h8
  · have hf := Option.some.inj h
    subst hf; subst h1
    rw [if_neg (by decide)]
    rfl
  · have hf := Option.some.inj h
    subst hf; subst h2
    rw [if_pos (by decide)]
    show some (_, (cyclic_queue.create secondary_k : cyclic_queue S).finalize.topk) = _
    rw [finalize_create]
    rfl
  · have hf := Option.some.inj h
    subst hf; subst h3
    rw [if_neg (by decide)]
    rfl
  · have hf := Option.some.inj h
    subst hf; subst h4
    rw [if_neg (by decide)]
    rfl
  · have hf := Option.some.inj h
    subst hf; subst h5
    rw [if_neg (by decide)]
    rfl
  · have hf := Option.some.inj h
    subst hf; subst h6
    rw [if_pos (by decide)]
    show some (_, (cyclic_queue.create secondary_k : cyclic_queue S).finalize.topk) = _
    rw [finalize_create]
    rfl
  · have hf := Option.some.inj h
    subst hf; subst h7
    rw [if_neg (by decide)]
    rfl
  · have hf := Option.some.inj h
    subst hf; subst h8
    rw [if_neg (by decide)]
    rfl

/-- Witness for C18: WAND Method 3 with `k = 1`, `k' = 2`. -/
theorem empty_query_outputs_witness :
    query_fun "wand_method_3" 1 2 = some (query_fun_wand_method_3 (S := ℕ) 1 2) ∧
    query_fun_wand_method_3 (S := ℕ) 1 2 [] 10 = some ([],
      if "wand_method_3" = "wand_method_1" ∨ "wand_method_3" = "block_max_wand_method_1" then
        List.replicate 2 (0, 0)
      else []) :=
  ⟨rfl, empty_query_outputs "wand_method_3" 1 2 10 (query_fun_wand_method_3 1 2) rfl⟩

/-- C20, as stated, fails. With `secondary_k = 0` the orchestrator assigns the query function
of WAND Method 3 (and of WAND Method 1) as for any other capacity, reporting nothing, and the
driver runs on the two-list scenario with `k = 1`: the run is undefined, because the first
accepted candidate is inserted into the zero-capacity cyclic queue. -/
theorem secondary_k_zero_counterexample :
    (query_fun "wand_method_3" 1 0).map (fun f => f scenario_lists 6) = some none ∧
    (query_fun "wand_method_1" 1 0).map (fun f => f scenario_lists 6) = some none ∧
    (cyclic_queue.create 0 : cyclic_queue ℕ).insert 0 1 = none := by
  decide

/-- C20, amended. When a variant that uses the secondary structures is requested with
`secondary_k = 0`, the orchestrator reports no usage error: whether a query function is
assigned does not depend on `secondary_k`, and for each of Methods 1, 2 and 3 (WAND or BMW)
the function assigned constructs the primary heap of capacity `k`, a secondary heap and a
cyclic queue of capacity 0, and runs the driver on them. -/
theorem secondary_k_zero_not_checked (query_type : String) (k secondary_k : Nat)
    (cursors : List (Cursor S)) (num_docs : Nat) :
    ((query_fun query_type k 0 :
        Option (List (Cursor S) → Nat → Option (List (S × Nat) × List (S × Nat)))).isSome
      = (query_fun query_type k secondary_k :
        Option (List (Cursor S) → Nat → Option (List (S × Nat) × List (S × Nat)))).isSome) ∧
    (query_fun "wand_method_1" k 0).map (fun f => f cursors num_docs) = some
      ((wand_query.method_one
        { m_topk := topk_queue.create k, m_secondary := topk_queue.create 0,
          m_cyclic := cyclic_queue.create 0 } cursors num_docs).map
        (fun w => (w.m_topk.finalize.topk, w.m_cyclic.finalize.topk))) ∧
    (query_fun "wand_method_2" k 0).map (fun f => f cursors num_docs) = some
      ((wand_query.method_two
        { m_topk := topk_queue.create k, m_secondary := topk_queue.create 0,
          m_cyclic := cyclic_queue.create 0 } cursors num_docs).map
        (fun w => (w.m_topk.finalize.topk, w.m_secondary.finalize.topk))) ∧
    (query_fun "wand_method_3" k 0).map (fun f => f cursors num_docs) = some
      ((wand_query.method_three
        { m_topk := topk_queue.create k, m_secondary := topk_queue.create 0,
          m_cyclic := cyclic_queue.create 0 } cursors num_docs).map
        (fun w => (w.m_topk.finalize.topk, w.m_secondary.finalize.topk))) ∧
    (query_fun "block_max_wand_method_1" k 0).map (fun f => f cursors num_docs) = some
      ((block_max_wand_query.method_one
        { m_topk := topk_queue.create k, m_secondary := topk_queue.create 0,
          m_cyclic := cyclic_queue.create 0 } cursors num_docs).map
        (fun w => (w.m_topk.finalize.topk, w.m_cyclic.finalize.topk))) ∧
    (query_fun "block_max_wand_method_2" k 0).map (fun f => f cursors num_docs) = some
      ((block_max_wand_query.method_two
        { m_topk := topk_queue.create k, m_secondary := topk_queue.create 0,
          m_cyclic := cyclic_queue.create 0 } cursors num_docs).map
        (fun w => (w.m_topk.finalize.topk, w.m_secondary.finalize.topk))) ∧
    (query_fun "block_max_wand_method_3" k 0).map (fun f => f cursors num_docs) = some
      ((block_max_wand_query.method_three
        { m_topk := topk_queue.create k, m_secondary := topk_queue.create 0,
          m_cyclic := cyclic_queue.create 0 } cursors num_docs).map
        (fun w => (w.m_topk.finalize.topk, w.m_secondary.finalize.topk))) := by
  refine ⟨?_, rfl, rfl, rfl, rfl, rfl, rfl⟩
  unfold query_fun
  split_ifs <;> rfl

end pisa

namespace pisa

variable {S : Type} [LinearOrderedCommSemiring S]

/-- C21. The code at the failing input: for the unsupported `query_type` `"bogus"` no query
function is assigned and `evaluate_queries` only logs an error. With an empty list of queries
it then returns normally, writing nothing, and `main` exits with status 0; with one query it
ends in the uncaught `std::bad_function_call` of the first `query_fun` call, having written
nothing. -/
theorem unsupported_query_type_empty_queries :
    "bogus" ∉ supported_variants ∧
    evaluate_queries "bogus" 10 10 ([] : List (List (Cursor ℕ))) 100 =
      { error_logged := true, lines := [], ending := ending.returned } ∧
    exit_status (evaluate_queries "bogus" 10 10 ([] : List (List (Cursor ℕ))) 100) = some 0 ∧
    evaluate_queries "bogus" 10 10 [scenario_lists] 6 =
      { error_logged := true, lines := [], ending := ending.bad_function_call } := by
  decide

/-- C28. Pivot selection returns the smallest index `p` such that every cursor of `C[0..p]`
has `docid() < max_docid` and the sum of `max_score()` over `C[0..p]` would enter the pruning
heap; it finds nothing exactly when no such `p` exists; and a WAND loop (with any capture
statement) leaves through `break` exactly when no such `p` exists. -/
theorem pivot_selection_least (heap : topk_queue S) (max_docid : Nat) (cs : List (Cursor S)) :
    (∀ p, find_pivot heap max_docid cs 0 0 = some p ↔
      (prefix_qualifies heap max_docid cs p ∧
        ∀ j, j < p → ¬ prefix_qualifies heap max_docid cs j)) ∧
    (find_pivot heap max_docid cs 0 0 = none ↔ ∀ p, ¬ prefix_qualifies heap max_docid cs p) ∧
    ∀ (capture : driver_state S → S → Nat → Option (driver_state S)) (st : driver_state S),
      (∃ st1, wand_query.loop_body capture max_docid st = loop_step.exit st1) ↔
        ∀ p, ¬ prefix_qualifies st.m_topk max_docid st.ordered_cursors p := by
  refine ⟨?_, find_pivot_none_iff heap max_docid cs, ?_⟩
  · intro p
    exact ⟨find_pivot_least heap max_docid cs p,
      fun h => find_pivot_of_least heap max_docid cs p h.1 h.2⟩
  · intro capture st
    rw [wand_loop_body_exit_iff, find_pivot_none_iff]

/-- C29. In the skip step of block-max WAND with the pivot cursor `C[pivot]` in range and
`pivot_id <= max_docid`, the target is `next = max(pivot_id + 1, min(m + 1, d))` with
`m = min(max_docid, minimum of block_max_docid() over C[0..pivot])` and
`d = C[pivot+1].docid()` when that cursor exists; hence `pivot_id < next <= max_docid + 1`;
and the step calls `next_geq(next)` on a cursor of `C[0..pivot]` whose `max_score()` is the
largest among them, then bubbles it down with `<`. -/
theorem skip_step_target (cs : List (Cursor S)) (max_docid pivot pivot_id : Nat)
    (cp : Cursor S) (hcp : cs[pivot]? = some cp) (hpid : pivot_id ≤ max_docid) :
    block_max_wand_query.skip_target cs max_docid pivot pivot_id
      = skip_target_formula cs max_docid pivot pivot_id ∧
    pivot_id < block_max_wand_query.skip_target cs max_docid pivot pivot_id ∧
    block_max_wand_query.skip_target cs max_docid pivot pivot_id ≤ max_docid + 1 ∧
    block_max_wand_query.skip_step cs max_docid pivot pivot_id =
      advance_and_bubble false cs (block_max_wand_query.skip_list cs pivot cp.max_score)
        (fun c => c.next_geq
          (block_max_wand_query.skip_target cs max_docid pivot pivot_id)) ∧
    block_max_wand_query.skip_list cs pivot cp.max_score ≤ pivot ∧
    ∃ c, cs[block_max_wand_query.skip_list cs pivot cp.max_score]? = some c ∧
      ∀ i, i ≤ pivot → ∀ c2, cs[i]? = some c2 → c2.max_score ≤ c.max_score := by
  obtain ⟨hle, hmax⟩ := skip_list_largest cs pivot cp hcp
  refine ⟨skip_target_eq_formula cs max_docid pivot pivot_id,
    (skip_target_spec cs max_docid pivot pivot_id).1, ?_, ?_, hle, hmax⟩
  · rw [skip_target_eq_formula]
    unfold skip_target_formula
    have hm : least_block_end cs max_docid pivot ≤ max_docid := foldl_min_le _ _
    cases cs[pivot + 1]? with
    | none =>
      show max (pivot_id + 1) (least_block_end cs max_docid pivot + 1) ≤ max_docid + 1
      exact max_le (by omega) (by omega)
    | some c =>
      show max (pivot_id + 1) (min (least_block_end cs max_docid pivot + 1) c.docid)
        ≤ max_docid + 1
      exact max_le (by omega) (le_trans (Nat.min_le_left _ _) (by omega))
  · unfold block_max_wand_query.skip_step
    rw [hcp]

/-- Witness for C29: the two-list block-max scenario with the pivot at index 1 on docid 2;
the least block end is 2 and there is no cursor after the pivot, so the target is 3. -/
theorem skip_step_target_witness :
    scenario_block_lists[1]? = some (block_max_scored_cursor [(2, 2), (3, 2), (4, 2)] 2 1
      [(2, 2), (4, 2)] 6) ∧ 2 ≤ 6 ∧
    skip_target_formula scenario_block_lists 6 1 2 = 3 ∧
    (block_max_wand_query.skip_target scenario_block_lists 6 1 2
      = skip_target_formula scenario_block_lists 6 1 2 ∧
    2 < block_max_wand_query.skip_target scenario_block_lists 6 1 2 ∧
    block_max_wand_query.skip_target scenario_block_lists 6 1 2 ≤ 6 + 1 ∧
    block_max_wand_query.skip_step scenario_block_lists 6 1 2 =
      advance_and_bubble false scenario_block_lists
        (block_max_wand_query.skip_list scenario_block_lists 1
          (block_max_scored_cursor [(2, 2), (3, 2), (4, 2)] 2 1 [(2, 2), (4, 2)] 6).max_score)
        (fun c => c.next_geq (block_max_wand_query.skip_target scenario_block_lists 6 1 2)) ∧
    block_max_wand_query.skip_list scenario_block_lists 1
      (block_max_scored_cursor [(2, 2), (3, 2), (4, 2)] 2 1 [(2, 2), (4, 2)] 6).max_score ≤ 1 ∧
    ∃ c, scenario_block_lists[block_max_wand_query.skip_list scenario_block_lists 1
        (block_max_scored_cursor [(2, 2), (3, 2), (4, 2)] 2 1 [(2, 2), (4, 2)] 6).max_score]?
        = some c ∧
      ∀ i, i ≤ 1 → ∀ c2, scenario_block_lists[i]? = some c2 → c2.max_score ≤ c.max_score) :=
  ⟨by decide, by decide, by decide,
   skip_step_target scenario_block_lists 6 1 2
     (block_max_scored_cursor [(2, 2), (3, 2), (4, 2)] 2 1 [(2, 2), (4, 2)] 6)
     (by decide) (by decide)⟩

/-- C30, as stated, fails. On the two-list query `tie_lists` with `k = 1` the baseline WAND
loop is in the state `tie_state` at the head of its second iteration (list A on docid 2, list
B, the pivot, on docid 4); the non-aligned branch advances list A to docid 4 and leaves it
before list B, which has the same docid: at the head of the third iteration the cursor with
`max_score` 1 comes first. The block-max loop on the same lists leaves it after list B. -/
theorem align_comparator_counterexample :
    loop_state (wand_query.loop_body capture_baseline 5) 1
      (wand_query.start
        { m_topk := topk_queue.create 1, m_secondary := topk_queue.create 0,
          m_cyclic := cyclic_queue.create 0 } tie_lists []) = some tie_state ∧
    (loop_state (wand_query.loop_body capture_baseline 5) 2
      (wand_query.start
        { m_topk := topk_queue.create 1, m_secondary := topk_queue.create 0,
          m_cyclic := cyclic_queue.create 0 } tie_lists [])).map
      (fun st => st.ordered_cursors.map (fun c => (c.docid, c.max_score)))
      = some [(4, 1), (4, 3)] ∧
    (loop_state (block_max_wand_query.loop_body capture_baseline 5) 2
      (block_max_wand_query.start
        { m_topk := topk_queue.create 1, m_secondary := topk_queue.create 0,
          m_cyclic := cyclic_queue.create 0 } tie_block_lists [])).map
      (fun st => st.ordered_cursors.map (fun c => (c.docid, c.max_score)))
      = some [(4, 3), (4, 1)] := by
  decide

/-- C30, amended. In the non-aligned branch of the WAND driver (any capture statement), on a
sorted list of well-formed cursors, after `C[next_list].next_geq(pivot_id)` the bubble-down
uses the `<` comparator: the advanced cursor passes only cursors with a smaller docid and
ends up before every cursor whose docid equals its new docid (every cursor after it has a
docid that is not smaller, every cursor before it a smaller one). The same branch with the
`<=` comparator, as in the block-max driver, leaves it after every cursor whose docid equals
its new docid. -/
theorem wand_align_position (max_docid : Nat)
    (capture : driver_state S → S → Nat → Option (driver_state S)) (st : driver_state S)
    (p : Nat) (cp c0 : Cursor S) (hok : ∀ c ∈ st.ordered_cursors, c.ok max_docid)
    (hs : st.ordered_cursors.Pairwise (fun a b => a.docid ≤ b.docid))
    (hp : find_pivot st.m_topk max_docid st.ordered_cursors 0 0 = some p)
    (hcp : st.ordered_cursors[p]? = some cp) (hc0 : st.ordered_cursors[0]? = some c0)
    (hne : cp.docid ≠ c0.docid) :
    (∃ i c L R, i < p ∧ st.ordered_cursors[i]? = some c ∧ c.docid < cp.docid ∧
      wand_query.loop_body capture max_docid st =
        loop_step.next { st with ordered_cursors := L ++ c.next_geq cp.docid :: R } ∧
      L ++ R = st.ordered_cursors.take i ++ st.ordered_cursors.drop (i + 1) ∧
      (∀ d ∈ L, d.docid < (c.next_geq cp.docid).docid) ∧
      ∀ d ∈ R, (c.next_geq cp.docid).docid ≤ d.docid) ∧
    (∃ i c L R, i < p ∧ st.ordered_cursors[i]? = some c ∧ c.docid < cp.docid ∧
      align true st.ordered_cursors p cp.docid = some (L ++ c.next_geq cp.docid :: R) ∧
      L ++ R = st.ordered_cursors.take i ++ st.ordered_cursors.drop (i + 1) ∧
      (∀ d ∈ L, d.docid ≤ (c.next_geq cp.docid).docid) ∧
      ∀ d ∈ R, (c.next_geq cp.docid).docid < d.docid) := by
  constructor
  · obtain ⟨i, c, L, R, hi, hc, hcd, hal, hLR, hlt, _⟩ :=
      align_position false st.ordered_cursors p cp c0 hok hs hcp hc0 hne
    refine ⟨i, c, L, R, hi, hc, hcd, ?_, hLR, (hlt rfl).1, (hlt rfl).2⟩
    exact wand_query.loop_body_align capture max_docid st p cp c0 _ hp hcp hc0 hne hal
  · obtain ⟨i, c, L, R, hi, hc, hcd, hal, hLR, _, hle⟩ :=
      align_position true st.ordered_cursors p cp c0 hok hs hcp hc0 hne
    exact ⟨i, c, L, R, hi, hc, hcd, hal, hLR, (hle rfl).1, (hle rfl).2⟩

/-- Witness for C30: the state `tie_state` of the baseline WAND loop on `tie_lists`, with the
pivot at index 1 (list B on docid 4) and list A on docid 2 at the front. -/
theorem wand_align_position_witness :
    (∀ c ∈ tie_state.ordered_cursors, c.ok 5) ∧
    tie_state.ordered_cursors.Pairwise (fun a b => a.docid ≤ b.docid) ∧
    find_pivot tie_state.m_topk 5 tie_state.ordered_cursors 0 0 = some 1 ∧
    tie_state.ordered_cursors[1]? = some tie_cursor_b ∧
    tie_state.ordered_cursors[0]? = some tie_cursor_a ∧
    tie_cursor_b.docid ≠ tie_cursor_a.docid ∧
    ((∃ i c L R, i < 1 ∧ tie_state.ordered_cursors[i]? = some c ∧
      c.docid < tie_cursor_b.docid ∧
      wand_query.loop_body capture_baseline 5 tie_state =
        loop_step.next
          { tie_state with ordered_cursors := L ++ c.next_geq tie_cursor_b.docid :: R } ∧
      L ++ R = tie_state.ordered_cursors.take i ++ tie_state.ordered_cursors.drop (i + 1) ∧
      (∀ d ∈ L, d.docid < (c.next_geq tie_cursor_b.docid).docid) ∧
      ∀ d ∈ R, (c.next_geq tie_cursor_b.docid).docid ≤ d.docid) ∧
    (∃ i c L R, i < 1 ∧ tie_state.ordered_cursors[i]? = some c ∧
      c.docid < tie_cursor_b.docid ∧
      align true tie_state.ordered_cursors 1 tie_cursor_b.docid
        = some (L ++ c.next_geq tie_cursor_b.docid :: R) ∧
      L ++ R = tie_state.ordered_cursors.take i ++ tie_state.ordered_cursors.drop (i + 1) ∧
      (∀ d ∈ L, d.docid ≤ (c.next_geq tie_cursor_b.docid).docid) ∧
      ∀ d ∈ R, (c.next_geq tie_cursor_b.docid).docid < d.docid)) :=
  have hok : ∀ c ∈ tie_state.ordered_cursors, c.ok 5 := by
    intro c hc
    simp only [tie_state, List.mem_cons, List.mem_singleton, List.not_mem_nil, or_false] at hc
    rcases hc with rfl | rfl
    · refine ⟨rfl, by decide, ?_⟩
      intro p hp
      simp only [tie_cursor_a, max_scored_cursor, List.mem_cons, List.mem_singleton,
        List.not_mem_nil, or_false] at hp
      rcases hp with rfl | rfl | rfl <;> decide
    · refine ⟨rfl, by decide, ?_⟩
      intro p hp
      simp only [tie_cursor_b, max_scored_cursor, List.mem_cons, List.mem_singleton,
        List.not_mem_nil, or_false] at hp
      rcases hp with rfl | rfl <;> decide
  ⟨hok, by decide, by decide, by decide, by decide, by decide,
   wand_align_position 5 capture_baseline tie_state 1 tie_cursor_b tie_cursor_a hok
     (by decide) (by decide) (by decide) (by decide) (by decide)⟩

end pisa

namespace pisa

variable {S : Type} [LinearOrderedCommSemiring S]

/-- C25. In `wand_query::method_three` on a well-formed query, `ordered_cursors` is sorted by
non-decreasing docid and holds the cursors of the query, moved and reordered, at the head of
every loop iteration of stage one, and, once stage one has exited and the stage transition
has run, at the head of every loop iteration of stage two. -/
theorem method_three_cursors_sorted (max_docid : Nat) (cursors : List (Cursor S))
    (w : wand_query S) (hwf : well_formed max_docid cursors) :
    (∀ n st, loop_state (wand_query.loop_body capture_method_three max_docid) n
        (wand_query.start w cursors (bit_vector_builder max_docid)) = some st →
      st.ordered_cursors.Pairwise (fun a b => a.docid ≤ b.docid) ∧
        tracks cursors st.ordered_cursors) ∧
    (∀ s1 s2 n st, run_loop (wand_query.loop_body capture_method_three max_docid)
        (loop_fuel cursors) (wand_query.start w cursors (bit_vector_builder max_docid))
          = some s1 →
      wand_query.stage_transition s1 = some s2 →
      loop_state (wand_query.stage_two_body max_docid) n s2 = some st →
      st.ordered_cursors.Pairwise (fun a b => a.docid ≤ b.docid) ∧
        tracks cursors st.ordered_cursors) := by
  constructor
  · intro n st h
    exact loop_state_inv (wand_query.loop_body capture_method_three max_docid)
      (fun s => s.ordered_cursors.Pairwise (fun a b => a.docid ≤ b.docid) ∧
        tracks cursors s.ordered_cursors)
      (fun a b ha hb => wand_loop_cursors capture_method_three hwf a b ha (Or.inl hb))
      n _ st (start_cursors cursors) h
  · intro s1 s2 n st hrun htr h
    have h1 := run_loop_preserves (wand_query.loop_body capture_method_three max_docid)
      (fun s => s.ordered_cursors.Pairwise (fun a b => a.docid ≤ b.docid) ∧
        tracks cursors s.ordered_cursors)
      (fun a b ha hb => wand_loop_cursors capture_method_three hwf a b ha (Or.inl hb))
      (fun a b ha hb => wand_loop_cursors capture_method_three hwf a b ha (Or.inr hb))
      (loop_fuel cursors) _ s1 (start_cursors cursors) hrun
    have h2 := wand_stage_transition_cursors s1 s2 h1.2 htr
    refine loop_state_inv (wand_query.stage_two_body max_docid)
      (fun s => s.ordered_cursors.Pairwise (fun a b => a.docid ≤ b.docid) ∧
        tracks cursors s.ordered_cursors) ?_ n s2 st h2 h
    intro a b ha hb
    have hstep := wand_stage_two_step a.m_topk a ⟨tracks_ok hwf ha.2, ha.1, rfl⟩
    rw [hb] at hstep
    exact ⟨hstep.1.2.1, (wand_stage_two_home a b hb).trans ha.2⟩

/-- Witness for C25: the two-list scenario with `k = 1`, `k' = 2`. -/
theorem method_three_cursors_sorted_witness :
    well_formed 6 scenario_lists ∧
    (∀ n st, loop_state (wand_query.loop_body capture_method_three 6) n
        (wand_query.start
          { m_topk := topk_queue.create 1, m_secondary := topk_queue.create 2,
            m_cyclic := cyclic_queue.create 2 }
          scenario_lists (bit_vector_builder 6)) = some st →
      st.ordered_cursors.Pairwise (fun a b => a.docid ≤ b.docid) ∧
        tracks scenario_lists st.ordered_cursors) ∧
    (∀ s1 s2 n st, run_loop (wand_query.loop_body capture_method_three 6)
        (loop_fuel scenario_lists)
        (wand_query.start
          { m_topk := topk_queue.create 1, m_secondary := topk_queue.create 2,
            m_cyclic := cyclic_queue.create 2 }
          scenario_lists (bit_vector_builder 6)) = some s1 →
      wand_query.stage_transition s1 = some s2 →
      loop_state (wand_query.stage_two_body 6) n s2 = some st →
      st.ordered_cursors.Pairwise (fun a b => a.docid ≤ b.docid) ∧
        tracks scenario_lists st.ordered_cursors) :=
  ⟨scenario_lists_well_formed,
    method_three_cursors_sorted 6 scenario_lists _ scenario_lists_well_formed⟩

/-- C26. For every well-formed query, every iteration of the baseline WAND loop either exits
or goes on to the next iteration with no cursor moved backward and at least one cursor on a
strictly larger docid (at most `max_docid`), and `wand_query::operator()` returns. -/
theorem wand_iteration_advances (max_docid : Nat) (cursors : List (Cursor S))
    (w : wand_query S) (hwf : well_formed max_docid cursors) :
    (∀ n st, loop_state (wand_query.loop_body capture_baseline max_docid) n
        (wand_query.start w cursors []) = some st →
      wand_query.loop_body capture_baseline max_docid st = loop_step.exit st ∨
      ∃ st1, wand_query.loop_body capture_baseline max_docid st = loop_step.next st1 ∧
        advances max_docid st.ordered_cursors st1.ordered_cursors) ∧
    ∃ w1, w.call cursors max_docid = some w1 := by
  constructor
  · intro n st h
    have hinv := loop_state_inv (wand_query.loop_body capture_baseline max_docid)
      (fun s => s.ordered_cursors.Pairwise (fun a b => a.docid ≤ b.docid) ∧
        tracks cursors s.ordered_cursors)
      (fun a b ha hb => wand_loop_cursors capture_baseline hwf a b ha (Or.inl hb))
      n _ st (start_cursors cursors) h
    rcases wand_loop_body_cases capture_baseline st (tracks_ok hwf hinv.2) hinv.1 with
      h1 | ⟨h0, _⟩ | ⟨st2, h1, hadv, _⟩
    · exact Or.inl h1
    · exact absurd h0 (capture_baseline_defined st)
    · exact Or.inr ⟨st2, h1, hadv⟩
  · unfold wand_query.call
    by_cases he : cursors.isEmpty = true
    · rw [if_pos he]; exact ⟨w, rfl⟩
    · rw [if_neg he]
      obtain ⟨s1, hs1, _⟩ := run_loop_terminates
        (wand_query.loop_body capture_baseline max_docid) _ (fun _ => True)
        (fun s => remaining s.ordered_cursors) (wand_baseline_step_ok hwf)
        (loop_fuel cursors) (wand_query.start w cursors []) (start_cursors cursors)
        (start_remaining cursors)
      rw [hs1]
      exact ⟨_, rfl⟩

/-- Witness for C26: the two-list scenario with `k = 2`. -/
theorem wand_iteration_advances_witness :
    well_formed 6 scenario_lists ∧
    (∀ n st, loop_state (wand_query.loop_body capture_baseline 6) n
        (wand_query.start
          { m_topk := topk_queue.create 2, m_secondary := topk_queue.create 0,
            m_cyclic := cyclic_queue.create 0 }
          scenario_lists []) = some st →
      wand_query.loop_body capture_baseline 6 st = loop_step.exit st ∨
      ∃ st1, wand_query.loop_body capture_baseline 6 st = loop_step.next st1 ∧
        advances 6 st.ordered_cursors st1.ordered_cursors) ∧
    ∃ w1, wand_query.call
      { m_topk := topk_queue.create 2, m_secondary := topk_queue.create 0,
        m_cyclic := cyclic_queue.create 0 }
      scenario_lists 6 = some w1 :=
  ⟨scenario_lists_well_formed,
    wand_iteration_advances 6 scenario_lists _ scenario_lists_well_formed⟩

/-- C27. For every well-formed query with block bounds, every iteration of the baseline
block-max WAND loop either exits or goes on to the next iteration with no cursor moved
backward and at least one cursor on a strictly larger docid, and
`block_max_wand_query::operator()` returns; in the skip step the chosen cursor is on a docid
that is at most `pivot_id`, which is smaller than the target `next`. -/
theorem bmw_iteration_advances (max_docid : Nat) (cursors : List (Cursor S))
    (w : block_max_wand_query S) (hwf : well_formed_block_max max_docid cursors) :
    (∀ n st, loop_state (block_max_wand_query.loop_body capture_baseline max_docid) n
        (block_max_wand_query.start w cursors []) = some st →
      block_max_wand_query.loop_body capture_baseline max_docid st = loop_step.exit st ∨
      ∃ st1, block_max_wand_query.loop_body capture_baseline max_docid st
          = loop_step.next st1 ∧
        advances max_docid st.ordered_cursors st1.ordered_cursors) ∧
    (∃ w1, w.call cursors max_docid = some w1) ∧
    (∀ (cs : List (Cursor S)) (pivot pivot_id : Nat) (cp : Cursor S), cs[pivot]? = some cp →
      (∀ c ∈ cs.take (pivot + 1), c.docid ≤ pivot_id) →
      ∃ c, cs[block_max_wand_query.skip_list cs pivot cp.max_score]? = some c ∧
        c.docid ≤ pivot_id ∧
        pivot_id < block_max_wand_query.skip_target cs max_docid pivot pivot_id) := by
  have hwf1 := well_formed_of_block_max hwf
  refine ⟨?_, ?_, fun cs pivot pid cp hcp htk => skip_step_forward cs max_docid pivot pid cp hcp htk⟩
  · intro n st h
    have hinv := loop_state_inv (block_max_wand_query.loop_body capture_baseline max_docid)
      (fun s => s.ordered_cursors.Pairwise (fun a b => a.docid ≤ b.docid) ∧
        tracks cursors s.ordered_cursors)
      (fun a b ha hb => bmw_loop_cursors capture_baseline hwf1 a b ha hb)
      n _ st (start_cursors cursors) h
    rcases bmw_loop_body_cases capture_baseline st (tracks_ok hwf1 hinv.2) hinv.1 with
      h1 | ⟨h0, _⟩ | ⟨st2, h1, hadv, _⟩
    · exact Or.inl h1
    · exact absurd h0 (capture_baseline_defined st)
    · exact Or.inr ⟨st2, h1, hadv⟩
  · unfold block_max_wand_query.call
    by_cases he : cursors.isEmpty = true
    · rw [if_pos he]; exact ⟨w, rfl⟩
    · rw [if_neg he]
      obtain ⟨s1, hs1, _⟩ := run_loop_terminates
        (block_max_wand_query.loop_body capture_baseline max_docid) _ (fun _ => True)
        (fun s => remaining s.ordered_cursors) (bmw_baseline_step_ok hwf1)
        (block_max_wand_query.fuel cursors) (block_max_wand_query.start w cursors [])
        (start_cursors cursors) (start_remaining cursors)
      rw [hs1]
      exact ⟨_, rfl⟩

/-- Witness for C27: the two-list block-max scenario with `k = 2`. -/
theorem bmw_iteration_advances_witness :
    well_formed_block_max 6 scenario_block_lists ∧
    (∀ n st, loop_state (block_max_wand_query.loop_body capture_baseline 6) n
        (block_max_wand_query.start
          { m_topk := topk_queue.create 2, m_secondary := topk_queue.create 0,
            m_cyclic := cyclic_queue.create 0 }
          scenario_block_lists []) = some st →
      block_max_wand_query.loop_body capture_baseline 6 st = loop_step.exit st ∨
      ∃ st1, block_max_wand_query.loop_body capture_baseline 6 st = loop_step.next st1 ∧
        advances 6 st.ordered_cursors st1.ordered_cursors) ∧
    (∃ w1, block_max_wand_query.call
      { m_topk := topk_queue.create 2, m_secondary := topk_queue.create 0,
        m_cyclic := cyclic_queue.create 0 }
      scenario_block_lists 6 = some w1) ∧
    (∀ (cs : List (Cursor ℕ)) (pivot pivot_id : Nat) (cp : Cursor ℕ), cs[pivot]? = some cp →
      (∀ c ∈ cs.take (pivot + 1), c.docid ≤ pivot_id) →
      ∃ c, cs[block_max_wand_query.skip_list cs pivot cp.max_score]? = some c ∧
        c.docid ≤ pivot_id ∧
        pivot_id < block_max_wand_query.skip_target cs 6 pivot pivot_id) :=
  ⟨scenario_block_lists_well_formed,
    bmw_iteration_advances 6 scenario_block_lists _ scenario_block_lists_well_formed⟩

end pisa

namespace pisa

variable {S : Type} [LinearOrderedCommSemiring S]

/-- C22. For every well-formed query and every cyclic queue in a valid state (capacity
`k' > 0`), `wand_query::method_one` with a fresh primary heap of capacity `k` returns, and
the cyclic queue has then received, in order, exactly one entry for each scored document that
H1 accepted: the zero sentinel `(0, 0)` while H1 was still filling, the entry H1 evicted
(its previous minimum) when H1 was full; a document H1 rejected inserted nothing. -/
theorem method_one_cyclic_entries (max_docid k : Nat) (cursors : List (Cursor S))
    (secondary : topk_queue S) (cyclic : cyclic_queue S)
    (hwf : well_formed max_docid cursors) (hcyclic : cyclic.valid) :
    ∃ w1, wand_query.method_one
        { m_topk := topk_queue.create k, m_secondary := secondary, m_cyclic := cyclic }
        cursors max_docid = some w1 ∧
      cyclic.insert_all (cyclic_entries (topk_queue.create k)
        (wand_query.scored_documents capture_method_one
          { m_topk := topk_queue.create k, m_secondary := secondary, m_cyclic := cyclic }
          cursors max_docid [])) = some w1.m_cyclic := by
  obtain ⟨s1, hrun, _⟩ := wand_stage_one_run k capture_method_one
    (fun st => st.m_cyclic.valid) hwf capture_method_one_ok
    (wand_query.start
      { m_topk := topk_queue.create k, m_secondary := secondary, m_cyclic := cyclic }
      cursors []) rfl rfl (fun _ => hcyclic)
  have htrace := (method_one_trace max_docid _ _ _ hrun).2
  have hexit : cursors.isEmpty = true → s1.m_cyclic = cyclic := by
    intro he
    have hnil : cursors = [] := List.isEmpty_iff.1 he
    subst hnil
    have h1 := wand_run_empty capture_method_one max_docid
      { m_topk := topk_queue.create k, m_secondary := secondary, m_cyclic := cyclic } []
    rw [h1] at hrun
    rw [← Option.some.inj hrun]
    rfl
  unfold wand_query.method_one
  by_cases he : cursors.isEmpty = true
  · rw [if_pos he]
    refine ⟨_, rfl, ?_⟩
    have e := hexit he
    rw [e] at htrace
    exact htrace
  · rw [if_neg he, hrun]
    exact ⟨_, rfl, htrace⟩

/-- Witness for C22: the two-list scenario with `k = 1` and `k' = 2`. -/
theorem method_one_cyclic_entries_witness :
    well_formed 6 scenario_lists ∧ (cyclic_queue.create 2 : cyclic_queue ℕ).valid ∧
    ∃ w1, wand_query.method_one
        { m_topk := topk_queue.create 1, m_secondary := topk_queue.create 2,
          m_cyclic := cyclic_queue.create 2 }
        scenario_lists 6 = some w1 ∧
      (cyclic_queue.create 2 : cyclic_queue ℕ).insert_all
        (cyclic_entries (topk_queue.create 1)
          (wand_query.scored_documents capture_method_one
            { m_topk := topk_queue.create 1, m_secondary := topk_queue.create 2,
              m_cyclic := cyclic_queue.create 2 }
            scenario_lists 6 [])) = some w1.m_cyclic :=
  ⟨scenario_lists_well_formed, by decide,
    method_one_cyclic_entries 6 1 scenario_lists _ _ scenario_lists_well_formed (by decide)⟩

end pisa

namespace pisa

variable {S : Type} [LinearOrderedCommSemiring S]

/-- Counterexample for C24 as stated: on `zero_score_lists` with `k = 1` and `k' = 3`, stage
one of `wand_query::method_three` ends with `L = displaced_id(H2.threshold()) = 3`; docid 2
occurs in list B, lies below `L`, has its bit unset and has exhaustive score 0, which is at
most the threshold 0 of H2; but H2 holds two entries only, so docid 2 would enter H2. -/
theorem rewind_point_zero_score_counterexample :
    well_formed 4 zero_score_lists ∧ 2 ∈ all_docids zero_score_lists ∧
    exhaustive_score zero_score_lists 2 = 0 ∧
    (run_loop (wand_query.loop_body capture_method_three 4) (loop_fuel zero_score_lists)
        (wand_query.start
          { m_topk := topk_queue.create 1, m_secondary := topk_queue.create 3,
            m_cyclic := cyclic_queue.create 3 }
          zero_score_lists (bit_vector_builder 4))).map
      (fun s1 => (s1.m_cyclic.displaced_id s1.m_secondary.threshold,
        s1.m_secondary.threshold, s1.m_secondary.m_q.length, bit_test s1.scored 2,
        s1.m_secondary.would_enter (exhaustive_score zero_score_lists 2))) =
      some (some 3, 0, 2, false, true) :=
  ⟨zero_score_lists_well_formed, by decide, by decide, by decide⟩

/-- C24 (amended). At the end of stage one of `wand_query::method_three` on a well-formed
query with fresh queues and `k' > 0`, `L = Q.displaced_id(H2.threshold())` is defined, and
every docid `d < L` that was not scored in stage one (its bit is unset) has an exhaustive
score of at most `H2.threshold()` at that moment; so it could not enter H2 when H2 is full,
and when H2 is not yet full its exhaustive score is 0. -/
theorem method_three_rewind_point (max_docid k k2 : Nat) (cursors : List (Cursor S))
    (hwf : well_formed max_docid cursors) (hk2 : 0 < k2) :
    ∃ s1 L, run_loop (wand_query.loop_body capture_method_three max_docid)
        (loop_fuel cursors)
        (wand_query.start
          { m_topk := topk_queue.create k, m_secondary := topk_queue.create k2,
            m_cyclic := cyclic_queue.create k2 }
          cursors (bit_vector_builder max_docid)) = some s1 ∧
      s1.m_cyclic.displaced_id s1.m_secondary.threshold = some L ∧
      ∀ d, d < L → bit_test s1.scored d = false →
        exhaustive_score cursors d ≤ s1.m_secondary.threshold ∧
        (k2 ≤ s1.m_secondary.m_q.length →
          s1.m_secondary.would_enter (exhaustive_score cursors d) = false) ∧
        (s1.m_secondary.m_q.length < k2 → exhaustive_score cursors d = 0) :=
  wand_rewind_point hwf hk2

/-- Witness for C24 (amended): the two-list scenario with `k = 1` and `k' = 2`. -/
theorem method_three_rewind_point_witness :
    well_formed 6 scenario_lists ∧ 0 < 2 ∧
    ∃ s1 L, run_loop (wand_query.loop_body capture_method_three 6)
        (loop_fuel scenario_lists)
        (wand_query.start
          { m_topk := topk_queue.create 1, m_secondary := topk_queue.create 2,
            m_cyclic := cyclic_queue.create 2 }
          scenario_lists (bit_vector_builder 6)) = some s1 ∧
      s1.m_cyclic.displaced_id s1.m_secondary.threshold = some L ∧
      ∀ d, d < L → bit_test s1.scored d = false →
        exhaustive_score scenario_lists d ≤ s1.m_secondary.threshold ∧
        (2 ≤ s1.m_secondary.m_q.length →
          s1.m_secondary.would_enter (exhaustive_score scenario_lists d) = false) ∧
        (s1.m_secondary.m_q.length < 2 → exhaustive_score scenario_lists d = 0) :=
  ⟨scenario_lists_well_formed, by decide,
    method_three_rewind_point 6 1 2 scenario_lists scenario_lists_well_formed (by decide)⟩

end pisa

namespace pisa

variable {S : Type} [LinearOrderedCommSemiring S]

/-- C32. For a `cyclic_queue` in a valid state (`k > 0` slots, write index below `k`) whose
slot scores are non-decreasing in age order (slot `w`, then `w+1, ..., k-1`, then
`0, ..., w-1`), `displaced_id(t)` returns the docid of a slot such that every newer slot has a
score above `t`; when some slot has a score `≤ t`, the slot returned has a score `≤ t`, the
largest such score in the queue; and when no slot has a score `≤ t`, it is the oldest slot
`w`. -/
theorem displaced_id_newest_of_monotone (q : cyclic_queue S) (t : S) (hq : q.valid)
    (hm : q.monotone) :
    ∃ L R e, q.age_order = L ++ q.displaced_slot t :: R ∧
      q.m_data[q.displaced_slot t]? = some e ∧ q.displaced_id t = some e.2 ∧
      (∀ j ∈ R, ∀ e2, q.m_data[j]? = some e2 → t < e2.1) ∧
      ((∃ e2 ∈ q.m_data, e2.1 ≤ t) →
        e.1 ≤ t ∧ ∀ e2 ∈ q.m_data, e2.1 ≤ t → e2.1 ≤ e.1) ∧
      ((∀ e2 ∈ q.m_data, ¬ e2.1 ≤ t) → q.displaced_slot t = q.m_index) := by
  obtain ⟨L, R, e, h1, h2, h3, h4⟩ := cyclic_queue.displaced_slot_newest q t hq
  obtain ⟨e1, g1, g2, g3⟩ := cyclic_queue.displaced_slot_monotone q t hq hm
  rw [h2] at g1
  have he : e = e1 := Option.some.inj g1
  subst he
  refine ⟨L, R, e, h1, h2, h3, h4, ?_, g3⟩
  rintro ⟨e0, he0, hle0⟩
  exact ⟨(g2 e0 he0 hle0).2, fun e2 he2 hle2 => (g2 e2 he2 hle2).1⟩

/-- Witness for C32: the queue of capacity 3 after the inserts `(1, 10)`, `(3, 20)`,
`(5, 30)`, `(7, 40)` and `t = 4`. -/
theorem displaced_id_newest_of_monotone_witness :
    history_queue.valid ∧ history_queue.monotone ∧
    ∃ L R e, history_queue.age_order = L ++ history_queue.displaced_slot 4 :: R ∧
      history_queue.m_data[history_queue.displaced_slot 4]? = some e ∧
      history_queue.displaced_id 4 = some e.2 ∧
      (∀ j ∈ R, ∀ e2, history_queue.m_data[j]? = some e2 → 4 < e2.1) ∧
      ((∃ e2 ∈ history_queue.m_data, e2.1 ≤ 4) →
        e.1 ≤ 4 ∧ ∀ e2 ∈ history_queue.m_data, e2.1 ≤ 4 → e2.1 ≤ e.1) ∧
      ((∀ e2 ∈ history_queue.m_data, ¬ e2.1 ≤ 4) →
        history_queue.displaced_slot 4 = history_queue.m_index) :=
  ⟨by decide, by decide,
    displaced_id_newest_of_monotone history_queue 4 (by decide) (by decide)⟩

/-- C37. For a `cyclic_queue` constructed with `k > 0`, every sequence of `insert` and
`finalize` calls is defined and leaves a state whose write index is below
`k = size() = capacity()`; in that state `threshold()`, `insert(s, d)` and `displaced_id(t)`
are defined, every slot `displaced_id` scans is in range, and so is the slot it reads at the
end. -/
theorem cyclic_queue_index_in_range (k : Nat) (ops : List (cyclic_queue.op S)) (t s : S)
    (d : Nat) (hk : 0 < k) (hops : ∀ o ∈ ops, cyclic_queue.op.is_clear o = false) :
    ∃ q, cyclic_queue.run (cyclic_queue.create k) ops = some q ∧
      q.m_index < k ∧ q.size = k ∧ q.capacity = k ∧
      (∃ x, q.threshold = some x) ∧ (∃ q1, q.insert s d = some q1) ∧
      (∃ x, q.displaced_id t = some x) ∧
      (∀ i ∈ q.scan_order, i < q.size) ∧ q.displaced_slot t < q.size := by
  obtain ⟨q, hq, hv, hqk⟩ :=
    cyclic_queue.run_valid ops (cyclic_queue.create k) (cyclic_queue.create_valid k hk) hops
  have hcap : q.m_k = k := hqk
  have hw : q.m_index < q.m_data.length := by rw [hv.1]; exact hv.2
  obtain ⟨q1, hq1, _⟩ := cyclic_queue.insert_valid q s d hv
  obtain ⟨_, _, e, _, _, hid, _⟩ := cyclic_queue.displaced_slot_newest q t hv
  refine ⟨q, hq, by rw [← hcap]; exact hv.2, by unfold cyclic_queue.size; rw [hv.1, hcap],
    hcap, ⟨(q.m_data[q.m_index]).1, ?_⟩, ⟨q1, hq1⟩, ⟨e.2, hid⟩,
    cyclic_queue.scan_order_lt q hv, cyclic_queue.displaced_slot_lt q t hw⟩
  unfold cyclic_queue.threshold
  rw [List.getElem?_eq_getElem hw]
  rfl

/-- Witness for C37: capacity 2 and the calls `insert(5, 1)`, `finalize()`, `insert(7, 2)`,
`insert(9, 3)`. -/
theorem cyclic_queue_index_in_range_witness :
    0 < 2 ∧
    (∀ o ∈ [cyclic_queue.op.insert (5 : ℕ) 1, cyclic_queue.op.finalize,
        cyclic_queue.op.insert 7 2, cyclic_queue.op.insert 9 3],
      cyclic_queue.op.is_clear o = false) ∧
    ∃ q, cyclic_queue.run (cyclic_queue.create 2)
        [cyclic_queue.op.insert (5 : ℕ) 1, cyclic_queue.op.finalize,
          cyclic_queue.op.insert 7 2, cyclic_queue.op.insert 9 3] = some q ∧
      q.m_index < 2 ∧ q.size = 2 ∧ q.capacity = 2 ∧
      (∃ x, q.threshold = some x) ∧ (∃ q1, q.insert 4 8 = some q1) ∧
      (∃ x, q.displaced_id 6 = some x) ∧
      (∀ i ∈ q.scan_order, i < q.size) ∧ q.displaced_slot 6 < q.size :=
  ⟨by decide, by decide,
    cyclic_queue_index_in_range 2 _ 6 4 8 (by decide) (by decide)⟩

/-- C38. In every WAND loop (the loop of `operator()`, `method_one`, `method_two` and stage
one of `method_three`, with any capture statement, and the stage-two loop of `method_three`),
once a pivot is found the reads of `C[pivot]` and `C[0]` are in range, and in the non-aligned
branch the backward walk from `pivot` stops at an index `next_list` with `0 <= next_list <=
pivot` whose cursor is in range and has `docid() != pivot_id`: the index never underflows, and
the branch goes on to the next iteration. In stage two this holds for the cursors as Case 1
leaves them. -/
theorem backward_walk_in_range (max_docid : Nat) :
    (∀ (capture : driver_state S → S → Nat → Option (driver_state S)) (st : driver_state S)
      (p : Nat), find_pivot st.m_topk max_docid st.ordered_cursors 0 0 = some p →
      ∃ cp c0, st.ordered_cursors[p]? = some cp ∧ st.ordered_cursors[0]? = some c0 ∧
        (cp.docid ≠ c0.docid →
          ∃ i c cs2, walk_back st.ordered_cursors cp.docid p = some i ∧ i ≤ p ∧
            st.ordered_cursors[i]? = some c ∧ c.docid ≠ cp.docid ∧
            align false st.ordered_cursors p cp.docid = some cs2 ∧
            wand_query.loop_body capture max_docid st =
              loop_step.next { st with ordered_cursors := cs2 })) ∧
    (∀ (st : driver_state S) (p : Nat),
      find_pivot st.m_secondary max_docid st.ordered_cursors 0 0 = some p →
      ∃ cp cs1 c0, st.ordered_cursors[p]? = some cp ∧
        (if bit_test st.scored cp.docid then
          advance_and_bubble true st.ordered_cursors p (fun c => c.next)
         else some st.ordered_cursors) = some cs1 ∧
        cs1[0]? = some c0 ∧ p < cs1.length ∧
        (cp.docid ≠ c0.docid →
          ∃ i c cs2, walk_back cs1 cp.docid p = some i ∧ i ≤ p ∧
            cs1[i]? = some c ∧ c.docid ≠ cp.docid ∧
            align false cs1 p cp.docid = some cs2 ∧
            wand_query.stage_two_body max_docid st =
              loop_step.next { st with ordered_cursors := cs2 })) := by
  have hwalk : ∀ (cs : List (Cursor S)) (p pid : Nat) (c0 : Cursor S), p < cs.length →
      cs[0]? = some c0 → pid ≠ c0.docid →
      ∃ i c cs2, walk_back cs pid p = some i ∧ i ≤ p ∧ cs[i]? = some c ∧ c.docid ≠ pid ∧
        align false cs p pid = some cs2 := by
    intro cs p pid c0 hp hc0 hne
    obtain ⟨i, hi⟩ := walk_back_exists cs pid p hp
      ⟨0, Nat.zero_le _, c0, hc0, fun h => hne h.symm⟩
    obtain ⟨hip, c, hc, hcd⟩ := walk_back_spec cs pid p i hi
    obtain ⟨cs2, h2, _⟩ := advance_and_bubble_spec false cs i (fun c => c.next_geq pid) c hc
    refine ⟨i, c, cs2, hi, hip, hc, hcd, ?_⟩
    unfold align
    rw [hi]
    exact h2
  constructor
  · intro capture st p hfp
    obtain ⟨n, hn, hlen, _⟩ := find_pivot_some st.ordered_cursors 0 0 p hfp
    have hn2 : n = p := by omega
    subst hn2
    have hcp : st.ordered_cursors[n]? = some st.ordered_cursors[n] :=
      List.getElem?_eq_getElem hlen
    have hc0 : st.ordered_cursors[0]? = some st.ordered_cursors[0] :=
      List.getElem?_eq_getElem (by omega)
    generalize st.ordered_cursors[n] = cp at hcp
    generalize st.ordered_cursors[0] = c0 at hc0
    refine ⟨cp, c0, hcp, hc0, ?_⟩
    intro hne
    obtain ⟨i, c, cs2, h1, h2, h3, h4, h5⟩ :=
      hwalk st.ordered_cursors n cp.docid c0 hlen hc0 hne
    exact ⟨i, c, cs2, h1, h2, h3, h4, h5,
      wand_query.loop_body_align capture max_docid st n cp c0 cs2 hfp hcp hc0 hne h5⟩
  · intro st p hfp
    obtain ⟨n, hn, hlen, _⟩ := find_pivot_some st.ordered_cursors 0 0 p hfp
    have hn2 : n = p := by omega
    subst hn2
    have hcp : st.ordered_cursors[n]? = some st.ordered_cursors[n] :=
      List.getElem?_eq_getElem hlen
    generalize st.ordered_cursors[n] = cp at hcp
    have hcase1 : ∃ cs1, (if bit_test st.scored cp.docid = true then
          advance_and_bubble true st.ordered_cursors n (fun c => c.next)
        else some st.ordered_cursors) = some cs1 ∧
        cs1.length = st.ordered_cursors.length := by
      by_cases hbit : bit_test st.scored cp.docid = true
      · rw [if_pos hbit]
        obtain ⟨cs1, h1, h2, _⟩ :=
          advance_and_bubble_spec true st.ordered_cursors n (fun c => c.next) cp hcp
        refine ⟨cs1, h1, ?_⟩
        rw [h2.length_eq]
        conv_rhs => rw [eq_take_cons_drop hcp]
        simp
      · rw [if_neg hbit]
        exact ⟨_, rfl, rfl⟩
    obtain ⟨cs1, hcs1, hlen1⟩ := hcase1
    have hc0 : cs1[0]? = some cs1[0] := List.getElem?_eq_getElem (by omega)
    generalize cs1[0] = c0 at hc0
    refine ⟨cp, cs1, c0, hcp, hcs1, hc0, by omega, ?_⟩
    intro hne
    obtain ⟨i, c, cs2, h1, h2, h3, h4, h5⟩ := hwalk cs1 n cp.docid c0 (by omega) hc0 hne
    refine ⟨i, c, cs2, h1, h2, h3, h4, h5, ?_⟩
    unfold wand_query.stage_two_body
    rw [hfp]
    simp only [hcp, hcs1, hc0]
    rw [if_neg hne, h5]

end pisa

namespace pisa

variable {S : Type} [LinearOrderedCommSemiring S]

/-- C31. For every well-formed query (scores are non-negative) and every cyclic queue in a
valid state, stage one of `wand_query::method_three` with a fresh primary heap returns; the
cyclic queue has then received, in order, the entries `(ejected_score, pivot_id)` of the
accepted candidates, and these entries have non-decreasing scores and strictly increasing
docids in insertion order. -/
theorem method_three_entries_monotone (max_docid k : Nat) (cursors : List (Cursor S))
    (secondary : topk_queue S) (cyclic : cyclic_queue S)
    (hwf : well_formed max_docid cursors) (hcyclic : cyclic.valid) :
    ∃ s1, run_loop (wand_query.loop_body capture_method_three max_docid) (loop_fuel cursors)
        (wand_query.start
          { m_topk := topk_queue.create k, m_secondary := secondary, m_cyclic := cyclic }
          cursors (bit_vector_builder max_docid)) = some s1 ∧
      cyclic.insert_all (rewind_entries (topk_queue.create k)
        (wand_query.scored_documents capture_method_three
          { m_topk := topk_queue.create k, m_secondary := secondary, m_cyclic := cyclic }
          cursors max_docid (bit_vector_builder max_docid))) = some s1.m_cyclic ∧
      (rewind_entries (topk_queue.create k)
        (wand_query.scored_documents capture_method_three
          { m_topk := topk_queue.create k, m_secondary := secondary, m_cyclic := cyclic }
          cursors max_docid (bit_vector_builder max_docid))).Pairwise
        (fun a b => a.1 ≤ b.1) ∧
      (rewind_entries (topk_queue.create k)
        (wand_query.scored_documents capture_method_three
          { m_topk := topk_queue.create k, m_secondary := secondary, m_cyclic := cyclic }
          cursors max_docid (bit_vector_builder max_docid))).Pairwise
        (fun a b => a.2 < b.2) := by
  obtain ⟨s1, hrun, _⟩ := wand_stage_one_run k capture_method_three
    (fun st => st.m_cyclic.valid) hwf capture_method_three_ok
    (wand_query.start
      { m_topk := topk_queue.create k, m_secondary := secondary, m_cyclic := cyclic }
      cursors (bit_vector_builder max_docid)) rfl rfl (fun _ => hcyclic)
  have htrace := method_three_trace max_docid _ _ _ hrun
  obtain ⟨hinc, hfacts⟩ := candidates_facts capture_method_three hwf (loop_fuel cursors)
    (wand_query.start
      { m_topk := topk_queue.create k, m_secondary := secondary, m_cyclic := cyclic }
      cursors (bit_vector_builder max_docid)) (start_cursors cursors).1
    (start_cursors cursors).2
  refine ⟨s1, hrun, htrace, ?_, ?_⟩
  · exact (rewind_entries_scores _ (topk_queue.create k) (heap_ok_create k)
      (fun e he => (hfacts e he).1)).1
  · have hsub := rewind_entries_docids
      (wand_query.scored_documents capture_method_three
        { m_topk := topk_queue.create k, m_secondary := secondary, m_cyclic := cyclic }
        cursors max_docid (bit_vector_builder max_docid)) (topk_queue.create k)
    have hp : ((wand_query.scored_documents capture_method_three
        { m_topk := topk_queue.create k, m_secondary := secondary, m_cyclic := cyclic }
        cursors max_docid (bit_vector_builder max_docid)).map Prod.snd).Pairwise
        (fun a b => a < b) := List.pairwise_map.2 hinc
    exact List.pairwise_map.1 (hp.sublist hsub)

/-- Witness for C31: the two-list scenario with `k = 1` and a cyclic queue of capacity 2. -/
theorem method_three_entries_monotone_witness :
    well_formed 6 scenario_lists ∧ (cyclic_queue.create 2 : cyclic_queue ℕ).valid ∧
    ∃ s1, run_loop (wand_query.loop_body capture_method_three 6) (loop_fuel scenario_lists)
        (wand_query.start
          { m_topk := topk_queue.create 1, m_secondary := topk_queue.create 2,
            m_cyclic := cyclic_queue.create 2 }
          scenario_lists (bit_vector_builder 6)) = some s1 ∧
      (cyclic_queue.create 2 : cyclic_queue ℕ).insert_all
        (rewind_entries (topk_queue.create 1)
          (wand_query.scored_documents capture_method_three
            { m_topk := topk_queue.create 1, m_secondary := topk_queue.create 2,
              m_cyclic := cyclic_queue.create 2 }
            scenario_lists 6 (bit_vector_builder 6))) = some s1.m_cyclic ∧
      (rewind_entries (topk_queue.create 1)
        (wand_query.scored_documents capture_method_three
          { m_topk := topk_queue.create 1, m_secondary := topk_queue.create 2,
            m_cyclic := cyclic_queue.create 2 }
          scenario_lists 6 (bit_vector_builder 6))).Pairwise (fun a b => a.1 ≤ b.1) ∧
      (rewind_entries (topk_queue.create 1)
        (wand_query.scored_documents capture_method_three
          { m_topk := topk_queue.create 1, m_secondary := topk_queue.create 2,
            m_cyclic := cyclic_queue.create 2 }
          scenario_lists 6 (bit_vector_builder 6))).Pairwise (fun a b => a.2 < b.2) :=
  ⟨scenario_lists_well_formed, by decide,
    method_three_entries_monotone 6 1 scenario_lists _ _ scenario_lists_well_formed
      (by decide)⟩

/-- C33. For every well-formed query, the documents the baseline WAND driver scores in one
pass come in strictly increasing docid order; the driver, started with a fresh primary heap,
returns, its primary heap has then been offered exactly these documents, one insertion each,
and neither the primary heap nor its finalized top-k holds a docid twice. -/
theorem baseline_scored_docids_increasing (max_docid k : Nat) (cursors : List (Cursor S))
    (secondary : topk_queue S) (cyclic : cyclic_queue S)
    (hwf : well_formed max_docid cursors) :
    (wand_query.scored_documents capture_baseline
        { m_topk := topk_queue.create k, m_secondary := secondary, m_cyclic := cyclic }
        cursors max_docid []).Pairwise (fun a b => a.2 < b.2) ∧
    ∃ w1, wand_query.call
        { m_topk := topk_queue.create k, m_secondary := secondary, m_cyclic := cyclic }
        cursors max_docid = some w1 ∧
      w1.m_topk = offer_all (topk_queue.create k)
        (wand_query.scored_documents capture_baseline
          { m_topk := topk_queue.create k, m_secondary := secondary, m_cyclic := cyclic }
          cursors max_docid []) ∧
      (w1.m_topk.m_q.map Prod.snd).Nodup ∧
      (w1.m_topk.finalize.topk.map Prod.snd).Nodup := by
  obtain ⟨s1, hrun, _⟩ := wand_stage_one_run k capture_baseline
    (fun _ => True) hwf capture_baseline_ok
    (wand_query.start
      { m_topk := topk_queue.create k, m_secondary := secondary, m_cyclic := cyclic }
      cursors []) rfl rfl (fun _ => trivial)
  have htrace := topk_trace capture_baseline max_docid
    (fun st s d st1 h => capture_baseline_topk st st1 s d h) _ _ _ hrun
  obtain ⟨hinc, _⟩ := candidates_facts capture_baseline hwf (loop_fuel cursors)
    (wand_query.start
      { m_topk := topk_queue.create k, m_secondary := secondary, m_cyclic := cyclic }
      cursors []) (start_cursors cursors).1 (start_cursors cursors).2
  refine ⟨hinc, ?_⟩
  have hnd := offer_all_docids_nodup
    (wand_query.scored_documents capture_baseline
      { m_topk := topk_queue.create k, m_secondary := secondary, m_cyclic := cyclic }
      cursors max_docid []) (topk_queue.create k) rfl hinc
  have hfacts : s1.m_topk = offer_all (topk_queue.create k)
        (wand_query.scored_documents capture_baseline
          { m_topk := topk_queue.create k, m_secondary := secondary, m_cyclic := cyclic }
          cursors max_docid []) ∧
      (s1.m_topk.m_q.map Prod.snd).Nodup ∧
      (s1.m_topk.finalize.topk.map Prod.snd).Nodup := by
    refine ⟨htrace, ?_, ?_⟩
    · rw [htrace]; exact hnd
    · rw [htrace]
      exact (((List.perm_insertionSort _ _).map Prod.snd).nodup_iff).2 hnd
  have hexit : cursors.isEmpty = true → s1 = wand_query.start
      { m_topk := topk_queue.create k, m_secondary := secondary, m_cyclic := cyclic }
      cursors [] := by
    intro he
    have hnil : cursors = [] := List.isEmpty_iff.1 he
    subst hnil
    have h1 := wand_run_empty capture_baseline max_docid
      { m_topk := topk_queue.create k, m_secondary := secondary, m_cyclic := cyclic } []
    rw [h1] at hrun
    exact (Option.some.inj hrun).symm
  unfold wand_query.call
  by_cases he : cursors.isEmpty = true
  · rw [if_pos he]
    refine ⟨_, rfl, ?_⟩
    have e := hexit he
    rw [e] at hfacts
    exact hfacts
  · rw [if_neg he, hrun]
    exact ⟨_, rfl, hfacts⟩

/-- Witness for C33: the two-list scenario with `k = 2`. -/
theorem baseline_scored_docids_increasing_witness :
    well_formed 6 scenario_lists ∧
    (wand_query.scored_documents capture_baseline
        { m_topk := topk_queue.create 2, m_secondary := topk_queue.create 0,
          m_cyclic := cyclic_queue.create 0 }
        scenario_lists 6 []).Pairwise (fun a b => a.2 < b.2) ∧
    ∃ w1, wand_query.call
        { m_topk := topk_queue.create 2, m_secondary := topk_queue.create 0,
          m_cyclic := cyclic_queue.create 0 }
        scenario_lists 6 = some w1 ∧
      w1.m_topk = offer_all (topk_queue.create 2)
        (wand_query.scored_documents capture_baseline
          { m_topk := topk_queue.create 2, m_secondary := topk_queue.create 0,
            m_cyclic := cyclic_queue.create 0 }
          scenario_lists 6 []) ∧
      (w1.m_topk.m_q.map Prod.snd).Nodup ∧
      (w1.m_topk.finalize.topk.map Prod.snd).Nodup :=
  ⟨scenario_lists_well_formed,
    baseline_scored_docids_increasing 6 2 scenario_lists _ _ scenario_lists_well_formed⟩

/-- Counterexample for C34 as stated: on the one-list query whose only posting is docid 0
with score 5, with `k = 1` and `k' = 1`, `wand_query::method_two` ends with the primary heap
holding `(5, 0)` and the secondary heap holding the zero sentinel `(0, 0)`: docid 0 occurs in
both. -/
theorem method_two_shared_docid_counterexample :
    well_formed 1 first_docid_lists ∧
    (wand_query.method_two
        { m_topk := topk_queue.create 1, m_secondary := topk_queue.create 1,
          m_cyclic := cyclic_queue.create 1 }
        first_docid_lists 1).map (fun w => (w.m_topk.m_q, w.m_secondary.m_q)) =
      some ([(5, 0)], [(0, 0)]) ∧
    (0 : Nat) ∈ ([((5 : ℕ), 0)].map Prod.snd) ∧ (0 : Nat) ∈ ([((0 : ℕ), 0)].map Prod.snd) :=
  ⟨first_docid_lists_well_formed, by decide, by decide, by decide⟩

/-- C34 (amended). After `wand_query::method_two` on any well-formed query with fresh heaps,
an entry of the secondary heap whose docid also occurs in the primary heap is the zero
sentinel `(0, 0)`: no docid occurs in both heaps except docid 0 through the sentinel. -/
theorem method_two_heaps_disjoint (max_docid k k2 : Nat) (cursors : List (Cursor S))
    (cyclic : cyclic_queue S) (hwf : well_formed max_docid cursors) :
    ∃ w1, wand_query.method_two
        { m_topk := topk_queue.create k, m_secondary := topk_queue.create k2,
          m_cyclic := cyclic }
        cursors max_docid = some w1 ∧
      ∀ x ∈ w1.m_secondary.m_q, ∀ y ∈ w1.m_topk.m_q, y.2 = x.2 → x = (0, 0) := by
  obtain ⟨s1, hrun, _⟩ := wand_stage_one_run k capture_method_two
    (fun _ => True) hwf capture_method_two_ok
    (wand_query.start
      { m_topk := topk_queue.create k, m_secondary := topk_queue.create k2,
        m_cyclic := cyclic }
      cursors []) rfl rfl (fun _ => trivial)
  obtain ⟨ht1, ht2⟩ := method_two_trace max_docid _ _ _ hrun
  obtain ⟨hinc, _⟩ := candidates_facts capture_method_two hwf (loop_fuel cursors)
    (wand_query.start
      { m_topk := topk_queue.create k, m_secondary := topk_queue.create k2,
        m_cyclic := cyclic }
      cursors []) (start_cursors cursors).1 (start_cursors cursors).2
  have hfacts : ∀ x ∈ s1.m_secondary.m_q, ∀ y ∈ s1.m_topk.m_q, y.2 = x.2 → x = (0, 0) := by
    intro x hx y hy hxy
    rw [ht2] at hx
    rw [ht1] at hy
    have hsub := offer_all_subperm (secondary_offers (topk_queue.create k)
      (candidates (wand_query.loop_body capture_method_two max_docid)
        (wand_query.candidate max_docid) (loop_fuel cursors)
        (wand_query.start
          { m_topk := topk_queue.create k, m_secondary := topk_queue.create k2,
            m_cyclic := cyclic }
          cursors []))) (topk_queue.create k2)
    have hx2 := hsub.subset hx
    have e : (topk_queue.create k2 : topk_queue S).m_q = [] := rfl
    rw [e, List.append_nil] at hx2
    exact secondary_offers_disjoint _ (topk_queue.create k) rfl hinc x hx2 y hy hxy
  have hexit : cursors.isEmpty = true → s1 = wand_query.start
      { m_topk := topk_queue.create k, m_secondary := topk_queue.create k2,
        m_cyclic := cyclic } cursors [] := by
    intro he
    have hnil : cursors = [] := List.isEmpty_iff.1 he
    subst hnil
    have h1 := wand_run_empty capture_method_two max_docid
      { m_topk := topk_queue.create k, m_secondary := topk_queue.create k2,
        m_cyclic := cyclic } []
    rw [h1] at hrun
    exact (Option.some.inj hrun).symm
  unfold wand_query.method_two
  by_cases he : cursors.isEmpty = true
  · rw [if_pos he]
    refine ⟨_, rfl, ?_⟩
    have e := hexit he
    rw [e] at hfacts
    exact hfacts
  · rw [if_neg he, hrun]
    exact ⟨_, rfl, hfacts⟩

/-- Witness for C34 (amended): the one-list query of the counterexample, `k = 1`, `k' = 1`. -/
theorem method_two_heaps_disjoint_witness :
    well_formed 1 first_docid_lists ∧
    ∃ w1, wand_query.method_two
        { m_topk := topk_queue.create 1, m_secondary := topk_queue.create 1,
          m_cyclic := cyclic_queue.create 1 }
        first_docid_lists 1 = some w1 ∧
      ∀ x ∈ w1.m_secondary.m_q, ∀ y ∈ w1.m_topk.m_q, y.2 = x.2 → x = (0, 0) :=
  ⟨first_docid_lists_well_formed,
    method_two_heaps_disjoint 1 1 1 first_docid_lists _ first_docid_lists_well_formed⟩

/-- Counterexample for C35 as stated: on the two-list scenario with `k = 2` and `k' = 2`,
WAND Method 1 run through the orchestrator returns the secondary output `[(1, 1), (0, 0)]`;
its entry `(0, 0)` is the zero sentinel, and docid 0 occurs in no list of the query. -/
theorem method_one_sentinel_output_counterexample :
    well_formed 6 scenario_lists ∧
    query_fun_wand_method_1 2 2 scenario_lists 6 =
      some ([(3, 3), (2, 2)], [(1, 1), (0, 0)]) ∧
    0 ∉ all_docids scenario_lists :=
  ⟨scenario_lists_well_formed, by decide, by decide⟩

/-- C35 (amended). For WAND Method 1 run through the orchestrator on a well-formed query,
every entry `(s, d)` of the secondary output other than the zero entry `(0, 0)` is a document
the driver scored: `d` occurs in some list of the query and `s` is the exhaustive score of
`d`; and with `k' > 0` the run returns. -/
theorem method_one_output_scored (max_docid k k2 : Nat) (cursors : List (Cursor S))
    (hwf : well_formed max_docid cursors) :
    (∀ p s, query_fun_wand_method_1 k k2 cursors max_docid = some (p, s) →
      ∀ e ∈ s, e = (0, 0) ∨
        (e ∈ wand_query.scored_documents capture_method_one
            { m_topk := topk_queue.create k, m_secondary := topk_queue.create k2,
              m_cyclic := cyclic_queue.create k2 }
            cursors max_docid [] ∧
          e.2 ∈ all_docids cursors ∧ e.1 = exhaustive_score cursors e.2)) ∧
    (0 < k2 → ∃ p s, query_fun_wand_method_1 k k2 cursors max_docid = some (p, s)) := by
  constructor
  · intro p s h e he
    unfold query_fun_wand_method_1 at h
    cases hm : wand_query.method_one
        { m_topk := topk_queue.create k, m_secondary := topk_queue.create k2,
          m_cyclic := cyclic_queue.create k2 } cursors max_docid with
    | none => rw [hm] at h; exact Option.noConfusion h
    | some w1 =>
      rw [hm] at h
      have h2 := Option.some.inj h
      have hs : w1.m_cyclic.finalize.topk = s := congrArg Prod.snd h2
      rw [← hs, cyclic_queue.mem_finalize_data] at he
      unfold wand_query.method_one at hm
      by_cases hemp : cursors.isEmpty = true
      · rw [if_pos hemp] at hm
        rw [← Option.some.inj hm] at he
        exact Or.inl (List.eq_of_mem_replicate he)
      · rw [if_neg hemp] at hm
        cases hrun : run_loop (wand_query.loop_body capture_method_one max_docid)
            (loop_fuel cursors)
            (wand_query.start
              { m_topk := topk_queue.create k, m_secondary := topk_queue.create k2,
                m_cyclic := cyclic_queue.create k2 } cursors []) with
        | none => rw [hrun] at hm; exact Option.noConfusion hm
        | some s1 =>
          rw [hrun] at hm
          rw [← Option.some.inj hm] at he
          have htrace := (method_one_trace max_docid _ _ _ hrun).2
          rcases cyclic_queue.mem_insert_all _ _ _ htrace e he with h1 | h1
          · exact Or.inl (List.eq_of_mem_replicate h1)
          · rcases cyclic_entries_mem _ _ e h1 with h3 | h3 | h3
            · exact Or.inl h3
            · exact absurd h3 (List.not_mem_nil _)
            · have hex := candidates_exhaustive capture_method_one
                (fun st s d st1 h => capture_method_one_scored st st1 s d h) hwf (loop_fuel cursors) _ (wand_plain_start hwf _) e h3
              exact Or.inr ⟨h3, hex.2, hex.1⟩
  · intro hk2
    have hcv : (cyclic_queue.create k2 : cyclic_queue S).valid :=
      ⟨by simp [cyclic_queue.create], hk2⟩
    obtain ⟨s1, hrun, _⟩ := wand_stage_one_run k capture_method_one
      (fun st => st.m_cyclic.valid) hwf capture_method_one_ok
      (wand_query.start
        { m_topk := topk_queue.create k, m_secondary := topk_queue.create k2,
          m_cyclic := cyclic_queue.create k2 }
        cursors []) rfl rfl (fun _ => hcv)
    unfold query_fun_wand_method_1 wand_query.method_one
    by_cases hemp : cursors.isEmpty = true
    · rw [if_pos hemp]
      exact ⟨_, _, rfl⟩
    · rw [if_neg hemp, hrun]
      exact ⟨_, _, rfl⟩

/-- Witness for C35 (amended): the two-list scenario of the counterexample, `k = 2` and
`k' = 2`. -/
theorem method_one_output_scored_witness :
    well_formed 6 scenario_lists ∧
    (∀ p s, query_fun_wand_method_1 2 2 scenario_lists 6 = some (p, s) →
      ∀ e ∈ s, e = (0, 0) ∨
        (e ∈ wand_query.scored_documents capture_method_one
            { m_topk := topk_queue.create 2, m_secondary := topk_queue.create 2,
              m_cyclic := cyclic_queue.create 2 }
            scenario_lists 6 [] ∧
          e.2 ∈ all_docids scenario_lists ∧ e.1 = exhaustive_score scenario_lists e.2)) ∧
    (0 < 2 → ∃ p s, query_fun_wand_method_1 2 2 scenario_lists 6 = some (p, s)) :=
  ⟨scenario_lists_well_formed,
    method_one_output_scored 6 2 2 scenario_lists scenario_lists_well_formed⟩

/-- C36. After `wand_query::method_two` on any well-formed query with fresh heaps, every
score in the secondary heap is at most every score in the primary heap, whether or not the
primary heap is full; so the output of the orchestrator, the finalized primary heap followed
by the finalized secondary heap, is in non-increasing score order. -/
theorem method_two_output_sorted (max_docid k k2 : Nat) (cursors : List (Cursor S))
    (hwf : well_formed max_docid cursors) :
    ∃ w1, wand_query.method_two
        { m_topk := topk_queue.create k, m_secondary := topk_queue.create k2,
          m_cyclic := cyclic_queue.create k2 }
        cursors max_docid = some w1 ∧
      (∀ x ∈ w1.m_secondary.m_q, ∀ y ∈ w1.m_topk.m_q, x.1 ≤ y.1) ∧
      query_fun_wand_method_2 k k2 cursors max_docid =
        some (w1.m_topk.finalize.topk, w1.m_secondary.finalize.topk) ∧
      (w1.m_topk.finalize.topk ++ w1.m_secondary.finalize.topk).Sorted
        (fun a b => b.1 ≤ a.1) := by
  obtain ⟨s1, hrun, _⟩ := wand_stage_one_run k capture_method_two
    (fun _ => True) hwf capture_method_two_ok
    (wand_query.start
      { m_topk := topk_queue.create k, m_secondary := topk_queue.create k2,
        m_cyclic := cyclic_queue.create k2 }
      cursors []) rfl rfl (fun _ => trivial)
  obtain ⟨ht1, ht2⟩ := method_two_trace max_docid _ _ _ hrun
  obtain ⟨_, hcf⟩ := candidates_facts capture_method_two hwf (loop_fuel cursors)
    (wand_query.start
      { m_topk := topk_queue.create k, m_secondary := topk_queue.create k2,
        m_cyclic := cyclic_queue.create k2 }
      cursors []) (start_cursors cursors).1 (start_cursors cursors).2
  have hle : ∀ x ∈ s1.m_secondary.m_q, ∀ y ∈ s1.m_topk.m_q, x.1 ≤ y.1 := by
    intro x hx y hy
    rw [ht2] at hx
    rw [ht1] at hy
    have hsub := offer_all_subperm (secondary_offers (topk_queue.create k)
      (candidates (wand_query.loop_body capture_method_two max_docid)
        (wand_query.candidate max_docid) (loop_fuel cursors)
        (wand_query.start
          { m_topk := topk_queue.create k, m_secondary := topk_queue.create k2,
            m_cyclic := cyclic_queue.create k2 }
          cursors []))) (topk_queue.create k2)
    have hx2 := hsub.subset hx
    have e : (topk_queue.create k2 : topk_queue S).m_q = [] := rfl
    rw [e, List.append_nil] at hx2
    exact secondary_offers_le _ (topk_queue.create k) (heap_ok_create k)
      (fun e he => (hcf e he).1) x hx2 y hy
  have hsorted : (s1.m_topk.finalize.topk ++ s1.m_secondary.finalize.topk).Sorted
      (fun a b => b.1 ≤ a.1) := by
    refine List.pairwise_append.2 ⟨topk_queue.sorted_finalize_heap s1.m_topk,
      topk_queue.sorted_finalize_heap s1.m_secondary, ?_⟩
    intro a ha b hb
    rw [topk_queue.mem_finalize_heap] at ha hb
    exact hle b hb a ha
  have hexit : cursors.isEmpty = true → s1 = wand_query.start
      { m_topk := topk_queue.create k, m_secondary := topk_queue.create k2,
        m_cyclic := cyclic_queue.create k2 } cursors [] := by
    intro he
    have hnil : cursors = [] := List.isEmpty_iff.1 he
    subst hnil
    have h1 := wand_run_empty capture_method_two max_docid
      ({ m_topk := topk_queue.create k, m_secondary := topk_queue.create k2,
         m_cyclic := cyclic_queue.create k2 } : wand_query S) []
    rw [h1] at hrun
    exact (Option.some.inj hrun).symm
  unfold query_fun_wand_method_2 wand_query.method_two
  by_cases he : cursors.isEmpty = true
  · rw [if_pos he]
    have e := hexit he
    rw [e] at hle hsorted
    exact ⟨_, rfl, hle, rfl, hsorted⟩
  · rw [if_neg he, hrun]
    exact ⟨_, rfl, hle, rfl, hsorted⟩

/-- Witness for C36: the two-list scenario with `k = 1` and `k' = 2`. -/
theorem method_two_output_sorted_witness :
    well_formed 6 scenario_lists ∧
    ∃ w1, wand_query.method_two
        { m_topk := topk_queue.create 1, m_secondary := topk_queue.create 2,
          m_cyclic := cyclic_queue.create 2 }
        scenario_lists 6 = some w1 ∧
      (∀ x ∈ w1.m_secondary.m_q, ∀ y ∈ w1.m_topk.m_q, x.1 ≤ y.1) ∧
      query_fun_wand_method_2 1 2 scenario_lists 6 =
        some (w1.m_topk.finalize.topk, w1.m_secondary.finalize.topk) ∧
      (w1.m_topk.finalize.topk ++ w1.m_secondary.finalize.topk).Sorted
        (fun a b => b.1 ≤ a.1) :=
  ⟨scenario_lists_well_formed,
    method_two_output_sorted 6 1 2 scenario_lists scenario_lists_well_formed⟩

end pisa

namespace pisa

variable {S : Type} [LinearOrderedCommSemiring S]

/-- Counterexample for C15 as stated: the queue of capacity 17 after the inserts
`(1, 0), (1, 1), ..., (1, 16)` holds seventeen entries of equal score. `finalize()` is
`std::sort` with `min_heap_order`, which compares scores only and is not stable:
`tied_queue_once` is an outcome of one call, `tied_queue_twice` is an outcome of a second
call on it, and their `topk()` sequences differ. -/
theorem cyclic_queue_finalize_twice_counterexample :
    cyclic_queue.insert_all (cyclic_queue.create 17) ((List.range 17).map (fun d => (1, d))) =
      some tied_queue ∧
    tied_queue.finalize_outcome tied_queue_once ∧
    tied_queue_once.finalize_outcome tied_queue_twice ∧
    tied_queue_twice.topk ≠ tied_queue_once.topk := by
  decide

/-- C15 (amended). For every `cyclic_queue` state, calling `finalize()` twice leaves the same
entries and the same sequence of scores in `topk()` as calling it once, whatever order
`std::sort` leaves among entries of equal score: the state after the second call is itself
an outcome of a single call; and when no two entries have equal scores the `topk()` sequence
is the same. Every state has an outcome. -/
theorem cyclic_queue_finalize_twice (q q1 q2 : cyclic_queue S)
    (h1 : q.finalize_outcome q1) (h2 : q1.finalize_outcome q2) :
    q.finalize_outcome q2 ∧ q2.topk.Perm q1.topk ∧
    q2.topk.map Prod.fst = q1.topk.map Prod.fst ∧
    ((q.m_data.map Prod.fst).Nodup → q2.topk = q1.topk) ∧
    q.finalize_outcome q.finalize := by
  obtain ⟨g1, g2, g3, g4⟩ := cyclic_queue.finalize_outcome_twice h1 h2
  exact ⟨g1, g2, g3, g4, cyclic_queue.finalize_outcome_finalize q⟩

/-- Witness for C15 (amended): the seventeen tied entries of the counterexample and the two
outcomes there. -/
theorem cyclic_queue_finalize_twice_witness :
    tied_queue.finalize_outcome tied_queue_once ∧
    tied_queue_once.finalize_outcome tied_queue_twice ∧
    tied_queue.finalize_outcome tied_queue_twice ∧
    tied_queue_twice.topk.Perm tied_queue_once.topk ∧
    tied_queue_twice.topk.map Prod.fst = tied_queue_once.topk.map Prod.fst ∧
    ((tied_queue.m_data.map Prod.fst).Nodup → tied_queue_twice.topk = tied_queue_once.topk) ∧
    tied_queue.finalize_outcome tied_queue.finalize :=
  ⟨by decide, by decide,
    cyclic_queue_finalize_twice tied_queue tied_queue_once tied_queue_twice (by decide)
      (by decide)⟩

/-- C19. For each of the eight variants the output of the orchestrator is defined exactly
when the run of the driver on fresh queues is, and then its first component is the finalized
primary heap: a permutation of the entries the primary heap holds after the run, in
non-increasing score order. Its second component is the empty sequence for the two
baselines, the finalized contents of the cyclic queue for Method 1, and the finalized
contents of the secondary heap for Methods 2 and 3, each a permutation of what the structure
holds after the run in non-increasing score order. -/
theorem query_fun_outputs (k secondary_k : Nat) (cursors : List (Cursor S)) (num_docs : Nat) :
    (∃ out, (query_fun "wand" k secondary_k).map (fun f => f cursors num_docs) = some out ∧
      outputs_of
        (wand_query.call
          { m_topk := topk_queue.create k, m_secondary := topk_queue.create 0,
            m_cyclic := cyclic_queue.create 0 } cursors num_docs) out
        (fun w p s => finalized p w.m_topk.m_q ∧ s = [])) ∧
    (∃ out, (query_fun "block_max_wand" k secondary_k).map (fun f => f cursors num_docs) =
        some out ∧
      outputs_of
        (block_max_wand_query.call
          { m_topk := topk_queue.create k, m_secondary := topk_queue.create 0,
            m_cyclic := cyclic_queue.create 0 } cursors num_docs) out
        (fun w p s => finalized p w.m_topk.m_q ∧ s = [])) ∧
    (∃ out, (query_fun "wand_method_1" k secondary_k).map (fun f => f cursors num_docs) =
        some out ∧
      outputs_of
        (wand_query.method_one
          { m_topk := topk_queue.create k, m_secondary := topk_queue.create secondary_k,
            m_cyclic := cyclic_queue.create secondary_k } cursors num_docs) out
        (fun w p s => finalized p w.m_topk.m_q ∧ finalized s w.m_cyclic.m_data)) ∧
    (∃ out, (query_fun "block_max_wand_method_1" k secondary_k).map
        (fun f => f cursors num_docs) = some out ∧
      outputs_of
        (block_max_wand_query.method_one
          { m_topk := topk_queue.create k, m_secondary := topk_queue.create secondary_k,
            m_cyclic := cyclic_queue.create secondary_k } cursors num_docs) out
        (fun w p s => finalized p w.m_topk.m_q ∧ finalized s w.m_cyclic.m_data)) ∧
    (∃ out, (query_fun "wand_method_2" k secondary_k).map (fun f => f cursors num_docs) =
        some out ∧
      outputs_of
        (wand_query.method_two
          { m_topk := topk_queue.create k, m_secondary := topk_queue.create secondary_k,
            m_cyclic := cyclic_queue.create secondary_k } cursors num_docs) out
        (fun w p s => finalized p w.m_topk.m_q ∧ finalized s w.m_secondary.m_q)) ∧
    (∃ out, (query_fun "block_max_wand_method_2" k secondary_k).map
        (fun f => f cursors num_docs) = some out ∧
      outputs_of
        (block_max_wand_query.method_two
          { m_topk := topk_queue.create k, m_secondary := topk_queue.create secondary_k,
            m_cyclic := cyclic_queue.create secondary_k } cursors num_docs) out
        (fun w p s => finalized p w.m_topk.m_q ∧ finalized s w.m_secondary.m_q)) ∧
    (∃ out, (query_fun "wand_method_3" k secondary_k).map (fun f => f cursors num_docs) =
        some out ∧
      outputs_of
        (wand_query.method_three
          { m_topk := topk_queue.create k, m_secondary := topk_queue.create secondary_k,
            m_cyclic := cyclic_queue.create secondary_k } cursors num_docs) out
        (fun w p s => finalized p w.m_topk.m_q ∧ finalized s w.m_secondary.m_q)) ∧
    (∃ out, (query_fun "block_max_wand_method_3" k secondary_k).map
        (fun f => f cursors num_docs) = some out ∧
      outputs_of
        (block_max_wand_query.method_three
          { m_topk := topk_queue.create k, m_secondary := topk_queue.create secondary_k,
            m_cyclic := cyclic_queue.create secondary_k } cursors num_docs) out
        (fun w p s => finalized p w.m_topk.m_q ∧ finalized s w.m_secondary.m_q)) := by
  refine ⟨⟨_, rfl, ?_⟩, ⟨_, rfl, ?_⟩, ⟨_, rfl, ?_⟩, ⟨_, rfl, ?_⟩, ⟨_, rfl, ?_⟩, ⟨_, rfl, ?_⟩,
    ⟨_, rfl, ?_⟩, ⟨_, rfl, ?_⟩⟩
  · show outputs_of _ (query_fun_wand k cursors num_docs) _
    rw [query_fun_wand_eq]
    exact outputs_of_map _ _ _ (fun w _ => ⟨topk_queue.finalized_heap w.m_topk, rfl⟩)
  · show outputs_of _ (query_fun_block_max_wand k cursors num_docs) _
    rw [query_fun_block_max_wand_eq]
    exact outputs_of_map _ _ _ (fun w _ => ⟨topk_queue.finalized_heap w.m_topk, rfl⟩)
  · exact outputs_of_map _ _ _ (fun w _ =>
      ⟨topk_queue.finalized_heap w.m_topk, cyclic_queue.finalized_data w.m_cyclic⟩)
  · exact outputs_of_map _ _ _ (fun w _ =>
      ⟨topk_queue.finalized_heap w.m_topk, cyclic_queue.finalized_data w.m_cyclic⟩)
  · exact outputs_of_map _ _ _ (fun w _ =>
      ⟨topk_queue.finalized_heap w.m_topk, topk_queue.finalized_heap w.m_secondary⟩)
  · exact outputs_of_map _ _ _ (fun w _ =>
      ⟨topk_queue.finalized_heap w.m_topk, topk_queue.finalized_heap w.m_secondary⟩)
  · exact outputs_of_map _ _ _ (fun w _ =>
      ⟨topk_queue.finalized_heap w.m_topk, topk_queue.finalized_heap w.m_secondary⟩)
  · exact outputs_of_map _ _ _ (fun w _ =>
      ⟨topk_queue.finalized_heap w.m_topk, topk_queue.finalized_heap w.m_secondary⟩)

end pisa

